import Mathlib

/-!
# vgxx: analytic coverage rasterizer

A shallow embedding of the `vgxx` headers (`util.hh`, `rasterizer.hh`,
`cell_processor.hh`) and the properties of the segment decomposition, the cell
store and the sweep.

Conventions of the embedding.

* `Int_32` values are integers.  Signed overflow is undefined in the source, so
  signed arithmetic is written unbounded and the theorems carry the range
  hypotheses under which no operation overflows.  Where the source's result
  depends on the width (unsigned arithmetic, casts, `compute_cell_coverage`) the
  reduction modulo `2^w` is explicit (`u8`, `u16`, `u32`, `u64`, `i32`).
* `v >> 8u` on a signed value is the arithmetic shift `v / 256` (floor) and
  `v & 0xff` is `v % 256` (non-negative remainder); signed `/` and `%` are the
  truncating `Int.tdiv` and `Int.tmod`.
* The rasterizer is a template over the cell processor and only calls its four
  `void` methods; its embedding returns the sequence of those calls, which a
  cell processor then consumes in order.
-/

namespace vgxx

/-- Value stored by a conversion to `std::uint8_t`. -/
def u8 (v : Int) : Int := v % 256

/-- Value stored by a conversion to `std::uint16_t`. -/
def u16 (v : Int) : Int := v % 65536

/-- Value stored by a conversion to `std::uint32_t`. -/
def u32 (v : Int) : Int := v % 4294967296

/-- Value stored by a conversion to `std::uint64_t`. -/
def u64 (v : Int) : Int := v % 18446744073709551616

/-- Value stored by a conversion to `std::int32_t` (two's complement). -/
def i32 (v : Int) : Int := (v + 2147483648) % 4294967296 - 2147483648

/-- The two fill rules of `fill_rule.hh`. -/
inductive Fill_rule where
  | non_zero
  | even_odd
  deriving DecidableEq, Repr

/-- One call made on the cell processor by the rasterizer. -/
inductive Cell_call where
  | inc_x
  | set_x (x : Int)
  | set_y (y : Int)
  | set_cell (cover area : Int)
  deriving DecidableEq, Repr

/-- Sum of the `cover` arguments of the `set_cell` calls of a call sequence. -/
def cover_sum : List Cell_call → Int
  | [] => 0
  | Cell_call.set_cell cover _ :: t => cover + cover_sum t
  | _ :: t => cover_sum t

namespace Rasterizer

/-- `Rasterizer::Direction_`. -/
inductive Direction_ where
  | positive
  | negative
  deriving DecidableEq, Repr

/-- Locals of the walk over the cells of one scanline
(`add_scanline_` and the same code inlined in `add_line_`), together with the
calls made so far. -/
structure Scan_ where
  calls : List Cell_call
  int_x : Int
  y : Int
  rem : Int
  cell_x : Int
  cell_x_valid : Bool
  deriving DecidableEq, Repr

/-- The entry cell of a scanline that spans several cells
(`if(frac_x_0) ... else ...`, rasterizer.hh 688-721; 502-535 with `p` written
`(0x100 - frac_left_x) << 8u`). -/
def scan_entry (y_direction : Direction_) (calls : List Cell_call)
    (int_x_0 frac_x_0 d_x p : Int) : Scan_ :=
  if frac_x_0 ≠ 0 then
    let delta_y :=
      if y_direction = Direction_.negative ∧ Int.tmod p d_x ≠ 0 then Int.tdiv p d_x + 1
      else Int.tdiv p d_x
    let rem :=
      if y_direction = Direction_.negative ∧ Int.tmod p d_x ≠ 0 then d_x - Int.tmod p d_x
      else Int.tmod p d_x
    let cover := if y_direction = Direction_.positive then delta_y else -delta_y
    let area := cover * (frac_x_0 + 0x100)
    { calls := calls ++ [Cell_call.set_x int_x_0, Cell_call.set_cell cover area]
      int_x := int_x_0 + 1
      y := 0 + delta_y
      rem := rem
      cell_x := int_x_0
      cell_x_valid := true }
  else
    { calls := calls
      int_x := int_x_0
      y := 0
      rem := 0
      cell_x := 0
      cell_x_valid := false }

/-- One iteration of the loop over interior cells, up to `++int_x`
(rasterizer.hh 747-781 and 560-594): the DDA step and the emission of one
full-width cell. -/
def scan_step (y_direction : Direction_) (d_x inc_y mod annex : Int) (s : Scan_) : Scan_ :=
  let delta_y := if s.rem + mod ≥ d_x then inc_y + annex else inc_y
  let rem := if s.rem + mod ≥ d_x then s.rem + mod - d_x else s.rem + mod
  let cover := if y_direction = Direction_.positive then delta_y else -delta_y
  let area := cover * 256
  { calls := s.calls ++
      [if s.cell_x_valid then Cell_call.inc_x else Cell_call.set_x s.int_x,
       Cell_call.set_cell cover area]
    int_x := s.int_x + 1
    y := s.y + delta_y
    rem := rem
    cell_x := if s.cell_x_valid then s.cell_x + 1 else s.int_x
    cell_x_valid := true }

/-- The `do ... while(int_x < int_x_1)` loop over interior cells
(rasterizer.hh 745-783 and 558-596).  The first argument bounds the number of
iterations; the callers pass `int_x_1 - int_x`, the exact iteration count. -/
def scan_cells (y_direction : Direction_) (int_x_1 d_x inc_y mod annex : Int) :
    Nat → Scan_ → Scan_
  | 0, s => s
  | fuel + 1, s =>
    let s1 := scan_step y_direction d_x inc_y mod annex s
    if s1.int_x < int_x_1 then
      scan_cells y_direction int_x_1 d_x inc_y mod annex fuel s1
    else
      s1

/-- The interior cells of a scanline: `if(int_x < int_x_1)` with the set-up of
the DDA (`inc_y`, `mod`, `annex`) and the loop (rasterizer.hh 723-784,
537-597; `p` is `d_y << 8u`, written `0x10000` in the inlined copy). -/
def scan_interior (y_direction : Direction_) (int_x_1 d_x p : Int) (s : Scan_) : Scan_ :=
  if s.int_x < int_x_1 then
    let inc_y :=
      if y_direction = Direction_.negative ∧ Int.tmod p d_x ≠ 0 then Int.tdiv p d_x + 1
      else Int.tdiv p d_x
    let mod :=
      if y_direction = Direction_.negative ∧ Int.tmod p d_x ≠ 0 then d_x - Int.tmod p d_x
      else Int.tmod p d_x
    let annex : Int := if y_direction = Direction_.positive then 1 else -1
    scan_cells y_direction int_x_1 d_x inc_y mod annex (int_x_1 - s.int_x).toNat s
  else
    s

/-- The exit cell of a scanline (rasterizer.hh 786-805, 599-619): what is left
of the scanline's height goes to the cell after the last one emitted. -/
def scan_exit (y_direction : Direction_) (frac_x_1 d_y : Int) (s : Scan_) : List Cell_call :=
  if frac_x_1 ≠ 0 then
    let delta_y := d_y - s.y
    if delta_y ≠ 0 then
      let cover := if y_direction = Direction_.positive then delta_y else -delta_y
      let area := cover * frac_x_1
      s.calls ++ [Cell_call.inc_x, Cell_call.set_cell cover area]
    else
      s.calls
  else
    s.calls

/-- `Rasterizer::add_scanline_<y_direction>`: the calls made so far extended by
those of one scanline from cell `int_x_0` (fraction `frac_x_0`) to cell
`int_x_1` (fraction `frac_x_1`). -/
def add_scanline_ (y_direction : Direction_) (calls : List Cell_call)
    (int_y int_x_0 int_x_1 frac_x_0 frac_x_1 d_x d_y : Int) : List Cell_call :=
  let calls := calls ++ [Cell_call.set_y int_y]
  if int_x_0 = int_x_1 then
    let cover := if y_direction = Direction_.positive then d_y else -d_y
    let area := cover * (frac_x_0 + frac_x_1)
    calls ++ [Cell_call.set_x int_x_0, Cell_call.set_cell cover area]
  else
    let s := scan_entry y_direction calls int_x_0 frac_x_0 d_x ((0x100 - frac_x_0) * d_y)
    let s := scan_interior y_direction int_x_1 d_x (d_y * 256) s
    scan_exit y_direction frac_x_1 d_y s

/-- Locals of the scanline loop of `add_line_<...>` with the calls made so
far. -/
structure Line_ where
  calls : List Cell_call
  int_y : Int
  x : Int
  int_x : Int
  frac_x : Int
  rem : Int
  deriving DecidableEq, Repr

/-- The partial first scanline of `add_line_<...>` (rasterizer.hh 336-395). -/
def line_head (x_direction y_direction x_y_direction : Direction_)
    (x_0 y_0 d_x d_y : Int) : Line_ :=
  let int_x_0 := x_0 / 256
  let int_y_0 := y_0 / 256
  let frac_x_0 := x_0 % 256
  let frac_y_0 := y_0 % 256
  if frac_y_0 ≠ 0 then
    let delta_y := 0x100 - frac_y_0
    let p := if 0x1000000 > d_x then u32 (d_x * u32 delta_y) else u64 (d_x * u32 delta_y)
    let delta_x :=
      if x_direction = Direction_.negative ∧ u32 (p % d_y) ≠ 0 then i32 (p / d_y) + 1
      else i32 (p / d_y)
    let rem :=
      if x_direction = Direction_.negative ∧ u32 (p % d_y) ≠ 0 then u32 (d_y - u32 (p % d_y))
      else u32 (p % d_y)
    let x := if x_y_direction = Direction_.positive then x_0 + delta_x else x_0 - delta_x
    let int_x := x / 256
    let frac_x := x % 256
    let calls :=
      if x_y_direction = Direction_.positive then
        add_scanline_ y_direction [] int_y_0 int_x_0 int_x frac_x_0 frac_x (x - x_0) delta_y
      else
        add_scanline_ y_direction [] int_y_0 int_x int_x_0 frac_x frac_x_0 (x_0 - x) delta_y
    { calls := calls, int_y := int_y_0 + 1, x := x, int_x := int_x, frac_x := frac_x, rem := rem }
  else
    { calls := [], int_y := int_y_0, x := x_0, int_x := int_x_0, frac_x := frac_x_0, rem := 0 }

/-- One full scanline inside the loop of `add_line_<...>`, from `set_y` to the
last cell (rasterizer.hh 444-620): the copy of `add_scanline_` inlined there
with height `0x100`. -/
def line_row (y_direction : Direction_) (calls : List Cell_call)
    (int_y int_left_x int_right_x frac_left_x frac_right_x delta_x : Int) : List Cell_call :=
  let calls := calls ++ [Cell_call.set_y int_y]
  if int_left_x = int_right_x then
    let cover : Int := if y_direction = Direction_.positive then 0x100 else -0x100
    let area : Int :=
      if y_direction = Direction_.positive then (frac_left_x + frac_right_x) * 256
      else -((frac_left_x + frac_right_x) * 256)
    calls ++ [Cell_call.set_x int_left_x, Cell_call.set_cell cover area]
  else
    let s := scan_entry y_direction calls int_left_x frac_left_x delta_x
      ((0x100 - frac_left_x) * 256)
    let s := scan_interior y_direction int_right_x delta_x 0x10000 s
    scan_exit y_direction frac_right_x 0x100 s

/-- One iteration of the loop over full scanlines, up to `++int_y`
(rasterizer.hh 435-625): the DDA step in `x` and the cells of the scanline. -/
def line_step (y_direction x_y_direction : Direction_) (d_y inc_x mod annex : Int)
    (s : Line_) : Line_ :=
  let delta_x := if u32 (s.rem + mod) ≥ d_y then inc_x + annex else inc_x
  let rem := if u32 (s.rem + mod) ≥ d_y then u32 (u32 (s.rem + mod) - d_y) else u32 (s.rem + mod)
  let next_x := if x_y_direction = Direction_.positive then s.x + delta_x else s.x - delta_x
  let int_next_x := next_x / 256
  let frac_next_x := next_x % 256
  let calls :=
    if x_y_direction = Direction_.positive then
      line_row y_direction s.calls s.int_y s.int_x int_next_x s.frac_x frac_next_x delta_x
    else
      line_row y_direction s.calls s.int_y int_next_x s.int_x frac_next_x s.frac_x delta_x
  { calls := calls, int_y := s.int_y + 1, x := next_x, int_x := int_next_x,
    frac_x := frac_next_x, rem := rem }

/-- The `do ... while(int_y < int_y_1)` loop over full scanlines
(rasterizer.hh 433-627).  The first argument bounds the number of iterations;
the caller passes `int_y_1 - int_y`, the exact iteration count. -/
def line_rows (y_direction x_y_direction : Direction_)
    (int_y_1 d_y inc_x mod annex : Int) : Nat → Line_ → Line_
  | 0, s => s
  | fuel + 1, s =>
    let s1 := line_step y_direction x_y_direction d_y inc_x mod annex s
    if s1.int_y < int_y_1 then
      line_rows y_direction x_y_direction int_y_1 d_y inc_x mod annex fuel s1
    else
      s1

/-- The full scanlines of `add_line_<...>`: `if(int_y < int_y_1)` with the
set-up of the DDA and the loop (rasterizer.hh 397-628). -/
def line_body (x_direction y_direction x_y_direction : Direction_)
    (int_y_1 d_x d_y : Int) (s : Line_) : Line_ :=
  if s.int_y < int_y_1 then
    let p := if 0x1000000 > d_x then u32 (d_x * 256) else u64 (d_x * 256)
    let inc_x :=
      if x_direction = Direction_.negative ∧ u32 (p % d_y) ≠ 0 then i32 (p / d_y) + 1
      else i32 (p / d_y)
    let mod :=
      if x_direction = Direction_.negative ∧ u32 (p % d_y) ≠ 0 then u32 (d_y - u32 (p % d_y))
      else u32 (p % d_y)
    let annex : Int := if x_direction = Direction_.positive then 1 else -1
    line_rows y_direction x_y_direction int_y_1 d_y inc_x mod annex
      (int_y_1 - s.int_y).toNat s
  else
    s

/-- `Rasterizer::add_line_<x_direction, y_direction, x_y_direction>`: the calls
made for a segment that is neither horizontal nor vertical, walked with `y`
increasing from `(x_0, y_0)` to `(x_1, y_1)`. -/
def add_line_dir (x_direction y_direction x_y_direction : Direction_)
    (x_0 y_0 x_1 y_1 : Int) : List Cell_call :=
  let int_x_0 := x_0 / 256
  let int_x_1 := x_1 / 256
  let int_y_0 := y_0 / 256
  let int_y_1 := y_1 / 256
  let frac_x_0 := x_0 % 256
  let frac_x_1 := x_1 % 256
  if int_y_0 = int_y_1 then
    if x_y_direction = Direction_.positive then
      add_scanline_ y_direction [] int_y_0 int_x_0 int_x_1 frac_x_0 frac_x_1
        (x_1 - x_0) (y_1 - y_0)
    else
      add_scanline_ y_direction [] int_y_0 int_x_1 int_x_0 frac_x_1 frac_x_0
        (x_0 - x_1) (y_1 - y_0)
  else
    let d_y := u32 (y_1 - y_0)
    let frac_y_1 := y_1 % 256
    let d_x := if x_y_direction = Direction_.positive then u32 (x_1 - x_0) else u32 (x_0 - x_1)
    let s := line_head x_direction y_direction x_y_direction x_0 y_0 d_x d_y
    let s := line_body x_direction y_direction x_y_direction int_y_1 d_x d_y s
    if frac_y_1 ≠ 0 then
      if x_y_direction = Direction_.positive then
        add_scanline_ y_direction s.calls int_y_1 s.int_x int_x_1 s.frac_x frac_x_1
          (x_1 - s.x) frac_y_1
      else
        add_scanline_ y_direction s.calls int_y_1 int_x_1 s.int_x frac_x_1 s.frac_x
          (s.x - x_1) frac_y_1
    else
      s.calls

/-- The `while(int_y_0 < int_y_1)` loop of the vertical branch of `add_line_`
(rasterizer.hh 222-228).  The first argument bounds the number of iterations;
the caller passes `int_y_1 - int_y_0`. -/
def vertical_rows (int_x cover area int_y_1 : Int) :
    Nat → List Cell_call → Int → List Cell_call
  | 0, calls, _ => calls
  | fuel + 1, calls, int_y_0 =>
    if int_y_0 < int_y_1 then
      vertical_rows int_x cover area int_y_1 fuel
        (calls ++ [Cell_call.set_x int_x, Cell_call.set_y int_y_0,
          Cell_call.set_cell cover area])
        (int_y_0 + 1)
    else
      calls

/-- The vertical branch of `Rasterizer::add_line_` (rasterizer.hh 147-231). -/
def add_line_vertical (x_0 y_0 y_1 : Int) : List Cell_call :=
  let int_x := x_0 / 256
  let frac_x := x_0 % 256
  let int_y_0 := y_0 / 256
  let int_y_1 := y_1 / 256
  let frac_y_0 := y_0 % 256
  let frac_y_1 := y_1 % 256
  let cell (y cover : Int) : List Cell_call :=
    [Cell_call.set_x int_x, Cell_call.set_y y, Cell_call.set_cell cover (cover * frac_x * 2)]
  if int_y_0 = int_y_1 then
    cell int_y_0 (frac_y_1 - frac_y_0)
  else if y_0 < y_1 then
    let head := if frac_y_0 ≠ 0 then cell int_y_0 (0x100 - frac_y_0) else []
    let first := if frac_y_0 ≠ 0 then int_y_0 + 1 else int_y_0
    let tail := if frac_y_1 ≠ 0 then cell int_y_1 frac_y_1 else []
    vertical_rows int_x 0x100 (frac_x * 512) int_y_1 (int_y_1 - first).toNat
      (head ++ tail) first
  else
    let head := if frac_y_0 ≠ 0 then cell int_y_0 (-frac_y_0) else []
    let tail := if frac_y_1 ≠ 0 then cell int_y_1 (frac_y_1 - 0x100) else []
    let last := if frac_y_1 ≠ 0 then int_y_1 + 1 else int_y_1
    vertical_rows int_x (-0x100) (-(frac_x * 512)) int_y_0 (int_y_0 - last).toNat
      (head ++ tail) last

/-- `Rasterizer::add_line_(cell_proc, x_0, y_0, x_1, y_1)`: the calls made on
the cell processor for the segment `(x_0, y_0) -> (x_1, y_1)`. -/
def add_line_ (x_0 y_0 x_1 y_1 : Int) : List Cell_call :=
  if y_0 = y_1 then
    []
  else if x_0 = x_1 then
    add_line_vertical x_0 y_0 y_1
  else if x_1 > x_0 then
    if y_1 > y_0 then
      add_line_dir Direction_.positive Direction_.positive Direction_.positive x_0 y_0 x_1 y_1
    else
      add_line_dir Direction_.positive Direction_.negative Direction_.negative x_1 y_1 x_0 y_0
  else
    if y_1 > y_0 then
      add_line_dir Direction_.negative Direction_.positive Direction_.negative x_0 y_0 x_1 y_1
    else
      add_line_dir Direction_.negative Direction_.negative Direction_.positive x_1 y_1 x_0 y_0

end Rasterizer

end vgxx

namespace vgxx

/-- A `set_cell` call together with the position `(x, y)` of the cell
processor at the time of the call. -/
structure Emission where
  x : Int
  y : Int
  cover : Int
  area : Int
  deriving DecidableEq, Repr

/-- The `x` of a cell processor after a call sequence, from its `x` before
(`set_x` stores, `inc_x` adds one). -/
def pos_x : Int → List Cell_call → Int
  | x, [] => x
  | x, Cell_call.inc_x :: t => pos_x (x + 1) t
  | _, Cell_call.set_x x1 :: t => pos_x x1 t
  | x, Cell_call.set_y _ :: t => pos_x x t
  | x, Cell_call.set_cell _ _ :: t => pos_x x t

/-- The `y` of a cell processor after a call sequence, from its `y` before. -/
def pos_y : Int → List Cell_call → Int
  | y, [] => y
  | y, Cell_call.inc_x :: t => pos_y y t
  | y, Cell_call.set_x _ :: t => pos_y y t
  | _, Cell_call.set_y y1 :: t => pos_y y1 t
  | y, Cell_call.set_cell _ _ :: t => pos_y y t

/-- The `set_cell` calls of a call sequence, each with the position at which
it is made, for a cell processor that starts at `(x, y)`. -/
def emissions : Int → Int → List Cell_call → List Emission
  | _, _, [] => []
  | x, y, Cell_call.inc_x :: t => emissions (x + 1) y t
  | _, y, Cell_call.set_x x1 :: t => emissions x1 y t
  | x, _, Cell_call.set_y y1 :: t => emissions x y1 t
  | x, y, Cell_call.set_cell cover area :: t => ⟨x, y, cover, area⟩ :: emissions x y t

/-- Sum of the covers of a list of emissions. -/
def cover_total : List Emission → Int
  | [] => 0
  | e :: t => e.cover + cover_total t

/-- Sum of the covers of the emissions made on row `r`. -/
def row_cover (r : Int) : List Emission → Int
  | [] => 0
  | e :: t => (if e.y = r then e.cover else 0) + row_cover r t

/-- The value `v` clamped to the extent `[256 r, 256 r + 256]` of row `r`. -/
def clamp_row (r v : Int) : Int := min (max v (256 * r)) (256 * r + 256)

namespace Rasterizer

/-- The sign that a direction gives to covers and remainders. -/
def sgn : Direction_ → Int
  | Direction_.positive => 1
  | Direction_.negative => -1

/-- The emissions `E` extend `E0` by cells of row `int_y` in the columns
`lo .. hi` whose covers sum to `cov`. -/
def Row_ext (E0 E : List Emission) (int_y lo hi cov : Int) : Prop :=
  ∃ L, E = E0 ++ L ∧ (∀ e ∈ L, e.y = int_y ∧ lo ≤ e.x ∧ e.x ≤ hi) ∧ cover_total L = cov

/-- Invariant of the walk over the cells of one scanline, for a cell
processor that started at `(px, py)` and had emitted `E0` when the scanline
began: the processor is on row `int_y`, one column before `int_x` once a cell
has been emitted, the cells emitted lie in the columns `int_x_0 .. int_x - 1`
and their covers sum to `± y`, and the DDA is exact:
`y * d_x ± rem = K` with `0 ≤ rem < d_x`. -/
structure Scan_ok (y_direction : Direction_) (px py : Int) (E0 : List Emission)
    (int_y int_x_0 d_x K : Int) (s : Scan_) : Prop where
  at_row : pos_y py s.calls = int_y
  at_col : s.cell_x_valid = true → pos_x px s.calls = s.int_x - 1
  ext : Row_ext E0 (emissions px py s.calls) int_y int_x_0 (s.int_x - 1)
    (sgn y_direction * s.y)
  rem_nonneg : 0 ≤ s.rem
  rem_lt : s.rem < d_x
  dda : s.y * d_x + sgn y_direction * s.rem = K

/-- The emissions `E` account for the vertical extent from `y_a` up to `y_b`
(24.8 values) with sign `sg`: their covers sum to `sg * (y_b - y_a)`, on
every row `r` they sum to `sg` times the part of the extent inside the row,
and every cell lies in the columns `lo .. hi` and on a row that meets the
extent. -/
structure Rows_ok (E : List Emission) (sg y_a y_b lo hi : Int) : Prop where
  total : cover_total E = sg * (y_b - y_a)
  rows : ∀ r, row_cover r E = sg * (clamp_row r y_b - clamp_row r y_a)
  box : ∀ e ∈ E, lo ≤ e.x ∧ e.x ≤ hi ∧ y_a < 256 * e.y + 256 ∧ 256 * e.y < y_b

/-- Invariant of the scanline loop of `add_line_<...>` for a segment that
starts at `(x_0, y_0)` and extends by `d_x`, `d_y`: the position `x` is split
into `int_x` and `frac_x`, the DDA in `x` is exact at the top of row `int_y`
(`± (x - x_0) * d_y ± rem = d_x * (256 int_y - y_0)` with `0 ≤ rem < d_y`), and
the cells emitted account for the extent from `y_0` to `256 int_y`. -/
structure Line_ok (x_direction y_direction x_y_direction : Direction_) (px py : Int)
    (x_0 y_0 d_x d_y lo hi : Int) (s : Line_) : Prop where
  int_x_eq : s.int_x = s.x / 256
  frac_x_eq : s.frac_x = s.x % 256
  rem_nonneg : 0 ≤ s.rem
  rem_lt : s.rem < d_y
  dda : sgn x_y_direction * (s.x - x_0) * d_y + sgn x_direction * s.rem =
    d_x * (256 * s.int_y - y_0)
  cells : Rows_ok (emissions px py s.calls) (sgn y_direction) y_0 (256 * s.int_y) lo hi

/-- What the emissions `E` of the segment `(x_0, y_0) -> (x_1, y_1)` satisfy:
the covers sum to `y_1 - y_0`, on every row `r` they sum to the signed vertical
extent of the segment inside the row, and every cell lies in a column and on
a row that the segment meets. -/
structure Seg_ok (E : List Emission) (x_0 y_0 x_1 y_1 : Int) : Prop where
  total : cover_total E = y_1 - y_0
  rows : ∀ r, row_cover r E = clamp_row r y_1 - clamp_row r y_0
  box : ∀ e ∈ E, min x_0 x_1 / 256 ≤ e.x ∧ e.x ≤ max x_0 x_1 / 256 ∧
    min y_0 y_1 < 256 * e.y + 256 ∧ 256 * e.y < max y_0 y_1

end Rasterizer

end vgxx

namespace vgxx

namespace Util

/-- `Util::compute_cell_coverage<fill_rule>` before the final conversion to
`Unt_8` (util.hh 190-218).  Every intermediate `Int_32` result is reduced to
32 bits. -/
def cell_coverage_wide (fill_rule : Fill_rule) (cover area : Int) : Int :=
  let c := i32 (i32 (cover * 512) - area)
  let c := if 0 > c then i32 (-c) else c
  let c :=
    match fill_rule with
    | Fill_rule.non_zero => if 0x20000 < c then 0x20000 else c
    | Fill_rule.even_odd =>
      if c / 131072 % 2 = 0 then c % 131072 else i32 (0x20000 - c % 131072)
  let c := c / 512
  i32 (i32 (c * 256) - c) / 256

/-- `Util::compute_cell_coverage<fill_rule>(cover, area)`. -/
def compute_cell_coverage (fill_rule : Fill_rule) (cover area : Int) : Int :=
  u8 (cell_coverage_wide fill_rule cover area)

end Util

/-- One call made on the blender by the sweep. -/
inductive Blender_call where
  | set_y (y : Int)
  | set_x (x : Int)
  | inc_x
  | inc_y
  | blend (coverage : Int)
  deriving DecidableEq, Repr

/-- `Cell_processor::Pixel_range_`: two `Unt_16` bounds. -/
structure Cell_processor.Pixel_range_ where
  min : Int
  max : Int
  deriving DecidableEq, Repr

namespace Cell_processor.Pixel_range_

/-- `Pixel_range_()`: the empty range `[unt_16_max_, unt_16_min_]`. -/
def init : Pixel_range_ := { min := 65535, max := 0 }

/-- `explicit operator bool()`: the range is not empty. -/
def nonempty (r : Pixel_range_) : Prop := r.min ≤ r.max

instance (r : Pixel_range_) : Decidable r.nonempty := by
  unfold nonempty; exact inferInstance

/-- `Pixel_range_::reset`. -/
def reset (_ : Pixel_range_) : Pixel_range_ := init

/-- `Pixel_range_::update(val)`, `val` an `Unt_16` value. -/
def update (r : Pixel_range_) (val : Int) : Pixel_range_ :=
  { min := if val < r.min then val else r.min
    max := if val > r.max then val else r.max }

end Cell_processor.Pixel_range_

/-- `Cell_processor::Cell_`. -/
structure Cell_processor.Cell_ where
  cover : Int
  area : Int
  deriving DecidableEq, Repr, Inhabited

namespace Cell_processor.Cell_

/-- `explicit operator bool()`: the cell is not empty. -/
def nonempty (c : Cell_) : Prop := 0 ≠ c.cover ∨ 0 ≠ c.area

instance (c : Cell_) : Decidable c.nonempty := by
  unfold nonempty; exact inferInstance

/-- `Cell_::reset`. -/
def reset (_ : Cell_) : Cell_ := { cover := 0, area := 0 }

end Cell_processor.Cell_

/-- `Cell_processor::Cell_ex_`: a stashed cell, with the index of the next
cell of its row (`Unt_32`) and its column (`Unt_16`). -/
structure Cell_processor.Cell_ex_ where
  cover : Int
  area : Int
  next_cell_idx : Nat
  x : Int
  deriving DecidableEq, Repr

instance : Inhabited Cell_processor.Cell_ex_ :=
  ⟨{ cover := 0, area := 0, next_cell_idx := 0, x := 0 }⟩

/-- `Cell_processor::invalid_cell_index_`, the largest `Unt_32`. -/
def Cell_processor.invalid_cell_index_ : Nat := 4294967295

/-- `Cell_processor::Cell_stash_`: the vector of cells and the number of cells
in use. -/
structure Cell_processor.Cell_stash_ where
  cells_ : List Cell_processor.Cell_ex_
  cells_in_use_ : Nat
  deriving DecidableEq, Repr

namespace Cell_processor.Cell_stash_

/-- `Cell_stash_::operator []`.  An index outside the vector is undefined in
the source and reads a zero cell here. -/
def get (st : Cell_stash_) (i : Nat) : Cell_ex_ := st.cells_.getD i default

/-- `Cell_stash_::reset`. -/
def reset (st : Cell_stash_) : Cell_stash_ := { st with cells_in_use_ := 0 }

/-- `Cell_stash_::acquire(idx)`: `none` for the thrown `overflow_error`,
otherwise the index stored in `idx`, the position in the vector of the cell
returned by reference, and the stash after the call.  `reserve` changes no
element and is left out. -/
def acquire (st : Cell_stash_) : Option (Nat × Nat × Cell_stash_) :=
  if 4294967295 > st.cells_in_use_ then
    if st.cells_.length > st.cells_in_use_ then
      some (st.cells_in_use_, st.cells_in_use_,
        { st with cells_in_use_ := st.cells_in_use_ + 1 })
    else
      some (st.cells_in_use_, st.cells_.length,
        { cells_ := st.cells_ ++ [default], cells_in_use_ := st.cells_in_use_ + 1 })
  else
    none

end Cell_processor.Cell_stash_

/-- `Cell_processor::Row_`. -/
structure Cell_processor.Row_ where
  first_cell_idx : Nat
  left_cover : Int
  x_range : Cell_processor.Pixel_range_
  deriving DecidableEq, Repr

namespace Cell_processor.Row_

/-- `Row_()`. -/
def init : Row_ :=
  { first_cell_idx := invalid_cell_index_, left_cover := 0, x_range := Pixel_range_.init }

/-- `Row_::reset`. -/
def reset (_ : Row_) : Row_ := init

end Cell_processor.Row_

instance : Inhabited Cell_processor.Row_ := ⟨Cell_processor.Row_.init⟩

/-- `Cell_processor`.  `rows_` is the row array (`nullptr` is the empty list);
a row outside the array is undefined in the source and here reads as a fresh
row and ignores writes.  `cells_` is the dense working array of the sweep. -/
structure Cell_processor where
  rows_ : List Cell_processor.Row_
  cells_ : List Cell_processor.Cell_
  cell_stash_ : Cell_processor.Cell_stash_
  width_ : Int
  height_ : Int
  x_ : Int
  y_ : Int
  y_range_ : Cell_processor.Pixel_range_
  deriving DecidableEq, Repr

namespace Cell_processor

/-- `Cell_processor(width, height)` for `Unt_16` values `width`, `height`. -/
def init (width height : Int) : Cell_processor :=
  { rows_ := if 0 < width ∧ 0 < height then List.replicate height.toNat Row_.init else []
    cells_ := []
    cell_stash_ := { cells_ := [], cells_in_use_ := 0 }
    width_ := width
    height_ := height
    x_ := 0
    y_ := 0
    y_range_ := Pixel_range_.init }

/-- `Cell_processor::inc_x`. -/
def inc_x (cp : Cell_processor) : Cell_processor := { cp with x_ := cp.x_ + 1 }

/-- `Cell_processor::set_x`. -/
def set_x (cp : Cell_processor) (x : Int) : Cell_processor := { cp with x_ := x }

/-- `Cell_processor::set_y`. -/
def set_y (cp : Cell_processor) (y : Int) : Cell_processor := { cp with y_ := y }

/-- The row `rows_[y]`. -/
def row (cp : Cell_processor) (y : Int) : Row_ := cp.rows_.getD y.toNat default

/-- `Cell_processor::set_cell(cover, area)` (cell_processor.hh 89-135); `none`
when `acquire` throws. -/
def set_cell (cp : Cell_processor) (cover area : Int) : Option Cell_processor :=
  if cp.height_ > cp.y_ ∧ 0 ≤ cp.y_ then
    let row := cp.row cp.y_
    if 0 ≤ cp.x_ then
      if cp.width_ > cp.x_ then
        let cell_idx := row.first_cell_idx
        if invalid_cell_index_ ≠ cell_idx ∧ (cp.cell_stash_.get cell_idx).x = cp.x_ then
          let cell := cp.cell_stash_.get cell_idx
          some { cp with
            cell_stash_ := { cp.cell_stash_ with
              cells_ := cp.cell_stash_.cells_.set cell_idx
                { cell with cover := cell.cover + cover, area := cell.area + area } } }
        else
          match cp.cell_stash_.acquire with
          | none => none
          | some (new_cell_idx, pos, stash) =>
            some { cp with
              cell_stash_ := { stash with
                cells_ := stash.cells_.set pos
                  { cover := cover, area := area, next_cell_idx := cell_idx, x := u16 cp.x_ } }
              rows_ := cp.rows_.set cp.y_.toNat
                { row with first_cell_idx := new_cell_idx
                           x_range := row.x_range.update (u16 cp.x_) }
              y_range_ := cp.y_range_.update (u16 cp.y_) }
      else
        some { cp with
          rows_ := cp.rows_.set cp.y_.toNat
            (if 0 < cp.width_ then
              { row with x_range := row.x_range.update (u16 (cp.width_ - 1)) }
            else row)
          y_range_ := cp.y_range_.update (u16 cp.y_) }
    else
      some { cp with
        rows_ := cp.rows_.set cp.y_.toNat
          { row with left_cover := row.left_cover + cover
                     x_range := row.x_range.update 0 }
        y_range_ := cp.y_range_.update (u16 cp.y_) }
  else
    some cp

/-- One call of the rasterizer applied to the cell processor. -/
def call (cp : Cell_processor) : Cell_call → Option Cell_processor
  | Cell_call.inc_x => some cp.inc_x
  | Cell_call.set_x x => some (cp.set_x x)
  | Cell_call.set_y y => some (cp.set_y y)
  | Cell_call.set_cell cover area => cp.set_cell cover area

/-- A sequence of calls applied in order; `none` as soon as one throws. -/
def run (cp : Cell_processor) : List Cell_call → Option Cell_processor
  | [] => some cp
  | c :: t => (cp.call c).bind (fun cp1 => run cp1 t)

end Cell_processor

end vgxx

namespace vgxx

namespace Cell_processor

/-- The coverage of a pixel without cell, from the running cover alone
(cell_processor.hh 214-243): `|cover|` clamped (non-zero) or folded
(even-odd) to `0 .. 0x100`, times `255 / 256`. -/
def gap_coverage (fill_rule : Fill_rule) (cover : Int) : Int :=
  let mid_cover := if 0 > cover then -cover else cover
  let mid_cover :=
    match fill_rule with
    | Fill_rule.non_zero => if 0x100 < mid_cover then 0x100 else mid_cover
    | Fill_rule.even_odd =>
      if mid_cover / 256 % 2 = 0 then mid_cover % 256 else 0x100 - mid_cover % 256
  u8 ((mid_cover * 256 - mid_cover) / 256)

/-- Locals of the sweep of one row: the blender calls made so far, the dense
working array, the offset of the `cell` pointer in it, and `x`, `cover`,
`mid_coverage`. -/
structure Sweep_ where
  calls : List Blender_call
  cells_ : List Cell_
  idx : Nat
  x : Int
  cover : Int
  mid_coverage : Int
  deriving DecidableEq, Repr

/-- The walk along the list of a row that adds every stashed cell into the
dense array (cell_processor.hh 186-193).  The first argument bounds the number
of steps; the caller passes the number of cells in use. -/
def swipe_collect (stash : Cell_stash_) (x_min : Int) :
    Nat → Nat → List Cell_ → List Cell_
  | 0, _, cells => cells
  | fuel + 1, cell_idx, cells =>
    if invalid_cell_index_ ≠ cell_idx then
      let src_cell := stash.get cell_idx
      let i := (src_cell.x - x_min).toNat
      let dst_cell := cells.getD i default
      swipe_collect stash x_min fuel src_cell.next_cell_idx
        (cells.set i { cover := dst_cell.cover + src_cell.cover
                       area := dst_cell.area + src_cell.area })
    else
      cells

/-- One pixel of the sweep, up to the `blend` call (cell_processor.hh
202-252). -/
def swipe_cell (fill_rule : Fill_rule) (s : Sweep_) : Sweep_ :=
  let cell := s.cells_.getD s.idx default
  if cell.nonempty then
    let cover := s.cover + cell.cover
    let coverage := Util.compute_cell_coverage fill_rule cover cell.area
    { s with
      cover := cover
      mid_coverage := 0
      cells_ := s.cells_.set s.idx cell.reset
      calls := if 0 < coverage then s.calls ++ [Blender_call.blend coverage] else s.calls }
  else
    let mid_coverage :=
      if 1 > s.mid_coverage ∧ 0 ≠ s.cover then gap_coverage fill_rule s.cover
      else s.mid_coverage
    { s with
      mid_coverage := mid_coverage
      calls :=
        if 0 < mid_coverage then s.calls ++ [Blender_call.blend mid_coverage] else s.calls }

/-- The `for(;;)` loop over the pixels of a row (cell_processor.hh 200-264).
The first argument bounds the number of iterations; the caller passes
`x_max - x_min + 1`. -/
def swipe_cells (fill_rule : Fill_rule) (x_max : Int) : Nat → Sweep_ → Sweep_
  | 0, s => s
  | fuel + 1, s =>
    let s1 := swipe_cell fill_rule s
    if x_max > s1.x then
      swipe_cells fill_rule x_max fuel
        { s1 with idx := s1.idx + 1, x := s1.x + 1,
                  calls := s1.calls ++ [Blender_call.inc_x] }
    else
      s1

/-- Locals of the loop over the rows: the blender calls made so far, the
dense working array, the row array and `y`. -/
structure Swipe_ where
  calls : List Blender_call
  cells_ : List Cell_
  rows_ : List Row_
  y : Int
  deriving DecidableEq, Repr

/-- The sweep of one row whose `x_range` is not empty (cell_processor.hh
176-266). -/
def swipe_row (fill_rule : Fill_rule) (stash : Cell_stash_) (s : Swipe_) : Swipe_ :=
  let row := s.rows_.getD s.y.toNat default
  let x_min := row.x_range.min
  let x_max := row.x_range.max
  let x_range_size := (x_max - x_min).toNat + 1
  let cells :=
    if s.cells_.length < x_range_size then
      s.cells_ ++ List.replicate (x_range_size - s.cells_.length) { cover := 0, area := 0 }
    else s.cells_
  let cells := swipe_collect stash x_min stash.cells_in_use_ row.first_cell_idx cells
  let s1 := swipe_cells fill_rule x_max ((x_max - x_min).toNat + 1)
    { calls := s.calls ++ [Blender_call.set_x x_min]
      cells_ := cells
      idx := 0
      x := x_min
      cover := row.left_cover
      mid_coverage := 0 }
  { s with calls := s1.calls, cells_ := s1.cells_, rows_ := s.rows_.set s.y.toNat row.reset }

/-- The `for(;;)` loop over the rows (cell_processor.hh 171-279).  The first
argument bounds the number of iterations; the caller passes
`y_range_.max - y_range_.min + 1`. -/
def swipe_rows (fill_rule : Fill_rule) (stash : Cell_stash_) (y_max : Int) :
    Nat → Swipe_ → Swipe_
  | 0, s => s
  | fuel + 1, s =>
    let s1 :=
      if (s.rows_.getD s.y.toNat default).x_range.nonempty then swipe_row fill_rule stash s
      else s
    if y_max > s1.y then
      swipe_rows fill_rule stash y_max fuel
        { s1 with y := s1.y + 1, calls := s1.calls ++ [Blender_call.inc_y] }
    else
      s1

/-- `Cell_processor::swipe<fill_rule>(blender)`: the calls made on the blender
and the cell processor after the sweep. -/
def swipe (fill_rule : Fill_rule) (cp : Cell_processor) :
    List Blender_call × Cell_processor :=
  if cp.y_range_.nonempty then
    let s := swipe_rows fill_rule cp.cell_stash_ cp.y_range_.max
      ((cp.y_range_.max - cp.y_range_.min).toNat + 1)
      { calls := [Blender_call.set_y cp.y_range_.min]
        cells_ := cp.cells_
        rows_ := cp.rows_
        y := cp.y_range_.min }
    (s.calls,
      { cp with rows_ := s.rows_, cells_ := s.cells_, y_range_ := cp.y_range_.reset
                cell_stash_ := cp.cell_stash_.reset })
  else
    ([], { cp with cell_stash_ := cp.cell_stash_.reset })

end Cell_processor

/-- `Rasterizer`: the subpath origin and the pen, in 24.8 fixed point. -/
structure Rasterizer where
  x_0_ : Int
  y_0_ : Int
  x_ : Int
  y_ : Int
  deriving DecidableEq, Repr

namespace Rasterizer

/-- A freshly constructed `Rasterizer`. -/
def init : Rasterizer := { x_0_ := 0, y_0_ := 0, x_ := 0, y_ := 0 }

/-- `Rasterizer::move_to_fixed_24_dot_8`: the calls made on the cell processor
and the rasterizer after the call. -/
def move_to_fixed_24_dot_8 (r : Rasterizer) (x y : Int) : List Cell_call × Rasterizer :=
  (add_line_ r.x_ r.y_ r.x_0_ r.y_0_, { x_0_ := x, y_0_ := y, x_ := x, y_ := y })

/-- `Rasterizer::line_to_fixed_24_dot_8`. -/
def line_to_fixed_24_dot_8 (r : Rasterizer) (x y : Int) : List Cell_call × Rasterizer :=
  (add_line_ r.x_ r.y_ x y, { r with x_ := x, y_ := y })

/-- `Rasterizer::close`. -/
def close (r : Rasterizer) : List Cell_call × Rasterizer :=
  line_to_fixed_24_dot_8 r r.x_0_ r.y_0_

/-- `Rasterizer::reset`. -/
def reset (_ : Rasterizer) : Rasterizer := init

end Rasterizer

end vgxx

namespace vgxx

/-- Sum of the covers of the emissions made on row `r` left of column 0. -/
def left_sum (r : Int) : List Emission → Int
  | [] => 0
  | e :: t => (if e.y = r ∧ e.x < 0 then e.cover else 0) + left_sum r t

/-- Sum of the covers of the emissions made on row `r` in the columns
`0 .. width - 1`. -/
def inside_sum (width r : Int) : List Emission → Int
  | [] => 0
  | e :: t => (if e.y = r ∧ 0 ≤ e.x ∧ e.x < width then e.cover else 0) + inside_sum width r t

namespace Cell_processor

/-- The cells of the list that starts at index `cell_idx` of the stash,
following the next links up to the sentinel.  The first argument bounds the
length; `row_cells` passes the number of cells in use. -/
def chain (stash : Cell_stash_) : Nat → Nat → List Cell_ex_
  | 0, _ => []
  | fuel + 1, cell_idx =>
    if invalid_cell_index_ ≠ cell_idx then
      stash.get cell_idx :: chain stash fuel (stash.get cell_idx).next_cell_idx
    else
      []

/-- The stashed cells of row `y`, head first. -/
def row_cells (cp : Cell_processor) (y : Int) : List Cell_ex_ :=
  chain cp.cell_stash_ cp.cell_stash_.cells_in_use_ (cp.row y).first_cell_idx

/-- Sum of the covers of a list of stashed cells. -/
def cells_cover : List Cell_ex_ → Int
  | [] => 0
  | c :: t => c.cover + cells_cover t

/-- The invariant of a `Cell_processor` with `width, height > 0`, for an
assignment `owner` of a row to every cell in use:

* dimensions are `Unt_16` values and the row array has `height` rows;
* the cells in use lie inside the stash vector and are fewer than `2^32`;
* the head of a row is a cell in use owned by the row, the next link of a cell
  in use is the sentinel or a smaller index with the same owner;
* the column of a cell lies in the `x_range` of its row;
* a row is fresh or has a non-empty `x_range` inside `0 .. width - 1` and lies
  in `y_range_`, which is fresh or inside `0 .. height - 1`;
* the dense working array holds only empty cells. -/
structure Inv (cp : Cell_processor) (owner : Nat → Int) : Prop where
  width_pos : 0 < cp.width_
  width_le : cp.width_ ≤ 65535
  height_pos : 0 < cp.height_
  height_le : cp.height_ ≤ 65535
  rows_len : cp.rows_.length = cp.height_.toNat
  in_use_le : cp.cell_stash_.cells_in_use_ ≤ cp.cell_stash_.cells_.length
  in_use_max : cp.cell_stash_.cells_in_use_ ≤ 4294967295
  head_ok : ∀ y, 0 ≤ y → y < cp.height_ →
    (cp.row y).first_cell_idx ≠ invalid_cell_index_ →
    (cp.row y).first_cell_idx < cp.cell_stash_.cells_in_use_ ∧
      owner (cp.row y).first_cell_idx = y
  next_ok : ∀ i, i < cp.cell_stash_.cells_in_use_ →
    (cp.cell_stash_.get i).next_cell_idx ≠ invalid_cell_index_ →
    (cp.cell_stash_.get i).next_cell_idx < i ∧
      owner (cp.cell_stash_.get i).next_cell_idx = owner i
  cell_ok : ∀ i, i < cp.cell_stash_.cells_in_use_ →
    0 ≤ owner i ∧ owner i < cp.height_ ∧
      (cp.row (owner i)).x_range.min ≤ (cp.cell_stash_.get i).x ∧
      (cp.cell_stash_.get i).x ≤ (cp.row (owner i)).x_range.max
  row_ok : ∀ y, 0 ≤ y → y < cp.height_ →
    cp.row y = Row_.init ∨
      (0 ≤ (cp.row y).x_range.min ∧ (cp.row y).x_range.min ≤ (cp.row y).x_range.max ∧
        (cp.row y).x_range.max ≤ cp.width_ - 1 ∧
        cp.y_range_.min ≤ y ∧ y ≤ cp.y_range_.max)
  y_range_ok : cp.y_range_ = Pixel_range_.init ∨
    (0 ≤ cp.y_range_.min ∧ cp.y_range_.min ≤ cp.y_range_.max ∧
      cp.y_range_.max ≤ cp.height_ - 1)
  dense_clean : ∀ c ∈ cp.cells_, c = { cover := 0, area := 0 }

/-- A well-formed `Cell_processor`: the invariant holds for some assignment
of rows to cells. -/
def Wf (cp : Cell_processor) : Prop := ∃ owner, Inv cp owner

end Cell_processor

end vgxx

namespace vgxx

namespace Rasterizer

/-- A sequence of `line_to_fixed_24_dot_8` calls, one for each point: the calls
made on the cell processor and the rasterizer afterwards. -/
def line_to_all (r : Rasterizer) : List (Int × Int) → List Cell_call × Rasterizer
  | [] => ([], r)
  | v :: vs =>
    ((r.line_to_fixed_24_dot_8 v.1 v.2).1 ++
        (line_to_all (r.line_to_fixed_24_dot_8 v.1 v.2).2 vs).1,
      (line_to_all (r.line_to_fixed_24_dot_8 v.1 v.2).2 vs).2)

/-- The calls made on the cell processor by a closed contour:
`move_to_fixed_24_dot_8` to `v0`, `line_to_fixed_24_dot_8` to each point of
`vs` in turn, then `close`. -/
def closed_path (r : Rasterizer) (v0 : Int × Int) (vs : List (Int × Int)) :
    List Cell_call :=
  (r.move_to_fixed_24_dot_8 v0.1 v0.2).1 ++
    (line_to_all (r.move_to_fixed_24_dot_8 v0.1 v0.2).2 vs).1 ++
    (close (line_to_all (r.move_to_fixed_24_dot_8 v0.1 v0.2).2 vs).2).1

end Rasterizer

end vgxx

namespace vgxx

/-- The number of `set_cell` calls of a call sequence. -/
def set_cell_count : List Cell_call → Nat
  | [] => 0
  | Cell_call.set_cell _ _ :: t => set_cell_count t + 1
  | _ :: t => set_cell_count t

end vgxx

namespace vgxx

/-- The `blend` calls of a sequence of blender calls, each with the column and
the row the blender is at (`set_y` and `inc_y` select the row, `set_x` the
column of the selected row, `inc_x` is one column to the right) and with its
coverage.  The column is unknown (`none`) until the first `set_x` after a
`set_y` or `inc_y`, as in `Blender_base`, whose pixel pointer is derived from
the row pointer only by `set_x`. -/
def blend_log : Option Int → Option Int → List Blender_call →
    List (Option Int × Option Int × Int)
  | _, _, [] => []
  | _, _, Blender_call.set_y y :: t => blend_log none (some y) t
  | _, y, Blender_call.set_x x :: t => blend_log (some x) y t
  | x, y, Blender_call.inc_x :: t => blend_log (x.map (· + 1)) y t
  | _, y, Blender_call.inc_y :: t => blend_log none (y.map (· + 1)) t
  | x, y, Blender_call.blend coverage :: t => (x, y, coverage) :: blend_log x y t

namespace Cell_processor

/-- Sum of the covers of the cells of a list that have column `x`. -/
def col_cover (L : List Cell_ex_) (x : Int) : Int :=
  match L with
  | [] => 0
  | c :: t => (if c.x = x then c.cover else 0) + col_cover t x

/-- Sum of the areas of the cells of a list that have column `x`. -/
def col_area (L : List Cell_ex_) (x : Int) : Int :=
  match L with
  | [] => 0
  | c :: t => (if c.x = x then c.area else 0) + col_area t x

/-- Sum of the covers of the cells of a list whose column lies in
`lo .. hi`. -/
def cover_between (L : List Cell_ex_) (lo hi : Int) : Int :=
  match L with
  | [] => 0
  | c :: t => (if lo ≤ c.x ∧ c.x ≤ hi then c.cover else 0) + cover_between t lo hi

/-- The running cover at pixel `(x, y)`: `row.left_cover` plus the covers of
all stashed cells of row `y` in the columns `x_min .. x`. -/
def running_cover (cp : Cell_processor) (y x : Int) : Int :=
  (cp.row y).left_cover + cover_between (cp.row_cells y) (cp.row y).x_range.min x

/-- The coverage that the cell formula gives pixel `(x, y)`:
`compute_cell_coverage<rule>` of the running cover and of the sum of the
areas of the stashed cells of the pixel. -/
def pixel_coverage (fill_rule : Fill_rule) (cp : Cell_processor) (y x : Int) : Int :=
  Util.compute_cell_coverage fill_rule (cp.running_cover y x) (col_area (cp.row_cells y) x)

/-- The coverage that the sweep computes for pixel `(x, y)`: the cell formula
when the covers or the areas of the stashed cells of the pixel have a non-zero
sum, the gap formula of the running cover otherwise. -/
def sweep_coverage (fill_rule : Fill_rule) (cp : Cell_processor) (y x : Int) : Int :=
  if 0 ≠ col_cover (cp.row_cells y) x ∨ 0 ≠ col_area (cp.row_cells y) x then
    cp.pixel_coverage fill_rule y x
  else
    gap_coverage fill_rule (cp.running_cover y x)

/-- The coverage that the sweep computes for a pixel from the sums `A x`,
`R x` of the covers and areas of its cells and from the running cover
`W x`. -/
def dense_coverage (rule : Fill_rule) (A R W : Int → Int) (x : Int) : Int :=
  if 0 ≠ A x ∨ 0 ≠ R x then Util.compute_cell_coverage rule (W x) (R x)
  else gap_coverage rule (W x)

/-- The blender calls for the pixels `x .. x_max` of a row, given the coverage
of each pixel: `blend` where the coverage is positive, `inc_x` between
pixels. -/
def expect_cells (cov : Int → Int) (x_max : Int) : Nat → Int → List Blender_call
  | 0, _ => []
  | fuel + 1, x =>
    (if 0 < cov x then [Blender_call.blend (cov x)] else []) ++
      (if x_max > x then Blender_call.inc_x :: expect_cells cov x_max fuel (x + 1) else [])

/-- The blender calls for the rows `y .. y_max`: for a row with a non-empty
`x_range`, `set_x(x_min)` and the calls of its pixels; `inc_y` between rows. -/
def expect_rows (fill_rule : Fill_rule) (cp : Cell_processor) : Nat → Int → List Blender_call
  | 0, _ => []
  | fuel + 1, y =>
    (if (cp.row y).x_range.nonempty then
        Blender_call.set_x (cp.row y).x_range.min ::
          expect_cells (cp.sweep_coverage fill_rule y) (cp.row y).x_range.max
            (((cp.row y).x_range.max - (cp.row y).x_range.min).toNat + 1)
            (cp.row y).x_range.min
      else []) ++
      (if cp.y_range_.max > y then Blender_call.inc_y :: expect_rows fill_rule cp fuel (y + 1)
        else [])

/-- The blender calls of a sweep, given the coverage of each pixel. -/
def expect_swipe (fill_rule : Fill_rule) (cp : Cell_processor) : List Blender_call :=
  if cp.y_range_.nonempty then
    Blender_call.set_y cp.y_range_.min ::
      expect_rows fill_rule cp ((cp.y_range_.max - cp.y_range_.min).toNat + 1) cp.y_range_.min
  else
    []

/-- The `blend` calls for the pixels `x .. x_max` of row `y`, each with its
column, its row and its coverage, given the coverage of each pixel. -/
def log_cells (cov : Int → Int) (x_max y : Int) :
    Nat → Int → List (Option Int × Option Int × Int)
  | 0, _ => []
  | fuel + 1, x =>
    (if 0 < cov x then [(some x, some y, cov x)] else []) ++
      (if x_max > x then log_cells cov x_max y fuel (x + 1) else [])

/-- The `blend` calls for the rows `y .. y_max`, each with its column, its row
and its coverage. -/
def log_rows (fill_rule : Fill_rule) (cp : Cell_processor) :
    Nat → Int → List (Option Int × Option Int × Int)
  | 0, _ => []
  | fuel + 1, y =>
    (if (cp.row y).x_range.nonempty then
        log_cells (cp.sweep_coverage fill_rule y) (cp.row y).x_range.max y
          (((cp.row y).x_range.max - (cp.row y).x_range.min).toNat + 1)
          (cp.row y).x_range.min
      else []) ++
      (if cp.y_range_.max > y then log_rows fill_rule cp fuel (y + 1) else [])

/-- The pixel of an entry of a blend log. -/
def log_pixel (e : Option Int × Option Int × Int) : Option Int × Option Int := (e.1, e.2.1)

/-- The states of a `Cell_processor` with `Unt_16` dimensions `> 0` that the
public operations reach from construction. -/
inductive Reachable : Cell_processor → Prop
  | init (width height : Int) (hw0 : 0 < width) (hw : width ≤ 65535) (hh0 : 0 < height)
      (hh : height ≤ 65535) : Reachable (init width height)
  | call (cp cp1 : Cell_processor) (c : Cell_call) (h : Reachable cp)
      (hc : cp.call c = some cp1) : Reachable cp1
  | swipe (cp : Cell_processor) (fill_rule : Fill_rule) (h : Reachable cp) :
      Reachable (swipe fill_rule cp).2

end Cell_processor

end vgxx

namespace vgxx

namespace Util

/-- `Util::blend(src, dst, alpha)` (util.hh 75-83), on `Int_32` values. -/
def blend (src dst alpha : Int) : Int :=
  let val := dst * 256 - dst + alpha * (src - dst)
  (val + 1 + val / 256) / 256

/-- The conversion of a floating-point value to `Int_32`
(`static_cast<Int_32>(x)`): truncation toward zero; `none` when the truncated
value is not an `Int_32`, where the conversion is undefined.  `Float` values
are rationals and their arithmetic is exact. -/
def to_int_32 (x : ℚ) : Option Int :=
  let t := if 0 ≤ x then ⌊x⌋ else ⌈x⌉
  if -2147483648 ≤ t ∧ t ≤ 2147483647 then some t else none

/-- `Util::to_fixed_<frac>(x)` (util.hh 240-261). -/
def to_fixed_ (frac : Nat) (x : ℚ) : Option Int :=
  let x := x * frac
  let x := if 0 ≤ x then x + 1 / 2 else x - 1 / 2
  to_int_32 x

/-- `Util::to_fixed_24_dot_8(x)`. -/
def to_fixed_24_dot_8 (x : ℚ) : Option Int := to_fixed_ 256 x

/-- `Util::to_fixed_26_dot_6(x)`. -/
def to_fixed_26_dot_6 (x : ℚ) : Option Int := to_fixed_ 64 x

end Util

end vgxx

namespace vgxx

namespace Util

/-- Locals of the loop of `Util::subdivide_bezier` (util.hh 150-177), with the
points passed to the callback so far.  `Float` values are rationals and their
arithmetic is exact. -/
structure Bezier_ where
  points : List (ℚ × ℚ)
  x : ℚ
  y : ℚ
  d_x : ℚ
  d_y : ℚ
  d_d_x : ℚ
  d_d_y : ℚ
  step_count : Nat
  deriving DecidableEq

/-- The `for(;;)` loop of `Util::subdivide_bezier` (util.hh 159-177).  The
first argument bounds the number of iterations; the caller passes
`step_count`. -/
def bezier_loop (d_d_d_x d_d_d_y : ℚ) : Nat → Bezier_ → Bezier_
  | 0, s => s
  | fuel + 1, s =>
    let x := s.x + s.d_x
    let y := s.y + s.d_y
    let points := s.points ++ [(x, y)]
    let step_count := s.step_count - 1
    if 0 < step_count then
      let d_d_x := s.d_d_x + d_d_d_x
      let d_d_y := s.d_d_y + d_d_d_y
      bezier_loop d_d_d_x d_d_d_y fuel
        { points := points, x := x, y := y, d_x := s.d_x + d_d_x, d_y := s.d_y + d_d_y,
          d_d_x := d_d_x, d_d_y := d_d_y, step_count := step_count }
    else
      { s with points := points, x := x, y := y, step_count := step_count }

/-- `Util::subdivide_bezier(callback, x_0, y_0, ..., x_3, y_3)` over exact
arithmetic: the points passed to the callback, in order; `none` when
`step_count_flt` is not an `Unt_32` value, where the conversion is undefined.
`subdivide_bezier_rnd` is the same function with the rounding of the `Float`
type. -/
def subdivide_bezier (x_0 y_0 x_1 y_1 x_2 y_2 x_3 y_3 : ℚ) : Option (List (ℚ × ℚ)) :=
  let dx_0 := |x_1 - x_0|
  let dy_0 := |y_1 - y_0|
  let dx_1 := |x_2 - x_1|
  let dy_1 := |y_2 - y_1|
  let dx_2 := |x_3 - x_2|
  let dy_2 := |y_3 - y_2|
  let step_count_int : Int := ⌈(dx_0 + dy_0 + dx_1 + dy_1 + dx_2 + dy_2) * (1 / 4)⌉
  if 0 ≤ step_count_int ∧ step_count_int < 4294967296 then
    let step_count := step_count_int.toNat
    if 0 < step_count then
      let step_count := if 4 > step_count then 4 else step_count
      let step_count_flt : ℚ := step_count
      let x_0_x_3 := x_0 * 3
      let y_0_x_3 := y_0 * 3
      let x_1_x_3 := x_1 * 3
      let y_1_x_3 := y_1 * 3
      let x_2_x_3 := x_2 * 3
      let y_2_x_3 := y_2 * 3
      let c_1_x := x_1_x_3 - x_0_x_3
      let c_1_y := y_1_x_3 - y_0_x_3
      let c_2_x := x_0_x_3 + x_2_x_3 - x_1_x_3 * 2
      let c_2_y := y_0_x_3 + y_2_x_3 - y_1_x_3 * 2
      let c_3_x := x_3 - x_2_x_3 + x_1_x_3 - x_0
      let c_3_y := y_3 - y_2_x_3 + y_1_x_3 - y_0
      let d_t := 1 / step_count_flt
      let d_t_sqr := d_t * d_t
      let d_t_cub := d_t * d_t_sqr
      some (bezier_loop (c_3_x * d_t_cub * 6) (c_3_y * d_t_cub * 6) step_count
        { points := []
          x := x_0
          y := y_0
          d_x := c_3_x * d_t_cub + c_2_x * d_t_sqr + c_1_x * d_t
          d_y := c_3_y * d_t_cub + c_2_y * d_t_sqr + c_1_y * d_t
          d_d_x := c_2_x * d_t_sqr * 2
          d_d_y := c_2_y * d_t_sqr * 2
          step_count := step_count }).points
    else
      some []
  else
    none

/-- The cubic `B(t) = c_0 + c_1 t + c_2 t^2 + c_3 t^3` of the control values
`p_0 .. p_3`, with `c_0 = p_0`, `c_1 = 3 (p_1 - p_0)`,
`c_2 = 3 p_0 - 6 p_1 + 3 p_2`, `c_3 = p_3 - 3 p_2 + 3 p_1 - p_0`. -/
def cubic (p_0 p_1 p_2 p_3 t : ℚ) : ℚ :=
  p_0 + 3 * (p_1 - p_0) * t + (3 * p_0 - 6 * p_1 + 3 * p_2) * t ^ 2 +
    (p_3 - 3 * p_2 + 3 * p_1 - p_0) * t ^ 3

/-- The sum of the absolute coordinate differences of consecutive control
points. -/
def chord_sum (x_0 y_0 x_1 y_1 x_2 y_2 x_3 y_3 : ℚ) : ℚ :=
  |x_1 - x_0| + |y_1 - y_0| + |x_2 - x_1| + |y_2 - y_1| + |x_3 - x_2| + |y_3 - y_2|

end Util

end vgxx

namespace vgxx

namespace Util

/-- The integer nearest to `q`, the even one of the two when `q` lies halfway
between two integers. -/
def round_even (q : ℚ) : Int :=
  let f := ⌊q⌋
  if q - f < 1 / 2 then f
  else if 1 / 2 < q - f then f + 1
  else if f % 2 = 0 then f
  else f + 1

/-- The number of binary digits of `n`: 0 for 0, otherwise the `b` with
`2^(b-1) ≤ n < 2^b`.  The first argument bounds the recursion; `n` suffices. -/
def bit_length : Nat → Nat → Nat
  | 0, _ => 0
  | fuel + 1, n => if n = 0 then 0 else bit_length fuel (n / 2) + 1

/-- The binary exponent of a rational `x ≠ 0`: the integer `k` with
`2^k ≤ |x| < 2^(k+1)`, found from the bit lengths of the numerator and the
denominator. -/
def ilog2 (x : ℚ) : Int :=
  let k : Int := (bit_length x.num.natAbs x.num.natAbs : Int) - (bit_length x.den x.den : Int)
  if (2 : ℚ) ^ k ≤ |x| then k else k - 1

/-- The exponent of the unit in the last place of the `float` (IEEE 754
binary32) nearest to `x`: the 24-bit significand of a normal number of binary
exponent `k ≥ -126` has the unit `2^(k-23)`; subnormal numbers have the unit
`2^-149`. -/
def float_exp (x : ℚ) : Int :=
  (if ilog2 x < -126 then -126 else ilog2 x) - 23

/-- Rounding to `float` (IEEE 754 binary32, round to nearest, ties to even):
the multiple of `2^(float_exp x)` nearest to `x`, the even multiple when `x`
lies halfway between two.  Values of magnitude `2^128` or more, which the
format replaces by an infinity, are kept. -/
def round_float (x : ℚ) : ℚ :=
  (round_even (x / 2 ^ float_exp x) : ℚ) * 2 ^ float_exp x

/-- The sum of the absolute coordinate differences of consecutive control
points as `Util::subdivide_bezier<Float>` computes it (util.hh 110-118): every
subtraction and addition of the `Float` type is rounded by `rnd`, the sum is
taken from left to right. -/
def chord_sum_rnd (rnd : ℚ → ℚ) (x_0 y_0 x_1 y_1 x_2 y_2 x_3 y_3 : ℚ) : ℚ :=
  let dx_0 := |rnd (x_1 - x_0)|
  let dy_0 := |rnd (y_1 - y_0)|
  let dx_1 := |rnd (x_2 - x_1)|
  let dy_1 := |rnd (y_2 - y_1)|
  let dx_2 := |rnd (x_3 - x_2)|
  let dy_2 := |rnd (y_3 - y_2)|
  rnd (rnd (rnd (rnd (rnd (dx_0 + dy_0) + dx_1) + dy_1) + dx_2) + dy_2)

/-- The value of `step_count_flt` before the clamp (util.hh 116-117):
`ceil(sum * 0.25)`, the product rounded by `rnd`. -/
def step_count_rnd (rnd : ℚ → ℚ) (x_0 y_0 x_1 y_1 x_2 y_2 x_3 y_3 : ℚ) : Int :=
  ⌈rnd (chord_sum_rnd rnd x_0 y_0 x_1 y_1 x_2 y_2 x_3 y_3 * (1 / 4))⌉

/-- The `for(;;)` loop of `Util::subdivide_bezier<Float>` (util.hh 159-177)
with every addition rounded by `rnd`.  The first argument bounds the number of
iterations; the caller passes `step_count`. -/
def bezier_loop_rnd (rnd : ℚ → ℚ) (d_d_d_x d_d_d_y : ℚ) : Nat → Bezier_ → Bezier_
  | 0, s => s
  | fuel + 1, s =>
    let x := rnd (s.x + s.d_x)
    let y := rnd (s.y + s.d_y)
    let points := s.points ++ [(x, y)]
    let step_count := s.step_count - 1
    if 0 < step_count then
      let d_d_x := rnd (s.d_d_x + d_d_d_x)
      let d_d_y := rnd (s.d_d_y + d_d_d_y)
      bezier_loop_rnd rnd d_d_d_x d_d_d_y fuel
        { points := points, x := x, y := y, d_x := rnd (s.d_x + d_d_x),
          d_y := rnd (s.d_y + d_d_y), d_d_x := d_d_x, d_d_y := d_d_y,
          step_count := step_count }
    else
      { s with points := points, x := x, y := y, step_count := step_count }

/-- `Util::subdivide_bezier<Float>(callback, x_0, y_0, ..., x_3, y_3)` with
the arithmetic of the `Float` type: a `Float` value is a rational and every
operation gives the exact result rounded by `rnd` (`round_float` for `float`,
the identity for exact arithmetic); `fabs`, `ceil` and the conversion of the
step count are exact.  Every operation is rounded on its own, in the order of
the source: expressions are evaluated in the `Float` type, without contraction
of a product and a sum.  The result is the list of the points passed to the
callback, in order; `none` when `step_count_flt` is not an `Unt_32` value,
where the conversion is undefined.  Infinities and NaN are not modelled. -/
def subdivide_bezier_rnd (rnd : ℚ → ℚ) (x_0 y_0 x_1 y_1 x_2 y_2 x_3 y_3 : ℚ) :
    Option (List (ℚ × ℚ)) :=
  let step_count_int : Int := step_count_rnd rnd x_0 y_0 x_1 y_1 x_2 y_2 x_3 y_3
  if 0 ≤ step_count_int ∧ step_count_int < 4294967296 then
    let step_count := step_count_int.toNat
    if 0 < step_count then
      let step_count := if 4 > step_count then 4 else step_count
      let step_count_flt : ℚ := step_count
      let x_0_x_3 := rnd (x_0 * 3)
      let y_0_x_3 := rnd (y_0 * 3)
      let x_1_x_3 := rnd (x_1 * 3)
      let y_1_x_3 := rnd (y_1 * 3)
      let x_2_x_3 := rnd (x_2 * 3)
      let y_2_x_3 := rnd (y_2 * 3)
      let c_1_x := rnd (x_1_x_3 - x_0_x_3)
      let c_1_y := rnd (y_1_x_3 - y_0_x_3)
      let c_2_x := rnd (rnd (x_0_x_3 + x_2_x_3) - rnd (x_1_x_3 * 2))
      let c_2_y := rnd (rnd (y_0_x_3 + y_2_x_3) - rnd (y_1_x_3 * 2))
      let c_3_x := rnd (rnd (rnd (x_3 - x_2_x_3) + x_1_x_3) - x_0)
      let c_3_y := rnd (rnd (rnd (y_3 - y_2_x_3) + y_1_x_3) - y_0)
      let d_t := rnd (1 / step_count_flt)
      let d_t_sqr := rnd (d_t * d_t)
      let d_t_cub := rnd (d_t * d_t_sqr)
      some (bezier_loop_rnd rnd (rnd (rnd (c_3_x * d_t_cub) * 6))
        (rnd (rnd (c_3_y * d_t_cub) * 6)) step_count
        { points := []
          x := x_0
          y := y_0
          d_x := rnd (rnd (rnd (c_3_x * d_t_cub) + rnd (c_2_x * d_t_sqr)) + rnd (c_1_x * d_t))
          d_y := rnd (rnd (rnd (c_3_y * d_t_cub) + rnd (c_2_y * d_t_sqr)) + rnd (c_1_y * d_t))
          d_d_x := rnd (rnd (c_2_x * d_t_sqr) * 2)
          d_d_y := rnd (rnd (c_2_y * d_t_sqr) * 2)
          step_count := step_count }).points
    else
      some []
  else
    none

end Util

end vgxx

namespace vgxx

namespace Rasterizer

/-- `Rasterizer::move_to(cell_proc, x, y)` for floating-point `x`, `y`: the
calls made on the cell processor and the rasterizer after the call; `none`
when a conversion to fixed point is undefined. -/
def move_to (r : Rasterizer) (x y : ℚ) : Option (List Cell_call × Rasterizer) :=
  match Util.to_fixed_24_dot_8 x, Util.to_fixed_24_dot_8 y with
  | some X, some Y => some (r.move_to_fixed_24_dot_8 X Y)
  | _, _ => none

/-- `Rasterizer::line_to(cell_proc, x, y)` for floating-point `x`, `y`. -/
def line_to (r : Rasterizer) (x y : ℚ) : Option (List Cell_call × Rasterizer) :=
  match Util.to_fixed_24_dot_8 x, Util.to_fixed_24_dot_8 y with
  | some X, some Y => some (r.line_to_fixed_24_dot_8 X Y)
  | _, _ => none

end Rasterizer

/-- `Renderer<Blender>` without its blender, whose calls are returned by
`fill`: the rasterizer, the cell processor and the floating-point pen and
subpath origin. -/
structure Renderer where
  rasterizer_ : Rasterizer
  cell_proc_ : Cell_processor
  x_0_ : ℚ
  y_0_ : ℚ
  x_ : ℚ
  y_ : ℚ
  deriving DecidableEq

namespace Renderer

/-- `Renderer(width, height, blender_args...)`, for `Unt_16` values
`width, height > 0` (asserted by the constructor). -/
def init (width height : Int) : Renderer :=
  { rasterizer_ := Rasterizer.init
    cell_proc_ := Cell_processor.init width height
    x_0_ := 0
    y_0_ := 0
    x_ := 0
    y_ := 0 }

/-- `Renderer::move_to(x, y)`; `none` when a conversion to fixed point is
undefined or the cell stash overflows. -/
def move_to (r : Renderer) (x y : ℚ) : Option Renderer :=
  match r.rasterizer_.move_to x y with
  | none => none
  | some (calls, rasterizer) =>
    match r.cell_proc_.run calls with
    | none => none
    | some cell_proc =>
      some { rasterizer_ := rasterizer, cell_proc_ := cell_proc,
             x_0_ := x, y_0_ := y, x_ := x, y_ := y }

/-- `Renderer::line_to_(x, y)`. -/
def line_to_ (r : Renderer) (x y : ℚ) : Option Renderer :=
  match r.rasterizer_.line_to x y with
  | none => none
  | some (calls, rasterizer) =>
    match r.cell_proc_.run calls with
    | none => none
    | some cell_proc => some { r with rasterizer_ := rasterizer, cell_proc_ := cell_proc }

/-- `Renderer::line_to(x, y)`. -/
def line_to (r : Renderer) (x y : ℚ) : Option Renderer :=
  match r.line_to_ x y with
  | none => none
  | some r1 => some { r1 with x_ := x, y_ := y }

/-- The callback of `bezier_to` applied to a sequence of points in order. -/
def line_to_points (r : Renderer) : List (ℚ × ℚ) → Option Renderer
  | [] => some r
  | p :: t =>
    match r.line_to_ p.1 p.2 with
    | none => none
    | some r1 => line_to_points r1 t

/-- `Renderer::bezier_to(x_1, y_1, x_2, y_2, x_3, y_3)`, with the subdivision
over exact arithmetic (`Util.subdivide_bezier`). -/
def bezier_to (r : Renderer) (x_1 y_1 x_2 y_2 x_3 y_3 : ℚ) : Option Renderer :=
  match Util.subdivide_bezier r.x_ r.y_ x_1 y_1 x_2 y_2 x_3 y_3 with
  | none => none
  | some points =>
    match r.line_to_points points with
    | none => none
    | some r1 => some { r1 with x_ := x_3, y_ := y_3 }

/-- `Renderer::close_outline()`. -/
def close_outline (r : Renderer) : Option Renderer :=
  match r.cell_proc_.run r.rasterizer_.close.1 with
  | none => none
  | some cell_proc =>
    some { r with rasterizer_ := r.rasterizer_.close.2, cell_proc_ := cell_proc,
                  x_ := r.x_0_, y_ := r.y_0_ }

/-- `Renderer::fill(fill_rule)` (and `fill<fill_rule>()`): the calls made on
the blender and the renderer after the call. -/
def fill (r : Renderer) (fill_rule : Fill_rule) : Option (List Blender_call × Renderer) :=
  match r.close_outline with
  | none => none
  | some r1 =>
    some ((r1.cell_proc_.swipe fill_rule).1,
      { r1 with cell_proc_ := (r1.cell_proc_.swipe fill_rule).2 })

end Renderer

/-- One call of the fixed-point interface of `Rasterizer`. -/
inductive Fixed_cmd where
  | move_to (x y : Int)
  | line_to (x y : Int)
  | close
  deriving DecidableEq, Repr

namespace Rasterizer

/-- One call of the fixed-point interface: the calls made on the cell
processor and the rasterizer after the call. -/
def exec_fixed (r : Rasterizer) : Fixed_cmd → List Cell_call × Rasterizer
  | Fixed_cmd.move_to x y => r.move_to_fixed_24_dot_8 x y
  | Fixed_cmd.line_to x y => r.line_to_fixed_24_dot_8 x y
  | Fixed_cmd.close => r.close

/-- A sequence of calls of the fixed-point interface: all the calls made on
the cell processor, in order, and the rasterizer afterwards. -/
def exec_all_fixed (r : Rasterizer) : List Fixed_cmd → List Cell_call × Rasterizer
  | [] => ([], r)
  | c :: t =>
    ((r.exec_fixed c).1 ++ (exec_all_fixed (r.exec_fixed c).2 t).1,
      (exec_all_fixed (r.exec_fixed c).2 t).2)

end Rasterizer

/-- One path-construction call of `Renderer`. -/
inductive Path_cmd where
  | move_to (x y : ℚ)
  | line_to (x y : ℚ)
  | bezier_to (x_1 y_1 x_2 y_2 x_3 y_3 : ℚ)
  | close_outline
  deriving DecidableEq

/-- The call of the fixed-point interface of the rasterizer that a `move_to`,
`line_to` or `close_outline` amounts to; `none` for `bezier_to` and when a
conversion to fixed point is undefined. -/
def Path_cmd.fixed : Path_cmd → Option Fixed_cmd
  | Path_cmd.move_to x y =>
    match Util.to_fixed_24_dot_8 x, Util.to_fixed_24_dot_8 y with
    | some X, some Y => some (Fixed_cmd.move_to X Y)
    | _, _ => none
  | Path_cmd.line_to x y =>
    match Util.to_fixed_24_dot_8 x, Util.to_fixed_24_dot_8 y with
    | some X, some Y => some (Fixed_cmd.line_to X Y)
    | _, _ => none
  | Path_cmd.bezier_to _ _ _ _ _ _ => none
  | Path_cmd.close_outline => some Fixed_cmd.close

/-- The calls of the fixed-point interface that a path of `move_to`,
`line_to` and `close_outline` calls amounts to. -/
def Path_cmd.fixed_all : List Path_cmd → Option (List Fixed_cmd)
  | [] => some []
  | c :: t =>
    match c.fixed, Path_cmd.fixed_all t with
    | some f, some ft => some (f :: ft)
    | _, _ => none

namespace Renderer

/-- One path-construction call applied to the renderer. -/
def exec (r : Renderer) : Path_cmd → Option Renderer
  | Path_cmd.move_to x y => r.move_to x y
  | Path_cmd.line_to x y => r.line_to x y
  | Path_cmd.bezier_to x_1 y_1 x_2 y_2 x_3 y_3 => r.bezier_to x_1 y_1 x_2 y_2 x_3 y_3
  | Path_cmd.close_outline => r.close_outline

/-- A sequence of path-construction calls applied in order. -/
def exec_all (r : Renderer) : List Path_cmd → Option Renderer
  | [] => some r
  | c :: t =>
    match r.exec c with
    | none => none
    | some r1 => exec_all r1 t

/-- The blender calls of `fill(fill_rule)` after a sequence of
path-construction calls on a freshly constructed `width x height`
renderer. -/
def draw (width height : Int) (path : List Path_cmd) (fill_rule : Fill_rule) :
    Option (List Blender_call) :=
  match (init width height).exec_all path with
  | none => none
  | some r =>
    match r.fill fill_rule with
    | none => none
    | some (calls, _) => some calls

end Renderer

end vgxx

namespace vgxx

namespace Cell_processor.Cell_stash_

/-- Successive calls of `acquire`, as many as the second argument says: the
indices stored in `idx`, in order, and the stash afterwards; `none` when a
call throws. -/
def acquire_many (st : Cell_stash_) : Nat → Option (List Nat × Cell_stash_)
  | 0 => some ([], st)
  | n + 1 =>
    match st.acquire with
    | none => none
    | some (idx, _, st1) =>
      match acquire_many st1 n with
      | none => none
      | some (l, st2) => some (idx :: l, st2)

end Cell_processor.Cell_stash_

end vgxx

namespace vgxx

/-- The calls of a sequence of blender calls, other than `set_y` and `inc_y`,
that are made while the blender is on row `r` (`set_y` selects the row, `inc_y`
is one row down); the second argument is the row before the sequence, unknown
(`none`) for a blender that has not been given a row. -/
def calls_of_row (r : Int) : Option Int → List Blender_call → List Blender_call
  | _, [] => []
  | _, Blender_call.set_y y :: t => calls_of_row r (some y) t
  | y, Blender_call.inc_y :: t => calls_of_row r (y.map (· + 1)) t
  | y, Blender_call.set_x x :: t =>
    (if y = some r then [Blender_call.set_x x] else []) ++ calls_of_row r y t
  | y, Blender_call.inc_x :: t =>
    (if y = some r then [Blender_call.inc_x] else []) ++ calls_of_row r y t
  | y, Blender_call.blend coverage :: t =>
    (if y = some r then [Blender_call.blend coverage] else []) ++ calls_of_row r y t

end vgxx

namespace vgxx

/-- The colour members of `Color_blender_bgra_8888` (the pointers of
`Blender_base` are left out).  `Color` values (`std::uint32_t`) are natural
numbers, the channels are `Int_32` values. -/
structure Color_blender_bgra_8888 where
  color_ : Nat
  alpha_ : Nat
  red_ : Int
  green_ : Int
  blue_ : Int
  deriving DecidableEq, Repr

namespace Color_blender_bgra_8888

/-- `Color_blender_bgra_8888::get_alpha_`. -/
def get_alpha_ (color : Nat) : Nat := color >>> 24

/-- `Color_blender_bgra_8888::get_red_`. -/
def get_red_ (color : Nat) : Int := (((color >>> 16) &&& 0xff : Nat) : Int)

/-- `Color_blender_bgra_8888::get_green_`. -/
def get_green_ (color : Nat) : Int := (((color >>> 8) &&& 0xff : Nat) : Int)

/-- `Color_blender_bgra_8888::get_blue_`. -/
def get_blue_ (color : Nat) : Int := ((color &&& 0xff : Nat) : Int)

/-- A freshly constructed blender: the default member initializers. -/
def init : Color_blender_bgra_8888 :=
  { color_ := 0, alpha_ := 0, red_ := 0, green_ := 0, blue_ := 0 }

/-- `Color_blender_bgra_8888::set_color(c)`. -/
def set_color (b : Color_blender_bgra_8888) (c : Nat) : Color_blender_bgra_8888 :=
  if c ≠ b.color_ then
    { color_ := c, alpha_ := get_alpha_ c, red_ := get_red_ c, green_ := get_green_ c,
      blue_ := get_blue_ c }
  else
    b

/-- `Color_blender_bgra_8888::blend(alpha)` on a pixel that holds `dst_color`:
the value of the pixel after the call.  Unsigned arithmetic is reduced modulo
`2^32`, the conversions to `Int_32` and back are `i32` and `u32`. -/
def blend (b : Color_blender_bgra_8888) (alpha : Nat) (dst_color : Nat) : Nat :=
  if 0xff > alpha ∨ 0xff > b.alpha_ then
    let alpha := (alpha * b.alpha_) % 4294967296
    if 0 < alpha then
      let alpha := ((alpha + 1 + (alpha >>> 8)) % 4294967296) >>> 8
      let src_a : Int := i32 alpha
      let r := (u32 (Util.blend b.red_ (get_red_ dst_color) src_a)).toNat
      let g := (u32 (Util.blend b.green_ (get_green_ dst_color) src_a)).toNat
      let bl := (u32 (Util.blend b.blue_ (get_blue_ dst_color) src_a)).toNat
      0xff000000 ||| ((r <<< 16) % 4294967296) ||| ((g <<< 8) % 4294967296) ||| bl
    else
      dst_color
  else
    b.color_

end Color_blender_bgra_8888

end vgxx

namespace vgxx

/-- The column whose `x_range` a `set_cell` call at column `x` updates on a
processor of width `width`: 0 left of the viewport, `width - 1` right of it. -/
def clamp_col (width x : Int) : Int :=
  if x < 0 then 0 else if width ≤ x then width - 1 else x

/-- Sum of the covers of the emissions made at pixel `(x, r)`, a pixel of
the columns `0 .. width - 1`. -/
def cover_at (width x r : Int) : List Emission → Int
  | [] => 0
  | e :: t =>
    (if e.y = r ∧ e.x = x ∧ 0 ≤ e.x ∧ e.x < width then e.cover else 0) + cover_at width x r t

/-- Sum of the areas of the emissions made at pixel `(x, r)`, a pixel of the
columns `0 .. width - 1`. -/
def area_at (width x r : Int) : List Emission → Int
  | [] => 0
  | e :: t =>
    (if e.y = r ∧ e.x = x ∧ 0 ≤ e.x ∧ e.x < width then e.area else 0) + area_at width x r t

/-- Sum of the covers of the emissions made on row `r` in the columns
`lo .. hi`, as far as these are columns of `0 .. width - 1`. -/
def span_cover (width lo hi r : Int) : List Emission → Int
  | [] => 0
  | e :: t =>
    (if e.y = r ∧ lo ≤ e.x ∧ e.x ≤ hi ∧ 0 ≤ e.x ∧ e.x < width then e.cover else 0) +
      span_cover width lo hi r t

/-- The `x_range` of row `r` after the emissions of a list, from the
`x_range` before: every emission on the row updates it with its column,
clamped to the viewport. -/
def row_x_range (width r : Int) :
    Cell_processor.Pixel_range_ → List Emission → Cell_processor.Pixel_range_
  | acc, [] => acc
  | acc, e :: t =>
    row_x_range width r (if e.y = r then acc.update (clamp_col width e.x) else acc) t

/-- The `y_range_` after the emissions of a list, from the `y_range_`
before: every emission on a row of `0 .. height - 1` updates it with its
row. -/
def rows_y_range (height : Int) :
    Cell_processor.Pixel_range_ → List Emission → Cell_processor.Pixel_range_
  | acc, [] => acc
  | acc, e :: t =>
    rows_y_range height (if 0 ≤ e.y ∧ e.y < height then acc.update e.y else acc) t

end vgxx

namespace vgxx

namespace Cell_processor

/-- The list walk of `swipe` (cell_processor.hh 186-193) from index
`cell_idx` on: the indices of the cells visited, in order, and the index at
which the walk stands when it stops, which is the sentinel unless the bound on
the number of steps (the first argument) ran out. -/
def walk (stash : Cell_stash_) : Nat → Nat → List Nat × Nat
  | 0, cell_idx => ([], cell_idx)
  | fuel + 1, cell_idx =>
    if invalid_cell_index_ ≠ cell_idx then
      (cell_idx :: (walk stash fuel (stash.get cell_idx).next_cell_idx).1,
        (walk stash fuel (stash.get cell_idx).next_cell_idx).2)
    else
      ([], cell_idx)

/-- The indices of the cells of the list of row `y`, head first: the walk
from the head of the row, bounded by the number of cells in use. -/
def row_indices (cp : Cell_processor) (y : Int) : List Nat :=
  (walk cp.cell_stash_ cp.cell_stash_.cells_in_use_ (cp.row y).first_cell_idx).1

end Cell_processor

end vgxx

namespace vgxx

namespace Cell_processor

/-- The dense working array of `swipe` when it starts to accumulate the row
`s.y` (cell_processor.hh 179-184): the array after the `resize` to the size of
the `x_range` of the row, before any cell of the row is added to it. -/
def swipe_row_dense (s : Swipe_) : List Cell_ :=
  let row := s.rows_.getD s.y.toNat default
  let x_min := row.x_range.min
  let x_max := row.x_range.max
  let x_range_size := (x_max - x_min).toNat + 1
  if s.cells_.length < x_range_size then
    s.cells_ ++ List.replicate (x_range_size - s.cells_.length) { cover := 0, area := 0 }
  else s.cells_

/-- The locals of the loop over the rows of `swipe` at the start of each
iteration, in order (the loop of `swipe_rows`, cell_processor.hh 171-279). -/
def swipe_rows_states (fill_rule : Fill_rule) (stash : Cell_stash_) (y_max : Int) :
    Nat → Swipe_ → List Swipe_
  | 0, _ => []
  | fuel + 1, s =>
    let s1 :=
      if (s.rows_.getD s.y.toNat default).x_range.nonempty then swipe_row fill_rule stash s
      else s
    s :: (if y_max > s1.y then
        swipe_rows_states fill_rule stash y_max fuel
          { s1 with y := s1.y + 1, calls := s1.calls ++ [Blender_call.inc_y] }
      else
        [])

/-- The locals of `swipe<fill_rule>` at the start of each iteration of its
loop over the rows. -/
def swipe_states (fill_rule : Fill_rule) (cp : Cell_processor) : List Swipe_ :=
  if cp.y_range_.nonempty then
    swipe_rows_states fill_rule cp.cell_stash_ cp.y_range_.max
      ((cp.y_range_.max - cp.y_range_.min).toNat + 1)
      { calls := [Blender_call.set_y cp.y_range_.min]
        cells_ := cp.cells_
        rows_ := cp.rows_
        y := cp.y_range_.min }
  else
    []

end Cell_processor

end vgxx

namespace vgxx

/-- The calls that make the emissions of a list on a cell processor, in
order: `set_x(x); set_y(y); set_cell(cover, area)` for each. -/
def emit_calls : List Emission → List Cell_call
  | [] => []
  | e :: t =>
    Cell_call.set_x e.x :: Cell_call.set_y e.y :: Cell_call.set_cell e.cover e.area ::
      emit_calls t

end vgxx

namespace vgxx

namespace Rasterizer

/-- The arguments of one call of `add_scanline_`, or of its copy inlined in
the loop of `add_line_<...>` (there `d_x` is `delta_x` and `d_y` is
`0x100`). -/
structure Scanline_ where
  int_y : Int
  int_x_0 : Int
  int_x_1 : Int
  frac_x_0 : Int
  frac_x_1 : Int
  d_x : Int
  d_y : Int
  deriving DecidableEq, Repr

namespace Scanline_

/-- The call `add_scanline_<y_direction>` with the arguments `a`, after the
calls made so far. -/
def run (y_direction : Direction_) (calls : List Cell_call) (a : Scanline_) : List Cell_call :=
  add_scanline_ y_direction calls a.int_y a.int_x_0 a.int_x_1 a.frac_x_0 a.frac_x_1 a.d_x a.d_y

/-- The arguments describe a scanline walked from left to right: fractions in
`0 .. 255`, `int_x_0 ≤ int_x_1`, `d_x` the extent in `x` between the two ends,
and a height `d_y` in `1 .. 0x100`. -/
def valid (a : Scanline_) : Prop :=
  0 ≤ a.frac_x_0 ∧ a.frac_x_0 < 256 ∧ 0 ≤ a.frac_x_1 ∧ a.frac_x_1 < 256 ∧
    a.int_x_0 ≤ a.int_x_1 ∧
    a.d_x = 256 * a.int_x_1 + a.frac_x_1 - (256 * a.int_x_0 + a.frac_x_0) ∧
    0 < a.d_y ∧ a.d_y ≤ 256

instance (a : Scanline_) : Decidable a.valid := by
  unfold valid; exact inferInstance

/-- The divisors of the divisions and remainders that `add_scanline_` (or
its inlined copy) executes: `p / d_x` and `p % d_x` for the entry cell when
`frac_x_0` is not zero, and again for the set-up of the loop over the interior
cells when there is one; none when the scanline stays in one cell
(rasterizer.hh 664-681, 688-691, 725-727 and 476-499, 504-506, 539-540). -/
def divisors (a : Scanline_) : List Int :=
  if a.int_x_0 = a.int_x_1 then
    []
  else
    (if a.frac_x_0 ≠ 0 then [a.d_x, a.d_x] else []) ++
      (if (if a.frac_x_0 ≠ 0 then a.int_x_0 + 1 else a.int_x_0) < a.int_x_1 then
        [a.d_x, a.d_x] else [])

end Scanline_

/-- The `add_scanline_` call of the partial first scanline of
`add_line_<...>` (rasterizer.hh 336-395), if there is one. -/
def line_head_scanlines (x_direction y_direction x_y_direction : Direction_)
    (x_0 y_0 d_x d_y : Int) : List Scanline_ :=
  let s := line_head x_direction y_direction x_y_direction x_0 y_0 d_x d_y
  let int_x_0 := x_0 / 256
  let int_y_0 := y_0 / 256
  let frac_x_0 := x_0 % 256
  let frac_y_0 := y_0 % 256
  if frac_y_0 ≠ 0 then
    let delta_y := 0x100 - frac_y_0
    if x_y_direction = Direction_.positive then
      [{ int_y := int_y_0, int_x_0 := int_x_0, int_x_1 := s.int_x, frac_x_0 := frac_x_0,
         frac_x_1 := s.frac_x, d_x := s.x - x_0, d_y := delta_y }]
    else
      [{ int_y := int_y_0, int_x_0 := s.int_x, int_x_1 := int_x_0, frac_x_0 := s.frac_x,
         frac_x_1 := frac_x_0, d_x := x_0 - s.x, d_y := delta_y }]
  else
    []

/-- The scanline of one iteration of the loop over full scanlines
(rasterizer.hh 435-625): the arguments with which the inlined copy of
`add_scanline_` runs. -/
def line_step_scanline (y_direction x_y_direction : Direction_) (d_y inc_x mod annex : Int)
    (s : Line_) : Scanline_ :=
  let delta_x := if u32 (s.rem + mod) ≥ d_y then inc_x + annex else inc_x
  let s1 := line_step y_direction x_y_direction d_y inc_x mod annex s
  if x_y_direction = Direction_.positive then
    { int_y := s.int_y, int_x_0 := s.int_x, int_x_1 := s1.int_x, frac_x_0 := s.frac_x,
      frac_x_1 := s1.frac_x, d_x := delta_x, d_y := 0x100 }
  else
    { int_y := s.int_y, int_x_0 := s1.int_x, int_x_1 := s.int_x, frac_x_0 := s1.frac_x,
      frac_x_1 := s.frac_x, d_x := delta_x, d_y := 0x100 }

/-- The scanlines of the loop over full scanlines, in order (the loop of
`line_rows`). -/
def line_rows_scanlines (y_direction x_y_direction : Direction_)
    (int_y_1 d_y inc_x mod annex : Int) : Nat → Line_ → List Scanline_
  | 0, _ => []
  | fuel + 1, s =>
    let s1 := line_step y_direction x_y_direction d_y inc_x mod annex s
    line_step_scanline y_direction x_y_direction d_y inc_x mod annex s ::
      (if s1.int_y < int_y_1 then
        line_rows_scanlines y_direction x_y_direction int_y_1 d_y inc_x mod annex fuel s1
      else
        [])

/-- The scanlines of the full scanlines of `add_line_<...>` (the set-up and
the loop of `line_body`). -/
def line_body_scanlines (x_direction y_direction x_y_direction : Direction_)
    (int_y_1 d_x d_y : Int) (s : Line_) : List Scanline_ :=
  if s.int_y < int_y_1 then
    let p := if 0x1000000 > d_x then u32 (d_x * 256) else u64 (d_x * 256)
    let inc_x :=
      if x_direction = Direction_.negative ∧ u32 (p % d_y) ≠ 0 then i32 (p / d_y) + 1
      else i32 (p / d_y)
    let mod :=
      if x_direction = Direction_.negative ∧ u32 (p % d_y) ≠ 0 then u32 (d_y - u32 (p % d_y))
      else u32 (p % d_y)
    let annex : Int := if x_direction = Direction_.positive then 1 else -1
    line_rows_scanlines y_direction x_y_direction int_y_1 d_y inc_x mod annex
      (int_y_1 - s.int_y).toNat s
  else
    []

/-- The scanlines of `add_line_<x_direction, y_direction, x_y_direction>`, in
order: the arguments of every `add_scanline_` call and of every run of its
inlined copy. -/
def add_line_dir_scanlines (x_direction y_direction x_y_direction : Direction_)
    (x_0 y_0 x_1 y_1 : Int) : List Scanline_ :=
  let int_x_0 := x_0 / 256
  let int_x_1 := x_1 / 256
  let int_y_0 := y_0 / 256
  let int_y_1 := y_1 / 256
  let frac_x_0 := x_0 % 256
  let frac_x_1 := x_1 % 256
  if int_y_0 = int_y_1 then
    if x_y_direction = Direction_.positive then
      [{ int_y := int_y_0, int_x_0 := int_x_0, int_x_1 := int_x_1, frac_x_0 := frac_x_0,
         frac_x_1 := frac_x_1, d_x := x_1 - x_0, d_y := y_1 - y_0 }]
    else
      [{ int_y := int_y_0, int_x_0 := int_x_1, int_x_1 := int_x_0, frac_x_0 := frac_x_1,
         frac_x_1 := frac_x_0, d_x := x_0 - x_1, d_y := y_1 - y_0 }]
  else
    let d_y := u32 (y_1 - y_0)
    let frac_y_1 := y_1 % 256
    let d_x := if x_y_direction = Direction_.positive then u32 (x_1 - x_0) else u32 (x_0 - x_1)
    let s0 := line_head x_direction y_direction x_y_direction x_0 y_0 d_x d_y
    let s := line_body x_direction y_direction x_y_direction int_y_1 d_x d_y s0
    line_head_scanlines x_direction y_direction x_y_direction x_0 y_0 d_x d_y ++
      line_body_scanlines x_direction y_direction x_y_direction int_y_1 d_x d_y s0 ++
      (if frac_y_1 ≠ 0 then
        if x_y_direction = Direction_.positive then
          [{ int_y := int_y_1, int_x_0 := s.int_x, int_x_1 := int_x_1, frac_x_0 := s.frac_x,
             frac_x_1 := frac_x_1, d_x := x_1 - s.x, d_y := frac_y_1 }]
        else
          [{ int_y := int_y_1, int_x_0 := int_x_1, int_x_1 := s.int_x, frac_x_0 := frac_x_1,
             frac_x_1 := s.frac_x, d_x := s.x - x_1, d_y := frac_y_1 }]
      else
        [])

/-- The divisors of the divisions and remainders that
`add_line_<x_direction, y_direction, x_y_direction>` executes: `d_y`, twice
for the partial first scanline and twice for the set-up of the loop over the
full scanlines (`p / d_y`, `p % d_y`; rasterizer.hh 340-352 and 403-414), when
the segment meets several rows and these parts run; and the divisors of every
scanline. -/
def add_line_dir_divisors (x_direction y_direction x_y_direction : Direction_)
    (x_0 y_0 x_1 y_1 : Int) : List Int :=
  let int_y_0 := y_0 / 256
  let int_y_1 := y_1 / 256
  (if int_y_0 = int_y_1 then
    []
  else
    let d_y := u32 (y_1 - y_0)
    let frac_y_0 := y_0 % 256
    let d_x := if x_y_direction = Direction_.positive then u32 (x_1 - x_0) else u32 (x_0 - x_1)
    let s0 := line_head x_direction y_direction x_y_direction x_0 y_0 d_x d_y
    (if frac_y_0 ≠ 0 then [d_y, d_y] else []) ++
      (if s0.int_y < int_y_1 then [d_y, d_y] else [])) ++
    (add_line_dir_scanlines x_direction y_direction x_y_direction x_0 y_0 x_1 y_1).flatMap
      Scanline_.divisors

/-- The divisors of the divisions and remainders that
`Rasterizer::add_line_(cell_proc, x_0, y_0, x_1, y_1)` executes: none for a
horizontal or a vertical segment, those of the `add_line_<...>` that it calls
otherwise. -/
def add_line_divisors (x_0 y_0 x_1 y_1 : Int) : List Int :=
  if y_0 = y_1 then
    []
  else if x_0 = x_1 then
    []
  else if x_1 > x_0 then
    if y_1 > y_0 then
      add_line_dir_divisors Direction_.positive Direction_.positive Direction_.positive
        x_0 y_0 x_1 y_1
    else
      add_line_dir_divisors Direction_.positive Direction_.negative Direction_.negative
        x_1 y_1 x_0 y_0
  else
    if y_1 > y_0 then
      add_line_dir_divisors Direction_.negative Direction_.positive Direction_.negative
        x_0 y_0 x_1 y_1
    else
      add_line_dir_divisors Direction_.negative Direction_.negative Direction_.positive
        x_1 y_1 x_0 y_0

/-- Invariant of the walk over the cells of one scanline, for a cell
processor that started at `(px, py)` and had emitted `E0` when the scanline
began: the processor is on row `int_y`, one column before `int_x` once a cell
has been emitted, and the cells emitted so far lie on row `int_y` in the
columns `int_x_0, int_x_0 + 1, ..., int_x - 1`, one each and in this order. -/
def Scan_cols (px py : Int) (E0 : List Emission) (int_y int_x_0 : Int) (s : Scan_) : Prop :=
  pos_y py s.calls = int_y ∧
  (s.cell_x_valid = true → pos_x px s.calls = s.int_x - 1) ∧
  (s.cell_x_valid = false → s.int_x = int_x_0) ∧
  ∃ L, emissions px py s.calls = E0 ++ L ∧ (∀ e ∈ L, e.y = int_y) ∧
    L.map (fun e => e.x) = (List.range L.length).map (fun i : Nat => int_x_0 + (i : Int)) ∧
    (L.length : Int) = s.int_x - int_x_0

end Rasterizer

end vgxx

namespace vgxx

/-- `Blender_base<Color>` for the four-byte `Color` of
`Color_blender_bgra_8888`.  A pointer is its offset in bytes from `img_data_`,
and `none` is `nullptr`; `std::size_t` is taken to be 64 bits wide.
Arithmetic on `nullptr` is undefined in the source and gives `nullptr`
here. -/
structure Blender_base where
  row_ : Option Int
  pixel_ : Option Int
  bytes_per_row_ : Nat
  deriving DecidableEq, Repr

namespace Blender_base

/-- `Blender_base(img_data, bytes_per_row)`. -/
def init (bytes_per_row : Nat) : Blender_base :=
  { row_ := none, pixel_ := none, bytes_per_row_ := bytes_per_row }

/-- `Blender_base::set_x(x)`: `pixel_ = row_ + x`, on `Color*`. -/
def set_x (b : Blender_base) (x : Int) : Blender_base :=
  { b with pixel_ := b.row_.map (fun p => p + 4 * x) }

/-- `Blender_base::set_y(y)`: the row at `bytes_per_row_ * static_cast<Size>(y)`
bytes from `img_data_`. -/
def set_y (b : Blender_base) (y : Int) : Blender_base :=
  { b with row_ := some (u64 ((b.bytes_per_row_ : Int) * u64 y)) }

/-- `Blender_base::inc_x()`. -/
def inc_x (b : Blender_base) : Blender_base :=
  { b with pixel_ := b.pixel_.map (fun p => p + 4) }

/-- `Blender_base::inc_y()`. -/
def inc_y (b : Blender_base) : Blender_base :=
  { b with row_ := b.row_.map (fun p => p + (b.bytes_per_row_ : Int)) }

end Blender_base

/-- A `Color_blender_bgra_8888` with its `Blender_base` sub-object and the
image it draws into: `img p` is the `Color` stored at the byte offset `p` from
`img_data_`. -/
structure Image_blender where
  base : Blender_base
  colors : Color_blender_bgra_8888
  img : Int → Nat

namespace Image_blender

/-- `Color_blender_bgra_8888(img_data, bytes_per_row)` on the image `img`. -/
def init (bytes_per_row : Nat) (img : Int → Nat) : Image_blender :=
  { base := Blender_base.init bytes_per_row, colors := Color_blender_bgra_8888.init,
    img := img }

/-- `Color_blender_bgra_8888::set_color(c)`. -/
def set_color (s : Image_blender) (c : Nat) : Image_blender :=
  { s with colors := s.colors.set_color c }

/-- One call of the sweep on the blender.  `blend(coverage)` writes the pixel
at `pixel()`; `none` when `pixel()` is `nullptr` (the `assert` of `blend`). -/
def call (s : Image_blender) : Blender_call → Option Image_blender
  | Blender_call.set_y y => some { s with base := s.base.set_y y }
  | Blender_call.set_x x => some { s with base := s.base.set_x x }
  | Blender_call.inc_x => some { s with base := s.base.inc_x }
  | Blender_call.inc_y => some { s with base := s.base.inc_y }
  | Blender_call.blend coverage =>
    match s.base.pixel_ with
    | none => none
    | some p =>
      some { s with
        img := fun q => if q = p then s.colors.blend (u32 coverage).toNat (s.img p) else s.img q }

/-- A sequence of calls of the sweep applied in order. -/
def run (s : Image_blender) : List Blender_call → Option Image_blender
  | [] => some s
  | c :: t => (s.call c).bind (fun s1 => run s1 t)

end Image_blender

/-- The byte offset from `img_data_` of the pixel `(x, y)` of an image with
`bytes_per_row` bytes per row. -/
def pixel_offset (bytes_per_row : Nat) (x y : Int) : Int := (bytes_per_row : Int) * y + 4 * x

/-- The image after the `blend` calls of a blend log, each applied to the
pixel of its column and row; an entry without column or row is skipped. -/
def paint (colors : Color_blender_bgra_8888) (bytes_per_row : Nat) :
    (Int → Nat) → List (Option Int × Option Int × Int) → (Int → Nat)
  | img, [] => img
  | img, (some x, some y, coverage) :: t =>
    paint colors bytes_per_row
      (fun q => if q = pixel_offset bytes_per_row x y then
          colors.blend (u32 coverage).toNat (img (pixel_offset bytes_per_row x y))
        else img q) t
  | img, _ :: t => paint colors bytes_per_row img t

end vgxx

namespace vgxx

/-! ### Call sequences and emissions -/

theorem cover_sum_append (a b : List Cell_call) :
    cover_sum (a ++ b) = cover_sum a + cover_sum b := by
  induction a with
  | nil => simp [cover_sum]
  | cons c t ih => cases c <;> simp [cover_sum, ih, add_assoc]

theorem pos_x_append (x : Int) (a b : List Cell_call) :
    pos_x x (a ++ b) = pos_x (pos_x x a) b := by
  induction a generalizing x with
  | nil => simp [pos_x]
  | cons c t ih => cases c <;> simp [pos_x, ih]

theorem pos_y_append (y : Int) (a b : List Cell_call) :
    pos_y y (a ++ b) = pos_y (pos_y y a) b := by
  induction a generalizing y with
  | nil => simp [pos_y]
  | cons c t ih => cases c <;> simp [pos_y, ih]

theorem emissions_append (x y : Int) (a b : List Cell_call) :
    emissions x y (a ++ b) = emissions x y a ++ emissions (pos_x x a) (pos_y y a) b := by
  induction a generalizing x y with
  | nil => simp [emissions, pos_x, pos_y]
  | cons c t ih => cases c <;> simp [emissions, pos_x, pos_y, ih]

theorem cover_total_append (a b : List Emission) :
    cover_total (a ++ b) = cover_total a + cover_total b := by
  induction a with
  | nil => simp [cover_total]
  | cons e t ih => simp [cover_total, ih, add_assoc]

theorem row_cover_append (r : Int) (a b : List Emission) :
    row_cover r (a ++ b) = row_cover r a + row_cover r b := by
  induction a with
  | nil => simp [row_cover]
  | cons e t ih => simp [row_cover, ih, add_assoc]

/-- On a list of emissions that all lie on row `int_y`, the cover of a row is
the whole cover on that row and nothing elsewhere. -/
theorem row_cover_of_row (r int_y : Int) (L : List Emission)
    (h : ∀ e ∈ L, e.y = int_y) :
    row_cover r L = if int_y = r then cover_total L else 0 := by
  induction L with
  | nil => simp [row_cover, cover_total]
  | cons e t ih =>
    have he : e.y = int_y := h e (List.mem_cons_self _ _)
    have ht : ∀ e ∈ t, e.y = int_y := fun e1 h1 => h e1 (List.mem_cons_of_mem _ h1)
    simp only [row_cover, cover_total, ih ht, he]
    split_ifs <;> simp

namespace Rasterizer

theorem Row_ext.refl (E0 : List Emission) (int_y lo hi : Int) :
    Row_ext E0 E0 int_y lo hi 0 :=
  ⟨[], by simp, by simp, by simp [cover_total]⟩

theorem Row_ext.snoc {E0 E : List Emission} {int_y lo hi cov : Int}
    (h : Row_ext E0 E int_y lo hi cov) (x cover area : Int) (hlo : lo ≤ x) (hhi : x ≤ hi) :
    Row_ext E0 (E ++ [⟨x, int_y, cover, area⟩]) int_y lo hi (cov + cover) := by
  obtain ⟨L, hE, hL, hc⟩ := h
  refine ⟨L ++ [⟨x, int_y, cover, area⟩], by simp [hE], ?_, ?_⟩
  · intro e he
    rcases List.mem_append.mp he with h1 | h1
    · exact hL e h1
    · simp at h1
      subst h1
      exact ⟨rfl, hlo, hhi⟩
  · simp [cover_total_append, cover_total, hc]

theorem Row_ext.mono {E0 E : List Emission} {int_y lo hi cov lo1 hi1 : Int}
    (h : Row_ext E0 E int_y lo hi cov) (hlo : lo1 ≤ lo) (hhi : hi ≤ hi1) :
    Row_ext E0 E int_y lo1 hi1 cov := by
  obtain ⟨L, hE, hL, hc⟩ := h
  exact ⟨L, hE, fun e he => ⟨(hL e he).1, by have := (hL e he).2.1; omega,
    by have := (hL e he).2.2; omega⟩, hc⟩

theorem Row_ext.cast {E0 E : List Emission} {int_y lo hi cov cov1 : Int}
    (h : Row_ext E0 E int_y lo hi cov) (hc : cov = cov1) :
    Row_ext E0 E int_y lo hi cov1 := hc ▸ h

end Rasterizer

end vgxx

namespace vgxx

namespace Rasterizer

/-! ### One scanline -/

theorem sgn_positive : sgn Direction_.positive = 1 := rfl

theorem sgn_negative : sgn Direction_.negative = -1 := rfl

theorem cover_eq_sgn (d : Direction_) (v : Int) :
    (if d = Direction_.positive then v else -v) = sgn d * v := by
  cases d <;> simp [sgn]

theorem annex_eq_sgn (d : Direction_) :
    (if d = Direction_.positive then (1 : Int) else -1) = sgn d := by
  cases d <;> simp [sgn]

/-- The rounded quotient and remainder used by both DDAs: towards zero for
the positive direction, away from zero for the negative one, with
`q * d + sgn * r = p` and `0 ≤ r < d` in both cases. -/
theorem dda_div (d : Direction_) (p d_x : Int) (hp : 0 ≤ p) (hd : 0 < d_x) :
    (if d = Direction_.negative ∧ Int.tmod p d_x ≠ 0 then Int.tdiv p d_x + 1
      else Int.tdiv p d_x) * d_x +
    sgn d * (if d = Direction_.negative ∧ Int.tmod p d_x ≠ 0 then d_x - Int.tmod p d_x
      else Int.tmod p d_x) = p ∧
    0 ≤ (if d = Direction_.negative ∧ Int.tmod p d_x ≠ 0 then d_x - Int.tmod p d_x
      else Int.tmod p d_x) ∧
    (if d = Direction_.negative ∧ Int.tmod p d_x ≠ 0 then d_x - Int.tmod p d_x
      else Int.tmod p d_x) < d_x := by
  rw [Int.tdiv_eq_ediv hp (le_of_lt hd), Int.tmod_eq_emod hp (le_of_lt hd)]
  have h1 := Int.emod_add_ediv p d_x
  have h2 := Int.emod_nonneg p (ne_of_gt hd)
  have h3 := Int.emod_lt_of_pos p hd
  cases d
  · simp only [sgn, reduceCtorEq, false_and, if_false]
    refine ⟨by linarith, h2, h3⟩
  · by_cases hz : p % d_x = 0
    · simp only [sgn, hz, ne_eq, not_true_eq_false, and_false, if_false]
      refine ⟨by rw [hz] at h1; linarith, le_refl _, hd⟩
    · simp only [sgn, ne_eq, hz, not_false_eq_true, and_self, if_true]
      refine ⟨by linarith, by omega, by omega⟩

theorem scan_entry_ok (d : Direction_) (px py : Int) (calls : List Cell_call)
    (int_y int_x_0 frac_x_0 d_x p : Int) (hp : 0 ≤ p) (hd : 0 < d_x)
    (hrow : pos_y py calls = int_y) :
    Scan_ok d px py (emissions px py calls) int_y int_x_0 d_x
      (if frac_x_0 ≠ 0 then p else 0) (scan_entry d calls int_x_0 frac_x_0 d_x p) ∧
    (scan_entry d calls int_x_0 frac_x_0 d_x p).int_x =
      (if frac_x_0 ≠ 0 then int_x_0 + 1 else int_x_0) ∧
    ((scan_entry d calls int_x_0 frac_x_0 d_x p).cell_x_valid = true ↔ frac_x_0 ≠ 0) := by
  obtain ⟨h1, h2, h3⟩ := dda_div d p d_x hp hd
  unfold scan_entry
  by_cases hf : frac_x_0 = 0
  · simp only [hf, ne_eq, not_true_eq_false, if_false]
    refine ⟨⟨hrow, by simp, ?_, le_refl _, hd, by simp⟩, trivial, by simp⟩
    exact (Row_ext.refl _ _ _ _).cast (by simp)
  · simp only [ne_eq, hf, not_false_eq_true, if_true]
    refine ⟨⟨?_, ?_, ?_, h2, h3, ?_⟩, trivial, by simp⟩
    · simp [pos_y_append, pos_y, hrow]
    · intro _
      simp [pos_x_append, pos_x]
    · rw [emissions_append]
      simp only [emissions, hrow, cover_eq_sgn]
      have := (Row_ext.refl (emissions px py calls) int_y int_x_0 (int_x_0 + 1 - 1)).snoc
        int_x_0 (sgn d * (if d = Direction_.negative ∧ Int.tmod p d_x ≠ 0 then
          Int.tdiv p d_x + 1 else Int.tdiv p d_x))
        (sgn d * (if d = Direction_.negative ∧ Int.tmod p d_x ≠ 0 then
          Int.tdiv p d_x + 1 else Int.tdiv p d_x) * (frac_x_0 + 256))
        (le_refl _) (by omega)
      exact this.cast (by simp)
    · simpa using h1

theorem scan_step_ok (d : Direction_) (px py : Int) (E0 : List Emission)
    (int_y int_x_0 d_x inc_y mod P K : Int) (s : Scan_)
    (hmod0 : 0 ≤ mod) (hmod1 : mod < d_x) (hP : inc_y * d_x + sgn d * mod = P)
    (hs : Scan_ok d px py E0 int_y int_x_0 d_x K s) (hx : int_x_0 ≤ s.int_x) :
    Scan_ok d px py E0 int_y int_x_0 d_x (K + P) (scan_step d d_x inc_y mod (sgn d) s) ∧
    (scan_step d d_x inc_y mod (sgn d) s).int_x = s.int_x + 1 ∧
    (scan_step d d_x inc_y mod (sgn d) s).cell_x_valid = true := by
  obtain ⟨hrow, hcol, hext, hr0, hr1, hdda⟩ := hs
  have hpos : pos_x px (s.calls ++
      [if s.cell_x_valid = true then Cell_call.inc_x else Cell_call.set_x s.int_x]) =
      s.int_x := by
    by_cases hv : s.cell_x_valid = true
    · simp [hv, pos_x_append, pos_x, hcol hv]
    · simp [hv, pos_x_append, pos_x]
  have hposy : pos_y py (s.calls ++
      [if s.cell_x_valid = true then Cell_call.inc_x else Cell_call.set_x s.int_x]) =
      int_y := by
    by_cases hv : s.cell_x_valid = true <;> simp [hv, pos_y_append, pos_y, hrow]
  have hnoem : emissions px py (s.calls ++
      [if s.cell_x_valid = true then Cell_call.inc_x else Cell_call.set_x s.int_x]) =
      emissions px py s.calls := by
    by_cases hv : s.cell_x_valid = true <;> simp [hv, emissions_append, emissions]
  unfold scan_step
  refine ⟨⟨?_, ?_, ?_, ?_, ?_, ?_⟩, rfl, rfl⟩
  · show pos_y py (s.calls ++ [_, _]) = int_y
    rw [show ∀ (a b : Cell_call), s.calls ++ [a, b] = (s.calls ++ [a]) ++ [b] by simp,
      pos_y_append, hposy]
    simp [pos_y]
  · intro _
    show pos_x px (s.calls ++ [_, _]) = s.int_x + 1 - 1
    rw [show ∀ (a b : Cell_call), s.calls ++ [a, b] = (s.calls ++ [a]) ++ [b] by simp,
      pos_x_append, hpos]
    simp [pos_x]
  · show Row_ext E0 (emissions px py (s.calls ++ [_, _])) int_y int_x_0 (s.int_x + 1 - 1) _
    rw [show ∀ (a b : Cell_call), s.calls ++ [a, b] = (s.calls ++ [a]) ++ [b] by simp,
      emissions_append, hpos, hposy, hnoem]
    simp only [emissions, cover_eq_sgn]
    have := (hext.mono (le_refl _) (show s.int_x - 1 ≤ s.int_x + 1 - 1 by omega)).snoc s.int_x
      (sgn d * (if s.rem + mod ≥ d_x then inc_y + sgn d else inc_y))
      (sgn d * (if s.rem + mod ≥ d_x then inc_y + sgn d else inc_y) * 256) hx (by omega)
    exact this.cast (by ring)
  · show 0 ≤ (if s.rem + mod ≥ d_x then s.rem + mod - d_x else s.rem + mod)
    split_ifs <;> omega
  · show (if s.rem + mod ≥ d_x then s.rem + mod - d_x else s.rem + mod) < d_x
    split_ifs <;> omega
  · show (s.y + (if s.rem + mod ≥ d_x then inc_y + sgn d else inc_y)) * d_x +
      sgn d * (if s.rem + mod ≥ d_x then s.rem + mod - d_x else s.rem + mod) = K + P
    split_ifs
    · linear_combination hdda + hP
    · linear_combination hdda + hP

end Rasterizer

end vgxx

namespace vgxx

namespace Rasterizer

theorem scan_cells_ok (d : Direction_) (px py : Int) (E0 : List Emission)
    (int_y int_x_0 int_x_1 d_x inc_y mod P : Int)
    (hmod0 : 0 ≤ mod) (hmod1 : mod < d_x) (hP : inc_y * d_x + sgn d * mod = P) :
    ∀ (fuel : Nat) (s : Scan_) (K : Int),
      Scan_ok d px py E0 int_y int_x_0 d_x K s → int_x_0 ≤ s.int_x →
      s.int_x + ((fuel : Int) + 1) = int_x_1 →
      Scan_ok d px py E0 int_y int_x_0 d_x (K + ((fuel : Int) + 1) * P)
        (scan_cells d int_x_1 d_x inc_y mod (sgn d) (fuel + 1) s) ∧
      (scan_cells d int_x_1 d_x inc_y mod (sgn d) (fuel + 1) s).int_x = int_x_1 ∧
      (scan_cells d int_x_1 d_x inc_y mod (sgn d) (fuel + 1) s).cell_x_valid = true := by
  intro fuel
  induction fuel with
  | zero =>
    intro s K hs hx hn
    obtain ⟨h1, h2, h3⟩ := scan_step_ok d px py E0 int_y int_x_0 d_x inc_y mod P K s
      hmod0 hmod1 hP hs hx
    have hnot : ¬ (scan_step d d_x inc_y mod (sgn d) s).int_x < int_x_1 := by
      rw [h2]; simp at hn; omega
    simp only [scan_cells, hnot, if_false]
    refine ⟨?_, by rw [h2]; simp at hn; omega, h3⟩
    simpa using h1
  | succ n ih =>
    intro s K hs hx hn
    obtain ⟨h1, h2, h3⟩ := scan_step_ok d px py E0 int_y int_x_0 d_x inc_y mod P K s
      hmod0 hmod1 hP hs hx
    have hlt : (scan_step d d_x inc_y mod (sgn d) s).int_x < int_x_1 := by
      rw [h2]; push_cast at hn; omega
    have hrec := ih (scan_step d d_x inc_y mod (sgn d) s) (K + P) h1 (by rw [h2]; omega)
      (by rw [h2]; push_cast at hn ⊢; omega)
    rw [scan_cells]
    simp only [hlt, if_true]
    refine ⟨?_, hrec.2.1, hrec.2.2⟩
    have hK : K + P + ((n : Int) + 1) * P = K + (((n + 1 : Nat) : Int) + 1) * P := by
      push_cast; ring
    rw [← hK]
    exact hrec.1

theorem scan_interior_ok (d : Direction_) (px py : Int) (E0 : List Emission)
    (int_y int_x_0 int_x_1 d_x p K : Int) (s : Scan_) (hp : 0 ≤ p) (hd : 0 < d_x)
    (hs : Scan_ok d px py E0 int_y int_x_0 d_x K s) (hx : int_x_0 ≤ s.int_x)
    (hle : s.int_x ≤ int_x_1) :
    Scan_ok d px py E0 int_y int_x_0 d_x (K + (int_x_1 - s.int_x) * p)
      (scan_interior d int_x_1 d_x p s) ∧
    (scan_interior d int_x_1 d_x p s).int_x = int_x_1 ∧
    ((scan_interior d int_x_1 d_x p s).cell_x_valid = true ↔
      (s.cell_x_valid = true ∨ s.int_x < int_x_1)) := by
  unfold scan_interior
  by_cases hlt : s.int_x < int_x_1
  · simp only [hlt, if_true, annex_eq_sgn]
    obtain ⟨h1, h2, h3⟩ := dda_div d p d_x hp hd
    obtain ⟨n, hn⟩ : ∃ n : Nat, (int_x_1 - s.int_x).toNat = n + 1 :=
      ⟨(int_x_1 - s.int_x).toNat - 1, by omega⟩
    have hn1 : s.int_x + ((n : Int) + 1) = int_x_1 := by omega
    have := scan_cells_ok d px py E0 int_y int_x_0 int_x_1 d_x _ _ p h2 h3 h1 n s K hs hx hn1
    rw [hn]
    refine ⟨?_, this.2.1, by simp [this.2.2, hlt]⟩
    have hK : (int_x_1 - s.int_x) = (n : Int) + 1 := by omega
    rw [hK]
    exact this.1
  · have heq : s.int_x = int_x_1 := by omega
    simp only [hlt, if_false]
    refine ⟨?_, heq, by simp [hlt]⟩
    have : K + (int_x_1 - s.int_x) * p = K := by rw [heq]; ring
    rw [this]
    exact hs

/-- An exact DDA that has covered the whole width has covered the whole
height: from `y * d_x ± rem = d_x * d_y` with `0 ≤ rem < d_x` follows
`y = d_y`. -/
theorem dda_exact (d : Direction_) (y rem d_x d_y : Int) (h0 : 0 ≤ rem) (h1 : rem < d_x)
    (h : y * d_x + sgn d * rem = d_x * d_y) : y = d_y := by
  by_contra hne
  cases d
  · simp only [sgn, one_mul] at h
    have h2 : (d_y - y) * d_x = rem := by linarith
    rcases lt_or_gt_of_ne hne with h3 | h3
    · have : d_x ≤ (d_y - y) * d_x := by nlinarith
      omega
    · have : (d_y - y) * d_x ≤ -d_x := by nlinarith
      omega
  · simp only [sgn] at h
    have h2 : (y - d_y) * d_x = rem := by linarith
    rcases lt_or_gt_of_ne hne with h3 | h3
    · have : (y - d_y) * d_x ≤ -d_x := by nlinarith
      omega
    · have : d_x ≤ (y - d_y) * d_x := by nlinarith
      omega

/-- The cells of one scanline: `add_scanline_` leaves the cell processor on
row `int_y` and emits, in the columns `int_x_0 .. int_x_1` of that row, cells
whose covers sum to `± d_y`. -/
theorem add_scanline_ok (d : Direction_) (px py : Int) (calls : List Cell_call)
    (int_y int_x_0 int_x_1 frac_x_0 frac_x_1 d_x d_y : Int)
    (hf0 : 0 ≤ frac_x_0) (hf0' : frac_x_0 < 256) (hf1 : 0 ≤ frac_x_1) (hf1' : frac_x_1 < 256)
    (hle : int_x_0 ≤ int_x_1)
    (hdx : d_x = 256 * int_x_1 + frac_x_1 - (256 * int_x_0 + frac_x_0)) (hdy : 0 ≤ d_y) :
    pos_y py (add_scanline_ d calls int_y int_x_0 int_x_1 frac_x_0 frac_x_1 d_x d_y) = int_y ∧
    Row_ext (emissions px py calls)
      (emissions px py
        (add_scanline_ d calls int_y int_x_0 int_x_1 frac_x_0 frac_x_1 d_x d_y))
      int_y int_x_0 int_x_1 (sgn d * d_y) := by
  have hrow : pos_y py (calls ++ [Cell_call.set_y int_y]) = int_y := by
    simp [pos_y_append, pos_y]
  have hem : emissions px py (calls ++ [Cell_call.set_y int_y]) = emissions px py calls := by
    simp [emissions_append, emissions]
  unfold add_scanline_
  by_cases heq : int_x_0 = int_x_1
  · simp only [heq, if_true]
    constructor
    · rw [pos_y_append, hrow]; simp [pos_y]
    · rw [emissions_append, hrow, hem]
      simp only [emissions, cover_eq_sgn]
      exact ((Row_ext.refl _ int_y int_x_1 int_x_1).snoc int_x_1 _ _ (le_refl _)
        (le_refl _)).cast (by ring)
  · simp only [heq, if_false]
    have hlt : int_x_0 < int_x_1 := by omega
    have hd : 0 < d_x := by omega
    have hp : 0 ≤ (256 - frac_x_0) * d_y := mul_nonneg (by omega) hdy
    obtain ⟨e1, e2, e3⟩ := scan_entry_ok d px py (calls ++ [Cell_call.set_y int_y]) int_y
      int_x_0 frac_x_0 d_x ((256 - frac_x_0) * d_y) hp hd hrow
    rw [hem] at e1
    have hx1 : int_x_0 ≤ (scan_entry d (calls ++ [Cell_call.set_y int_y]) int_x_0 frac_x_0 d_x
        ((256 - frac_x_0) * d_y)).int_x := by
      rw [e2]; split_ifs <;> omega
    have hx2 : (scan_entry d (calls ++ [Cell_call.set_y int_y]) int_x_0 frac_x_0 d_x
        ((256 - frac_x_0) * d_y)).int_x ≤ int_x_1 := by
      rw [e2]; split_ifs <;> omega
    obtain ⟨i1, i2, i3⟩ := scan_interior_ok d px py (emissions px py calls) int_y int_x_0
      int_x_1 d_x (d_y * 256) _ _ (by omega) hd e1 hx1 hx2
    have hvalid : (scan_interior d int_x_1 d_x (d_y * 256)
        (scan_entry d (calls ++ [Cell_call.set_y int_y]) int_x_0 frac_x_0 d_x
          ((256 - frac_x_0) * d_y))).cell_x_valid = true := by
      rw [i3, e3, e2]
      by_cases hf : frac_x_0 = 0
      · right; simp [hf, hlt]
      · left; exact hf
    have hK : (if frac_x_0 ≠ 0 then (256 - frac_x_0) * d_y else 0) +
        (int_x_1 - (scan_entry d (calls ++ [Cell_call.set_y int_y]) int_x_0 frac_x_0 d_x
          ((256 - frac_x_0) * d_y)).int_x) * (d_y * 256) = (d_x - frac_x_1) * d_y := by
      rw [e2, hdx]
      split_ifs with hf
      · ring
      · simp at hf; rw [hf]; ring
    rw [hK] at i1
    generalize scan_interior d int_x_1 d_x (d_y * 256)
        (scan_entry d (calls ++ [Cell_call.set_y int_y]) int_x_0 frac_x_0 d_x
          ((256 - frac_x_0) * d_y)) = s at i1 i2 hvalid
    obtain ⟨srow, scol, sext, sr0, sr1, sdda⟩ := i1
    rw [i2] at sext scol
    unfold scan_exit
    by_cases hf1z : frac_x_1 = 0
    · simp only [hf1z, ne_eq, not_true_eq_false, if_false]
      have hy : s.y = d_y := by
        apply dda_exact d s.y s.rem d_x d_y sr0 sr1
        rw [sdda, hf1z]; ring
      rw [hy] at sext
      exact ⟨srow, sext.mono (le_refl _) (by omega)⟩
    · simp only [ne_eq, hf1z, not_false_eq_true, if_true]
      by_cases hdz : d_y - s.y = 0
      · simp only [hdz, not_true_eq_false, if_false]
        have hy : s.y = d_y := by omega
        rw [hy] at sext
        exact ⟨srow, sext.mono (le_refl _) (by omega)⟩
      · simp only [hdz, not_false_eq_true, if_true]
        constructor
        · rw [pos_y_append, srow]; simp [pos_y]
        · rw [emissions_append, srow]
          simp only [emissions, scol hvalid, cover_eq_sgn, List.append_nil]
          have := (sext.mono (le_refl _) (show int_x_1 - 1 ≤ int_x_1 by omega)).snoc
            (int_x_1 - 1 + 1) (sgn d * (d_y - s.y)) (sgn d * (d_y - s.y) * frac_x_1)
            (by omega) (by omega)
          exact this.cast (by ring)

end Rasterizer

end vgxx

namespace vgxx

namespace Rasterizer

/-! ### Segments that are neither horizontal nor vertical -/

theorem Rows_ok.nil (sg y_a lo hi : Int) : Rows_ok [] sg y_a y_a lo hi :=
  ⟨by simp [cover_total], fun r => by simp [row_cover], by simp⟩

/-- Extending the accounted extent from `y_b` to `y_c` by the cells of one
row. -/
theorem Rows_ok.extend {E0 E : List Emission} {sg y_a y_b lo hi : Int}
    (h : Rows_ok E0 sg y_a y_b lo hi) (int_y lo1 hi1 y_c : Int)
    (hext : Row_ext E0 E int_y lo1 hi1 (sg * (y_c - y_b)))
    (hlo : lo ≤ lo1) (hhi : hi1 ≤ hi) (hab : y_a ≤ y_b) (hbc : y_b < y_c)
    (hrow0 : 256 * int_y ≤ y_b) (hrow1 : y_c ≤ 256 * int_y + 256) :
    Rows_ok E sg y_a y_c lo hi := by
  obtain ⟨L, hE, hL, hc⟩ := hext
  subst hE
  refine ⟨?_, ?_, ?_⟩
  · rw [cover_total_append, h.total, hc]; ring
  · intro r
    rw [row_cover_append, h.rows r, row_cover_of_row r int_y L (fun e he => (hL e he).1), hc]
    have hcl : clamp_row r y_c - clamp_row r y_b = if int_y = r then y_c - y_b else 0 := by
      unfold clamp_row
      split_ifs <;> omega
    split_ifs with hr
    · rw [if_pos hr] at hcl
      linear_combination (-sg) * hcl
    · rw [if_neg hr] at hcl
      linear_combination (-sg) * hcl
  · intro e he
    rcases List.mem_append.mp he with h1 | h1
    · have := h.box e h1
      omega
    · have := hL e h1
      omega

theorem line_row_eq (d : Direction_) (calls : List Cell_call)
    (int_y int_left_x int_right_x frac_left_x frac_right_x delta_x : Int) :
    line_row d calls int_y int_left_x int_right_x frac_left_x frac_right_x delta_x =
      add_scanline_ d calls int_y int_left_x int_right_x frac_left_x frac_right_x delta_x
        256 := by
  unfold line_row add_scanline_
  by_cases h : int_left_x = int_right_x
  · cases d <;> simp [h] <;> ring
  · simp [h]

/-- An exact DDA stays inside the segment: the advance in `x` lies between 0
and `d_x` while the advance in `y` lies between 0 and `d_y`. -/
theorem adv_bounds (xd : Direction_) (adv rem d_x d_y dlt : Int)
    (h : adv * d_y + sgn xd * rem = d_x * dlt) (hr0 : 0 ≤ rem) (hr1 : rem < d_y)
    (hd0 : 0 ≤ dlt) (hd1 : dlt ≤ d_y) (hdx : 0 ≤ d_x) : 0 ≤ adv ∧ adv ≤ d_x := by
  have h1 : 0 ≤ d_x * dlt := mul_nonneg hdx hd0
  have h2 : d_x * dlt ≤ d_x * d_y := mul_le_mul_of_nonneg_left hd1 hdx
  cases xd
  · simp only [sgn, one_mul] at h
    constructor
    · by_contra hc
      have : adv * d_y ≤ -d_y := by nlinarith
      omega
    · by_contra hc
      have : (d_x + 1) * d_y ≤ adv * d_y := by nlinarith
      nlinarith
  · simp only [sgn] at h
    constructor
    · by_contra hc
      have : adv * d_y ≤ -d_y := by nlinarith
      nlinarith
    · by_contra hc
      have : (d_x + 1) * d_y ≤ adv * d_y := by nlinarith
      nlinarith

end Rasterizer

end vgxx

namespace vgxx

namespace Rasterizer

/-- The DDA step in `x` of the scanline loop: the step is non-negative, the
remainder stays in `[0, d_y)` and exactness is preserved. -/
theorem line_dda_step (xd : Direction_) (rem d_x d_y inc_x mod : Int)
    (hdy32 : d_y < 2147483648)
    (hr0 : 0 ≤ rem) (hr1 : rem < d_y)
    (hmod0 : 0 ≤ mod) (hmod1 : mod < d_y) (hinc : inc_x * d_y + sgn xd * mod = 256 * d_x)
    (hinc0 : 0 ≤ inc_x) (hinc1 : xd = Direction_.negative → 0 < mod → 0 < inc_x) :
    0 ≤ (if u32 (rem + mod) ≥ d_y then inc_x + sgn xd else inc_x) ∧
    0 ≤ (if u32 (rem + mod) ≥ d_y then u32 (u32 (rem + mod) - d_y) else u32 (rem + mod)) ∧
    (if u32 (rem + mod) ≥ d_y then u32 (u32 (rem + mod) - d_y) else u32 (rem + mod)) < d_y ∧
    (if u32 (rem + mod) ≥ d_y then inc_x + sgn xd else inc_x) * d_y +
      sgn xd * (if u32 (rem + mod) ≥ d_y then u32 (u32 (rem + mod) - d_y)
        else u32 (rem + mod)) = 256 * d_x + sgn xd * rem := by
  have hu : u32 (rem + mod) = rem + mod := by unfold u32; omega
  rw [hu]
  by_cases hc : rem + mod ≥ d_y
  · have hu2 : u32 (rem + mod - d_y) = rem + mod - d_y := by unfold u32; omega
    simp only [hc, if_true, hu2]
    refine ⟨?_, by omega, by omega, by linear_combination hinc⟩
    cases xd
    · simp only [sgn]; omega
    · have := hinc1 rfl (by omega)
      simp only [sgn]; omega
  · simp only [hc, if_false]
    exact ⟨hinc0, by omega, by omega, by linear_combination hinc⟩

theorem sgn_mul_self (d : Direction_) : sgn d * sgn d = 1 := by
  cases d <;> simp [sgn]

theorem line_step_ok (xd yd xyd : Direction_) (px py x_0 y_0 x_1 d_x d_y inc_x mod : Int)
    (s : Line_) (hdx : 0 < d_x) (_hdy : 0 < d_y) (hdy32 : d_y < 2147483648)
    (hx1 : x_1 = x_0 + sgn xyd * d_x)
    (hmod0 : 0 ≤ mod) (hmod1 : mod < d_y) (hinc : inc_x * d_y + sgn xd * mod = 256 * d_x)
    (hinc0 : 0 ≤ inc_x) (hinc1 : xd = Direction_.negative → 0 < mod → 0 < inc_x)
    (hs : Line_ok xd yd xyd px py x_0 y_0 d_x d_y (min x_0 x_1 / 256) (max x_0 x_1 / 256) s)
    (hy0 : y_0 ≤ 256 * s.int_y) (hy1 : 256 * (s.int_y + 1) ≤ y_0 + d_y) :
    Line_ok xd yd xyd px py x_0 y_0 d_x d_y (min x_0 x_1 / 256) (max x_0 x_1 / 256)
      (line_step yd xyd d_y inc_x mod (sgn xd) s) ∧
    (line_step yd xyd d_y inc_x mod (sgn xd) s).int_y = s.int_y + 1 := by
  obtain ⟨hix, hfx, hr0, hr1, hdda, hcells⟩ := hs
  obtain ⟨k1, k2, k3, k4⟩ := line_dda_step xd s.rem d_x d_y inc_x mod hdy32 hr0 hr1 hmod0 hmod1
    hinc hinc0 hinc1
  unfold line_step
  generalize (if u32 (s.rem + mod) ≥ d_y then inc_x + sgn xd else inc_x) = delta_x at k1 k4 ⊢
  generalize (if u32 (s.rem + mod) ≥ d_y then u32 (u32 (s.rem + mod) - d_y)
    else u32 (s.rem + mod)) = rem1 at k2 k3 k4 ⊢
  refine ⟨?_, rfl⟩
  have hb0 := adv_bounds xd (sgn xyd * (s.x - x_0)) s.rem d_x d_y (256 * s.int_y - y_0) hdda
    hr0 hr1 (by omega) (by omega) (le_of_lt hdx)
  cases xyd
  · simp only [sgn_positive, one_mul] at hdda hx1 hb0
    simp only [if_true]
    have hdda1 : sgn Direction_.positive * (s.x + delta_x - x_0) * d_y + sgn xd * rem1 =
        d_x * (256 * (s.int_y + 1) - y_0) := by
      simp only [sgn_positive, one_mul]
      linear_combination hdda + k4
    have hb1 := adv_bounds xd (sgn Direction_.positive * (s.x + delta_x - x_0)) rem1 d_x d_y
      (256 * (s.int_y + 1) - y_0) hdda1 k2 k3 (by omega) (by omega) (le_of_lt hdx)
    simp only [sgn_positive, one_mul] at hb1
    refine ⟨rfl, rfl, k2, k3, hdda1, ?_⟩
    show Rows_ok (emissions px py (line_row yd s.calls s.int_y s.int_x ((s.x + delta_x) / 256)
      s.frac_x ((s.x + delta_x) % 256) delta_x)) _ _ _ _ _
    rw [line_row_eq]
    have hsc := add_scanline_ok yd px py s.calls s.int_y s.int_x ((s.x + delta_x) / 256)
      s.frac_x ((s.x + delta_x) % 256) delta_x 256 (by omega) (by omega) (by omega) (by omega)
      (by omega) (by omega) (by omega)
    exact hcells.extend s.int_y _ _ (256 * (s.int_y + 1)) (hsc.2.cast (by ring))
      (by omega) (by omega) hy0 (by omega) (le_refl _) (by omega)
  · simp only [sgn_negative] at hdda hx1 hb0
    simp only [reduceCtorEq, if_false]
    have hdda1 : sgn Direction_.negative * (s.x - delta_x - x_0) * d_y + sgn xd * rem1 =
        d_x * (256 * (s.int_y + 1) - y_0) := by
      simp only [sgn_negative]
      linear_combination hdda + k4
    have hb1 := adv_bounds xd (sgn Direction_.negative * (s.x - delta_x - x_0)) rem1 d_x d_y
      (256 * (s.int_y + 1) - y_0) hdda1 k2 k3 (by omega) (by omega) (le_of_lt hdx)
    simp only [sgn_negative] at hb1
    refine ⟨rfl, rfl, k2, k3, hdda1, ?_⟩
    show Rows_ok (emissions px py (line_row yd s.calls s.int_y ((s.x - delta_x) / 256) s.int_x
      ((s.x - delta_x) % 256) s.frac_x delta_x)) _ _ _ _ _
    rw [line_row_eq]
    have hsc := add_scanline_ok yd px py s.calls s.int_y ((s.x - delta_x) / 256) s.int_x
      ((s.x - delta_x) % 256) s.frac_x delta_x 256 (by omega) (by omega) (by omega) (by omega)
      (by omega) (by omega) (by omega)
    exact hcells.extend s.int_y _ _ (256 * (s.int_y + 1)) (hsc.2.cast (by ring))
      (by omega) (by omega) hy0 (by omega) (le_refl _) (by omega)

end Rasterizer

end vgxx

namespace vgxx

namespace Rasterizer

/-- The rounded quotient and remainder of the DDA in `x`, computed in
unsigned 32-bit arithmetic: no conversion changes a value when the quotient
fits 31 bits, and `q * d_y ± r = p` with `0 ≤ r < d_y`. -/
theorem line_dda_div (xd : Direction_) (p d_y : Int) (hp : 0 ≤ p) (hd : 0 < d_y)
    (hd32 : d_y < 2147483648) (hq : p / d_y < 2147483648) :
    (if xd = Direction_.negative ∧ u32 (p % d_y) ≠ 0 then i32 (p / d_y) + 1
      else i32 (p / d_y)) * d_y +
    sgn xd * (if xd = Direction_.negative ∧ u32 (p % d_y) ≠ 0 then u32 (d_y - u32 (p % d_y))
      else u32 (p % d_y)) = p ∧
    0 ≤ (if xd = Direction_.negative ∧ u32 (p % d_y) ≠ 0 then u32 (d_y - u32 (p % d_y))
      else u32 (p % d_y)) ∧
    (if xd = Direction_.negative ∧ u32 (p % d_y) ≠ 0 then u32 (d_y - u32 (p % d_y))
      else u32 (p % d_y)) < d_y ∧
    0 ≤ (if xd = Direction_.negative ∧ u32 (p % d_y) ≠ 0 then i32 (p / d_y) + 1
      else i32 (p / d_y)) ∧
    (xd = Direction_.negative →
      0 < (if xd = Direction_.negative ∧ u32 (p % d_y) ≠ 0 then u32 (d_y - u32 (p % d_y))
        else u32 (p % d_y)) →
      0 < (if xd = Direction_.negative ∧ u32 (p % d_y) ≠ 0 then i32 (p / d_y) + 1
        else i32 (p / d_y))) := by
  have h1 := Int.emod_add_ediv p d_y
  have h2 := Int.emod_nonneg p (ne_of_gt hd)
  have h3 := Int.emod_lt_of_pos p hd
  have h4 : 0 ≤ p / d_y := Int.ediv_nonneg hp (le_of_lt hd)
  have hu : u32 (p % d_y) = p % d_y := by unfold u32; omega
  have hi : i32 (p / d_y) = p / d_y := by unfold i32; omega
  rw [hu, hi]
  cases xd
  · simp only [sgn_positive, reduceCtorEq, false_and, if_false, one_mul]
    exact ⟨by linarith, h2, h3, h4, fun h => by simp at h⟩
  · by_cases hz : p % d_y = 0
    · simp only [sgn_negative, hz, ne_eq, not_true_eq_false, and_false, if_false]
      exact ⟨by rw [hz] at h1; linarith, le_refl _, hd, h4, fun _ h => by omega⟩
    · have hu2 : u32 (d_y - p % d_y) = d_y - p % d_y := by unfold u32; omega
      simp only [sgn_negative, ne_eq, hz, not_false_eq_true, and_self, if_true, hu2]
      exact ⟨by linarith, by omega, by omega, by omega, fun _ _ => by omega⟩

theorem line_rows_ok (xd yd xyd : Direction_) (px py x_0 y_0 x_1 d_x d_y inc_x mod : Int)
    (int_y_1 : Int) (hdx : 0 < d_x) (hdy : 0 < d_y) (hdy32 : d_y < 2147483648)
    (hx1 : x_1 = x_0 + sgn xyd * d_x)
    (hmod0 : 0 ≤ mod) (hmod1 : mod < d_y) (hinc : inc_x * d_y + sgn xd * mod = 256 * d_x)
    (hinc0 : 0 ≤ inc_x) (hinc1 : xd = Direction_.negative → 0 < mod → 0 < inc_x)
    (hy1 : 256 * int_y_1 ≤ y_0 + d_y) :
    ∀ (fuel : Nat) (s : Line_),
      Line_ok xd yd xyd px py x_0 y_0 d_x d_y (min x_0 x_1 / 256) (max x_0 x_1 / 256) s →
      y_0 ≤ 256 * s.int_y → s.int_y + ((fuel : Int) + 1) = int_y_1 →
      Line_ok xd yd xyd px py x_0 y_0 d_x d_y (min x_0 x_1 / 256) (max x_0 x_1 / 256)
        (line_rows yd xyd int_y_1 d_y inc_x mod (sgn xd) (fuel + 1) s) ∧
      (line_rows yd xyd int_y_1 d_y inc_x mod (sgn xd) (fuel + 1) s).int_y = int_y_1 := by
  intro fuel
  induction fuel with
  | zero =>
    intro s hs hy0 hn
    obtain ⟨h1, h2⟩ := line_step_ok xd yd xyd px py x_0 y_0 x_1 d_x d_y inc_x mod s hdx hdy
      hdy32 hx1 hmod0 hmod1 hinc hinc0 hinc1 hs hy0 (by simp at hn; omega)
    have hnot : ¬ (line_step yd xyd d_y inc_x mod (sgn xd) s).int_y < int_y_1 := by
      rw [h2]; simp at hn; omega
    simp only [line_rows, hnot, if_false]
    exact ⟨h1, by rw [h2]; simp at hn; omega⟩
  | succ n ih =>
    intro s hs hy0 hn
    obtain ⟨h1, h2⟩ := line_step_ok xd yd xyd px py x_0 y_0 x_1 d_x d_y inc_x mod s hdx hdy
      hdy32 hx1 hmod0 hmod1 hinc hinc0 hinc1 hs hy0 (by push_cast at hn; omega)
    have hlt : (line_step yd xyd d_y inc_x mod (sgn xd) s).int_y < int_y_1 := by
      rw [h2]; push_cast at hn; omega
    rw [line_rows]
    simp only [hlt, if_true]
    exact ih _ h1 (by rw [h2]; omega) (by rw [h2]; push_cast at hn ⊢; omega)

theorem line_body_ok (xd yd xyd : Direction_) (px py x_0 y_0 x_1 d_x d_y int_y_1 : Int)
    (s : Line_) (hdx : 0 < d_x) (hdx32 : d_x < 2147483648) (hdy : 0 < d_y)
    (hdy32 : d_y < 2147483648) (hx1 : x_1 = x_0 + sgn xyd * d_x)
    (hy1 : 256 * int_y_1 ≤ y_0 + d_y)
    (hs : Line_ok xd yd xyd px py x_0 y_0 d_x d_y (min x_0 x_1 / 256) (max x_0 x_1 / 256) s)
    (hy0 : y_0 ≤ 256 * s.int_y) (hle : s.int_y ≤ int_y_1) :
    Line_ok xd yd xyd px py x_0 y_0 d_x d_y (min x_0 x_1 / 256) (max x_0 x_1 / 256)
      (line_body xd yd xyd int_y_1 d_x d_y s) ∧
    (line_body xd yd xyd int_y_1 d_x d_y s).int_y = int_y_1 := by
  unfold line_body
  by_cases hlt : s.int_y < int_y_1
  · simp only [hlt, if_true, annex_eq_sgn]
    have hp : (if 0x1000000 > d_x then u32 (d_x * 256) else u64 (d_x * 256)) = 256 * d_x := by
      unfold u32 u64
      split_ifs <;> omega
    rw [hp]
    have hq : 256 * d_x / d_y < 2147483648 := by
      have : 256 * d_x / d_y ≤ d_x :=
        Int.ediv_le_of_le_mul hdy (by nlinarith)
      omega
    obtain ⟨k1, k2, k3, k4, k5⟩ := line_dda_div xd (256 * d_x) d_y (by omega) hdy hdy32 hq
    obtain ⟨n, hn⟩ : ∃ n : Nat, (int_y_1 - s.int_y).toNat = n + 1 :=
      ⟨(int_y_1 - s.int_y).toNat - 1, by omega⟩
    rw [hn]
    exact line_rows_ok xd yd xyd px py x_0 y_0 x_1 d_x d_y _ _ int_y_1 hdx hdy hdy32 hx1
      k2 k3 k1 k4 k5 hy1 n s hs hy0 (by omega)
  · simp only [hlt, if_false]
    exact ⟨hs, by omega⟩

theorem line_head_ok (xd yd xyd : Direction_) (px py x_0 y_0 x_1 d_x d_y : Int)
    (hdx : 0 < d_x) (hdx32 : d_x < 2147483648) (hdy : 0 < d_y)
    (hdy32 : d_y < 2147483648) (hx1 : x_1 = x_0 + sgn xyd * d_x)
    (hrows : y_0 / 256 ≠ (y_0 + d_y) / 256) :
    Line_ok xd yd xyd px py x_0 y_0 d_x d_y (min x_0 x_1 / 256) (max x_0 x_1 / 256)
      (line_head xd yd xyd x_0 y_0 d_x d_y) ∧
    y_0 ≤ 256 * (line_head xd yd xyd x_0 y_0 d_x d_y).int_y ∧
    256 * (line_head xd yd xyd x_0 y_0 d_x d_y).int_y ≤ y_0 + 256 := by
  unfold line_head
  by_cases hf : y_0 % 256 = 0
  · simp only [hf, ne_eq, not_true_eq_false, if_false]
    have hy : 256 * (y_0 / 256) = y_0 := by omega
    refine ⟨⟨rfl, rfl, le_refl _, hdy, ?_, ?_⟩, by omega, by omega⟩
    · simp only [hy]; ring
    · simp only [emissions, hy]
      exact Rows_ok.nil _ _ _ _
  · simp only [ne_eq, hf, not_false_eq_true, if_true]
    have hdl : 256 - y_0 % 256 ≤ d_y := by omega
    have hud : u32 (256 - y_0 % 256) = 256 - y_0 % 256 := by unfold u32; omega
    have hpp : 0 ≤ d_x * (256 - y_0 % 256) := mul_nonneg (le_of_lt hdx) (by omega)
    have hple : d_x * (256 - y_0 % 256) ≤ d_x * 256 :=
      mul_le_mul_of_nonneg_left (by omega) (le_of_lt hdx)
    have hp : (if 0x1000000 > d_x then u32 (d_x * u32 (256 - y_0 % 256))
        else u64 (d_x * u32 (256 - y_0 % 256))) = d_x * (256 - y_0 % 256) := by
      rw [hud]
      unfold u32 u64
      split_ifs <;> omega
    rw [hp]
    have hq : d_x * (256 - y_0 % 256) / d_y < 2147483648 := by
      have : d_x * (256 - y_0 % 256) / d_y ≤ d_x :=
        Int.ediv_le_of_le_mul hdy (mul_le_mul_of_nonneg_left hdl (le_of_lt hdx))
      omega
    obtain ⟨k1, k2, k3, k4, _⟩ := line_dda_div xd (d_x * (256 - y_0 % 256)) d_y hpp hdy hdy32 hq
    generalize (if xd = Direction_.negative ∧ u32 (d_x * (256 - y_0 % 256) % d_y) ≠ 0 then
      i32 (d_x * (256 - y_0 % 256) / d_y) + 1 else i32 (d_x * (256 - y_0 % 256) / d_y)) =
      delta_x at k1 k4 ⊢
    generalize (if xd = Direction_.negative ∧ u32 (d_x * (256 - y_0 % 256) % d_y) ≠ 0 then
      u32 (d_y - u32 (d_x * (256 - y_0 % 256) % d_y)) else u32 (d_x * (256 - y_0 % 256) % d_y)) =
      rem1 at k1 k2 k3 ⊢
    have hY : 256 * (y_0 / 256 + 1) - y_0 = 256 - y_0 % 256 := by omega
    refine ⟨?_, by omega, by omega⟩
    cases xyd
    · simp only [sgn_positive, one_mul] at hx1
      simp only [if_true]
      have hdda1 : sgn Direction_.positive * (x_0 + delta_x - x_0) * d_y + sgn xd * rem1 =
          d_x * (256 * (y_0 / 256 + 1) - y_0) := by
        rw [hY]; simp only [sgn_positive, one_mul]
        linear_combination k1
      have hb1 := adv_bounds xd (sgn Direction_.positive * (x_0 + delta_x - x_0)) rem1 d_x d_y
        (256 * (y_0 / 256 + 1) - y_0) hdda1 k2 k3 (by omega) (by omega) (le_of_lt hdx)
      simp only [sgn_positive, one_mul] at hb1
      refine ⟨rfl, rfl, k2, k3, hdda1, ?_⟩
      have hsc := add_scanline_ok yd px py [] (y_0 / 256) (x_0 / 256) ((x_0 + delta_x) / 256)
        (x_0 % 256) ((x_0 + delta_x) % 256) (x_0 + delta_x - x_0) (256 - y_0 % 256)
        (by omega) (by omega) (by omega) (by omega) (by omega) (by omega) (by omega)
      exact (Rows_ok.nil (sgn yd) y_0 _ _).extend (y_0 / 256) _ _ (256 * (y_0 / 256 + 1))
        (hsc.2.cast (by rw [hY])) (by omega) (by omega) (le_refl _) (by omega) (by omega)
        (by omega)
    · simp only [sgn_negative] at hx1
      simp only [reduceCtorEq, if_false]
      have hdda1 : sgn Direction_.negative * (x_0 - delta_x - x_0) * d_y + sgn xd * rem1 =
          d_x * (256 * (y_0 / 256 + 1) - y_0) := by
        rw [hY]; simp only [sgn_negative]
        linear_combination k1
      have hb1 := adv_bounds xd (sgn Direction_.negative * (x_0 - delta_x - x_0)) rem1 d_x d_y
        (256 * (y_0 / 256 + 1) - y_0) hdda1 k2 k3 (by omega) (by omega) (le_of_lt hdx)
      simp only [sgn_negative] at hb1
      refine ⟨rfl, rfl, k2, k3, hdda1, ?_⟩
      have hsc := add_scanline_ok yd px py [] (y_0 / 256) ((x_0 - delta_x) / 256) (x_0 / 256)
        ((x_0 - delta_x) % 256) (x_0 % 256) (x_0 - (x_0 - delta_x)) (256 - y_0 % 256)
        (by omega) (by omega) (by omega) (by omega) (by omega) (by omega) (by omega)
      exact (Rows_ok.nil (sgn yd) y_0 _ _).extend (y_0 / 256) _ _ (256 * (y_0 / 256 + 1))
        (hsc.2.cast (by rw [hY])) (by omega) (by omega) (le_refl _) (by omega) (by omega)
        (by omega)

end Rasterizer

end vgxx

namespace vgxx

namespace Rasterizer

/-- The cells of a segment that is neither horizontal nor vertical, walked
with `y` increasing from `(x_0, y_0)` to `(x_1, y_1)`: they account for the
extent from `y_0` to `y_1` and lie in the columns of the segment. -/
theorem add_line_dir_ok (xd yd xyd : Direction_) (px py x_0 y_0 x_1 y_1 : Int)
    (hy : y_0 < y_1) (hy32 : y_1 - y_0 < 2147483648)
    (hx : 0 < sgn xyd * (x_1 - x_0)) (hx32 : sgn xyd * (x_1 - x_0) < 2147483648) :
    Rows_ok (emissions px py (add_line_dir xd yd xyd x_0 y_0 x_1 y_1)) (sgn yd) y_0 y_1
      (min x_0 x_1 / 256) (max x_0 x_1 / 256) := by
  unfold add_line_dir
  by_cases hrow : y_0 / 256 = y_1 / 256
  · simp only [hrow, if_true]
    cases xyd
    · simp only [sgn_positive, one_mul] at hx
      simp only [if_true]
      have hsc := add_scanline_ok yd px py [] (y_1 / 256) (x_0 / 256) (x_1 / 256)
        (x_0 % 256) (x_1 % 256) (x_1 - x_0) (y_1 - y_0)
        (by omega) (by omega) (by omega) (by omega) (by omega) (by omega) (by omega)
      exact (Rows_ok.nil (sgn yd) y_0 _ _).extend (y_1 / 256) _ _ y_1 hsc.2
        (by omega) (by omega) (le_refl _) hy (by omega) (by omega)
    · simp only [sgn_negative] at hx
      simp only [reduceCtorEq, if_false]
      have hsc := add_scanline_ok yd px py [] (y_1 / 256) (x_1 / 256) (x_0 / 256)
        (x_1 % 256) (x_0 % 256) (x_0 - x_1) (y_1 - y_0)
        (by omega) (by omega) (by omega) (by omega) (by omega) (by omega) (by omega)
      exact (Rows_ok.nil (sgn yd) y_0 _ _).extend (y_1 / 256) _ _ y_1 hsc.2
        (by omega) (by omega) (le_refl _) hy (by omega) (by omega)
  · simp only [hrow, if_false]
    have hdy : u32 (y_1 - y_0) = y_1 - y_0 := by unfold u32; omega
    have hdx : (if xyd = Direction_.positive then u32 (x_1 - x_0) else u32 (x_0 - x_1)) =
        sgn xyd * (x_1 - x_0) := by
      cases xyd
      · simp only [sgn_positive, one_mul] at hx hx32
        simp only [if_true, sgn_positive, one_mul]; unfold u32; omega
      · simp only [sgn_negative] at hx hx32
        simp only [reduceCtorEq, if_false, sgn_negative]; unfold u32; omega
    rw [hdy, hdx]
    have hx1 : x_1 = x_0 + sgn xyd * (sgn xyd * (x_1 - x_0)) := by
      rw [← mul_assoc, sgn_mul_self]; ring
    obtain ⟨a1, a2, a3⟩ := line_head_ok xd yd xyd px py x_0 y_0 x_1 (sgn xyd * (x_1 - x_0))
      (y_1 - y_0) hx hx32 (by omega) hy32 hx1
      (by rw [show y_0 + (y_1 - y_0) = y_1 by ring]; exact hrow)
    obtain ⟨b1, b2⟩ := line_body_ok xd yd xyd px py x_0 y_0 x_1 (sgn xyd * (x_1 - x_0))
      (y_1 - y_0) (y_1 / 256) _ hx hx32 (by omega) hy32 hx1 (by omega) a1 a2 (by omega)
    generalize line_body xd yd xyd (y_1 / 256) (sgn xyd * (x_1 - x_0)) (y_1 - y_0)
      (line_head xd yd xyd x_0 y_0 (sgn xyd * (x_1 - x_0)) (y_1 - y_0)) = s at b1 b2
    obtain ⟨hix, hfx, hr0, hr1, hdda, hcells⟩ := b1
    rw [b2] at hdda hcells
    by_cases hf : y_1 % 256 = 0
    · simp only [hf, ne_eq, not_true_eq_false, if_false]
      have : 256 * (y_1 / 256) = y_1 := by omega
      rw [this] at hcells
      exact hcells
    · simp only [ne_eq, hf, not_false_eq_true, if_true]
      have hb := adv_bounds xd (sgn xyd * (s.x - x_0)) s.rem (sgn xyd * (x_1 - x_0))
        (y_1 - y_0) (256 * (y_1 / 256) - y_0) hdda hr0 hr1 (by omega) (by omega) (le_of_lt hx)
      cases xyd
      · simp only [sgn_positive, one_mul] at hx hb
        simp only [if_true]
        have hsc := add_scanline_ok yd px py s.calls (y_1 / 256) s.int_x (x_1 / 256)
          s.frac_x (x_1 % 256) (x_1 - s.x) (y_1 % 256)
          (by omega) (by omega) (by omega) (by omega) (by omega) (by omega) (by omega)
        exact hcells.extend (y_1 / 256) _ _ y_1
          (hsc.2.cast (by rw [show y_1 - 256 * (y_1 / 256) = y_1 % 256 by omega]))
          (by omega) (by omega) (by omega) (by omega) (le_refl _) (by omega)
      · simp only [sgn_negative] at hx hb
        simp only [reduceCtorEq, if_false]
        have hsc := add_scanline_ok yd px py s.calls (y_1 / 256) (x_1 / 256) s.int_x
          (x_1 % 256) s.frac_x (s.x - x_1) (y_1 % 256)
          (by omega) (by omega) (by omega) (by omega) (by omega) (by omega) (by omega)
        exact hcells.extend (y_1 / 256) _ _ y_1
          (hsc.2.cast (by rw [show y_1 - 256 * (y_1 / 256) = y_1 % 256 by omega]))
          (by omega) (by omega) (by omega) (by omega) (le_refl _) (by omega)

end Rasterizer

end vgxx

namespace vgxx

namespace Rasterizer

/-! ### Vertical segments and `add_line_` -/

/-- Two accounts of adjacent extents combine, in either order of emission. -/
theorem Rows_ok.join {A B : List Emission} {sg a b c lo hi : Int}
    (hA : Rows_ok A sg a b lo hi) (hB : Rows_ok B sg b c lo hi) (hab : a ≤ b) (hbc : b ≤ c) :
    Rows_ok (A ++ B) sg a c lo hi ∧ Rows_ok (B ++ A) sg a c lo hi := by
  have hbox : ∀ e, e ∈ A ∨ e ∈ B → lo ≤ e.x ∧ e.x ≤ hi ∧ a < 256 * e.y + 256 ∧ 256 * e.y < c := by
    intro e he
    rcases he with h | h
    · have := hA.box e h; omega
    · have := hB.box e h; omega
  constructor
  · refine ⟨?_, fun r => ?_, fun e he => hbox e (List.mem_append.mp he)⟩
    · rw [cover_total_append, hA.total, hB.total]; ring
    · rw [row_cover_append, hA.rows, hB.rows]; ring
  · refine ⟨?_, fun r => ?_, fun e he => hbox e (List.mem_append.mp he).symm⟩
    · rw [cover_total_append, hA.total, hB.total]; ring
    · rw [row_cover_append, hA.rows, hB.rows]; ring

/-- A single cell of row `int_y` accounts for an extent inside that row. -/
theorem Rows_ok.single (x int_y cover area sg a b : Int) (hc : cover = sg * (b - a))
    (hab : a < b) (h0 : 256 * int_y ≤ a) (h1 : b ≤ 256 * int_y + 256) :
    Rows_ok [⟨x, int_y, cover, area⟩] sg a b x x := by
  have hext : Row_ext [] [⟨x, int_y, cover, area⟩] int_y x x (sg * (b - a)) :=
    ((Row_ext.refl [] int_y x x).snoc x cover area (le_refl _) (le_refl _)).cast (by rw [hc]; ring)
  exact (Rows_ok.nil sg a x x).extend int_y x x b hext (le_refl _) (le_refl _) (le_refl _) hab
    h0 h1

theorem Rows_ok.widen {E : List Emission} {sg a b lo hi lo1 hi1 : Int}
    (h : Rows_ok E sg a b lo hi) (hlo : lo1 ≤ lo) (hhi : hi ≤ hi1) :
    Rows_ok E sg a b lo1 hi1 :=
  ⟨h.total, h.rows, fun e he => by have := h.box e he; omega⟩

theorem vertical_rows_ok (px py int_x sg area int_y_1 : Int) :
    ∀ (fuel : Nat) (calls : List Cell_call) (int_y_0 : Int),
      int_y_0 + (fuel : Int) = int_y_1 →
      ∃ L, emissions px py (vertical_rows int_x (sg * 256) area int_y_1 fuel calls int_y_0) =
          emissions px py calls ++ L ∧
        Rows_ok L sg (256 * int_y_0) (256 * int_y_1) int_x int_x := by
  intro fuel
  induction fuel with
  | zero =>
    intro calls int_y_0 h
    simp only [Nat.cast_zero, add_zero] at h
    subst h
    exact ⟨[], by simp [vertical_rows], Rows_ok.nil _ _ _ _⟩
  | succ n ih =>
    intro calls int_y_0 h
    push_cast at h
    have hlt : int_y_0 < int_y_1 := by omega
    obtain ⟨L, hL, hR⟩ := ih (calls ++ [Cell_call.set_x int_x, Cell_call.set_y int_y_0,
      Cell_call.set_cell (sg * 256) area]) (int_y_0 + 1) (by omega)
    refine ⟨⟨int_x, int_y_0, sg * 256, area⟩ :: L, ?_, ?_⟩
    · rw [vertical_rows]
      simp only [hlt, if_true, hL, emissions_append, emissions]
      simp
    · have h1 := Rows_ok.single int_x int_y_0 (sg * 256) area sg (256 * int_y_0)
        (256 * (int_y_0 + 1)) (by ring) (by omega) (le_refl _) (by omega)
      exact (h1.join hR (by omega) (by omega)).1

theorem Seg_ok.of_down {E : List Emission} {x_0 y_0 x_1 y_1 : Int}
    (h : Rows_ok E 1 y_0 y_1 (min x_0 x_1 / 256) (max x_0 x_1 / 256)) (hy : y_0 < y_1) :
    Seg_ok E x_0 y_0 x_1 y_1 :=
  ⟨by rw [h.total]; ring, fun r => by rw [h.rows]; ring,
    fun e he => by have := h.box e he; omega⟩

theorem Seg_ok.of_up {E : List Emission} {x_0 y_0 x_1 y_1 : Int}
    (h : Rows_ok E (-1) y_1 y_0 (min x_0 x_1 / 256) (max x_0 x_1 / 256)) (hy : y_1 < y_0) :
    Seg_ok E x_0 y_0 x_1 y_1 :=
  ⟨by rw [h.total]; ring, fun r => by rw [h.rows]; ring,
    fun e he => by have := h.box e he; omega⟩

theorem add_line_vertical_ok (px py x_0 y_0 y_1 : Int) (hy : y_0 ≠ y_1) :
    Seg_ok (emissions px py (add_line_vertical x_0 y_0 y_1)) x_0 y_0 x_0 y_1 := by
  have hmin : min x_0 x_0 / 256 = x_0 / 256 := by simp
  have hmax : max x_0 x_0 / 256 = x_0 / 256 := by simp
  unfold add_line_vertical
  by_cases hrow : y_0 / 256 = y_1 / 256
  · simp only [hrow, if_true, emissions]
    rcases lt_or_gt_of_ne hy with h | h
    · apply Seg_ok.of_down _ h
      rw [hmin, hmax]
      exact Rows_ok.single _ _ _ _ 1 y_0 y_1 (by omega) h (by omega) (by omega)
    · apply Seg_ok.of_up _ h
      rw [hmin, hmax]
      exact Rows_ok.single _ _ _ _ (-1) y_1 y_0 (by omega) h (by omega) (by omega)
  · simp only [hrow, if_false]
    by_cases h : y_0 < y_1
    · simp only [h, if_true]
      apply Seg_ok.of_down _ h
      rw [hmin, hmax]
      obtain ⟨L, hL, hR⟩ := vertical_rows_ok px py (x_0 / 256) 1 (x_0 % 256 * 512) (y_1 / 256)
        (y_1 / 256 - (if y_0 % 256 ≠ 0 then y_0 / 256 + 1 else y_0 / 256)).toNat
        ((if y_0 % 256 ≠ 0 then [Cell_call.set_x (x_0 / 256), Cell_call.set_y (y_0 / 256),
            Cell_call.set_cell (0x100 - y_0 % 256) ((0x100 - y_0 % 256) * (x_0 % 256) * 2)]
          else []) ++
         (if y_1 % 256 ≠ 0 then [Cell_call.set_x (x_0 / 256), Cell_call.set_y (y_1 / 256),
            Cell_call.set_cell (y_1 % 256) (y_1 % 256 * (x_0 % 256) * 2)]
          else []))
        (if y_0 % 256 ≠ 0 then y_0 / 256 + 1 else y_0 / 256) (by split_ifs <;> omega)
      simp only [one_mul] at hL
      rw [hL]
      have hT : Rows_ok (emissions
          (pos_x px (if y_0 % 256 ≠ 0 then [Cell_call.set_x (x_0 / 256),
            Cell_call.set_y (y_0 / 256),
            Cell_call.set_cell (0x100 - y_0 % 256) ((0x100 - y_0 % 256) * (x_0 % 256) * 2)]
            else []))
          (pos_y py (if y_0 % 256 ≠ 0 then [Cell_call.set_x (x_0 / 256),
            Cell_call.set_y (y_0 / 256),
            Cell_call.set_cell (0x100 - y_0 % 256) ((0x100 - y_0 % 256) * (x_0 % 256) * 2)]
            else []))
          (if y_1 % 256 ≠ 0 then [Cell_call.set_x (x_0 / 256), Cell_call.set_y (y_1 / 256),
            Cell_call.set_cell (y_1 % 256) (y_1 % 256 * (x_0 % 256) * 2)] else []))
          1 (256 * (y_1 / 256)) y_1 (x_0 / 256) (x_0 / 256) := by
        by_cases hf : y_1 % 256 = 0
        · simp only [hf, ne_eq, not_true_eq_false, if_false, emissions]
          have : 256 * (y_1 / 256) = y_1 := by omega
          rw [this]
          exact Rows_ok.nil _ _ _ _
        · simp only [ne_eq, hf, not_false_eq_true, if_true, emissions]
          exact Rows_ok.single _ _ _ _ 1 _ _ (by omega) (by omega) (by omega) (by omega)
      have hH : Rows_ok (emissions px py
          (if y_0 % 256 ≠ 0 then [Cell_call.set_x (x_0 / 256), Cell_call.set_y (y_0 / 256),
            Cell_call.set_cell (0x100 - y_0 % 256) ((0x100 - y_0 % 256) * (x_0 % 256) * 2)]
            else []))
          1 y_0 (256 * (if y_0 % 256 ≠ 0 then y_0 / 256 + 1 else y_0 / 256))
          (x_0 / 256) (x_0 / 256) := by
        by_cases hf : y_0 % 256 = 0
        · simp only [hf, ne_eq, not_true_eq_false, if_false, emissions]
          have : 256 * (y_0 / 256) = y_0 := by omega
          rw [this]
          exact Rows_ok.nil _ _ _ _
        · simp only [ne_eq, hf, not_false_eq_true, if_true, emissions]
          exact Rows_ok.single _ _ _ _ 1 _ _ (by omega) (by omega) (by omega) (by omega)
      rw [emissions_append, List.append_assoc]
      have hTM := (hR.join hT (by split_ifs <;> omega) (by omega)).2
      exact (hH.join hTM (by split_ifs <;> omega) (by split_ifs <;> omega)).1
    · simp only [h, if_false]
      have hlt : y_1 < y_0 := by omega
      apply Seg_ok.of_up _ hlt
      rw [hmin, hmax]
      obtain ⟨L, hL, hR⟩ := vertical_rows_ok px py (x_0 / 256) (-1) (-(x_0 % 256 * 512))
        (y_0 / 256)
        (y_0 / 256 - (if y_1 % 256 ≠ 0 then y_1 / 256 + 1 else y_1 / 256)).toNat
        ((if y_0 % 256 ≠ 0 then [Cell_call.set_x (x_0 / 256), Cell_call.set_y (y_0 / 256),
            Cell_call.set_cell (-(y_0 % 256)) (-(y_0 % 256) * (x_0 % 256) * 2)]
          else []) ++
         (if y_1 % 256 ≠ 0 then [Cell_call.set_x (x_0 / 256), Cell_call.set_y (y_1 / 256),
            Cell_call.set_cell (y_1 % 256 - 0x100) ((y_1 % 256 - 0x100) * (x_0 % 256) * 2)]
          else []))
        (if y_1 % 256 ≠ 0 then y_1 / 256 + 1 else y_1 / 256) (by split_ifs <;> omega)
      simp only [show (-1 : Int) * 256 = -0x100 by norm_num] at hL
      rw [hL]
      have hT : Rows_ok (emissions
          (pos_x px (if y_0 % 256 ≠ 0 then [Cell_call.set_x (x_0 / 256),
            Cell_call.set_y (y_0 / 256),
            Cell_call.set_cell (-(y_0 % 256)) (-(y_0 % 256) * (x_0 % 256) * 2)] else []))
          (pos_y py (if y_0 % 256 ≠ 0 then [Cell_call.set_x (x_0 / 256),
            Cell_call.set_y (y_0 / 256),
            Cell_call.set_cell (-(y_0 % 256)) (-(y_0 % 256) * (x_0 % 256) * 2)] else []))
          (if y_1 % 256 ≠ 0 then [Cell_call.set_x (x_0 / 256), Cell_call.set_y (y_1 / 256),
            Cell_call.set_cell (y_1 % 256 - 0x100) ((y_1 % 256 - 0x100) * (x_0 % 256) * 2)]
            else []))
          (-1) y_1 (256 * (if y_1 % 256 ≠ 0 then y_1 / 256 + 1 else y_1 / 256))
          (x_0 / 256) (x_0 / 256) := by
        by_cases hf : y_1 % 256 = 0
        · simp only [hf, ne_eq, not_true_eq_false, if_false, emissions]
          have : 256 * (y_1 / 256) = y_1 := by omega
          rw [this]
          exact Rows_ok.nil _ _ _ _
        · simp only [ne_eq, hf, not_false_eq_true, if_true, emissions]
          exact Rows_ok.single _ _ _ _ (-1) _ _ (by omega) (by omega) (by omega) (by omega)
      have hH : Rows_ok (emissions px py
          (if y_0 % 256 ≠ 0 then [Cell_call.set_x (x_0 / 256), Cell_call.set_y (y_0 / 256),
            Cell_call.set_cell (-(y_0 % 256)) (-(y_0 % 256) * (x_0 % 256) * 2)] else []))
          (-1) (256 * (y_0 / 256)) y_0 (x_0 / 256) (x_0 / 256) := by
        by_cases hf : y_0 % 256 = 0
        · simp only [hf, ne_eq, not_true_eq_false, if_false, emissions]
          have : 256 * (y_0 / 256) = y_0 := by omega
          rw [this]
          exact Rows_ok.nil _ _ _ _
        · simp only [ne_eq, hf, not_false_eq_true, if_true, emissions]
          exact Rows_ok.single _ _ _ _ (-1) _ _ (by omega) (by omega) (by omega) (by omega)
      rw [emissions_append, List.append_assoc]
      have hTM := (hT.join hR (by split_ifs <;> omega) (by split_ifs <;> omega)).1
      exact (hTM.join hH (by omega) (by omega)).2

end Rasterizer

end vgxx

namespace vgxx

namespace Rasterizer

/-- The cells that `add_line_` emits for a segment whose coordinate
differences fit 32 bits: covers sum to `y_1 - y_0`, row by row to the extent of
the segment inside the row, and all cells lie within the segment's columns and
rows.  A horizontal segment emits nothing. -/
theorem add_line_ok (px py x_0 y_0 x_1 y_1 : Int)
    (hx : |x_1 - x_0| < 2147483648) (hy : |y_1 - y_0| < 2147483648) :
    Seg_ok (emissions px py (add_line_ x_0 y_0 x_1 y_1)) x_0 y_0 x_1 y_1 := by
  rw [abs_lt] at hx hy
  unfold add_line_
  by_cases hy0 : y_0 = y_1
  · simp only [hy0, if_true, emissions]
    exact ⟨by simp [cover_total], fun r => by simp [row_cover], by simp⟩
  · simp only [hy0, if_false]
    by_cases hx0 : x_0 = x_1
    · simp only [hx0, if_true]
      exact add_line_vertical_ok px py x_1 y_0 y_1 hy0
    · simp only [hx0, if_false]
      by_cases hxd : x_1 > x_0
      · simp only [hxd, if_true]
        by_cases hyd : y_1 > y_0
        · simp only [hyd, if_true]
          exact Seg_ok.of_down (add_line_dir_ok _ _ _ px py x_0 y_0 x_1 y_1 hyd (by omega)
            (by simp only [sgn_positive]; omega) (by simp only [sgn_positive]; omega)) hyd
        · simp only [hyd, if_false]
          have := add_line_dir_ok Direction_.positive Direction_.negative Direction_.negative
            px py x_1 y_1 x_0 y_0 (by omega) (by omega)
            (by simp only [sgn_negative]; omega) (by simp only [sgn_negative]; omega)
          rw [min_comm, max_comm] at this
          exact Seg_ok.of_up this (by omega)
      · simp only [hxd, if_false]
        by_cases hyd : y_1 > y_0
        · simp only [hyd, if_true]
          exact Seg_ok.of_down (add_line_dir_ok _ _ _ px py x_0 y_0 x_1 y_1 hyd (by omega)
            (by simp only [sgn_negative]; omega) (by simp only [sgn_negative]; omega)) hyd
        · simp only [hyd, if_false]
          have := add_line_dir_ok Direction_.negative Direction_.negative Direction_.positive
            px py x_1 y_1 x_0 y_0 (by omega) (by omega)
            (by simp only [sgn_positive]; omega) (by simp only [sgn_positive]; omega)
          rw [min_comm, max_comm] at this
          exact Seg_ok.of_up this (by omega)

end Rasterizer

end vgxx

namespace vgxx

/-! ### Lists as arrays -/

theorem getD_set_eq {α : Type} (l : List α) (i : Nat) (a d : α) (h : i < l.length) :
    (l.set i a).getD i d = a := by
  simp [List.getD_eq_getElem?_getD, h]

theorem getD_set_ne {α : Type} (l : List α) (i j : Nat) (a d : α) (h : i ≠ j) :
    (l.set i a).getD j d = l.getD j d := by
  simp [List.getD_eq_getElem?_getD, List.getElem?_set_ne h]

theorem getD_append_left {α : Type} (l : List α) (i : Nat) (a d : α) (h : i < l.length) :
    (l ++ [a]).getD i d = l.getD i d := by
  simp [List.getD_eq_getElem?_getD, List.getElem?_append_left h]

theorem getD_append_length {α : Type} (l : List α) (a d : α) :
    (l ++ [a]).getD l.length d = a := by
  simp [List.getD_eq_getElem?_getD]

namespace Cell_processor

/-! ### `set_cell` -/

theorem u16_of_range (v : Int) (h0 : 0 ≤ v) (h1 : v < 65536) : u16 v = v := by
  unfold u16; omega

theorem row_of_set_eq (cp1 : Cell_processor) (rows : List Row_) (y : Int) (r : Row_)
    (h : cp1.rows_ = rows.set y.toNat r) (h1 : y.toNat < rows.length) :
    cp1.row y = r := by
  simp only [row, h]
  exact getD_set_eq _ _ _ _ h1

theorem row_of_set_ne (cp1 : Cell_processor) (rows : List Row_) (y y1 : Int) (r : Row_)
    (h : cp1.rows_ = rows.set y.toNat r) (h0 : 0 ≤ y) (h1 : 0 ≤ y1) (hne : y1 ≠ y) :
    cp1.row y1 = rows.getD y1.toNat default := by
  simp only [row, h]
  exact getD_set_ne _ _ _ _ _ (by omega)

end Cell_processor

end vgxx

namespace vgxx

namespace Cell_processor

/-! ### Row lists -/

theorem chain_invalid (st : Cell_stash_) (fuel : Nat) :
    chain st fuel invalid_cell_index_ = [] := by
  cases fuel <;> simp [chain]

/-- Two stashes that agree on a set of indices closed under the next link
have the same list from any index of the set, whatever the bounds, as long
as the bounds exceed the index. -/
theorem chain_congr (st st1 : Cell_stash_) (S : Nat → Prop)
    (hS : ∀ i, S i → st1.get i = st.get i ∧
      ((st.get i).next_cell_idx ≠ invalid_cell_index_ →
        S (st.get i).next_cell_idx ∧ (st.get i).next_cell_idx < i)) :
    ∀ (fuel fuel1 idx : Nat),
      (idx ≠ invalid_cell_index_ → S idx ∧ idx < fuel ∧ idx < fuel1) →
      chain st1 fuel1 idx = chain st fuel idx := by
  intro fuel
  induction fuel with
  | zero =>
    intro fuel1 idx h
    have : idx = invalid_cell_index_ := by
      by_contra hne
      have := (h hne).2.1
      omega
    rw [this, chain_invalid, chain_invalid]
  | succ n ih =>
    intro fuel1 idx h
    by_cases hi : idx = invalid_cell_index_
    · rw [hi, chain_invalid, chain_invalid]
    · obtain ⟨hs, h1, h2⟩ := h hi
      obtain ⟨m, hm⟩ : ∃ m, fuel1 = m + 1 := ⟨fuel1 - 1, by omega⟩
      subst hm
      obtain ⟨hget, hnext⟩ := hS idx hs
      simp only [chain, Ne.symm hi, ne_eq, not_false_eq_true, if_true, hget]
      congr 1
      apply ih
      intro hne
      obtain ⟨hs1, hlt⟩ := hnext hne
      exact ⟨hs1, by omega, by omega⟩

theorem left_sum_append (r : Int) (a b : List Emission) :
    left_sum r (a ++ b) = left_sum r a + left_sum r b := by
  induction a with
  | nil => simp [left_sum]
  | cons e t ih => simp [left_sum, ih, add_assoc]

theorem inside_sum_append (w r : Int) (a b : List Emission) :
    inside_sum w r (a ++ b) = inside_sum w r a + inside_sum w r b := by
  induction a with
  | nil => simp [inside_sum]
  | cons e t ih => simp [inside_sum, ih, add_assoc]

/-! ### The cases of `set_cell` -/

theorem set_cell_outside (cp : Cell_processor) (cover area : Int)
    (h : ¬ (cp.height_ > cp.y_ ∧ 0 ≤ cp.y_)) : cp.set_cell cover area = some cp := by
  unfold set_cell
  simp only [h, if_false]

theorem set_cell_left (cp : Cell_processor) (cover area : Int)
    (h1 : cp.height_ > cp.y_ ∧ 0 ≤ cp.y_) (hh : cp.height_ ≤ 65535) (hx : cp.x_ < 0) :
    cp.set_cell cover area = some { cp with
      rows_ := cp.rows_.set cp.y_.toNat
        { cp.row cp.y_ with left_cover := (cp.row cp.y_).left_cover + cover
                            x_range := (cp.row cp.y_).x_range.update 0 }
      y_range_ := cp.y_range_.update cp.y_ } := by
  have h2 : ¬ 0 ≤ cp.x_ := by omega
  have hu : u16 cp.y_ = cp.y_ := u16_of_range _ h1.2 (by omega)
  unfold set_cell
  simp only [h1, h2, if_true, if_false, hu, and_self]

theorem set_cell_right (cp : Cell_processor) (cover area : Int)
    (h1 : cp.height_ > cp.y_ ∧ 0 ≤ cp.y_) (hh : cp.height_ ≤ 65535)
    (hw0 : 0 < cp.width_) (hw : cp.width_ ≤ 65535) (hx : cp.width_ ≤ cp.x_) :
    cp.set_cell cover area = some { cp with
      rows_ := cp.rows_.set cp.y_.toNat
        { cp.row cp.y_ with x_range := (cp.row cp.y_).x_range.update (cp.width_ - 1) }
      y_range_ := cp.y_range_.update cp.y_ } := by
  have h2 : 0 ≤ cp.x_ := by omega
  have h3 : ¬ cp.width_ > cp.x_ := by omega
  have hu : u16 cp.y_ = cp.y_ := u16_of_range _ h1.2 (by omega)
  have hu1 : u16 (cp.width_ - 1) = cp.width_ - 1 := u16_of_range _ (by omega) (by omega)
  unfold set_cell
  simp only [h1, h2, h3, hw0, if_true, if_false, hu, hu1, and_self]

theorem set_cell_merge (cp : Cell_processor) (cover area : Int)
    (h1 : cp.height_ > cp.y_ ∧ 0 ≤ cp.y_) (hx0 : 0 ≤ cp.x_) (hx1 : cp.width_ > cp.x_)
    (hm : invalid_cell_index_ ≠ (cp.row cp.y_).first_cell_idx ∧
      (cp.cell_stash_.get (cp.row cp.y_).first_cell_idx).x = cp.x_) :
    cp.set_cell cover area = some { cp with
      cell_stash_ := { cp.cell_stash_ with
        cells_ := cp.cell_stash_.cells_.set (cp.row cp.y_).first_cell_idx
          { cp.cell_stash_.get (cp.row cp.y_).first_cell_idx with
            cover := (cp.cell_stash_.get (cp.row cp.y_).first_cell_idx).cover + cover
            area := (cp.cell_stash_.get (cp.row cp.y_).first_cell_idx).area + area } } } := by
  unfold set_cell
  simp only [h1, hx0, hx1, if_true, and_self]
  rw [if_pos hm]

/-- The prepend case of `set_cell`: the new cell is written at the index
equal to the number of cells in use, inside the vector, and no other element
of the vector changes. -/
theorem set_cell_prepend (cp : Cell_processor) (cover area : Int)
    (h1 : cp.height_ > cp.y_ ∧ 0 ≤ cp.y_) (hh : cp.height_ ≤ 65535)
    (hx0 : 0 ≤ cp.x_) (hx1 : cp.width_ > cp.x_) (hw : cp.width_ ≤ 65535)
    (hm : ¬ (invalid_cell_index_ ≠ (cp.row cp.y_).first_cell_idx ∧
      (cp.cell_stash_.get (cp.row cp.y_).first_cell_idx).x = cp.x_))
    (hfree : cp.cell_stash_.cells_in_use_ < 4294967295)
    (huse : cp.cell_stash_.cells_in_use_ ≤ cp.cell_stash_.cells_.length) :
    ∃ cells1 : List Cell_ex_,
      cp.set_cell cover area = some { cp with
        cell_stash_ := { cells_ := cells1, cells_in_use_ := cp.cell_stash_.cells_in_use_ + 1 }
        rows_ := cp.rows_.set cp.y_.toNat
          { cp.row cp.y_ with first_cell_idx := cp.cell_stash_.cells_in_use_
                              x_range := (cp.row cp.y_).x_range.update cp.x_ }
        y_range_ := cp.y_range_.update cp.y_ } ∧
      cp.cell_stash_.cells_in_use_ < cells1.length ∧
      cells1.getD cp.cell_stash_.cells_in_use_ default =
        { cover := cover, area := area
          next_cell_idx := (cp.row cp.y_).first_cell_idx, x := cp.x_ } ∧
      ∀ i, i ≠ cp.cell_stash_.cells_in_use_ →
        cells1.getD i default = cp.cell_stash_.cells_.getD i default := by
  have hfree1 : 4294967295 > cp.cell_stash_.cells_in_use_ := hfree
  have huy : u16 cp.y_ = cp.y_ := u16_of_range _ h1.2 (by omega)
  have hux : u16 cp.x_ = cp.x_ := u16_of_range _ hx0 (by omega)
  by_cases hlen : cp.cell_stash_.cells_.length > cp.cell_stash_.cells_in_use_
  · refine ⟨cp.cell_stash_.cells_.set cp.cell_stash_.cells_in_use_
      { cover := cover, area := area
        next_cell_idx := (cp.row cp.y_).first_cell_idx, x := cp.x_ }, ?_, ?_, ?_, ?_⟩
    · unfold set_cell Cell_stash_.acquire
      simp only [h1, hx0, hx1, if_true, and_self]
      rw [if_neg hm]
      simp only [hfree1, hlen, if_true, huy, hux]
    · simpa using hlen
    · exact getD_set_eq _ _ _ _ hlen
    · intro i hi
      exact getD_set_ne _ _ _ _ _ (Ne.symm hi)
  · have heq : cp.cell_stash_.cells_.length = cp.cell_stash_.cells_in_use_ := by omega
    refine ⟨(cp.cell_stash_.cells_ ++ [default]).set cp.cell_stash_.cells_.length
      { cover := cover, area := area
        next_cell_idx := (cp.row cp.y_).first_cell_idx, x := cp.x_ }, ?_, ?_, ?_, ?_⟩
    · unfold set_cell Cell_stash_.acquire
      simp only [h1, hx0, hx1, if_true, and_self]
      rw [if_neg hm]
      simp only [hfree1, hlen, if_true, if_false, huy, hux]
    · simp; omega
    · rw [← heq]
      exact getD_set_eq _ _ _ _ (by simp)
    · intro i hi
      rw [getD_set_ne _ _ _ _ _ (by omega)]
      by_cases hlt : i < cp.cell_stash_.cells_.length
      · exact getD_append_left _ _ _ _ hlt
      · rw [List.getD_eq_default _ _ (by simp; omega), List.getD_eq_default _ _ (by omega)]

end Cell_processor

end vgxx

namespace vgxx

namespace Cell_processor

/-! ### Preservation of the invariant by `set_cell` -/

theorem update_valid (r : Pixel_range_) (v bound : Int)
    (hr : r = Pixel_range_.init ∨ (0 ≤ r.min ∧ r.min ≤ r.max ∧ r.max ≤ bound))
    (hv0 : 0 ≤ v) (hv1 : v ≤ bound) (hb : bound ≤ 65535) :
    0 ≤ (r.update v).min ∧ (r.update v).min ≤ v ∧ v ≤ (r.update v).max ∧
    (r.update v).max ≤ bound ∧ (r.update v).min ≤ r.min ∧ r.max ≤ (r.update v).max := by
  unfold Pixel_range_.update
  rcases hr with h | h
  · subst h
    simp only [Pixel_range_.init]
    refine ⟨?_, ?_, ?_, ?_, ?_, ?_⟩ <;> split_ifs <;> omega
  · simp only
    refine ⟨?_, ?_, ?_, ?_, ?_, ?_⟩ <;> split_ifs <;> omega

theorem row_cells_of_eq (cp cp1 : Cell_processor) (y : Int)
    (hst : cp1.cell_stash_ = cp.cell_stash_)
    (hhead : (cp1.row y).first_cell_idx = (cp.row y).first_cell_idx) :
    cp1.row_cells y = cp.row_cells y := by
  unfold row_cells
  rw [hst, hhead]

/-- A change of one row that keeps its head and widens its `x_range` to a valid
range, together with `y_range_.update(y)`, preserves the invariant. -/
theorem Inv.update_row {cp cp1 : Cell_processor} {owner : Nat → Int} (hI : Inv cp owner)
    (y : Int) (hy0 : 0 ≤ y) (hy1 : y < cp.height_) (row1 : Row_)
    (hrows : cp1.rows_ = cp.rows_.set y.toNat row1)
    (hyr1 : cp1.y_range_ = cp.y_range_.update y)
    (hst : cp1.cell_stash_ = cp.cell_stash_) (hcells : cp1.cells_ = cp.cells_)
    (hw : cp1.width_ = cp.width_) (hh : cp1.height_ = cp.height_)
    (hhead : row1.first_cell_idx = (cp.row y).first_cell_idx)
    (hmin : row1.x_range.min ≤ (cp.row y).x_range.min)
    (hmax : (cp.row y).x_range.max ≤ row1.x_range.max)
    (hv0 : 0 ≤ row1.x_range.min) (hv1 : row1.x_range.min ≤ row1.x_range.max)
    (hv2 : row1.x_range.max ≤ cp.width_ - 1) :
    Inv cp1 owner := by
  have hlen : y.toNat < cp.rows_.length := by rw [hI.rows_len]; omega
  have hrow_eq : cp1.row y = row1 := row_of_set_eq _ _ _ _ hrows hlen
  have hrow_ne : ∀ y1, 0 ≤ y1 → y1 ≠ y → cp1.row y1 = cp.row y1 :=
    fun y1 h1 hne => row_of_set_ne _ _ _ _ _ hrows hy0 h1 hne
  have hyr := update_valid cp.y_range_ y (cp.height_ - 1) hI.y_range_ok hy0 (by omega)
    (by have := hI.height_le; omega)
  refine ⟨hw ▸ hI.width_pos, hw ▸ hI.width_le, hh ▸ hI.height_pos, hh ▸ hI.height_le, ?_,
    hst ▸ hI.in_use_le, hst ▸ hI.in_use_max, ?_, hst ▸ hI.next_ok, ?_, ?_, ?_,
    hcells ▸ hI.dense_clean⟩
  · rw [hrows, hh, List.length_set]; exact hI.rows_len
  · intro y1 h0 h1 hne
    rw [hh] at h1
    rw [hst]
    by_cases hyy : y1 = y
    · subst hyy
      rw [hrow_eq] at hne ⊢
      rw [hhead] at hne ⊢
      exact hI.head_ok y1 h0 h1 hne
    · rw [hrow_ne y1 h0 hyy] at hne ⊢
      exact hI.head_ok y1 h0 h1 hne
  · intro i hi
    rw [hst] at hi ⊢
    rw [hh]
    obtain ⟨c0, c1, c2, c3⟩ := hI.cell_ok i hi
    refine ⟨c0, c1, ?_⟩
    by_cases hyy : owner i = y
    · rw [hyy] at c2 c3 ⊢
      rw [hrow_eq]
      omega
    · rw [hrow_ne (owner i) c0 hyy]
      exact ⟨c2, c3⟩
  · intro y1 h0 h1
    rw [hh] at h1
    rw [hw, hyr1]
    by_cases hyy : y1 = y
    · subst hyy
      right
      rw [hrow_eq]
      exact ⟨hv0, hv1, hv2, hyr.2.1, hyr.2.2.1⟩
    · rw [hrow_ne y1 h0 hyy]
      rcases hI.row_ok y1 h0 h1 with h | h
      · left; exact h
      · right
        have h5 := hyr.2.2.2.2
        refine ⟨h.1, h.2.1, h.2.2.1, ?_, ?_⟩ <;> omega
  · right
    rw [hyr1, hh]
    exact ⟨hyr.1, by omega, hyr.2.2.2.1⟩

end Cell_processor

end vgxx

namespace vgxx

namespace Cell_processor

/-- The merge case: adding to the cover and area of the head cell of row `y`
preserves the invariant, changes the list of row `y` only in its head and
changes no other list. -/
theorem Inv.merge {cp cp1 : Cell_processor} {owner : Nat → Int} (hI : Inv cp owner)
    (y : Int) (hy0 : 0 ≤ y) (hy1 : y < cp.height_) (cover area : Int)
    (hne : (cp.row y).first_cell_idx ≠ invalid_cell_index_)
    (hrows : cp1.rows_ = cp.rows_) (hyr : cp1.y_range_ = cp.y_range_)
    (hcells : cp1.cells_ = cp.cells_)
    (hw : cp1.width_ = cp.width_) (hh : cp1.height_ = cp.height_)
    (huse : cp1.cell_stash_.cells_in_use_ = cp.cell_stash_.cells_in_use_)
    (hlen : cp1.cell_stash_.cells_.length = cp.cell_stash_.cells_.length)
    (hget : cp1.cell_stash_.get (cp.row y).first_cell_idx =
      { cp.cell_stash_.get (cp.row y).first_cell_idx with
        cover := (cp.cell_stash_.get (cp.row y).first_cell_idx).cover + cover
        area := (cp.cell_stash_.get (cp.row y).first_cell_idx).area + area })
    (hother : ∀ i, i ≠ (cp.row y).first_cell_idx →
      cp1.cell_stash_.get i = cp.cell_stash_.get i) :
    Inv cp1 owner ∧
    cells_cover (cp1.row_cells y) = cells_cover (cp.row_cells y) + cover ∧
    ∀ r, 0 ≤ r → r < cp.height_ → r ≠ y → cp1.row_cells r = cp.row_cells r := by
  have hrow : ∀ r, cp1.row r = cp.row r := fun r => by simp only [row, hrows]
  obtain ⟨hh1, hho⟩ := hI.head_ok y hy0 hy1 hne
  have hnext_eq : ∀ i, (cp1.cell_stash_.get i).next_cell_idx =
      (cp.cell_stash_.get i).next_cell_idx := by
    intro i
    by_cases hi : i = (cp.row y).first_cell_idx
    · rw [hi, hget]
    · rw [hother i hi]
  have hx_eq : ∀ i, (cp1.cell_stash_.get i).x = (cp.cell_stash_.get i).x := by
    intro i
    by_cases hi : i = (cp.row y).first_cell_idx
    · rw [hi, hget]
    · rw [hother i hi]
  refine ⟨⟨hw ▸ hI.width_pos, hw ▸ hI.width_le, hh ▸ hI.height_pos, hh ▸ hI.height_le,
    by rw [hrows, hh]; exact hI.rows_len, by rw [huse, hlen]; exact hI.in_use_le,
    by rw [huse]; exact hI.in_use_max, ?_, ?_, ?_, ?_, by rw [hyr, hh]; exact hI.y_range_ok,
    hcells ▸ hI.dense_clean⟩, ?_, ?_⟩
  · intro y1 h0 h1 hne1
    rw [hrow] at hne1 ⊢
    rw [huse]
    exact hI.head_ok y1 h0 (hh ▸ h1) hne1
  · intro i hi hne1
    rw [hnext_eq] at hne1 ⊢
    exact hI.next_ok i (huse ▸ hi) hne1
  · intro i hi
    rw [hrow, hx_eq, hh]
    exact hI.cell_ok i (huse ▸ hi)
  · intro y1 h0 h1
    rw [hrow, hw, hyr]
    exact hI.row_ok y1 h0 (hh ▸ h1)
  · unfold row_cells
    rw [hrow, huse]
    obtain ⟨m, hm⟩ : ∃ m, cp.cell_stash_.cells_in_use_ = m + 1 :=
      ⟨cp.cell_stash_.cells_in_use_ - 1, by omega⟩
    rw [hm]
    simp only [chain, Ne.symm hne, ne_eq, not_false_eq_true, if_true, cells_cover, hnext_eq]
    have htail : chain cp1.cell_stash_ m
        (cp.cell_stash_.get (cp.row y).first_cell_idx).next_cell_idx =
        chain cp.cell_stash_ m (cp.cell_stash_.get (cp.row y).first_cell_idx).next_cell_idx := by
      apply chain_congr cp.cell_stash_ cp1.cell_stash_
        (fun i => i < (cp.row y).first_cell_idx)
      · intro i hi
        refine ⟨hother i (by omega), fun hne1 => ?_⟩
        have := hI.next_ok i (by omega) hne1
        exact ⟨by omega, this.1⟩
      · intro hne1
        have := hI.next_ok _ hh1 hne1
        exact ⟨this.1, by omega, by omega⟩
    rw [htail, hget]
    ring
  · intro r hr0 hr1 hry
    unfold row_cells
    rw [hrow, huse]
    apply chain_congr cp.cell_stash_ cp1.cell_stash_
      (fun i => i < cp.cell_stash_.cells_in_use_ ∧ owner i = r)
    · intro i hi
      refine ⟨hother i ?_, fun hne1 => ?_⟩
      · intro heq
        rw [heq, hho] at hi
        exact hry hi.2.symm
      · have := hI.next_ok i hi.1 hne1
        exact ⟨⟨by omega, by rw [this.2]; exact hi.2⟩, this.1⟩
    · intro hne1
      have := hI.head_ok r hr0 hr1 hne1
      exact ⟨this, this.1, this.1⟩

/-- The prepend case: a new cell at the index equal to the number of cells in
use, linked to the old head of row `y` and made the head of the row, preserves
the invariant, adds the cell in front of the list of row `y` and changes no
other list. -/
theorem Inv.prepend {cp cp1 : Cell_processor} {owner : Nat → Int} (hI : Inv cp owner)
    (y x : Int) (hy0 : 0 ≤ y) (hy1 : y < cp.height_) (hx0 : 0 ≤ x) (hx1 : x < cp.width_)
    (cover area : Int) (hfree : cp.cell_stash_.cells_in_use_ < 4294967295)
    (hrows : cp1.rows_ = cp.rows_.set y.toNat
      { cp.row y with first_cell_idx := cp.cell_stash_.cells_in_use_
                      x_range := (cp.row y).x_range.update x })
    (hyr1 : cp1.y_range_ = cp.y_range_.update y)
    (hcells : cp1.cells_ = cp.cells_)
    (hw : cp1.width_ = cp.width_) (hh : cp1.height_ = cp.height_)
    (huse : cp1.cell_stash_.cells_in_use_ = cp.cell_stash_.cells_in_use_ + 1)
    (hlen : cp.cell_stash_.cells_in_use_ < cp1.cell_stash_.cells_.length)
    (hget : cp1.cell_stash_.get cp.cell_stash_.cells_in_use_ =
      { cover := cover, area := area, next_cell_idx := (cp.row y).first_cell_idx, x := x })
    (hother : ∀ i, i ≠ cp.cell_stash_.cells_in_use_ →
      cp1.cell_stash_.get i = cp.cell_stash_.get i) :
    Inv cp1 (fun i => if i = cp.cell_stash_.cells_in_use_ then y else owner i) ∧
    cp1.row_cells y =
      { cover := cover, area := area, next_cell_idx := (cp.row y).first_cell_idx, x := x } ::
        cp.row_cells y ∧
    ∀ r, 0 ≤ r → r < cp.height_ → r ≠ y → cp1.row_cells r = cp.row_cells r := by
  have hlen0 : y.toNat < cp.rows_.length := by rw [hI.rows_len]; omega
  have hrow_eq : cp1.row y = { cp.row y with
      first_cell_idx := cp.cell_stash_.cells_in_use_
      x_range := (cp.row y).x_range.update x } := row_of_set_eq _ _ _ _ hrows hlen0
  have hrow_ne : ∀ y1, 0 ≤ y1 → y1 ≠ y → cp1.row y1 = cp.row y1 :=
    fun y1 h1 hne => row_of_set_ne _ _ _ _ _ hrows hy0 h1 hne
  have hyr := update_valid cp.y_range_ y (cp.height_ - 1) hI.y_range_ok hy0 (by omega)
    (by have := hI.height_le; omega)
  have hxr := update_valid (cp.row y).x_range x (cp.width_ - 1)
    (by
      rcases hI.row_ok y hy0 hy1 with h | h
      · left; rw [h]; rfl
      · right; exact ⟨h.1, h.2.1, h.2.2.1⟩)
    hx0 (by omega) (by have := hI.width_le; omega)
  have hold : ∀ S : Nat → Prop, (∀ i, S i → i < cp.cell_stash_.cells_in_use_) →
      (∀ i, S i → (cp.cell_stash_.get i).next_cell_idx ≠ invalid_cell_index_ →
        S (cp.cell_stash_.get i).next_cell_idx) →
      ∀ idx fuel1, (idx ≠ invalid_cell_index_ → S idx ∧ idx < fuel1) →
        chain cp1.cell_stash_ fuel1 idx =
          chain cp.cell_stash_ cp.cell_stash_.cells_in_use_ idx := by
    intro S hS1 hS2 idx fuel1 hidx
    apply chain_congr cp.cell_stash_ cp1.cell_stash_ S
    · intro i hi
      refine ⟨hother i (by have := hS1 i hi; omega), fun hne1 => ?_⟩
      exact ⟨hS2 i hi hne1, (hI.next_ok i (hS1 i hi) hne1).1⟩
    · intro hne1
      exact ⟨(hidx hne1).1, hS1 idx (hidx hne1).1, (hidx hne1).2⟩
  refine ⟨⟨hw ▸ hI.width_pos, hw ▸ hI.width_le, hh ▸ hI.height_pos, hh ▸ hI.height_le,
    ?_, by rw [huse]; omega, by rw [huse]; omega, ?_, ?_, ?_, ?_, ?_,
    hcells ▸ hI.dense_clean⟩, ?_, ?_⟩
  · rw [hrows, hh, List.length_set]; exact hI.rows_len
  · intro y1 h0 h1 hne1
    rw [hh] at h1
    rw [huse]
    by_cases hyy : y1 = y
    · subst hyy
      rw [hrow_eq]
      simp
    · rw [hrow_ne y1 h0 hyy] at hne1 ⊢
      have := hI.head_ok y1 h0 h1 hne1
      refine ⟨by omega, ?_⟩
      rw [if_neg (by omega)]
      exact this.2
  · intro i hi hne1
    rw [huse] at hi
    by_cases hin : i = cp.cell_stash_.cells_in_use_
    · subst hin
      rw [hget] at hne1 ⊢
      have := hI.head_ok y hy0 hy1 hne1
      refine ⟨this.1, ?_⟩
      simp only [if_true]
      rw [if_neg (by omega)]
      exact this.2
    · rw [hother i hin] at hne1 ⊢
      have := hI.next_ok i (by omega) hne1
      refine ⟨this.1, ?_⟩
      rw [if_neg (by omega), if_neg hin]
      exact this.2
  · intro i hi
    rw [huse] at hi
    rw [hh]
    by_cases hin : i = cp.cell_stash_.cells_in_use_
    · subst hin
      simp only [if_true]
      rw [hrow_eq, hget]
      exact ⟨hy0, hy1, hxr.2.1, hxr.2.2.1⟩
    · rw [if_neg hin, hother i hin]
      obtain ⟨c0, c1, c2, c3⟩ := hI.cell_ok i (by omega)
      refine ⟨c0, c1, ?_⟩
      by_cases hyy : owner i = y
      · rw [hyy] at c2 c3 ⊢
        rw [hrow_eq]
        have h5 := hxr.2.2.2.2
        constructor
        · show ((cp.row y).x_range.update x).min ≤ _
          omega
        · show _ ≤ ((cp.row y).x_range.update x).max
          omega
      · rw [hrow_ne (owner i) c0 hyy]
        exact ⟨c2, c3⟩
  · intro y1 h0 h1
    rw [hh] at h1
    rw [hw, hyr1]
    by_cases hyy : y1 = y
    · subst hyy
      right
      rw [hrow_eq]
      exact ⟨hxr.1, by have := hxr.2.1; have := hxr.2.2.1; show ((cp.row y1).x_range.update x).min ≤ ((cp.row y1).x_range.update x).max; omega,
        hxr.2.2.2.1, hyr.2.1, hyr.2.2.1⟩
    · rw [hrow_ne y1 h0 hyy]
      rcases hI.row_ok y1 h0 h1 with h | h
      · left; exact h
      · right
        have h5 := hyr.2.2.2.2
        refine ⟨h.1, h.2.1, h.2.2.1, ?_, ?_⟩ <;> omega
  · right
    rw [hyr1, hh]
    exact ⟨hyr.1, by omega, hyr.2.2.2.1⟩
  · unfold row_cells
    rw [hrow_eq, huse]
    have hn : invalid_cell_index_ ≠ cp.cell_stash_.cells_in_use_ := by
      unfold invalid_cell_index_; omega
    simp only [chain, hn, ne_eq, not_false_eq_true, if_true, hget]
    congr 1
    apply hold (fun i => i < cp.cell_stash_.cells_in_use_) (fun i hi => hi)
    · intro i hi hne1
      have := hI.next_ok i hi hne1
      omega
    · intro hne1
      have := hI.head_ok y hy0 hy1 hne1
      exact ⟨this.1, this.1⟩
  · intro r hr0 hr1 hry
    unfold row_cells
    rw [hrow_ne r hr0 hry, huse]
    apply hold (fun i => i < cp.cell_stash_.cells_in_use_) (fun i hi => hi)
    · intro i hi hne1
      have := hI.next_ok i hi hne1
      omega
    · intro hne1
      have := hI.head_ok r hr0 hr1 hne1
      exact ⟨this.1, by omega⟩

end Cell_processor

end vgxx

namespace vgxx

namespace Cell_processor

/-! ### What a sequence of calls stores -/

/-- One `set_cell` call on a well-formed processor: the invariant is kept, the
position and the dimensions are unchanged, and `cover` is added to the
`left_cover` of the current row when `x < 0`, to the covers of its stashed
cells when `0 ≤ x < width`, and to nothing otherwise. -/
theorem set_cell_step {cp cp1 : Cell_processor} (hW : Wf cp) (cover area : Int)
    (h : cp.set_cell cover area = some cp1) :
    Wf cp1 ∧ cp1.x_ = cp.x_ ∧ cp1.y_ = cp.y_ ∧ cp1.width_ = cp.width_ ∧
    cp1.height_ = cp.height_ ∧
    ∀ r, 0 ≤ r → r < cp.height_ →
      (cp1.row r).left_cover =
        (cp.row r).left_cover + (if cp.y_ = r ∧ cp.x_ < 0 then cover else 0) ∧
      cells_cover (cp1.row_cells r) = cells_cover (cp.row_cells r) +
        (if cp.y_ = r ∧ 0 ≤ cp.x_ ∧ cp.x_ < cp.width_ then cover else 0) := by
  obtain ⟨owner, hI⟩ := hW
  by_cases h1 : cp.height_ > cp.y_ ∧ 0 ≤ cp.y_
  · have hlen0 : cp.y_.toNat < cp.rows_.length := by rw [hI.rows_len]; omega
    have hrk := hI.row_ok cp.y_ h1.2 h1.1
    have hrk' : (cp.row cp.y_).x_range = Pixel_range_.init ∨
        (0 ≤ (cp.row cp.y_).x_range.min ∧
          (cp.row cp.y_).x_range.min ≤ (cp.row cp.y_).x_range.max ∧
          (cp.row cp.y_).x_range.max ≤ cp.width_ - 1) := by
      rcases hrk with h2 | h2
      · left; rw [h2]; rfl
      · right; exact ⟨h2.1, h2.2.1, h2.2.2.1⟩
    by_cases hx0 : 0 ≤ cp.x_
    · by_cases hx1 : cp.width_ > cp.x_
      · by_cases hm : invalid_cell_index_ ≠ (cp.row cp.y_).first_cell_idx ∧
            (cp.cell_stash_.get (cp.row cp.y_).first_cell_idx).x = cp.x_
        · rw [set_cell_merge cp cover area h1 hx0 hx1 hm] at h
          injection h with h
          have hh1 := (hI.head_ok cp.y_ h1.2 h1.1 (Ne.symm hm.1)).1
          have hhl : (cp.row cp.y_).first_cell_idx < cp.cell_stash_.cells_.length := by
            have := hI.in_use_le; omega
          obtain ⟨m1, m2, m3⟩ := @Inv.merge cp cp1 owner hI cp.y_ h1.2 h1.1 cover area
            (Ne.symm hm.1) (by rw [← h]) (by rw [← h]) (by rw [← h]) (by rw [← h])
            (by rw [← h]) (by rw [← h]) (by rw [← h]; simp)
            (by rw [← h]; simp only [Cell_stash_.get]; exact getD_set_eq _ _ _ _ hhl)
            (by
              intro i hi
              rw [← h]
              simp only [Cell_stash_.get]
              exact getD_set_ne _ _ _ _ _ (Ne.symm hi))
          have hrow : ∀ r, cp1.row r = cp.row r := fun r => by rw [← h]; rfl
          refine ⟨⟨owner, m1⟩, by rw [← h], by rw [← h], by rw [← h], by rw [← h],
            fun r hr0 hr1 => ⟨?_, ?_⟩⟩
          · have : ¬ (cp.y_ = r ∧ cp.x_ < 0) := by omega
            simp only [this, if_false, add_zero, hrow]
          · by_cases hry : r = cp.y_
            · subst hry
              rw [m2]
              simp [hx0, hx1]
            · rw [m3 r hr0 hr1 hry]
              have : ¬ (cp.y_ = r ∧ 0 ≤ cp.x_ ∧ cp.x_ < cp.width_) := by
                intro hc; exact hry hc.1.symm
              simp only [this, if_false, add_zero]
        · have hfree : cp.cell_stash_.cells_in_use_ < 4294967295 := by
            by_contra hc
            have hfull : ¬ 4294967295 > cp.cell_stash_.cells_in_use_ := by omega
            unfold set_cell Cell_stash_.acquire at h
            simp only [h1, hx0, hx1, if_true, and_self] at h
            rw [if_neg hm] at h
            simp only [hfull, if_false] at h
            exact Option.noConfusion h
          obtain ⟨cells1, e1, e2, e3, e4⟩ := set_cell_prepend cp cover area h1 hI.height_le
            hx0 hx1 hI.width_le hm hfree hI.in_use_le
          rw [e1] at h
          injection h with h
          obtain ⟨p1, p2, p3⟩ := @Inv.prepend cp cp1 owner hI cp.y_ cp.x_ h1.2 h1.1 hx0 hx1
            cover area hfree (by rw [← h]) (by rw [← h]) (by rw [← h]) (by rw [← h])
            (by rw [← h]) (by rw [← h]) (by rw [← h]; exact e2)
            (by rw [← h]; exact e3) (by intro i hi; rw [← h]; exact e4 i hi)
          have hrows : cp1.rows_ = cp.rows_.set cp.y_.toNat
              { cp.row cp.y_ with first_cell_idx := cp.cell_stash_.cells_in_use_
                                  x_range := (cp.row cp.y_).x_range.update cp.x_ } := by
            rw [← h]
          refine ⟨⟨_, p1⟩, by rw [← h], by rw [← h], by rw [← h], by rw [← h],
            fun r hr0 hr1 => ⟨?_, ?_⟩⟩
          · have : ¬ (cp.y_ = r ∧ cp.x_ < 0) := by omega
            simp only [this, if_false, add_zero]
            by_cases hry : r = cp.y_
            · subst hry
              rw [row_of_set_eq _ _ _ _ hrows hlen0]
            · rw [row_of_set_ne _ _ _ _ _ hrows h1.2 hr0 hry]
              rfl
          · by_cases hry : r = cp.y_
            · subst hry
              rw [p2]
              simp only [cells_cover, hx0, hx1, and_self, if_true]
              ring
            · rw [p3 r hr0 hr1 hry]
              have : ¬ (cp.y_ = r ∧ 0 ≤ cp.x_ ∧ cp.x_ < cp.width_) := by
                intro hc; exact hry hc.1.symm
              simp only [this, if_false, add_zero]
      · rw [set_cell_right cp cover area h1 hI.height_le hI.width_pos hI.width_le
          (by omega)] at h
        injection h with h
        have hxr := update_valid (cp.row cp.y_).x_range (cp.width_ - 1) (cp.width_ - 1) hrk'
          (by have := hI.width_pos; omega) (le_refl _) (by have := hI.width_le; omega)
        have hrows : cp1.rows_ = cp.rows_.set cp.y_.toNat
            { cp.row cp.y_ with
              x_range := (cp.row cp.y_).x_range.update (cp.width_ - 1) } := by
          rw [← h]
        have hst : cp1.cell_stash_ = cp.cell_stash_ := by rw [← h]
        have hinv := @Inv.update_row cp cp1 owner hI cp.y_ h1.2 h1.1 _ hrows
          (by rw [← h]) hst (by rw [← h]) (by rw [← h]) (by rw [← h])
          rfl hxr.2.2.2.2.1 hxr.2.2.2.2.2 hxr.1
          (le_trans hxr.2.1 hxr.2.2.1) hxr.2.2.2.1
        refine ⟨⟨owner, hinv⟩, by rw [← h], by rw [← h], by rw [← h], by rw [← h],
          fun r hr0 hr1 => ⟨?_, ?_⟩⟩
        · have : ¬ (cp.y_ = r ∧ cp.x_ < 0) := by omega
          simp only [this, if_false, add_zero]
          by_cases hry : r = cp.y_
          · subst hry
            rw [row_of_set_eq _ _ _ _ hrows hlen0]
          · rw [row_of_set_ne _ _ _ _ _ hrows h1.2 hr0 hry]
            rfl
        · have : ¬ (cp.y_ = r ∧ 0 ≤ cp.x_ ∧ cp.x_ < cp.width_) := by omega
          simp only [this, if_false, add_zero]
          apply congrArg
          apply row_cells_of_eq _ _ _ hst
          by_cases hry : r = cp.y_
          · subst hry
            rw [row_of_set_eq _ _ _ _ hrows hlen0]
          · rw [row_of_set_ne _ _ _ _ _ hrows h1.2 hr0 hry]
            rfl
    · rw [set_cell_left cp cover area h1 hI.height_le (by omega)] at h
      injection h with h
      have hxr := update_valid (cp.row cp.y_).x_range 0 (cp.width_ - 1) hrk'
        (le_refl _) (by have := hI.width_pos; omega) (by have := hI.width_le; omega)
      have hrows : cp1.rows_ = cp.rows_.set cp.y_.toNat
          { cp.row cp.y_ with left_cover := (cp.row cp.y_).left_cover + cover
                              x_range := (cp.row cp.y_).x_range.update 0 } := by
        rw [← h]
      have hst : cp1.cell_stash_ = cp.cell_stash_ := by rw [← h]
      have hinv := @Inv.update_row cp cp1 owner hI cp.y_ h1.2 h1.1 _ hrows
        (by rw [← h]) hst (by rw [← h]) (by rw [← h]) (by rw [← h])
        rfl hxr.2.2.2.2.1 hxr.2.2.2.2.2 hxr.1
        (le_trans hxr.2.1 hxr.2.2.1) hxr.2.2.2.1
      refine ⟨⟨owner, hinv⟩, by rw [← h], by rw [← h], by rw [← h], by rw [← h],
        fun r hr0 hr1 => ⟨?_, ?_⟩⟩
      · by_cases hry : r = cp.y_
        · subst hry
          rw [row_of_set_eq _ _ _ _ hrows hlen0]
          have : (cp.y_ = cp.y_ ∧ cp.x_ < 0) := ⟨rfl, by omega⟩
          simp only [this, and_self, if_true]
        · rw [row_of_set_ne _ _ _ _ _ hrows h1.2 hr0 hry]
          have : ¬ (cp.y_ = r ∧ cp.x_ < 0) := by
            intro hc; exact hry hc.1.symm
          simp only [this, if_false, add_zero]
          rfl
      · have : ¬ (cp.y_ = r ∧ 0 ≤ cp.x_ ∧ cp.x_ < cp.width_) := by omega
        simp only [this, if_false, add_zero]
        apply congrArg
        apply row_cells_of_eq _ _ _ hst
        by_cases hry : r = cp.y_
        · subst hry
          rw [row_of_set_eq _ _ _ _ hrows hlen0]
        · rw [row_of_set_ne _ _ _ _ _ hrows h1.2 hr0 hry]
          rfl
  · rw [set_cell_outside cp cover area h1] at h
    injection h with h
    subst h
    refine ⟨⟨owner, hI⟩, rfl, rfl, rfl, rfl, fun r hr0 hr1 => ?_⟩
    have h2 : ¬ (cp.y_ = r ∧ cp.x_ < 0) := by omega
    have h3 : ¬ (cp.y_ = r ∧ 0 ≤ cp.x_ ∧ cp.x_ < cp.width_) := by omega
    simp only [h2, h3, if_false, add_zero, and_self]

end Cell_processor

end vgxx

namespace vgxx

namespace Cell_processor

theorem Inv.of_moved {cp cp1 : Cell_processor} {owner : Nat → Int} (hI : Inv cp owner)
    (hrows : cp1.rows_ = cp.rows_) (hcells : cp1.cells_ = cp.cells_)
    (hst : cp1.cell_stash_ = cp.cell_stash_) (hw : cp1.width_ = cp.width_)
    (hh : cp1.height_ = cp.height_) (hyr : cp1.y_range_ = cp.y_range_) : Inv cp1 owner := by
  have hrow : ∀ r, cp1.row r = cp.row r := fun r => by simp only [row, hrows]
  refine ⟨hw ▸ hI.width_pos, hw ▸ hI.width_le, hh ▸ hI.height_pos, hh ▸ hI.height_le,
    by rw [hrows, hh]; exact hI.rows_len, hst ▸ hI.in_use_le, hst ▸ hI.in_use_max, ?_,
    hst ▸ hI.next_ok, ?_, ?_, by rw [hyr, hh]; exact hI.y_range_ok, hcells ▸ hI.dense_clean⟩
  · intro y h0 h1 hne
    rw [hrow] at hne ⊢
    rw [hst]
    exact hI.head_ok y h0 (hh ▸ h1) hne
  · intro i hi
    rw [hrow, hst, hh]
    exact hI.cell_ok i (hst ▸ hi)
  · intro y h0 h1
    rw [hrow, hw, hyr]
    exact hI.row_ok y h0 (hh ▸ h1)

theorem row_init (width height y : Int) : (init width height).row y = Row_.init := by
  simp only [row, init]
  split_ifs
  · rw [List.getD_eq_getElem?_getD, List.getElem?_replicate]
    split_ifs <;> rfl
  · rfl

/-- A freshly constructed processor with `Unt_16` dimensions `> 0` is
well-formed. -/
theorem Wf_init (width height : Int) (hw0 : 0 < width) (hw : width ≤ 65535)
    (hh0 : 0 < height) (hh : height ≤ 65535) : Wf (init width height) := by
  refine ⟨fun _ => 0, hw0, hw, hh0, hh, ?_, by simp [init], by simp [init], ?_, ?_, ?_, ?_,
    Or.inl rfl, by simp [init]⟩
  · simp [init, hw0, hh0]
  · intro y _ _ hne
    rw [row_init] at hne
    exact absurd rfl hne
  · intro i hi
    simp [init] at hi
  · intro i hi
    simp [init] at hi
  · intro y _ _
    left
    exact row_init _ _ _

theorem row_cells_init (width height y : Int) : (init width height).row_cells y = [] := by
  simp [row_cells, init, chain]

/-- What a sequence of calls stores: on a well-formed processor a run that
returns keeps the invariant, ends at the position reached by the calls, and
has added to `left_cover` of each row the covers emitted on that row left of
column 0 and to the stashed cells of the row the covers emitted in the
columns `0 .. width - 1`. -/
theorem run_stored (t : List Cell_call) :
    ∀ {cp cp1 : Cell_processor}, Wf cp → cp.run t = some cp1 →
      Wf cp1 ∧ cp1.x_ = pos_x cp.x_ t ∧ cp1.y_ = pos_y cp.y_ t ∧
      cp1.width_ = cp.width_ ∧ cp1.height_ = cp.height_ ∧
      ∀ r, 0 ≤ r → r < cp.height_ →
        (cp1.row r).left_cover =
          (cp.row r).left_cover + left_sum r (emissions cp.x_ cp.y_ t) ∧
        cells_cover (cp1.row_cells r) = cells_cover (cp.row_cells r) +
          inside_sum cp.width_ r (emissions cp.x_ cp.y_ t) := by
  induction t with
  | nil =>
    intro cp cp1 hW h
    simp only [run] at h
    injection h with h
    subst h
    exact ⟨hW, rfl, rfl, rfl, rfl, fun r _ _ => by simp [emissions, left_sum, inside_sum]⟩
  | cons c t ih =>
    intro cp cp1 hW h
    cases c with
    | inc_x =>
      simp only [run, call, Option.bind] at h
      obtain ⟨owner, hI⟩ := hW
      have := @ih cp.inc_x cp1 ⟨owner, hI.of_moved rfl rfl rfl rfl rfl rfl⟩ h
      simpa [pos_x, pos_y, emissions] using this
    | set_x x =>
      simp only [run, call, Option.bind] at h
      obtain ⟨owner, hI⟩ := hW
      have := @ih (cp.set_x x) cp1 ⟨owner, hI.of_moved rfl rfl rfl rfl rfl rfl⟩ h
      simpa [pos_x, pos_y, emissions] using this
    | set_y y =>
      simp only [run, call, Option.bind] at h
      obtain ⟨owner, hI⟩ := hW
      have := @ih (cp.set_y y) cp1 ⟨owner, hI.of_moved rfl rfl rfl rfl rfl rfl⟩ h
      simpa [pos_x, pos_y, emissions] using this
    | set_cell cover area =>
      simp only [run, call] at h
      cases hs : cp.set_cell cover area with
      | none => rw [hs] at h; simp at h
      | some cp2 =>
        rw [hs] at h
        simp only [Option.bind] at h
        obtain ⟨s1, s2, s3, s4, s5, s6⟩ := set_cell_step hW cover area hs
        obtain ⟨i1, i2, i3, i4, i5, i6⟩ := ih s1 h
        refine ⟨i1, by rw [i2, s2]; rfl, by rw [i3, s3]; rfl, by rw [i4, s4], by rw [i5, s5],
          fun r hr0 hr1 => ?_⟩
        obtain ⟨a1, a2⟩ := s6 r hr0 hr1
        obtain ⟨b1, b2⟩ := i6 r hr0 (by rw [s5]; exact hr1)
        rw [s2, s3] at b1
        rw [s2, s3, s4] at b2
        simp only [emissions, left_sum, inside_sum]
        constructor
        · rw [b1, a1]; ring
        · rw [b2, a2]; ring

theorem left_sum_eq_zero (r : Int) (E : List Emission) (h : ∀ e ∈ E, 0 ≤ e.x) :
    left_sum r E = 0 := by
  induction E with
  | nil => rfl
  | cons e t ih =>
    have he := h e (List.mem_cons_self _ _)
    have : ¬ (e.y = r ∧ e.x < 0) := by omega
    simp only [left_sum, this, if_false, zero_add]
    exact ih (fun e1 h1 => h e1 (List.mem_cons_of_mem _ h1))

theorem inside_sum_eq_row_cover (w r : Int) (E : List Emission)
    (h : ∀ e ∈ E, 0 ≤ e.x ∧ e.x < w) : inside_sum w r E = row_cover r E := by
  induction E with
  | nil => rfl
  | cons e t ih =>
    have he := h e (List.mem_cons_self _ _)
    simp only [inside_sum, row_cover, ih (fun e1 h1 => h e1 (List.mem_cons_of_mem _ h1))]
    congr 1
    by_cases hy : e.y = r
    · simp [hy, he.1, he.2]
    · simp [hy]

end Cell_processor

end vgxx

namespace vgxx

namespace Rasterizer

/-! ### Paths inside the viewport -/

/-- The emissions of a segment between two points of the viewport lie in the
viewport. -/
theorem Seg_ok.in_viewport {E : List Emission} {x_0 y_0 x_1 y_1 w h : Int}
    (hs : Seg_ok E x_0 y_0 x_1 y_1)
    (h0 : 0 ≤ x_0 ∧ x_0 < 256 * w ∧ 0 ≤ y_0 ∧ y_0 < 256 * h)
    (h1 : 0 ≤ x_1 ∧ x_1 < 256 * w ∧ 0 ≤ y_1 ∧ y_1 < 256 * h) :
    ∀ e ∈ E, 0 ≤ e.x ∧ e.x < w ∧ 0 ≤ e.y ∧ e.y < h := by
  intro e he
  have := hs.box e he
  omega

/-- A sequence of `line_to_fixed_24_dot_8` calls between points of the
viewport: all cells lie in the viewport, on every row the covers sum to the
extent between the first and the last pen position inside the row, the pen
ends on the last point and the subpath origin is unchanged. -/
theorem line_to_all_ok (w h : Int) (hw : w ≤ 65535) (hh : h ≤ 65535) :
    ∀ (vs : List (Int × Int)) (r : Rasterizer) (px py : Int),
      (0 ≤ r.x_ ∧ r.x_ < 256 * w ∧ 0 ≤ r.y_ ∧ r.y_ < 256 * h) →
      (∀ v ∈ vs, 0 ≤ v.1 ∧ v.1 < 256 * w ∧ 0 ≤ v.2 ∧ v.2 < 256 * h) →
      (∀ e ∈ emissions px py (line_to_all r vs).1, 0 ≤ e.x ∧ e.x < w ∧ 0 ≤ e.y ∧ e.y < h) ∧
      (∀ row, row_cover row (emissions px py (line_to_all r vs).1) =
        clamp_row row (line_to_all r vs).2.y_ - clamp_row row r.y_) ∧
      (0 ≤ (line_to_all r vs).2.x_ ∧ (line_to_all r vs).2.x_ < 256 * w ∧
        0 ≤ (line_to_all r vs).2.y_ ∧ (line_to_all r vs).2.y_ < 256 * h) ∧
      (line_to_all r vs).2.x_0_ = r.x_0_ ∧ (line_to_all r vs).2.y_0_ = r.y_0_ := by
  intro vs
  induction vs with
  | nil =>
    intro r px py hr _
    refine ⟨?_, ?_, hr, rfl, rfl⟩
    · intro e he
      simp [line_to_all, emissions] at he
    · intro row
      simp [line_to_all, emissions, row_cover]
  | cons v vs ih =>
    intro r px py hr hvs
    have hv := hvs v (List.mem_cons_self _ _)
    have hseg := add_line_ok px py r.x_ r.y_ v.1 v.2 (by rw [abs_lt]; omega)
      (by rw [abs_lt]; omega)
    have hbox := hseg.in_viewport hr hv
    obtain ⟨i1, i2, i3, i4, i5⟩ := ih (r.line_to_fixed_24_dot_8 v.1 v.2).2
      (pos_x px (r.line_to_fixed_24_dot_8 v.1 v.2).1)
      (pos_y py (r.line_to_fixed_24_dot_8 v.1 v.2).1) hv
      (fun v1 h1 => hvs v1 (List.mem_cons_of_mem _ h1))
    simp only [line_to_all, emissions_append]
    refine ⟨?_, ?_, i3, i4, i5⟩
    · intro e he
      rcases List.mem_append.mp he with h1 | h1
      · exact hbox e h1
      · exact i1 e h1
    · intro row
      rw [row_cover_append, i2 row]
      have := hseg.rows row
      simp only [line_to_fixed_24_dot_8] at this ⊢
      rw [this]
      ring

theorem add_line_same (x y : Int) : add_line_ x y x y = [] := by
  simp [add_line_]

/-- A closed contour between points of the viewport, drawn by a fresh
rasterizer: all cells lie in the viewport and on every row the covers sum
to 0. -/
theorem closed_path_ok (w h : Int) (hw0 : 0 < w) (hw : w ≤ 65535) (hh0 : 0 < h)
    (hh : h ≤ 65535) (v0 : Int × Int) (vs : List (Int × Int)) (px py : Int)
    (hv0 : 0 ≤ v0.1 ∧ v0.1 < 256 * w ∧ 0 ≤ v0.2 ∧ v0.2 < 256 * h)
    (hvs : ∀ v ∈ vs, 0 ≤ v.1 ∧ v.1 < 256 * w ∧ 0 ≤ v.2 ∧ v.2 < 256 * h) :
    (∀ e ∈ emissions px py (closed_path init v0 vs),
      0 ≤ e.x ∧ e.x < w ∧ 0 ≤ e.y ∧ e.y < h) ∧
    ∀ row, row_cover row (emissions px py (closed_path init v0 vs)) = 0 := by
  have hmove : (init.move_to_fixed_24_dot_8 v0.1 v0.2).1 = [] := by
    simp [move_to_fixed_24_dot_8, init, add_line_same]
  have hpen : (init.move_to_fixed_24_dot_8 v0.1 v0.2).2 =
      { x_0_ := v0.1, y_0_ := v0.2, x_ := v0.1, y_ := v0.2 } := rfl
  unfold closed_path
  rw [hmove, hpen, List.nil_append, emissions_append]
  obtain ⟨i1, i2, i3, i4, i5⟩ := line_to_all_ok w h hw hh vs
    { x_0_ := v0.1, y_0_ := v0.2, x_ := v0.1, y_ := v0.2 } px py hv0 hvs
  generalize pos_x px (line_to_all { x_0_ := v0.1, y_0_ := v0.2, x_ := v0.1, y_ := v0.2 } vs).1
    = qx
  generalize pos_y py (line_to_all { x_0_ := v0.1, y_0_ := v0.2, x_ := v0.1, y_ := v0.2 } vs).1
    = qy
  generalize line_to_all { x_0_ := v0.1, y_0_ := v0.2, x_ := v0.1, y_ := v0.2 } vs = res
    at i1 i2 i3 i4 i5 ⊢
  simp only at i4 i5 i2
  have hseg := add_line_ok qx qy res.2.x_ res.2.y_ v0.1 v0.2 (by rw [abs_lt]; omega)
    (by rw [abs_lt]; omega)
  have hclose : (close res.2).1 = add_line_ res.2.x_ res.2.y_ v0.1 v0.2 := by
    simp only [close, line_to_fixed_24_dot_8, i4, i5]
  rw [hclose]
  constructor
  · intro e he
    rcases List.mem_append.mp he with h1 | h1
    · exact i1 e h1
    · exact hseg.in_viewport i3 hv0 e h1
  · intro row
    rw [row_cover_append, i2 row, hseg.rows row]
    ring

end Rasterizer

end vgxx

namespace vgxx

namespace Cell_processor

/-! ### The sweep: collecting a row into the dense array -/

theorem cell_eta (c : Cell_) : ({ cover := c.cover + 0, area := c.area + 0 } : Cell_) = c := by
  cases c; simp

/-- Every cell of a list of the stash is a cell in use of the set that the
list stays in. -/
theorem chain_mem (st : Cell_stash_) (S : Nat → Prop)
    (hS : ∀ i, S i → ((st.get i).next_cell_idx ≠ invalid_cell_index_ →
      S (st.get i).next_cell_idx)) :
    ∀ (fuel idx : Nat), (idx ≠ invalid_cell_index_ → S idx) →
      ∀ c ∈ chain st fuel idx, ∃ i, S i ∧ c = st.get i := by
  intro fuel
  induction fuel with
  | zero => intro idx _ c hc; simp [chain] at hc
  | succ n ih =>
    intro idx hidx c hc
    by_cases hi : idx = invalid_cell_index_
    · rw [hi, chain_invalid] at hc
      simp at hc
    · simp only [chain, Ne.symm hi, ne_eq, not_false_eq_true, if_true, List.mem_cons] at hc
      rcases hc with h | h
      · exact ⟨idx, hidx hi, h⟩
      · exact ih _ (fun hne => hS idx (hidx hi) hne) c h

/-- The walk of `swipe` along a list whose cells all have a column at or after
`x_min` and inside the dense array: the array keeps its length and entry `i`
has gained the covers and areas of the cells of column `x_min + i`. -/
theorem swipe_collect_ok (st : Cell_stash_) (x_min : Int) :
    ∀ (fuel idx : Nat) (cells : List Cell_),
      (∀ c ∈ chain st fuel idx, x_min ≤ c.x ∧ (c.x - x_min).toNat < cells.length) →
      (swipe_collect st x_min fuel idx cells).length = cells.length ∧
      ∀ i : Nat, (swipe_collect st x_min fuel idx cells).getD i default =
        { cover := (cells.getD i default).cover + col_cover (chain st fuel idx) (x_min + i)
          area := (cells.getD i default).area + col_area (chain st fuel idx) (x_min + i) } := by
  intro fuel
  induction fuel with
  | zero =>
    intro idx cells _
    simp only [swipe_collect, chain, col_cover, col_area]
    exact ⟨trivial, fun i => (cell_eta _).symm⟩
  | succ n ih =>
    intro idx cells hc
    by_cases hi : idx = invalid_cell_index_
    · rw [hi, chain_invalid]
      simp only [swipe_collect, ne_eq, not_true_eq_false, if_false, col_cover, col_area]
      exact ⟨trivial, fun i => (cell_eta _).symm⟩
    · have hne : invalid_cell_index_ ≠ idx := Ne.symm hi
      simp only [chain, hne, ne_eq, not_false_eq_true, if_true] at hc ⊢
      simp only [swipe_collect, hne, ne_eq, not_false_eq_true, if_true]
      have hsrc := hc (st.get idx) (List.mem_cons_self _ _)
      obtain ⟨i1, i2⟩ := ih (st.get idx).next_cell_idx
        (cells.set ((st.get idx).x - x_min).toNat
          { cover := (cells.getD ((st.get idx).x - x_min).toNat default).cover +
              (st.get idx).cover
            area := (cells.getD ((st.get idx).x - x_min).toNat default).area +
              (st.get idx).area })
        (by
          intro c hcm
          rw [List.length_set]
          exact hc c (List.mem_cons_of_mem _ hcm))
      refine ⟨by rw [i1, List.length_set], fun i => ?_⟩
      rw [i2 i]
      simp only [col_cover, col_area]
      by_cases hii : ((st.get idx).x - x_min).toNat = i
      · have hx : (st.get idx).x = x_min + (i : Int) := by omega
        rw [← hii, getD_set_eq _ _ _ _ hsrc.2]
        rw [hii]
        simp only [hx, if_true]
        congr 1 <;> ring
      · have hx : ¬ (st.get idx).x = x_min + (i : Int) := by omega
        rw [getD_set_ne _ _ _ _ _ hii]
        simp only [hx, if_false, zero_add]

theorem cover_between_step (L : List Cell_ex_) (lo x : Int) (h : lo ≤ x) :
    cover_between L lo x = cover_between L lo (x - 1) + col_cover L x := by
  induction L with
  | nil => simp [cover_between, col_cover]
  | cons c t ih =>
    simp only [cover_between, col_cover, ih]
    by_cases h1 : c.x = x
    · have a1 : lo ≤ c.x ∧ c.x ≤ x := by omega
      have a2 : ¬ (lo ≤ c.x ∧ c.x ≤ x - 1) := by omega
      rw [if_pos a1, if_neg a2, if_pos h1]; ring
    · by_cases h2 : lo ≤ c.x ∧ c.x ≤ x
      · have a2 : lo ≤ c.x ∧ c.x ≤ x - 1 := by omega
        rw [if_pos h2, if_pos a2, if_neg h1]; ring
      · have a2 : ¬ (lo ≤ c.x ∧ c.x ≤ x - 1) := by omega
        rw [if_neg h2, if_neg a2, if_neg h1]; ring

theorem cover_between_empty (L : List Cell_ex_) (lo hi : Int) (h : hi < lo) :
    cover_between L lo hi = 0 := by
  induction L with
  | nil => rfl
  | cons c t ih =>
    have : ¬ (lo ≤ c.x ∧ c.x ≤ hi) := by omega
    simp only [cover_between, this, if_false, ih, add_zero]

theorem col_zero_of_gt (L : List Cell_ex_) (x hi : Int) (h : ∀ c ∈ L, c.x ≤ hi) (hx : hi < x) :
    col_cover L x = 0 ∧ col_area L x = 0 := by
  induction L with
  | nil => exact ⟨rfl, rfl⟩
  | cons c t ih =>
    have hc := h c (List.mem_cons_self _ _)
    have : ¬ c.x = x := by omega
    have := ih (fun c1 h1 => h c1 (List.mem_cons_of_mem _ h1))
    simp only [col_cover, col_area, *, if_false, add_zero, and_self]

end Cell_processor

end vgxx

namespace vgxx

namespace Cell_processor

/-! ### The sweep: the pixels of one row -/

theorem gap_coverage_zero (rule : Fill_rule) : gap_coverage rule 0 = 0 := by
  cases rule <;> rfl

theorem gap_coverage_nonneg (rule : Fill_rule) (cover : Int) : 0 ≤ gap_coverage rule cover := by
  unfold gap_coverage u8
  exact Int.emod_nonneg _ (by norm_num)

/-- One pixel of the sweep, when the dense array holds the column sums from
the current pixel on, the running cover is that of the pixel before, and the
cached gap coverage is 0 or that of the running cover. -/
theorem swipe_cell_ok (rule : Fill_rule) (A R W : Int → Int) (x_min x_max : Int)
    (hW : ∀ x, x_min ≤ x → W x = W (x - 1) + A x) (s : Sweep_)
    (hx : s.x = x_min + s.idx) (hle : s.x ≤ x_max)
    (hd : ∀ j : Nat, s.cells_.getD j default =
      if s.idx ≤ j ∧ x_min + j ≤ x_max then
        { cover := A (x_min + j), area := R (x_min + j) }
      else { cover := 0, area := 0 })
    (hc : s.cover = W (s.x - 1))
    (hm : s.mid_coverage = 0 ∨ s.mid_coverage = gap_coverage rule s.cover) :
    (swipe_cell rule s).x = s.x ∧ (swipe_cell rule s).idx = s.idx ∧
    (swipe_cell rule s).cover = W s.x ∧
    (swipe_cell rule s).calls = s.calls ++
      (if 0 < dense_coverage rule A R W s.x then
        [Blender_call.blend (dense_coverage rule A R W s.x)] else []) ∧
    ((swipe_cell rule s).mid_coverage = 0 ∨
      (swipe_cell rule s).mid_coverage = gap_coverage rule (swipe_cell rule s).cover) ∧
    (∀ j : Nat, (swipe_cell rule s).cells_.getD j default =
      if s.idx + 1 ≤ j ∧ x_min + j ≤ x_max then
        { cover := A (x_min + j), area := R (x_min + j) }
      else { cover := 0, area := 0 }) ∧
    (swipe_cell rule s).cells_.length = s.cells_.length := by
  have hcell : s.cells_.getD s.idx default = { cover := A s.x, area := R s.x } := by
    rw [hd s.idx, if_pos ⟨le_refl _, by omega⟩, hx]
  have hWx := hW s.x (by omega)
  by_cases hne : 0 ≠ A s.x ∨ 0 ≠ R s.x
  · have hne1 : (s.cells_.getD s.idx default).nonempty := by
      rw [hcell]; exact hne
    have hlen : s.idx < s.cells_.length := by
      by_contra hge
      have : s.cells_.getD s.idx default = default := by
        rw [List.getD_eq_default]; omega
      rw [this] at hcell
      have h1 : (0 : Int) = A s.x := congrArg Cell_.cover hcell
      have h2 : (0 : Int) = R s.x := congrArg Cell_.area hcell
      rcases hne with h | h
      · exact h h1
      · exact h h2
    unfold swipe_cell
    simp only [hne1, if_true]
    simp only [hcell, dense_coverage, hne, if_true]
    have hsum : s.cover + A s.x = W s.x := by rw [hWx, hc]
    rw [hsum]
    refine ⟨trivial, trivial, rfl, ?_, Or.inl trivial, ?_, ?_⟩
    · split_ifs
      · rfl
      · rw [List.append_nil]
    · intro j
      by_cases hj : s.idx = j
      · rw [← hj, getD_set_eq _ _ _ _ hlen]
        have : ¬ (s.idx + 1 ≤ s.idx ∧ x_min + (s.idx : Int) ≤ x_max) := by omega
        rw [if_neg this]
        rfl
      · rw [getD_set_ne _ _ _ _ _ hj, hd j]
        by_cases hjj : s.idx + 1 ≤ j ∧ x_min + (j : Int) ≤ x_max
        · rw [if_pos hjj, if_pos ⟨by omega, hjj.2⟩]
        · have : ¬ (s.idx ≤ j ∧ x_min + (j : Int) ≤ x_max) := by omega
          rw [if_neg hjj, if_neg this]
    · rw [List.length_set]
  · have hne1 : ¬ (s.cells_.getD s.idx default).nonempty := by
      rw [hcell]; exact hne
    have hA : A s.x = 0 := by
      by_contra h; exact hne (Or.inl (Ne.symm h))
    have hR : R s.x = 0 := by
      by_contra h; exact hne (Or.inr (Ne.symm h))
    have hcov : W s.x = s.cover := by rw [hWx, hA, hc, add_zero]
    have hmid : (if 1 > s.mid_coverage ∧ 0 ≠ s.cover then gap_coverage rule s.cover
        else s.mid_coverage) = gap_coverage rule s.cover := by
      split_ifs with h
      · rfl
      · rcases hm with h0 | h0
        · have : s.cover = 0 := by
            by_contra hcn
            exact h ⟨by rw [h0]; norm_num, Ne.symm hcn⟩
          rw [h0, this, gap_coverage_zero]
        · exact h0
    unfold swipe_cell
    simp only [hne1, if_false]
    simp only [hmid, dense_coverage, hne, if_false, hcov]
    refine ⟨trivial, trivial, trivial, ?_, Or.inr trivial, ?_, trivial⟩
    · split_ifs
      · rfl
      · rw [List.append_nil]
    · intro j
      rw [hd j]
      by_cases hj : s.idx = j
      · have h1 : ¬ (s.idx + 1 ≤ j ∧ x_min + (j : Int) ≤ x_max) := by omega
        rw [if_neg h1]
        split_ifs
        · rw [← hj, ← hx, hA, hR]
        · rfl
      · by_cases hjj : s.idx + 1 ≤ j ∧ x_min + (j : Int) ≤ x_max
        · rw [if_pos hjj, if_pos ⟨by omega, hjj.2⟩]
        · have : ¬ (s.idx ≤ j ∧ x_min + (j : Int) ≤ x_max) := by omega
          rw [if_neg hjj, if_neg this]

end Cell_processor

end vgxx

namespace vgxx

namespace Cell_processor

/-- The loop over the pixels of a row: it appends the expected calls and
leaves the dense array empty. -/
theorem swipe_cells_ok (rule : Fill_rule) (A R W : Int → Int) (x_min x_max : Int)
    (hW : ∀ x, x_min ≤ x → W x = W (x - 1) + A x) :
    ∀ (fuel : Nat) (s : Sweep_),
      s.x = x_min + s.idx → s.x + fuel = x_max + 1 → 0 < fuel →
      (∀ j : Nat, s.cells_.getD j default =
        if s.idx ≤ j ∧ x_min + j ≤ x_max then
          { cover := A (x_min + j), area := R (x_min + j) }
        else { cover := 0, area := 0 }) →
      s.cover = W (s.x - 1) →
      (s.mid_coverage = 0 ∨ s.mid_coverage = gap_coverage rule s.cover) →
      (swipe_cells rule x_max fuel s).calls =
        s.calls ++ expect_cells (dense_coverage rule A R W) x_max fuel s.x ∧
      (∀ j : Nat, (swipe_cells rule x_max fuel s).cells_.getD j default =
        { cover := 0, area := 0 }) ∧
      (swipe_cells rule x_max fuel s).cells_.length = s.cells_.length := by
  intro fuel
  induction fuel with
  | zero => intro s _ _ h; omega
  | succ n ih =>
    intro s hx hf _ hd hc hm
    obtain ⟨c1, c2, c3, c4, c5, c6, c7⟩ :=
      swipe_cell_ok rule A R W x_min x_max hW s hx (by omega) hd hc hm
    simp only [swipe_cells, expect_cells]
    by_cases hlt : x_max > (swipe_cell rule s).x
    · rw [if_pos hlt]
      rw [c1] at hlt
      rw [if_pos hlt]
      obtain ⟨i1, i2, i3⟩ := ih
        { swipe_cell rule s with
          idx := (swipe_cell rule s).idx + 1
          x := (swipe_cell rule s).x + 1
          calls := (swipe_cell rule s).calls ++ [Blender_call.inc_x] }
        (by show (swipe_cell rule s).x + 1 = x_min + (((swipe_cell rule s).idx + 1 : Nat) : Int)
            rw [c1, c2, hx]; push_cast; ring)
        (by show (swipe_cell rule s).x + 1 + (n : Int) = x_max + 1
            rw [c1]; push_cast at hf; omega)
        (by rw [c1] at *; push_cast at hf; omega)
        (by intro j
            show (swipe_cell rule s).cells_.getD j default = _
            rw [c6 j, c2])
        (by show (swipe_cell rule s).cover = W ((swipe_cell rule s).x + 1 - 1)
            rw [c3, c1]; congr 1; ring)
        c5
      refine ⟨?_, i2, i3.trans c7⟩
      rw [i1]
      show ((swipe_cell rule s).calls ++ [Blender_call.inc_x]) ++
        expect_cells (dense_coverage rule A R W) x_max n ((swipe_cell rule s).x + 1) = _
      rw [c4, c1]
      simp only [List.append_assoc, List.singleton_append]
    · rw [if_neg hlt]
      rw [c1] at hlt
      rw [if_neg hlt, List.append_nil]
      refine ⟨c4, fun j => ?_, c7⟩
      rw [c6 j]
      have : ¬ (s.idx + 1 ≤ j ∧ x_min + (j : Int) ≤ x_max) := by omega
      rw [if_neg this]

end Cell_processor

end vgxx

namespace vgxx

namespace Cell_processor

/-! ### The sweep: one row -/

theorem getD_of_forall_mem (cells : List Cell_)
    (h : ∀ c ∈ cells, c = { cover := 0, area := 0 }) (j : Nat) :
    cells.getD j default = { cover := 0, area := 0 } := by
  by_cases hj : j < cells.length
  · rw [List.getD_eq_getElem _ _ hj]
    exact h _ (List.getElem_mem _)
  · rw [List.getD_eq_default _ _ (by omega)]
    rfl

theorem forall_mem_of_getD (cells : List Cell_)
    (h : ∀ j : Nat, cells.getD j default = { cover := 0, area := 0 }) :
    ∀ c ∈ cells, c = { cover := 0, area := 0 } := by
  intro c hc
  obtain ⟨n, hn, rfl⟩ := List.getElem_of_mem hc
  rw [← List.getD_eq_getElem _ default hn]
  exact h n

/-- The cells of a row of a well-formed processor have their column in the
`x_range` of the row. -/
theorem row_cells_range (cp : Cell_processor) (owner : Nat → Int) (hinv : Inv cp owner)
    (y : Int) (hy0 : 0 ≤ y) (hy1 : y < cp.height_) :
    ∀ c ∈ cp.row_cells y, (cp.row y).x_range.min ≤ c.x ∧ c.x ≤ (cp.row y).x_range.max := by
  intro c hc
  obtain ⟨i, ⟨hi1, hi2⟩, rfl⟩ := chain_mem cp.cell_stash_
    (fun i => i < cp.cell_stash_.cells_in_use_ ∧ owner i = y)
    (fun i hi hn => by
      obtain ⟨n1, n2⟩ := hinv.next_ok i hi.1 hn
      exact ⟨by omega, by rw [n2, hi.2]⟩)
    cp.cell_stash_.cells_in_use_ (cp.row y).first_cell_idx
    (fun hn => hinv.head_ok y hy0 hy1 hn) c hc
  have := hinv.cell_ok i hi1
  rw [hi2] at this
  exact ⟨this.2.2.1, this.2.2.2⟩

theorem sweep_coverage_eq (rule : Fill_rule) (cp : Cell_processor) (y : Int) :
    cp.sweep_coverage rule y =
      dense_coverage rule (col_cover (cp.row_cells y)) (col_area (cp.row_cells y))
        (fun x => (cp.row y).left_cover +
          cover_between (cp.row_cells y) (cp.row y).x_range.min x) := by
  funext x
  rfl

/-- The sweep of one row of a well-formed processor, the dense array being
empty before: it appends `set_x(x_min)` and the calls of the pixels of the
row, leaves the dense array empty and resets the row. -/
theorem swipe_row_ok (rule : Fill_rule) (cp : Cell_processor) (owner : Nat → Int)
    (hinv : Inv cp owner) (s : Swipe_) (hy0 : 0 ≤ s.y) (hy1 : s.y < cp.height_)
    (hrow : s.rows_.getD s.y.toNat default = cp.row s.y)
    (hne : (cp.row s.y).x_range.nonempty)
    (hclean : ∀ j : Nat, s.cells_.getD j default = { cover := 0, area := 0 }) :
    (swipe_row rule cp.cell_stash_ s).calls =
      s.calls ++ Blender_call.set_x (cp.row s.y).x_range.min ::
        expect_cells (cp.sweep_coverage rule s.y) (cp.row s.y).x_range.max
          (((cp.row s.y).x_range.max - (cp.row s.y).x_range.min).toNat + 1)
          (cp.row s.y).x_range.min ∧
    (∀ j : Nat, (swipe_row rule cp.cell_stash_ s).cells_.getD j default =
      { cover := 0, area := 0 }) ∧
    (swipe_row rule cp.cell_stash_ s).rows_ = s.rows_.set s.y.toNat Row_.init ∧
    (swipe_row rule cp.cell_stash_ s).y = s.y := by
  have hne1 : (cp.row s.y).x_range.min ≤ (cp.row s.y).x_range.max := hne
  have hrange := row_cells_range cp owner hinv s.y hy0 hy1
  -- the dense array after `resize`
  have hres : ∀ cells : List Cell_,
      cells = (if s.cells_.length < ((cp.row s.y).x_range.max - (cp.row s.y).x_range.min).toNat + 1
        then s.cells_ ++ List.replicate
          (((cp.row s.y).x_range.max - (cp.row s.y).x_range.min).toNat + 1 - s.cells_.length)
          { cover := 0, area := 0 }
        else s.cells_) →
      ((cp.row s.y).x_range.max - (cp.row s.y).x_range.min).toNat + 1 ≤ cells.length ∧
      ∀ j : Nat, cells.getD j default = { cover := 0, area := 0 } := by
    intro cells hc
    subst hc
    split_ifs with h
    · refine ⟨by rw [List.length_append, List.length_replicate]; omega, ?_⟩
      apply getD_of_forall_mem
      intro c hcm
      rcases List.mem_append.mp hcm with h1 | h1
      · exact forall_mem_of_getD _ hclean c h1
      · exact (List.mem_replicate.mp h1).2
    · exact ⟨by omega, hclean⟩
  obtain ⟨cells0, hcells0⟩ : ∃ cells : List Cell_,
      cells = (if s.cells_.length < ((cp.row s.y).x_range.max - (cp.row s.y).x_range.min).toNat + 1
        then s.cells_ ++ List.replicate
          (((cp.row s.y).x_range.max - (cp.row s.y).x_range.min).toNat + 1 - s.cells_.length)
          { cover := 0, area := 0 }
        else s.cells_) := ⟨_, rfl⟩
  obtain ⟨r1, r2⟩ := hres cells0 hcells0
  obtain ⟨k1, k2⟩ := swipe_collect_ok cp.cell_stash_ (cp.row s.y).x_range.min
    cp.cell_stash_.cells_in_use_ (cp.row s.y).first_cell_idx cells0
    (fun c hc => by
      have := hrange c hc
      exact ⟨this.1, by omega⟩)
  have key := swipe_cells_ok rule (col_cover (cp.row_cells s.y)) (col_area (cp.row_cells s.y))
    (fun x => (cp.row s.y).left_cover +
      cover_between (cp.row_cells s.y) (cp.row s.y).x_range.min x)
    (cp.row s.y).x_range.min (cp.row s.y).x_range.max
    (fun x hx => by
      show _ + _ = _ + _ + _
      rw [cover_between_step _ _ _ hx]; ring)
    (((cp.row s.y).x_range.max - (cp.row s.y).x_range.min).toNat + 1)
    { calls := s.calls ++ [Blender_call.set_x (cp.row s.y).x_range.min]
      cells_ := swipe_collect cp.cell_stash_ (cp.row s.y).x_range.min
        cp.cell_stash_.cells_in_use_ (cp.row s.y).first_cell_idx cells0
      idx := 0
      x := (cp.row s.y).x_range.min
      cover := (cp.row s.y).left_cover
      mid_coverage := 0 }
    (by simp)
    (by show (cp.row s.y).x_range.min + ((_ + 1 : Nat) : Int) = _
        push_cast
        omega)
    (by omega)
    (by intro j
        show (swipe_collect _ _ _ _ _).getD j default = _
        rw [k2 j, r2 j]
        by_cases hj : (cp.row s.y).x_range.min + (j : Int) ≤ (cp.row s.y).x_range.max
        · rw [if_pos ⟨Nat.zero_le _, hj⟩]
          simp only [zero_add]
          rfl
        · have hz := col_zero_of_gt (cp.row_cells s.y) ((cp.row s.y).x_range.min + (j : Int))
            (cp.row s.y).x_range.max (fun c hc => (hrange c hc).2) (by omega)
          have : ¬ (0 ≤ j ∧ (cp.row s.y).x_range.min + (j : Int) ≤ (cp.row s.y).x_range.max) :=
            fun h => hj h.2
          rw [if_neg this]
          show ({ cover := 0 + col_cover (cp.row_cells s.y) _
                  area := 0 + col_area (cp.row_cells s.y) _ } : Cell_) = _
          rw [hz.1, hz.2]
          rfl)
    (by show (cp.row s.y).left_cover = _ + cover_between _ _ ((cp.row s.y).x_range.min - 1)
        rw [cover_between_empty _ _ _ (by omega), add_zero])
    (Or.inl rfl)
  subst hcells0
  rw [sweep_coverage_eq]
  unfold swipe_row
  simp only [hrow]
  refine ⟨?_, key.2.1, rfl, trivial⟩
  rw [key.1]
  simp only [List.append_assoc, List.singleton_append]

end Cell_processor

end vgxx

namespace vgxx

namespace Cell_processor

/-! ### The sweep: the loop over the rows -/

/-- One iteration of the loop over the rows, before the step to the next
row. -/
theorem swipe_rows_step (rule : Fill_rule) (cp : Cell_processor) (owner : Nat → Int)
    (hinv : Inv cp owner) (s : Swipe_) (hy0 : 0 ≤ s.y) (hy1 : s.y < cp.height_)
    (hrow : s.rows_.getD s.y.toNat default = cp.row s.y)
    (hlen : s.rows_.length = cp.rows_.length)
    (hclean : ∀ j : Nat, s.cells_.getD j default = { cover := 0, area := 0 })
    (s1 : Swipe_)
    (hs1 : s1 = if (s.rows_.getD s.y.toNat default).x_range.nonempty then
      swipe_row rule cp.cell_stash_ s else s) :
    s1.y = s.y ∧
    s1.calls = s.calls ++
      (if (cp.row s.y).x_range.nonempty then
        Blender_call.set_x (cp.row s.y).x_range.min ::
          expect_cells (cp.sweep_coverage rule s.y) (cp.row s.y).x_range.max
            (((cp.row s.y).x_range.max - (cp.row s.y).x_range.min).toNat + 1)
            (cp.row s.y).x_range.min
      else []) ∧
    (∀ j : Nat, s1.cells_.getD j default = { cover := 0, area := 0 }) ∧
    (∀ j : Nat, s1.rows_.getD j default =
      if (j : Int) = s.y ∧ (cp.row s.y).x_range.nonempty then Row_.init
      else s.rows_.getD j default) ∧
    s1.rows_.length = s.rows_.length := by
  rw [hrow] at hs1
  by_cases hne : (cp.row s.y).x_range.nonempty
  · rw [if_pos hne] at hs1
    rw [if_pos hne]
    obtain ⟨a1, a2, a3, a4⟩ := swipe_row_ok rule cp owner hinv s hy0 hy1 hrow hne hclean
    rw [← hs1] at a1 a2 a3 a4
    refine ⟨a4, a1, a2, fun j => ?_, by rw [a3, List.length_set]⟩
    rw [a3]
    by_cases hj : (j : Int) = s.y
    · rw [if_pos ⟨hj, hne⟩]
      have : s.y.toNat = j := by omega
      rw [this]
      apply getD_set_eq
      rw [hlen, hinv.rows_len]
      omega
    · have h1 : ¬ ((j : Int) = s.y ∧ (cp.row s.y).x_range.nonempty) := fun h => hj h.1
      rw [if_neg h1]
      apply getD_set_ne
      omega
  · rw [if_neg hne] at hs1
    rw [if_neg hne, List.append_nil, hs1]
    refine ⟨rfl, rfl, hclean, fun j => ?_, rfl⟩
    have h1 : ¬ ((j : Int) = s.y ∧ (cp.row s.y).x_range.nonempty) := fun h => hne h.2
    rw [if_neg h1]

/-- The loop over the rows of a well-formed processor, from a row on whose
successors are untouched and with an empty dense array: it appends the
expected calls, leaves the dense array empty, and resets exactly the rows it
visits that have a non-empty `x_range`. -/
theorem swipe_rows_ok (rule : Fill_rule) (cp : Cell_processor) (owner : Nat → Int)
    (hinv : Inv cp owner) (hmax : cp.y_range_.max < cp.height_) :
    ∀ (fuel : Nat) (s : Swipe_),
      0 ≤ s.y → s.y + fuel = cp.y_range_.max + 1 → 0 < fuel →
      (∀ j : Nat, s.y ≤ j → s.rows_.getD j default = cp.rows_.getD j default) →
      s.rows_.length = cp.rows_.length →
      (∀ j : Nat, s.cells_.getD j default = { cover := 0, area := 0 }) →
      (swipe_rows rule cp.cell_stash_ cp.y_range_.max fuel s).calls =
        s.calls ++ expect_rows rule cp fuel s.y ∧
      (∀ j : Nat, (swipe_rows rule cp.cell_stash_ cp.y_range_.max fuel s).cells_.getD j default =
        { cover := 0, area := 0 }) ∧
      (∀ j : Nat, (swipe_rows rule cp.cell_stash_ cp.y_range_.max fuel s).rows_.getD j default =
        if s.y ≤ j ∧ (j : Int) ≤ cp.y_range_.max ∧ (cp.row j).x_range.nonempty then Row_.init
        else s.rows_.getD j default) ∧
      (swipe_rows rule cp.cell_stash_ cp.y_range_.max fuel s).rows_.length = s.rows_.length := by
  intro fuel
  induction fuel with
  | zero => intro s _ _ h; omega
  | succ n ih =>
    intro s hy0 hf _ hrows hlen hclean
    have hrow : s.rows_.getD s.y.toNat default = cp.row s.y := by
      rw [hrows s.y.toNat (by omega)]; rfl
    obtain ⟨s1, hs1⟩ : ∃ s1 : Swipe_, s1 =
      if (s.rows_.getD s.y.toNat default).x_range.nonempty then
        swipe_row rule cp.cell_stash_ s else s := ⟨_, rfl⟩
    obtain ⟨c1, c2, c3, c4, c5⟩ := swipe_rows_step rule cp owner hinv s hy0
      (by push_cast at hf; omega) hrow hlen hclean s1 hs1
    simp only [swipe_rows, expect_rows]
    rw [← hs1]
    have hcast : ∀ j : Nat, (j : Int) = s.y → cp.row s.y = cp.row j := by
      intro j hj; rw [hj]
    by_cases hlt : cp.y_range_.max > s1.y
    · rw [if_pos hlt]
      rw [c1] at hlt
      rw [if_pos hlt]
      obtain ⟨i1, i2, i3, i4⟩ := ih
        { s1 with y := s1.y + 1, calls := s1.calls ++ [Blender_call.inc_y] }
        (by show 0 ≤ s1.y + 1
            omega)
        (by show s1.y + 1 + (n : Int) = _
            rw [c1]; push_cast at hf; omega)
        (by rw [c1] at *; push_cast at hf; omega)
        (by intro j hj
            show s1.rows_.getD j default = _
            have hj1 : s1.y + 1 ≤ j := hj
            rw [c4 j, if_neg (by omega)]
            exact hrows j (by omega))
        (by show s1.rows_.length = _
            rw [c5, hlen])
        c3
      refine ⟨?_, i2, fun j => ?_, i4.trans c5⟩
      · rw [i1]
        show (s1.calls ++ [Blender_call.inc_y]) ++ expect_rows rule cp n (s1.y + 1) = _
        rw [c2, c1]
        simp only [List.append_assoc, List.singleton_append]
      · rw [i3 j]
        show (if s1.y + 1 ≤ (j : Int) ∧ _ then _ else s1.rows_.getD j default) = _
        rw [c4 j, c1]
        by_cases hj : (j : Int) = s.y
        · rw [hcast j hj]
          simp only [Pixel_range_.nonempty]
          split_ifs <;> first | rfl | (exfalso; omega)
        · simp only [Pixel_range_.nonempty]
          split_ifs <;> first | rfl | (exfalso; omega)
    · rw [if_neg hlt]
      rw [c1] at hlt
      rw [if_neg hlt, List.append_nil]
      refine ⟨c2, c3, fun j => ?_, c5⟩
      rw [c4 j]
      by_cases hj : (j : Int) = s.y
      · rw [hcast j hj]
        simp only [Pixel_range_.nonempty]
        split_ifs <;> first | rfl | (exfalso; omega)
      · simp only [Pixel_range_.nonempty]
        split_ifs <;> first | rfl | (exfalso; omega)

end Cell_processor

end vgxx

namespace vgxx

namespace Cell_processor

/-! ### The sweep as a whole -/

theorem getD_replicate_init (n j : Nat) :
    (List.replicate n Row_.init).getD j default = Row_.init := by
  rw [List.getD_eq_getElem?_getD, List.getElem?_replicate]
  split_ifs <;> rfl

theorem rows_eq_replicate (rows : List Row_) (n : Nat) (hlen : rows.length = n)
    (h : ∀ j : Nat, rows.getD j default = Row_.init) : rows = List.replicate n Row_.init := by
  rw [List.eq_replicate_iff]
  refine ⟨hlen, fun b hb => ?_⟩
  obtain ⟨k, hk, rfl⟩ := List.getElem_of_mem hb
  rw [← List.getD_eq_getElem _ default hk]
  exact h k

/-- The sweep of a well-formed processor makes the expected calls and returns
the rows, `y_range_` and the in-use counter of the stash to their freshly
constructed values; the dense array is empty again. -/
theorem swipe_ok (rule : Fill_rule) (cp : Cell_processor) (owner : Nat → Int)
    (hinv : Inv cp owner) :
    (swipe rule cp).1 = expect_swipe rule cp ∧
    (swipe rule cp).2.rows_ = List.replicate cp.height_.toNat Row_.init ∧
    (∀ j : Nat, (swipe rule cp).2.cells_.getD j default = { cover := 0, area := 0 }) ∧
    (swipe rule cp).2.y_range_ = Pixel_range_.init ∧
    (swipe rule cp).2.cell_stash_ = cp.cell_stash_.reset ∧
    (swipe rule cp).2.width_ = cp.width_ ∧ (swipe rule cp).2.height_ = cp.height_ ∧
    (swipe rule cp).2.x_ = cp.x_ ∧ (swipe rule cp).2.y_ = cp.y_ := by
  have hdef : ∀ j : Nat, ¬ (j : Int) < cp.height_ → cp.rows_.getD j default = Row_.init := by
    intro j hj
    rw [List.getD_eq_default _ _ (by rw [hinv.rows_len]; omega)]
    rfl
  by_cases hne : cp.y_range_.nonempty
  · have hyr : 0 ≤ cp.y_range_.min ∧ cp.y_range_.min ≤ cp.y_range_.max ∧
        cp.y_range_.max ≤ cp.height_ - 1 := by
      rcases hinv.y_range_ok with h | h
      · rw [h] at hne
        exact absurd hne (by decide)
      · exact h
    obtain ⟨a1, a2, a3, a4⟩ := swipe_rows_ok rule cp owner hinv (by omega)
      ((cp.y_range_.max - cp.y_range_.min).toNat + 1)
      { calls := [Blender_call.set_y cp.y_range_.min]
        cells_ := cp.cells_
        rows_ := cp.rows_
        y := cp.y_range_.min }
      hyr.1
      (by show cp.y_range_.min + ((_ + 1 : Nat) : Int) = _
          push_cast
          omega)
      (by omega) (fun j _ => rfl) rfl (getD_of_forall_mem _ hinv.dense_clean)
    simp only [swipe, expect_swipe, if_pos hne]
    refine ⟨a1, ?_, a2, ?_, ?_, ?_, ?_, ?_, ?_⟩ <;> first | rfl | trivial | skip
    apply rows_eq_replicate _ _ (a4.trans hinv.rows_len)
    intro j
    rw [a3 j]
    split_ifs with hc
    · rfl
    · show cp.rows_.getD j default = Row_.init
      by_cases hj : (j : Int) < cp.height_
      · rcases hinv.row_ok j (by omega) hj with h | h
        · have : cp.row j = cp.rows_.getD j default := by simp [row]
          rw [← this, h]
        · exact absurd ⟨h.2.2.2.1, h.2.2.2.2, h.2.1⟩ hc
      · exact hdef j hj
  · simp only [swipe, expect_swipe, if_neg hne]
    refine ⟨trivial, ?_, getD_of_forall_mem _ hinv.dense_clean, ?_, ?_, ?_, ?_, ?_, ?_⟩ <;>
      first | rfl | trivial | skip
    · apply rows_eq_replicate _ _ hinv.rows_len
      intro j
      by_cases hj : (j : Int) < cp.height_
      · rcases hinv.row_ok j (by omega) hj with h | h
        · have : cp.row j = cp.rows_.getD j default := by simp [row]
          rw [← this, h]
        · exact absurd (show cp.y_range_.min ≤ cp.y_range_.max by omega) hne
      · exact hdef j hj
    · rcases hinv.y_range_ok with h | h
      · exact h
      · exact absurd h.2.1 hne

/-- The sweep keeps a processor well-formed. -/
theorem Wf_swipe (rule : Fill_rule) (cp : Cell_processor) (h : Wf cp) :
    Wf (swipe rule cp).2 := by
  obtain ⟨owner, hinv⟩ := h
  obtain ⟨_, b2, b3, b4, b5, b6, b7, _, _⟩ := swipe_ok rule cp owner hinv
  have hrow : ∀ y, (swipe rule cp).2.row y = Row_.init := by
    intro y
    simp only [row, b2]
    exact getD_replicate_init _ _
  refine ⟨owner, ?_, ?_, ?_, ?_, ?_, ?_, ?_, ?_, ?_, ?_, ?_, ?_, ?_⟩
  · rw [b6]; exact hinv.width_pos
  · rw [b6]; exact hinv.width_le
  · rw [b7]; exact hinv.height_pos
  · rw [b7]; exact hinv.height_le
  · rw [b2, b7, List.length_replicate]
  · rw [b5]; exact Nat.zero_le _
  · rw [b5]; exact Nat.zero_le _
  · intro y _ _ hne
    rw [hrow] at hne
    exact absurd rfl hne
  · intro i hi
    rw [b5] at hi
    exact absurd hi (Nat.not_lt_zero _)
  · intro i hi
    rw [b5] at hi
    exact absurd hi (Nat.not_lt_zero _)
  · intro y _ _
    exact Or.inl (hrow y)
  · exact Or.inl b4
  · exact forall_mem_of_getD _ b3

/-- Every reachable state is well-formed. -/
theorem Reachable.wf {cp : Cell_processor} (h : Reachable cp) : Wf cp := by
  induction h with
  | init width height hw0 hw hh0 hh => exact Wf_init width height hw0 hw hh0 hh
  | call cp cp1 c _ hc ih =>
    cases c with
    | inc_x =>
      have hc : cp.inc_x = cp1 := Option.some.inj hc
      obtain ⟨owner, hI⟩ := ih
      exact ⟨owner, hI.of_moved (by rw [← hc]; rfl) (by rw [← hc]; rfl) (by rw [← hc]; rfl)
        (by rw [← hc]; rfl) (by rw [← hc]; rfl) (by rw [← hc]; rfl)⟩
    | set_x x =>
      have hc : cp.set_x x = cp1 := Option.some.inj hc
      obtain ⟨owner, hI⟩ := ih
      exact ⟨owner, hI.of_moved (by rw [← hc]; rfl) (by rw [← hc]; rfl) (by rw [← hc]; rfl)
        (by rw [← hc]; rfl) (by rw [← hc]; rfl) (by rw [← hc]; rfl)⟩
    | set_y y =>
      have hc : cp.set_y y = cp1 := Option.some.inj hc
      obtain ⟨owner, hI⟩ := ih
      exact ⟨owner, hI.of_moved (by rw [← hc]; rfl) (by rw [← hc]; rfl) (by rw [← hc]; rfl)
        (by rw [← hc]; rfl) (by rw [← hc]; rfl) (by rw [← hc]; rfl)⟩
    | set_cell cover area =>
      exact (set_cell_step ih cover area hc).1
  | swipe cp rule _ ih => exact Wf_swipe rule cp ih

/-- A run from a reachable state ends in a reachable state. -/
theorem Reachable.run :
    ∀ (calls : List Cell_call) {cp cp1 : Cell_processor}, Reachable cp →
      cp.run calls = some cp1 → Reachable cp1 := by
  intro calls
  induction calls with
  | nil =>
    intro cp cp1 h hr
    have : cp = cp1 := Option.some.inj hr
    rw [← this]
    exact h
  | cons c t ih =>
    intro cp cp1 h hr
    simp only [Cell_processor.run] at hr
    cases hc : cp.call c with
    | none =>
      rw [hc] at hr
      exact absurd hr (by simp)
    | some cp0 =>
      rw [hc] at hr
      exact ih (Reachable.call cp cp0 c h hc) hr

end Cell_processor

end vgxx

namespace vgxx

namespace Cell_processor

/-! ### The blend calls of a sweep -/

theorem blend_log_expect_cells (cov : Int → Int) (x_max y : Int) (rest : List Blender_call)
    (hrest : ∀ ox, blend_log ox (some y) rest = blend_log none (some y) rest) :
    ∀ (fuel : Nat) (x : Int),
      blend_log (some x) (some y) (expect_cells cov x_max fuel x ++ rest) =
        log_cells cov x_max y fuel x ++ blend_log none (some y) rest := by
  intro fuel
  induction fuel with
  | zero =>
    intro x
    simp only [expect_cells, log_cells, List.nil_append]
    exact hrest _
  | succ n ih =>
    intro x
    simp only [expect_cells, log_cells]
    by_cases hc : 0 < cov x
    · by_cases hx : x_max > x
      · rw [if_pos hc, if_pos hx, if_pos hc, if_pos hx]
        show (some x, some y, cov x) ::
          blend_log (some (x + 1)) (some y) (expect_cells cov x_max n (x + 1) ++ rest) =
          (some x, some y, cov x) :: (log_cells cov x_max y n (x + 1) ++ _)
        rw [ih]
      · rw [if_pos hc, if_neg hx, if_pos hc, if_neg hx]
        show (some x, some y, cov x) :: blend_log (some x) (some y) rest =
          (some x, some y, cov x) :: _
        rw [hrest]
        rfl
    · by_cases hx : x_max > x
      · rw [if_neg hc, if_pos hx, if_neg hc, if_pos hx]
        show blend_log (some (x + 1)) (some y) (expect_cells cov x_max n (x + 1) ++ rest) =
          log_cells cov x_max y n (x + 1) ++ _
        rw [ih]
      · rw [if_neg hc, if_neg hx, if_neg hc, if_neg hx]
        show blend_log (some x) (some y) rest = _
        rw [hrest]
        rfl

theorem blend_log_expect_rows (rule : Fill_rule) (cp : Cell_processor) :
    ∀ (fuel : Nat) (y : Int) (ox : Option Int),
      blend_log ox (some y) (expect_rows rule cp fuel y) = log_rows rule cp fuel y := by
  intro fuel
  induction fuel with
  | zero => intro y ox; rfl
  | succ n ih =>
    intro y ox
    simp only [expect_rows, log_rows]
    have hrest : ∀ ox1, blend_log ox1 (some y)
        (if cp.y_range_.max > y then Blender_call.inc_y :: expect_rows rule cp n (y + 1)
          else []) =
        (if cp.y_range_.max > y then log_rows rule cp n (y + 1) else []) := by
      intro ox1
      split_ifs
      · simp only [blend_log, Option.map_some', ih]
      · rfl
    by_cases hne : (cp.row y).x_range.nonempty
    · rw [if_pos hne, if_pos hne, List.cons_append]
      simp only [blend_log]
      rw [blend_log_expect_cells _ _ _ _ (fun ox1 => by rw [hrest ox1, hrest none]), hrest]
    · rw [if_neg hne, if_neg hne, List.nil_append, List.nil_append, hrest]

theorem blend_log_expect_swipe (rule : Fill_rule) (cp : Cell_processor) :
    blend_log none none (expect_swipe rule cp) =
      if cp.y_range_.nonempty then
        log_rows rule cp ((cp.y_range_.max - cp.y_range_.min).toNat + 1) cp.y_range_.min
      else [] := by
  unfold expect_swipe
  split_ifs
  · simp only [blend_log, blend_log_expect_rows]
  · rfl

theorem mem_log_cells (cov : Int → Int) (x_max y : Int)
    (e : Option Int × Option Int × Int) :
    ∀ (fuel : Nat) (x : Int), x + fuel = x_max + 1 →
      (e ∈ log_cells cov x_max y fuel x ↔
        ∃ x1, x ≤ x1 ∧ x1 ≤ x_max ∧ 0 < cov x1 ∧ e = (some x1, some y, cov x1)) := by
  intro fuel
  induction fuel with
  | zero =>
    intro x hx
    simp only [log_cells, List.not_mem_nil, false_iff]
    rintro ⟨x1, h1, h2, _⟩
    push_cast at hx
    omega
  | succ n ih =>
    intro x hx
    push_cast at hx
    simp only [log_cells, List.mem_append]
    constructor
    · rintro (h | h)
      · split_ifs at h with hc
        · rw [List.mem_singleton] at h
          exact ⟨x, le_refl _, by omega, hc, h⟩
        · exact absurd h (List.not_mem_nil _)
      · split_ifs at h with hlt
        · obtain ⟨x1, a1, a2, a3, a4⟩ := (ih (x + 1) (by omega)).mp h
          exact ⟨x1, by omega, a2, a3, a4⟩
        · exact absurd h (List.not_mem_nil _)
    · rintro ⟨x1, a1, a2, a3, a4⟩
      by_cases hx1 : x1 = x
      · left
        rw [hx1] at a3 a4
        rw [if_pos a3, a4]
        exact List.mem_singleton_self _
      · right
        rw [if_pos (by omega)]
        exact (ih (x + 1) (by omega)).mpr ⟨x1, by omega, a2, a3, a4⟩

theorem log_cells_pixel (cov : Int → Int) (x_max y : Int) :
    ∀ (fuel : Nat) (x : Int), ∀ e ∈ log_cells cov x_max y fuel x,
      ∃ x1, x ≤ x1 ∧ log_pixel e = (some x1, some y) := by
  intro fuel
  induction fuel with
  | zero => intro x e he; exact absurd he (List.not_mem_nil _)
  | succ n ih =>
    intro x e he
    simp only [log_cells, List.mem_append] at he
    rcases he with h | h
    · split_ifs at h with hc
      · rw [List.mem_singleton] at h
        exact ⟨x, le_refl _, by rw [h]; rfl⟩
      · exact absurd h (List.not_mem_nil _)
    · split_ifs at h with hlt
      · obtain ⟨x1, a1, a2⟩ := ih (x + 1) e h
        exact ⟨x1, by omega, a2⟩
      · exact absurd h (List.not_mem_nil _)

theorem log_cells_nodup (cov : Int → Int) (x_max y : Int) :
    ∀ (fuel : Nat) (x : Int), ((log_cells cov x_max y fuel x).map log_pixel).Nodup := by
  intro fuel
  induction fuel with
  | zero => intro x; exact List.nodup_nil
  | succ n ih =>
    intro x
    simp only [log_cells, List.map_append]
    rw [List.nodup_append]
    refine ⟨?_, ?_, ?_⟩
    · split_ifs
      · exact List.nodup_singleton _
      · exact List.nodup_nil
    · split_ifs
      · exact ih (x + 1)
      · exact List.nodup_nil
    · intro p hp1 hp2
      split_ifs at hp1 with hc
      · split_ifs at hp2 with hlt
        · rw [List.map_singleton, List.mem_singleton] at hp1
          obtain ⟨e, he, hep⟩ := List.mem_map.mp hp2
          obtain ⟨x1, a1, a2⟩ := log_cells_pixel cov x_max y n (x + 1) e he
          rw [hep, hp1] at a2
          have : x = x1 := by
            have := congrArg Prod.fst a2
            exact Option.some.inj this
          omega
        · exact absurd hp2 (List.not_mem_nil _)
      · exact absurd hp1 (List.not_mem_nil _)

end Cell_processor

end vgxx

namespace vgxx

namespace Cell_processor

theorem mem_log_rows (rule : Fill_rule) (cp : Cell_processor)
    (e : Option Int × Option Int × Int) :
    ∀ (fuel : Nat) (y : Int), y + fuel = cp.y_range_.max + 1 →
      (e ∈ log_rows rule cp fuel y ↔
        ∃ y1 x1, y ≤ y1 ∧ y1 ≤ cp.y_range_.max ∧
          (cp.row y1).x_range.min ≤ x1 ∧ x1 ≤ (cp.row y1).x_range.max ∧
          0 < cp.sweep_coverage rule y1 x1 ∧
          e = (some x1, some y1, cp.sweep_coverage rule y1 x1)) := by
  intro fuel
  induction fuel with
  | zero =>
    intro y hy
    simp only [log_rows, List.not_mem_nil, false_iff]
    rintro ⟨y1, x1, h1, h2, _⟩
    push_cast at hy
    omega
  | succ n ih =>
    intro y hy
    push_cast at hy
    simp only [log_rows, List.mem_append]
    constructor
    · rintro (h | h)
      · split_ifs at h with hne
        · have hne1 : (cp.row y).x_range.min ≤ (cp.row y).x_range.max := hne
          obtain ⟨x1, a1, a2, a3, a4⟩ := (mem_log_cells _ _ _ e _ _ (by
            push_cast
            omega)).mp h
          exact ⟨y, x1, le_refl _, by omega, a1, a2, a3, a4⟩
        · exact absurd h (List.not_mem_nil _)
      · split_ifs at h with hlt
        · obtain ⟨y1, x1, a1, a2⟩ := (ih (y + 1) (by omega)).mp h
          exact ⟨y1, x1, by omega, a2⟩
        · exact absurd h (List.not_mem_nil _)
    · rintro ⟨y1, x1, a1, a2, a3, a4, a5, a6⟩
      by_cases hy1 : y1 = y
      · left
        rw [hy1] at a3 a4 a5 a6
        have hne : (cp.row y).x_range.nonempty := le_trans a3 a4
        have hne1 : (cp.row y).x_range.min ≤ (cp.row y).x_range.max := hne
        rw [if_pos hne]
        exact (mem_log_cells _ _ _ e _ _ (by
          push_cast
          omega)).mpr ⟨x1, a3, a4, a5, a6⟩
      · right
        rw [if_pos (by omega)]
        exact (ih (y + 1) (by omega)).mpr ⟨y1, x1, by omega, a2, a3, a4, a5, a6⟩

theorem log_rows_pixel (rule : Fill_rule) (cp : Cell_processor) :
    ∀ (fuel : Nat) (y : Int), ∀ e ∈ log_rows rule cp fuel y,
      ∃ y1 x1, y ≤ y1 ∧ log_pixel e = (some x1, some y1) := by
  intro fuel
  induction fuel with
  | zero => intro y e he; exact absurd he (List.not_mem_nil _)
  | succ n ih =>
    intro y e he
    simp only [log_rows, List.mem_append] at he
    rcases he with h | h
    · split_ifs at h with hc
      · obtain ⟨x1, _, a2⟩ := log_cells_pixel _ _ _ _ _ e h
        exact ⟨y, x1, le_refl _, a2⟩
      · exact absurd h (List.not_mem_nil _)
    · split_ifs at h with hlt
      · obtain ⟨y1, x1, a1, a2⟩ := ih (y + 1) e h
        exact ⟨y1, x1, by omega, a2⟩
      · exact absurd h (List.not_mem_nil _)

theorem log_rows_nodup (rule : Fill_rule) (cp : Cell_processor) :
    ∀ (fuel : Nat) (y : Int), ((log_rows rule cp fuel y).map log_pixel).Nodup := by
  intro fuel
  induction fuel with
  | zero => intro y; exact List.nodup_nil
  | succ n ih =>
    intro y
    simp only [log_rows, List.map_append]
    rw [List.nodup_append]
    refine ⟨?_, ?_, ?_⟩
    · split_ifs
      · exact log_cells_nodup _ _ _ _ _
      · exact List.nodup_nil
    · split_ifs
      · exact ih (y + 1)
      · exact List.nodup_nil
    · intro p hp1 hp2
      split_ifs at hp1 with hc
      · split_ifs at hp2 with hlt
        · obtain ⟨e1, he1, hep1⟩ := List.mem_map.mp hp1
          obtain ⟨e2, he2, hep2⟩ := List.mem_map.mp hp2
          obtain ⟨x1, _, a2⟩ := log_cells_pixel _ _ _ _ _ e1 he1
          obtain ⟨y2, x2, b1, b2⟩ := log_rows_pixel rule cp n (y + 1) e2 he2
          rw [hep1] at a2
          rw [hep2, a2] at b2
          have : y = y2 := by
            have := congrArg Prod.snd b2
            exact Option.some.inj this
          omega
        · exact absurd hp2 (List.not_mem_nil _)
      · exact absurd hp1 (List.not_mem_nil _)

/-- The blend calls of the sweep of a well-formed processor: one for each
pixel, inside the `x_range` of a row of the viewport, to which the sweep gives
a positive coverage, with that coverage; no pixel twice. -/
theorem swipe_log (rule : Fill_rule) (cp : Cell_processor) (h : Wf cp) :
    (∀ e, e ∈ blend_log none none (swipe rule cp).1 ↔
      ∃ y x, 0 ≤ y ∧ y < cp.height_ ∧
        (cp.row y).x_range.min ≤ x ∧ x ≤ (cp.row y).x_range.max ∧
        0 < cp.sweep_coverage rule y x ∧
        e = (some x, some y, cp.sweep_coverage rule y x)) ∧
    ((blend_log none none (swipe rule cp).1).map log_pixel).Nodup := by
  obtain ⟨owner, hinv⟩ := h
  rw [(swipe_ok rule cp owner hinv).1, blend_log_expect_swipe]
  by_cases hne : cp.y_range_.nonempty
  · have hyr : 0 ≤ cp.y_range_.min ∧ cp.y_range_.min ≤ cp.y_range_.max ∧
        cp.y_range_.max ≤ cp.height_ - 1 := by
      rcases hinv.y_range_ok with h | h
      · rw [h] at hne
        exact absurd hne (by decide)
      · exact h
    rw [if_pos hne]
    refine ⟨fun e => ?_, log_rows_nodup _ _ _ _⟩
    rw [mem_log_rows rule cp e _ _ (by
      push_cast
      omega)]
    constructor
    · rintro ⟨y, x, a1, a2, a3, a4, a5, a6⟩
      exact ⟨y, x, by omega, by omega, a3, a4, a5, a6⟩
    · rintro ⟨y, x, a1, a2, a3, a4, a5, a6⟩
      rcases hinv.row_ok y a1 a2 with h | h
      · rw [h] at a3 a4
        have : (65535 : Int) ≤ 0 := le_trans a3 a4
        omega
      · exact ⟨y, x, h.2.2.2.1, h.2.2.2.2, a3, a4, a5, a6⟩
  · rw [if_neg hne]
    refine ⟨fun e => ?_, List.nodup_nil⟩
    simp only [List.not_mem_nil, false_iff]
    rintro ⟨y, x, a1, a2, a3, a4, _⟩
    rcases hinv.row_ok y a1 a2 with h | h
    · rw [h] at a3 a4
      have : (65535 : Int) ≤ 0 := le_trans a3 a4
      omega
    · exact hne (le_trans h.2.2.2.1 h.2.2.2.2)

end Cell_processor

end vgxx

namespace vgxx

namespace Cell_processor

/-- Below `2^22` the gap formula of the sweep agrees with the cell formula
at area 0. -/
theorem gap_eq_cell (rule : Fill_rule) (W : Int) (h : |W| < 4194304) :
    gap_coverage rule W = Util.compute_cell_coverage rule W 0 := by
  have hnn : 0 ≤ |W| := abs_nonneg _
  have hc0 : i32 (i32 (W * 512) - 0) = 512 * W := by
    rw [abs_lt] at h
    unfold i32; omega
  have habs1 : (if 0 > 512 * W then i32 (-(512 * W)) else 512 * W) = 512 * |W| := by
    split_ifs with hneg
    · rw [abs_of_neg (by omega)]
      rw [abs_lt] at h
      unfold i32; omega
    · rw [abs_of_nonneg (by omega)]
  have habs2 : (if 0 > W then -W else W) = |W| := by
    split_ifs with hneg
    · rw [abs_of_neg hneg]
    · rw [abs_of_nonneg (by omega)]
  unfold gap_coverage Util.compute_cell_coverage Util.cell_coverage_wide
  simp only [hc0, habs1, habs2]
  generalize |W| = m at hnn h
  have hwrap : ∀ c : Int, 0 ≤ c → c ≤ 256 → i32 (i32 (c * 256) - c) = c * 256 - c := by
    intro c h0 h1
    have h2 : i32 (c * 256) = c * 256 := by unfold i32; omega
    rw [h2]
    unfold i32; omega
  cases rule
  · simp only
    have h1 : (if 0x20000 < 512 * m then 0x20000 else 512 * m) / 512 =
        if 0x100 < m then 0x100 else m := by
      split_ifs <;> omega
    rw [h1, hwrap _ (by split_ifs <;> omega) (by split_ifs <;> omega)]
  · simp only
    have h0 : i32 (0x20000 - 512 * m % 131072) = 0x20000 - 512 * m % 131072 := by
      unfold i32; omega
    rw [h0]
    have h1 : (if 512 * m / 131072 % 2 = 0 then 512 * m % 131072
        else 0x20000 - 512 * m % 131072) / 512 =
        if m / 256 % 2 = 0 then m % 256 else 0x100 - m % 256 := by
      split_ifs <;> omega
    rw [h1, hwrap _ (by split_ifs <;> omega) (by split_ifs <;> omega)]

end Cell_processor

end vgxx

namespace vgxx

namespace Cell_processor

/-- Calls other than `set_cell` always return and change only the current
position. -/
theorem run_moves :
    ∀ (calls : List Cell_call) (cp : Cell_processor),
      (∀ c ∈ calls, ∀ cover area, c ≠ Cell_call.set_cell cover area) →
      ∃ cp2, cp.run calls = some cp2 ∧ cp2.rows_ = cp.rows_ ∧ cp2.cells_ = cp.cells_ ∧
        cp2.cell_stash_ = cp.cell_stash_ ∧ cp2.width_ = cp.width_ ∧
        cp2.height_ = cp.height_ ∧ cp2.y_range_ = cp.y_range_ := by
  intro calls
  induction calls with
  | nil => intro cp _; exact ⟨cp, rfl, rfl, rfl, rfl, rfl, rfl, rfl⟩
  | cons c t ih =>
    intro cp h
    have ht : ∀ c ∈ t, ∀ cover area, c ≠ Cell_call.set_cell cover area :=
      fun c hc => h c (List.mem_cons_of_mem _ hc)
    cases c with
    | inc_x =>
      obtain ⟨cp2, a1, a2⟩ := ih cp.inc_x ht
      exact ⟨cp2, a1, a2⟩
    | set_x x =>
      obtain ⟨cp2, a1, a2⟩ := ih (cp.set_x x) ht
      exact ⟨cp2, a1, a2⟩
    | set_y y =>
      obtain ⟨cp2, a1, a2⟩ := ih (cp.set_y y) ht
      exact ⟨cp2, a1, a2⟩
    | set_cell cover area =>
      exact absurd rfl (h _ (List.mem_cons_self _ _) cover area)

/-- A sweep of a processor whose `y_range_` is empty makes no call. -/
theorem swipe_empty (rule : Fill_rule) (cp : Cell_processor)
    (h : cp.y_range_ = Pixel_range_.init) : (swipe rule cp).1 = [] := by
  have : ¬ cp.y_range_.nonempty := by
    rw [h]; decide
  simp only [swipe, if_neg this]

/-- Where the gap formula is within its 32-bit range, the coverage that the
sweep computes is that of the cell formula. -/
theorem sweep_eq_pixel (rule : Fill_rule) (cp : Cell_processor) (y x : Int)
    (h : col_cover (cp.row_cells y) x = 0 → col_area (cp.row_cells y) x = 0 →
      |cp.running_cover y x| < 4194304) :
    cp.sweep_coverage rule y x = cp.pixel_coverage rule y x := by
  unfold sweep_coverage
  split_ifs with hne
  · rfl
  · have hA : col_cover (cp.row_cells y) x = 0 := by
      by_contra hc; exact hne (Or.inl (Ne.symm hc))
    have hR : col_area (cp.row_cells y) x = 0 := by
      by_contra hc; exact hne (Or.inr (Ne.symm hc))
    rw [gap_eq_cell rule _ (h hA hR)]
    unfold pixel_coverage
    rw [hR]

end Cell_processor

end vgxx

namespace vgxx

/-! ### The number of cells of a segment -/

theorem set_cell_count_append (a b : List Cell_call) :
    set_cell_count (a ++ b) = set_cell_count a + set_cell_count b := by
  induction a with
  | nil => simp [set_cell_count]
  | cons c t ih =>
    cases c with
    | inc_x => exact ih
    | set_x x => exact ih
    | set_y y => exact ih
    | set_cell cover area =>
      show set_cell_count (t ++ b) + 1 = set_cell_count t + 1 + set_cell_count b
      rw [ih]
      omega

namespace Rasterizer

theorem scan_entry_count (yd : Direction_) (calls : List Cell_call)
    (int_x_0 frac_x_0 d_x p : Int) :
    set_cell_count (scan_entry yd calls int_x_0 frac_x_0 d_x p).calls ≤
      set_cell_count calls + 1 ∧
    int_x_0 ≤ (scan_entry yd calls int_x_0 frac_x_0 d_x p).int_x := by
  unfold scan_entry
  by_cases hf : frac_x_0 ≠ 0
  · rw [if_pos hf]
    dsimp only
    simp only [set_cell_count_append, set_cell_count]
    omega
  · rw [if_neg hf]
    dsimp only
    omega

theorem scan_step_count (yd : Direction_) (d_x inc_y mod annex : Int) (s : Scan_) :
    set_cell_count (scan_step yd d_x inc_y mod annex s).calls = set_cell_count s.calls + 1 := by
  unfold scan_step
  dsimp only
  rw [set_cell_count_append]
  by_cases hv : s.cell_x_valid = true
  · rw [if_pos hv]
    rfl
  · rw [if_neg hv]
    rfl

theorem scan_cells_count (yd : Direction_) (int_x_1 d_x inc_y mod annex : Int) :
    ∀ (fuel : Nat) (s : Scan_),
      set_cell_count (scan_cells yd int_x_1 d_x inc_y mod annex fuel s).calls ≤
        set_cell_count s.calls + fuel := by
  intro fuel
  induction fuel with
  | zero => intro s; simp [scan_cells]
  | succ n ih =>
    intro s
    simp only [scan_cells]
    split_ifs
    · have := ih (scan_step yd d_x inc_y mod annex s)
      rw [scan_step_count] at this
      omega
    · rw [scan_step_count]
      omega

theorem scan_interior_count (yd : Direction_) (int_x_1 d_x p : Int) (s : Scan_) :
    set_cell_count (scan_interior yd int_x_1 d_x p s).calls ≤
      set_cell_count s.calls + (int_x_1 - s.int_x).toNat := by
  unfold scan_interior
  by_cases h : s.int_x < int_x_1
  · rw [if_pos h]
    exact scan_cells_count _ _ _ _ _ _ _ _
  · rw [if_neg h]
    omega

theorem scan_exit_count (yd : Direction_) (frac_x_1 d_y : Int) (s : Scan_) :
    set_cell_count (scan_exit yd frac_x_1 d_y s) ≤ set_cell_count s.calls + 1 := by
  unfold scan_exit
  by_cases h1 : frac_x_1 ≠ 0
  · rw [if_pos h1]
    dsimp only
    by_cases h2 : d_y - s.y ≠ 0
    · rw [if_pos h2]
      simp only [set_cell_count_append, set_cell_count]
      omega
    · rw [if_neg h2]
      omega
  · rw [if_neg h1]
    omega

/-- A scanline makes at most two `set_cell` calls more than it has cells
between its end cells. -/
theorem add_scanline_count (yd : Direction_) (calls : List Cell_call)
    (int_y int_x_0 int_x_1 frac_x_0 frac_x_1 d_x d_y : Int) :
    set_cell_count (add_scanline_ yd calls int_y int_x_0 int_x_1 frac_x_0 frac_x_1 d_x d_y) ≤
      set_cell_count calls + (int_x_1 - int_x_0).toNat + 2 := by
  unfold add_scanline_
  by_cases he : int_x_0 = int_x_1
  · dsimp only
    rw [if_pos he]
    simp only [set_cell_count_append, set_cell_count]
    omega
  · dsimp only
    rw [if_neg he]
    have h1 := scan_entry_count yd (calls ++ [Cell_call.set_y int_y]) int_x_0 frac_x_0 d_x
      ((0x100 - frac_x_0) * d_y)
    have h2 := scan_interior_count yd int_x_1 d_x (d_y * 256)
      (scan_entry yd (calls ++ [Cell_call.set_y int_y]) int_x_0 frac_x_0 d_x
        ((0x100 - frac_x_0) * d_y))
    have h3 := scan_exit_count yd frac_x_1 d_y
      (scan_interior yd int_x_1 d_x (d_y * 256)
        (scan_entry yd (calls ++ [Cell_call.set_y int_y]) int_x_0 frac_x_0 d_x
          ((0x100 - frac_x_0) * d_y)))
    simp only [set_cell_count_append, set_cell_count] at h1
    omega

theorem line_row_count (yd : Direction_) (calls : List Cell_call)
    (int_y int_left_x int_right_x frac_left_x frac_right_x delta_x : Int) :
    set_cell_count (line_row yd calls int_y int_left_x int_right_x frac_left_x frac_right_x
      delta_x) ≤ set_cell_count calls + (int_right_x - int_left_x).toNat + 2 := by
  unfold line_row
  by_cases he : int_left_x = int_right_x
  · dsimp only
    rw [if_pos he]
    simp only [set_cell_count_append, set_cell_count]
    omega
  · dsimp only
    rw [if_neg he]
    have h1 := scan_entry_count yd (calls ++ [Cell_call.set_y int_y]) int_left_x frac_left_x
      delta_x ((0x100 - frac_left_x) * 256)
    have h2 := scan_interior_count yd int_right_x delta_x 0x10000
      (scan_entry yd (calls ++ [Cell_call.set_y int_y]) int_left_x frac_left_x delta_x
        ((0x100 - frac_left_x) * 256))
    have h3 := scan_exit_count yd frac_right_x 0x100
      (scan_interior yd int_right_x delta_x 0x10000
        (scan_entry yd (calls ++ [Cell_call.set_y int_y]) int_left_x frac_left_x delta_x
          ((0x100 - frac_left_x) * 256)))
    simp only [set_cell_count_append, set_cell_count] at h1
    omega

theorem line_step_count (yd xyd : Direction_) (d_y inc_x mod annex : Int) (s : Line_) :
    (set_cell_count (line_step yd xyd d_y inc_x mod annex s).calls : Int) ≤
      set_cell_count s.calls +
        sgn xyd * ((line_step yd xyd d_y inc_x mod annex s).int_x - s.int_x) + 2 ∨
    sgn xyd * ((line_step yd xyd d_y inc_x mod annex s).int_x - s.int_x) < 0 := by
  unfold line_step
  cases xyd
  · simp only [if_true, sgn_positive, one_mul]
    generalize ((s.x + if u32 (s.rem + mod) ≥ d_y then inc_x + annex else inc_x) / 256) = nx
    generalize ((s.x + if u32 (s.rem + mod) ≥ d_y then inc_x + annex else inc_x) % 256) = fx
    generalize (if u32 (s.rem + mod) ≥ d_y then inc_x + annex else inc_x) = dx
    have := line_row_count yd s.calls s.int_y s.int_x nx s.frac_x fx dx
    omega
  · simp only [reduceCtorEq, if_false, sgn_negative]
    generalize ((s.x - if u32 (s.rem + mod) ≥ d_y then inc_x + annex else inc_x) / 256) = nx
    generalize ((s.x - if u32 (s.rem + mod) ≥ d_y then inc_x + annex else inc_x) % 256) = fx
    generalize (if u32 (s.rem + mod) ≥ d_y then inc_x + annex else inc_x) = dx
    have := line_row_count yd s.calls s.int_y nx s.int_x fx s.frac_x dx
    omega

end Rasterizer

end vgxx

namespace vgxx

namespace Rasterizer

/-- The DDA in `x` never steps back: of two exact positions the one at the
larger height lies further along the direction of the segment. -/
theorem line_mono (xd xyd : Direction_) (x_0 d_x d_y x rem K x1 rem1 K1 : Int)
    (hdx : 0 ≤ d_x) (hdy : 0 < d_y) (hK : K ≤ K1)
    (h : sgn xyd * (x - x_0) * d_y + sgn xd * rem = d_x * K)
    (h1 : sgn xyd * (x1 - x_0) * d_y + sgn xd * rem1 = d_x * K1)
    (hr0 : 0 ≤ rem) (hr : rem < d_y) (hr10 : 0 ≤ rem1) (hr1 : rem1 < d_y) :
    0 ≤ sgn xyd * (x1 / 256 - x / 256) := by
  have hk : 0 ≤ d_x * (K1 - K) := mul_nonneg hdx (by omega)
  have ht : 0 ≤ sgn xyd * (x1 - x) := by
    by_contra hneg
    have hle : sgn xyd * (x1 - x) ≤ -1 := by omega
    have hmul : sgn xyd * (x1 - x) * d_y ≤ -1 * d_y :=
      mul_le_mul_of_nonneg_right hle (le_of_lt hdy)
    have heq : sgn xyd * (x1 - x) * d_y = d_x * (K1 - K) - sgn xd * (rem1 - rem) := by
      linear_combination h1 - h
    cases xd
    · simp only [sgn_positive, one_mul] at heq
      omega
    · simp only [sgn_negative] at heq
      omega
  cases xyd
  · simp only [sgn_positive, one_mul] at ht ⊢
    omega
  · simp only [sgn_negative] at ht ⊢
    omega

theorem line_rows_count (xd yd xyd : Direction_) (px py x_0 y_0 x_1 d_x d_y inc_x mod : Int)
    (int_y_1 : Int) (hdx : 0 < d_x) (hdy : 0 < d_y) (hdy32 : d_y < 2147483648)
    (hx1 : x_1 = x_0 + sgn xyd * d_x)
    (hmod0 : 0 ≤ mod) (hmod1 : mod < d_y) (hinc : inc_x * d_y + sgn xd * mod = 256 * d_x)
    (hinc0 : 0 ≤ inc_x) (hinc1 : xd = Direction_.negative → 0 < mod → 0 < inc_x)
    (hy1 : 256 * int_y_1 ≤ y_0 + d_y) :
    ∀ (fuel : Nat) (s : Line_),
      Line_ok xd yd xyd px py x_0 y_0 d_x d_y (min x_0 x_1 / 256) (max x_0 x_1 / 256) s →
      y_0 ≤ 256 * s.int_y → s.int_y + ((fuel : Int) + 1) = int_y_1 →
      (set_cell_count (line_rows yd xyd int_y_1 d_y inc_x mod (sgn xd) (fuel + 1) s).calls :
          Int) ≤ set_cell_count s.calls +
        sgn xyd * ((line_rows yd xyd int_y_1 d_y inc_x mod (sgn xd) (fuel + 1) s).int_x -
          s.int_x) + 2 * ((fuel : Int) + 1) := by
  intro fuel
  induction fuel with
  | zero =>
    intro s hs hy0 hn
    obtain ⟨h1, h2⟩ := line_step_ok xd yd xyd px py x_0 y_0 x_1 d_x d_y inc_x mod s hdx hdy
      hdy32 hx1 hmod0 hmod1 hinc hinc0 hinc1 hs hy0 (by simp at hn; omega)
    have hnot : ¬ (line_step yd xyd d_y inc_x mod (sgn xd) s).int_y < int_y_1 := by
      rw [h2]; simp at hn; omega
    have hm := line_mono xd xyd x_0 d_x d_y s.x s.rem (256 * s.int_y - y_0)
      (line_step yd xyd d_y inc_x mod (sgn xd) s).x
      (line_step yd xyd d_y inc_x mod (sgn xd) s).rem
      (256 * (line_step yd xyd d_y inc_x mod (sgn xd) s).int_y - y_0)
      (le_of_lt hdx) hdy (by rw [h2]; omega) hs.dda h1.dda hs.rem_nonneg hs.rem_lt
      h1.rem_nonneg h1.rem_lt
    rw [← hs.int_x_eq, ← h1.int_x_eq] at hm
    simp only [line_rows, hnot, if_false]
    rcases line_step_count yd xyd d_y inc_x mod (sgn xd) s with hc | hc
    · push_cast
      omega
    · omega
  | succ n ih =>
    intro s hs hy0 hn
    obtain ⟨h1, h2⟩ := line_step_ok xd yd xyd px py x_0 y_0 x_1 d_x d_y inc_x mod s hdx hdy
      hdy32 hx1 hmod0 hmod1 hinc hinc0 hinc1 hs hy0 (by push_cast at hn; omega)
    have hlt : (line_step yd xyd d_y inc_x mod (sgn xd) s).int_y < int_y_1 := by
      rw [h2]; push_cast at hn; omega
    have hm := line_mono xd xyd x_0 d_x d_y s.x s.rem (256 * s.int_y - y_0)
      (line_step yd xyd d_y inc_x mod (sgn xd) s).x
      (line_step yd xyd d_y inc_x mod (sgn xd) s).rem
      (256 * (line_step yd xyd d_y inc_x mod (sgn xd) s).int_y - y_0)
      (le_of_lt hdx) hdy (by rw [h2]; omega) hs.dda h1.dda hs.rem_nonneg hs.rem_lt
      h1.rem_nonneg h1.rem_lt
    rw [← hs.int_x_eq, ← h1.int_x_eq] at hm
    rw [line_rows]
    simp only [hlt, if_true]
    have hi := ih _ h1 (by rw [h2]; omega) (by rw [h2]; push_cast at hn ⊢; omega)
    rcases line_step_count yd xyd d_y inc_x mod (sgn xd) s with hc | hc
    · push_cast at hi ⊢
      have e1 : sgn xyd * ((line_rows yd xyd int_y_1 d_y inc_x mod (sgn xd) (n + 1)
          (line_step yd xyd d_y inc_x mod (sgn xd) s)).int_x - s.int_x) =
          sgn xyd * ((line_rows yd xyd int_y_1 d_y inc_x mod (sgn xd) (n + 1)
            (line_step yd xyd d_y inc_x mod (sgn xd) s)).int_x -
            (line_step yd xyd d_y inc_x mod (sgn xd) s).int_x) +
          sgn xyd * ((line_step yd xyd d_y inc_x mod (sgn xd) s).int_x - s.int_x) := by ring
      rw [e1]
      omega
    · omega

end Rasterizer

end vgxx

namespace vgxx

namespace Rasterizer

theorem line_body_count (xd yd xyd : Direction_) (px py x_0 y_0 x_1 d_x d_y int_y_1 : Int)
    (s : Line_) (hdx : 0 < d_x) (hdx32 : d_x < 2147483648) (hdy : 0 < d_y)
    (hdy32 : d_y < 2147483648) (hx1 : x_1 = x_0 + sgn xyd * d_x)
    (hy1 : 256 * int_y_1 ≤ y_0 + d_y)
    (hs : Line_ok xd yd xyd px py x_0 y_0 d_x d_y (min x_0 x_1 / 256) (max x_0 x_1 / 256) s)
    (hy0 : y_0 ≤ 256 * s.int_y) (hle : s.int_y ≤ int_y_1) :
    (set_cell_count (line_body xd yd xyd int_y_1 d_x d_y s).calls : Int) ≤
      set_cell_count s.calls +
        sgn xyd * ((line_body xd yd xyd int_y_1 d_x d_y s).int_x - s.int_x) +
        2 * (int_y_1 - s.int_y) := by
  unfold line_body
  by_cases hlt : s.int_y < int_y_1
  · simp only [hlt, if_true, annex_eq_sgn]
    have hp : (if 0x1000000 > d_x then u32 (d_x * 256) else u64 (d_x * 256)) = 256 * d_x := by
      unfold u32 u64
      split_ifs <;> omega
    rw [hp]
    have hq : 256 * d_x / d_y < 2147483648 := by
      have : 256 * d_x / d_y ≤ d_x :=
        Int.ediv_le_of_le_mul hdy (by nlinarith)
      omega
    obtain ⟨k1, k2, k3, k4, k5⟩ := line_dda_div xd (256 * d_x) d_y (by omega) hdy hdy32 hq
    obtain ⟨n, hn⟩ : ∃ n : Nat, (int_y_1 - s.int_y).toNat = n + 1 :=
      ⟨(int_y_1 - s.int_y).toNat - 1, by omega⟩
    rw [hn]
    have := line_rows_count xd yd xyd px py x_0 y_0 x_1 d_x d_y _ _ int_y_1 hdx hdy hdy32 hx1
      k2 k3 k1 k4 k5 hy1 n s hs hy0 (by omega)
    have hnn : (n : Int) + 1 = int_y_1 - s.int_y := by omega
    rw [hnn] at this
    exact this
  · simp only [hlt, if_false]
    simp only [sub_self, mul_zero, add_zero]
    omega

theorem line_head_count (xd yd xyd : Direction_) (x_0 y_0 d_x d_y : Int) :
    (set_cell_count (line_head xd yd xyd x_0 y_0 d_x d_y).calls : Int) ≤
      sgn xyd * ((line_head xd yd xyd x_0 y_0 d_x d_y).int_x - x_0 / 256) + 2 ∨
    sgn xyd * ((line_head xd yd xyd x_0 y_0 d_x d_y).int_x - x_0 / 256) < 0 := by
  unfold line_head
  by_cases hf : y_0 % 256 ≠ 0
  · dsimp only
    rw [if_pos hf]
    dsimp only
    generalize (if xd = Direction_.negative ∧
      u32 ((if 0x1000000 > d_x then u32 (d_x * u32 (0x100 - y_0 % 256))
        else u64 (d_x * u32 (0x100 - y_0 % 256))) % d_y) ≠ 0 then
      i32 ((if 0x1000000 > d_x then u32 (d_x * u32 (0x100 - y_0 % 256))
        else u64 (d_x * u32 (0x100 - y_0 % 256))) / d_y) + 1
      else i32 ((if 0x1000000 > d_x then u32 (d_x * u32 (0x100 - y_0 % 256))
        else u64 (d_x * u32 (0x100 - y_0 % 256))) / d_y)) = delta_x
    cases xyd
    · simp only [if_true, sgn_positive, one_mul]
      have := add_scanline_count yd [] (y_0 / 256) (x_0 / 256) ((x_0 + delta_x) / 256)
        (x_0 % 256) ((x_0 + delta_x) % 256) (x_0 + delta_x - x_0) (0x100 - y_0 % 256)
      simp only [set_cell_count] at this
      omega
    · simp only [reduceCtorEq, if_false, sgn_negative]
      have := add_scanline_count yd [] (y_0 / 256) ((x_0 - delta_x) / 256) (x_0 / 256)
        ((x_0 - delta_x) % 256) (x_0 % 256) (x_0 - (x_0 - delta_x)) (0x100 - y_0 % 256)
      simp only [set_cell_count] at this
      omega
  · dsimp only
    rw [if_neg hf]
    left
    simp only [set_cell_count, sub_self, mul_zero]
    omega

end Rasterizer

end vgxx

namespace vgxx

namespace Rasterizer

/-- A segment that is neither horizontal nor vertical makes at most two
`set_cell` calls for each row it meets and one for each column it crosses. -/
theorem add_line_dir_count (xd yd xyd : Direction_) (x_0 y_0 x_1 y_1 : Int)
    (hy : y_0 < y_1) (hy32 : y_1 - y_0 < 2147483648)
    (hx : 0 < sgn xyd * (x_1 - x_0)) (hx32 : sgn xyd * (x_1 - x_0) < 2147483648) :
    (set_cell_count (add_line_dir xd yd xyd x_0 y_0 x_1 y_1) : Int) ≤
      sgn xyd * (x_1 / 256 - x_0 / 256) + 2 * (y_1 / 256 - y_0 / 256) + 4 := by
  unfold add_line_dir
  by_cases hrow : y_0 / 256 = y_1 / 256
  · simp only [hrow, if_true]
    cases xyd
    · simp only [sgn_positive, one_mul] at hx ⊢
      simp only [if_true]
      have := add_scanline_count yd [] (y_1 / 256) (x_0 / 256) (x_1 / 256)
        (x_0 % 256) (x_1 % 256) (x_1 - x_0) (y_1 - y_0)
      simp only [set_cell_count] at this
      omega
    · simp only [sgn_negative] at hx ⊢
      simp only [reduceCtorEq, if_false]
      have := add_scanline_count yd [] (y_1 / 256) (x_1 / 256) (x_0 / 256)
        (x_1 % 256) (x_0 % 256) (x_0 - x_1) (y_1 - y_0)
      simp only [set_cell_count] at this
      omega
  · simp only [hrow, if_false]
    have hdy : u32 (y_1 - y_0) = y_1 - y_0 := by unfold u32; omega
    have hdx : (if xyd = Direction_.positive then u32 (x_1 - x_0) else u32 (x_0 - x_1)) =
        sgn xyd * (x_1 - x_0) := by
      cases xyd
      · simp only [sgn_positive, one_mul] at hx hx32
        simp only [if_true, sgn_positive, one_mul]; unfold u32; omega
      · simp only [sgn_negative] at hx hx32
        simp only [reduceCtorEq, if_false, sgn_negative]; unfold u32; omega
    rw [hdy, hdx]
    have hx1 : x_1 = x_0 + sgn xyd * (sgn xyd * (x_1 - x_0)) := by
      rw [← mul_assoc, sgn_mul_self]; ring
    obtain ⟨a1, a2, a3⟩ := line_head_ok xd yd xyd 0 0 x_0 y_0 x_1 (sgn xyd * (x_1 - x_0))
      (y_1 - y_0) hx hx32 (by omega) hy32 hx1
      (by rw [show y_0 + (y_1 - y_0) = y_1 by ring]; exact hrow)
    have c1 := line_head_count xd yd xyd x_0 y_0 (sgn xyd * (x_1 - x_0)) (y_1 - y_0)
    have m1 := line_mono xd xyd x_0 (sgn xyd * (x_1 - x_0)) (y_1 - y_0) x_0 0 0
      (line_head xd yd xyd x_0 y_0 (sgn xyd * (x_1 - x_0)) (y_1 - y_0)).x
      (line_head xd yd xyd x_0 y_0 (sgn xyd * (x_1 - x_0)) (y_1 - y_0)).rem
      (256 * (line_head xd yd xyd x_0 y_0 (sgn xyd * (x_1 - x_0)) (y_1 - y_0)).int_y - y_0)
      (le_of_lt hx) (by omega) (by omega) (by ring) a1.dda (le_refl _) (by omega)
      a1.rem_nonneg a1.rem_lt
    rw [← a1.int_x_eq] at m1
    obtain ⟨b1, b2⟩ := line_body_ok xd yd xyd 0 0 x_0 y_0 x_1 (sgn xyd * (x_1 - x_0))
      (y_1 - y_0) (y_1 / 256) _ hx hx32 (by omega) hy32 hx1 (by omega) a1 a2 (by omega)
    have c2 := line_body_count xd yd xyd 0 0 x_0 y_0 x_1 (sgn xyd * (x_1 - x_0))
      (y_1 - y_0) (y_1 / 256) _ hx hx32 (by omega) hy32 hx1 (by omega) a1 a2 (by omega)
    generalize (line_head xd yd xyd x_0 y_0 (sgn xyd * (x_1 - x_0)) (y_1 - y_0)) = h
      at a1 a2 a3 c1 m1 b1 b2 c2
    have m2 := line_mono xd xyd x_0 (sgn xyd * (x_1 - x_0)) (y_1 - y_0)
      (line_body xd yd xyd (y_1 / 256) (sgn xyd * (x_1 - x_0)) (y_1 - y_0) h).x
      (line_body xd yd xyd (y_1 / 256) (sgn xyd * (x_1 - x_0)) (y_1 - y_0) h).rem
      (256 * (line_body xd yd xyd (y_1 / 256) (sgn xyd * (x_1 - x_0)) (y_1 - y_0) h).int_y - y_0)
      x_1 0 (y_1 - y_0)
      (le_of_lt hx) (by omega) (by rw [b2]; omega) b1.dda
      (by
        have : sgn xyd * (x_1 - x_0) * (y_1 - y_0) = sgn xyd * (x_1 - x_0) * (y_1 - y_0) := rfl
        linear_combination this)
      b1.rem_nonneg b1.rem_lt (le_refl _) (by omega)
    rw [← b1.int_x_eq] at m2
    generalize line_body xd yd xyd (y_1 / 256) (sgn xyd * (x_1 - x_0)) (y_1 - y_0) h = s
      at b1 b2 c2 m2
    have e1 : sgn xyd * (x_1 / 256 - x_0 / 256) =
        sgn xyd * (x_1 / 256 - s.int_x) + sgn xyd * (s.int_x - h.int_x) +
          sgn xyd * (h.int_x - x_0 / 256) := by ring
    rw [e1]
    have hc1 : (set_cell_count h.calls : Int) ≤ sgn xyd * (h.int_x - x_0 / 256) + 2 := by
      rcases c1 with c | c
      · exact c
      · omega
    by_cases hf : y_1 % 256 = 0
    · simp only [hf, ne_eq, not_true_eq_false, if_false]
      omega
    · simp only [ne_eq, hf, not_false_eq_true, if_true]
      cases xyd
      · simp only [sgn_positive, one_mul] at m2 c2 hc1 ⊢
        simp only [if_true]
        have := add_scanline_count yd s.calls (y_1 / 256) s.int_x (x_1 / 256)
          s.frac_x (x_1 % 256) (x_1 - s.x) (y_1 % 256)
        omega
      · simp only [sgn_negative] at m2 c2 hc1 ⊢
        simp only [reduceCtorEq, if_false]
        have := add_scanline_count yd s.calls (y_1 / 256) (x_1 / 256) s.int_x
          (x_1 % 256) s.frac_x (s.x - x_1) (y_1 % 256)
        omega

theorem vertical_rows_count (int_x cover area int_y_1 : Int) :
    ∀ (fuel : Nat) (calls : List Cell_call) (int_y_0 : Int),
      set_cell_count (vertical_rows int_x cover area int_y_1 fuel calls int_y_0) ≤
        set_cell_count calls + fuel := by
  intro fuel
  induction fuel with
  | zero => intro calls int_y_0; simp [vertical_rows]
  | succ n ih =>
    intro calls int_y_0
    simp only [vertical_rows]
    split_ifs
    · have := ih (calls ++ [Cell_call.set_x int_x, Cell_call.set_y int_y_0,
        Cell_call.set_cell cover area]) (int_y_0 + 1)
      simp only [set_cell_count_append, set_cell_count] at this
      omega
    · omega

theorem add_line_vertical_count (x_0 y_0 y_1 : Int) :
    (set_cell_count (add_line_vertical x_0 y_0 y_1) : Int) ≤ |y_1 / 256 - y_0 / 256| + 2 := by
  have habs := abs_nonneg (y_1 / 256 - y_0 / 256)
  have h1 := le_abs_self (y_1 / 256 - y_0 / 256)
  have h2 := neg_abs_le (y_1 / 256 - y_0 / 256)
  generalize |y_1 / 256 - y_0 / 256| = a at habs h1 h2
  have key : ∀ (int_x cover area last : Int) (head tail : List Cell_call) (first : Int),
      set_cell_count head ≤ 1 → set_cell_count tail ≤ 1 → last - first ≤ a →
      (set_cell_count (vertical_rows int_x cover area last (last - first).toNat
        (head ++ tail) first) : Int) ≤ a + 2 := by
    intro int_x cover area last head tail first hh ht hf
    have := vertical_rows_count int_x cover area last (last - first).toNat (head ++ tail) first
    rw [set_cell_count_append] at this
    omega
  unfold add_line_vertical
  dsimp only
  by_cases he : y_0 / 256 = y_1 / 256
  · rw [if_pos he]
    simp only [set_cell_count]
    omega
  · rw [if_neg he]
    by_cases hlt : y_0 < y_1
    · rw [if_pos hlt]
      apply key
      · split_ifs <;> simp [set_cell_count]
      · split_ifs <;> simp [set_cell_count]
      · split_ifs <;> omega
    · rw [if_neg hlt]
      apply key
      · split_ifs <;> simp [set_cell_count]
      · split_ifs <;> simp [set_cell_count]
      · split_ifs <;> omega

/-- The number of `set_cell` calls of a segment: at most two for each row
it meets and one for each column it crosses. -/
theorem add_line_count (x_0 y_0 x_1 y_1 : Int)
    (hx : |x_1 - x_0| < 2147483648) (hy : |y_1 - y_0| < 2147483648) :
    (set_cell_count (add_line_ x_0 y_0 x_1 y_1) : Int) ≤
      |x_1 / 256 - x_0 / 256| + 2 * |y_1 / 256 - y_0 / 256| + 4 := by
  rw [abs_lt] at hx hy
  have hax := abs_nonneg (x_1 / 256 - x_0 / 256)
  have hax1 := le_abs_self (x_1 / 256 - x_0 / 256)
  have hax2 := neg_abs_le (x_1 / 256 - x_0 / 256)
  have hay := abs_nonneg (y_1 / 256 - y_0 / 256)
  have hay1 := le_abs_self (y_1 / 256 - y_0 / 256)
  have hay2 := neg_abs_le (y_1 / 256 - y_0 / 256)
  have hv := add_line_vertical_count x_0 y_0 y_1
  generalize |x_1 / 256 - x_0 / 256| = a at hax hax1 hax2
  generalize |y_1 / 256 - y_0 / 256| = b at hay hay1 hay2 hv
  unfold add_line_
  by_cases hy0 : y_0 = y_1
  · rw [if_pos hy0]
    simp only [set_cell_count]
    omega
  · rw [if_neg hy0]
    by_cases hx0 : x_0 = x_1
    · rw [if_pos hx0]
      omega
    · rw [if_neg hx0]
      by_cases hxd : x_1 > x_0
      · rw [if_pos hxd]
        by_cases hyd : y_1 > y_0
        · rw [if_pos hyd]
          have := add_line_dir_count Direction_.positive Direction_.positive
            Direction_.positive x_0 y_0 x_1 y_1 hyd (by omega)
            (by simp only [sgn_positive, one_mul]; omega)
            (by simp only [sgn_positive, one_mul]; omega)
          simp only [sgn_positive, one_mul] at this
          omega
        · rw [if_neg hyd]
          have := add_line_dir_count Direction_.positive Direction_.negative
            Direction_.negative x_1 y_1 x_0 y_0 (by omega) (by omega)
            (by simp only [sgn_negative]; omega)
            (by simp only [sgn_negative]; omega)
          simp only [sgn_negative] at this
          omega
      · rw [if_neg hxd]
        by_cases hyd : y_1 > y_0
        · rw [if_pos hyd]
          have := add_line_dir_count Direction_.negative Direction_.positive
            Direction_.negative x_0 y_0 x_1 y_1 hyd (by omega)
            (by simp only [sgn_negative]; omega)
            (by simp only [sgn_negative]; omega)
          simp only [sgn_negative] at this
          omega
        · rw [if_neg hyd]
          have := add_line_dir_count Direction_.negative Direction_.negative
            Direction_.positive x_1 y_1 x_0 y_0 (by omega) (by omega)
            (by simp only [sgn_positive, one_mul]; omega)
            (by simp only [sgn_positive, one_mul]; omega)
          simp only [sgn_positive, one_mul] at this
          omega

end Rasterizer

end vgxx

namespace vgxx

namespace Cell_processor

/-! ### Runs that return -/

/-- While the stash has a free index `set_cell` returns, and it takes at most
one cell into use. -/
theorem set_cell_total (cp : Cell_processor) (cover area : Int)
    (h : cp.cell_stash_.cells_in_use_ < 4294967295) :
    ∃ cp1, cp.set_cell cover area = some cp1 ∧
      cp1.cell_stash_.cells_in_use_ ≤ cp.cell_stash_.cells_in_use_ + 1 := by
  unfold set_cell
  by_cases h1 : cp.height_ > cp.y_ ∧ 0 ≤ cp.y_
  · rw [if_pos h1]
    by_cases h2 : 0 ≤ cp.x_
    · rw [if_pos h2]
      by_cases h3 : cp.width_ > cp.x_
      · rw [if_pos h3]
        dsimp only
        by_cases h4 : invalid_cell_index_ ≠ (cp.row cp.y_).first_cell_idx ∧
            (cp.cell_stash_.get (cp.row cp.y_).first_cell_idx).x = cp.x_
        · rw [if_pos h4]
          exact ⟨_, rfl, Nat.le_succ _⟩
        · rw [if_neg h4]
          unfold Cell_stash_.acquire
          have h5 : 4294967295 > cp.cell_stash_.cells_in_use_ := h
          rw [if_pos h5]
          by_cases h6 : cp.cell_stash_.cells_.length > cp.cell_stash_.cells_in_use_
          · rw [if_pos h6]
            exact ⟨_, rfl, le_refl _⟩
          · rw [if_neg h6]
            exact ⟨_, rfl, le_refl _⟩
      · rw [if_neg h3]
        exact ⟨_, rfl, Nat.le_succ _⟩
    · rw [if_neg h2]
      exact ⟨_, rfl, Nat.le_succ _⟩
  · rw [if_neg h1]
    exact ⟨_, rfl, Nat.le_succ _⟩

/-- A sequence of calls returns when the cells in use and its `set_cell`
calls together do not exceed the `2^32 - 1` indices of the stash. -/
theorem run_total :
    ∀ (calls : List Cell_call) (cp : Cell_processor),
      cp.cell_stash_.cells_in_use_ + set_cell_count calls ≤ 4294967295 →
      ∃ cp1, cp.run calls = some cp1 := by
  intro calls
  induction calls with
  | nil => intro cp _; exact ⟨cp, rfl⟩
  | cons c t ih =>
    intro cp h
    cases c with
    | inc_x => exact ih cp.inc_x h
    | set_x x => exact ih (cp.set_x x) h
    | set_y y => exact ih (cp.set_y y) h
    | set_cell cover area =>
      have h1 : cp.cell_stash_.cells_in_use_ + (set_cell_count t + 1) ≤ 4294967295 := h
      obtain ⟨cp0, e1, e2⟩ := set_cell_total cp cover area (by omega)
      obtain ⟨cp1, e3⟩ := ih cp0 (by omega)
      refine ⟨cp1, ?_⟩
      show (cp.set_cell cover area).bind (fun cp1 => run cp1 t) = some cp1
      rw [e1]
      exact e3

end Cell_processor

namespace Rasterizer

/-- The number of `set_cell` calls of a segment between two points with
`0 ≤ X < 256 * w` and `0 ≤ Y < 256 * h`. -/
theorem add_line_count_viewport (w h x_0 y_0 x_1 y_1 : Int) (hw : w ≤ 65535) (hh : h ≤ 65535)
    (h0 : 0 ≤ x_0 ∧ x_0 < 256 * w ∧ 0 ≤ y_0 ∧ y_0 < 256 * h)
    (h1 : 0 ≤ x_1 ∧ x_1 < 256 * w ∧ 0 ≤ y_1 ∧ y_1 < 256 * h) :
    (set_cell_count (add_line_ x_0 y_0 x_1 y_1) : Int) ≤ w + 2 * h + 4 := by
  have := add_line_count x_0 y_0 x_1 y_1 (by rw [abs_lt]; omega) (by rw [abs_lt]; omega)
  have hax : |x_1 / 256 - x_0 / 256| ≤ w := by rw [abs_le]; omega
  have hay : |y_1 / 256 - y_0 / 256| ≤ h := by rw [abs_le]; omega
  omega

/-- The number of `set_cell` calls of a sequence of `line_to_fixed_24_dot_8`
calls between points of the viewport. -/
theorem line_to_all_count (w h : Int) (hw : w ≤ 65535) (hh : h ≤ 65535) :
    ∀ (vs : List (Int × Int)) (r : Rasterizer),
      (0 ≤ r.x_ ∧ r.x_ < 256 * w ∧ 0 ≤ r.y_ ∧ r.y_ < 256 * h) →
      (∀ v ∈ vs, 0 ≤ v.1 ∧ v.1 < 256 * w ∧ 0 ≤ v.2 ∧ v.2 < 256 * h) →
      (set_cell_count (line_to_all r vs).1 : Int) ≤ vs.length * (w + 2 * h + 4) := by
  intro vs
  induction vs with
  | nil =>
    intro r _ _
    simp [line_to_all, set_cell_count]
  | cons v t ih =>
    intro r hr hvs
    have hv := hvs v (List.mem_cons_self _ _)
    have h1 := add_line_count_viewport w h r.x_ r.y_ v.1 v.2 hw hh hr hv
    have h2 := ih (r.line_to_fixed_24_dot_8 v.1 v.2).2 hv
      (fun u hu => hvs u (List.mem_cons_of_mem _ hu))
    simp only [line_to_all, set_cell_count_append, List.length_cons]
    have h3 : (r.line_to_fixed_24_dot_8 v.1 v.2).1 = add_line_ r.x_ r.y_ v.1 v.2 := rfl
    rw [h3]
    push_cast
    have e : ((t.length : Int) + 1) * (w + 2 * h + 4) =
        (t.length : Int) * (w + 2 * h + 4) + (w + 2 * h + 4) := by ring
    rw [e]
    omega

end Rasterizer

end vgxx

namespace vgxx

namespace Rasterizer

/-- The number of `set_cell` calls of a closed contour between points of the
viewport, drawn by a fresh rasterizer. -/
theorem closed_path_count (w h : Int) (hw : w ≤ 65535) (hh : h ≤ 65535)
    (v0 : Int × Int) (vs : List (Int × Int))
    (hv0 : 0 ≤ v0.1 ∧ v0.1 < 256 * w ∧ 0 ≤ v0.2 ∧ v0.2 < 256 * h)
    (hvs : ∀ v ∈ vs, 0 ≤ v.1 ∧ v.1 < 256 * w ∧ 0 ≤ v.2 ∧ v.2 < 256 * h) :
    (set_cell_count (closed_path init v0 vs) : Int) ≤
      ((vs.length : Int) + 1) * (w + 2 * h + 4) := by
  have hmove : (init.move_to_fixed_24_dot_8 v0.1 v0.2).1 = [] := by
    simp [move_to_fixed_24_dot_8, init, add_line_same]
  have hpen : (init.move_to_fixed_24_dot_8 v0.1 v0.2).2 =
      { x_0_ := v0.1, y_0_ := v0.2, x_ := v0.1, y_ := v0.2 } := rfl
  unfold closed_path
  rw [hmove, hpen, List.nil_append, set_cell_count_append]
  obtain ⟨_, _, i3, i4, i5⟩ := line_to_all_ok w h hw hh vs
    { x_0_ := v0.1, y_0_ := v0.2, x_ := v0.1, y_ := v0.2 } 0 0 hv0 hvs
  have c1 := line_to_all_count w h hw hh vs
    { x_0_ := v0.1, y_0_ := v0.2, x_ := v0.1, y_ := v0.2 } hv0 hvs
  generalize line_to_all { x_0_ := v0.1, y_0_ := v0.2, x_ := v0.1, y_ := v0.2 } vs = p
    at i3 i4 i5 c1
  have hclose : (close p.2).1 = add_line_ p.2.x_ p.2.y_ p.2.x_0_ p.2.y_0_ := rfl
  rw [hclose, i4, i5]
  have c2 := add_line_count_viewport w h p.2.x_ p.2.y_ v0.1 v0.2 hw hh i3 hv0
  push_cast
  have e : ((vs.length : Int) + 1) * (w + 2 * h + 4) =
      (vs.length : Int) * (w + 2 * h + 4) + (w + 2 * h + 4) := by ring
  rw [e]
  omega

end Rasterizer

end vgxx

namespace vgxx

namespace Util

/-! ### Conversion to fixed point -/

/-- What `to_fixed_24_dot_8(x)` returns is `256 x` rounded to the nearest
integer, a half rounded away from zero, and an `Int_32`; it returns when that
rounded value is an `Int_32`. -/
theorem to_fixed_round (x : ℚ) :
    (∀ r, to_fixed_24_dot_8 x = some r →
      |(r : ℚ) - 256 * x| ≤ 1 / 2 ∧ (|(r : ℚ) - 256 * x| = 1 / 2 → |256 * x| < |(r : ℚ)|) ∧
      -2147483648 ≤ r ∧ r ≤ 2147483647) ∧
    (-2147483648 - 1 / 2 < 256 * x → 256 * x < 2147483647 + 1 / 2 →
      ∃ r, to_fixed_24_dot_8 x = some r) := by
  unfold to_fixed_24_dot_8 to_fixed_ to_int_32
  have hq : x * ((256 : Nat) : ℚ) = 256 * x := by push_cast; ring
  simp only [hq]
  generalize 256 * x = q
  by_cases h0 : 0 ≤ q
  · have h1 : (0 : ℚ) ≤ q + 1 / 2 := by linarith
    simp only [h0, h1, if_true]
    have hf1 := Int.floor_le (q + 1 / 2)
    have hf2 := Int.lt_floor_add_one (q + 1 / 2)
    constructor
    · intro r hr
      split_ifs at hr with hc
      have hr1 : ⌊q + 1 / 2⌋ = r := Option.some.inj hr
      rw [hr1] at hf1 hf2
      refine ⟨?_, ?_, by rw [← hr1]; exact hc.1, by rw [← hr1]; exact hc.2⟩
      · rw [abs_le]; constructor <;> linarith
      · intro ht
        have : (r : ℚ) - q = 1 / 2 := by
          rcases abs_eq (by norm_num : (0 : ℚ) ≤ 1 / 2) |>.mp ht with h | h
          · exact h
          · linarith
        rw [abs_of_nonneg h0, abs_of_nonneg (by linarith)]
        linarith
    · intro ha hb
      have hlo : (-2147483648 : Int) ≤ ⌊q + 1 / 2⌋ := by
        rw [Int.le_floor]; push_cast; linarith
      have hhi : ⌊q + 1 / 2⌋ ≤ (2147483647 : Int) := by
        have : ⌊q + 1 / 2⌋ < (2147483648 : Int) := by
          rw [Int.floor_lt]; push_cast; linarith
        omega
      exact ⟨_, by rw [if_pos ⟨hlo, hhi⟩]⟩
  · have h1 : ¬ (0 : ℚ) ≤ q - 1 / 2 := by linarith
    simp only [h0, h1, if_false]
    have hf1 := Int.le_ceil (q - 1 / 2)
    have hf2 := Int.ceil_lt_add_one (q - 1 / 2)
    constructor
    · intro r hr
      split_ifs at hr with hc
      have hr1 : ⌈q - 1 / 2⌉ = r := Option.some.inj hr
      rw [hr1] at hf1 hf2
      refine ⟨?_, ?_, by rw [← hr1]; exact hc.1, by rw [← hr1]; exact hc.2⟩
      · rw [abs_le]; constructor <;> linarith
      · intro ht
        have : (r : ℚ) - q = -(1 / 2) := by
          rcases abs_eq (by norm_num : (0 : ℚ) ≤ 1 / 2) |>.mp ht with h | h
          · linarith
          · exact h
        rw [abs_of_neg (by linarith : q < 0), abs_of_neg (by linarith : (r : ℚ) < 0)]
        linarith
    · intro ha hb
      have hlo : (-2147483648 : Int) ≤ ⌈q - 1 / 2⌉ := by
        have : (-2147483649 : Int) < ⌈q - 1 / 2⌉ := by
          rw [Int.lt_ceil]; push_cast; linarith
        omega
      have hhi : ⌈q - 1 / 2⌉ ≤ (2147483647 : Int) := by
        rw [Int.ceil_le]; push_cast; linarith
      exact ⟨_, by rw [if_pos ⟨hlo, hhi⟩]⟩

/-- A multiple of `1 / 256` converts to its numerator. -/
theorem to_fixed_of_int (n : Int) (h0 : -2147483648 ≤ n) (h1 : n ≤ 2147483647) :
    to_fixed_24_dot_8 ((n : ℚ) / 256) = some n := by
  unfold to_fixed_24_dot_8 to_fixed_ to_int_32
  have hq : (n : ℚ) / 256 * ((256 : Nat) : ℚ) = n := by push_cast; field_simp
  simp only [hq]
  by_cases hn : 0 ≤ n
  · have h2 : (0 : ℚ) ≤ n := by exact_mod_cast hn
    have h3 : (0 : ℚ) ≤ (n : ℚ) + 1 / 2 := by linarith
    have hf : ⌊(n : ℚ) + 1 / 2⌋ = n := by
      rw [Int.floor_eq_iff]; constructor <;> linarith
    simp only [h2, h3, if_true, hf]
    rw [if_pos ⟨h0, h1⟩]
  · have h2 : ¬ (0 : ℚ) ≤ n := by
      intro h; exact hn (by exact_mod_cast h)
    have h3 : ¬ (0 : ℚ) ≤ (n : ℚ) - 1 / 2 := by linarith
    have hf : ⌈(n : ℚ) - 1 / 2⌉ = n := by
      rw [Int.ceil_eq_iff]; constructor <;> linarith
    simp only [h2, h3, if_false, hf]
    rw [if_pos ⟨h0, h1⟩]

/-- A whole number converts to 256 times itself. -/
theorem to_fixed_whole (n : Int) (h0 : -8388608 ≤ n) (h1 : n ≤ 8388607) :
    to_fixed_24_dot_8 (n : ℚ) = some (256 * n) := by
  have := to_fixed_of_int (256 * n) (by omega) (by omega)
  rw [← this]
  congr 1
  push_cast
  field_simp

end Util

end vgxx
namespace vgxx

namespace Util

/-! ### The Bezier subdivider -/

theorem bezier_loop_length (d_d_d_x d_d_d_y : ℚ) :
    ∀ (fuel : Nat) (s : Bezier_), s.step_count = fuel →
      (bezier_loop d_d_d_x d_d_d_y fuel s).points.length = s.points.length + fuel := by
  intro fuel
  induction fuel with
  | zero => intro s _; rfl
  | succ n ih =>
    intro s hs
    simp only [bezier_loop]
    split_ifs with h
    · rw [ih _ (by show s.step_count - 1 = n; omega)]
      simp only [List.length_append, List.length_singleton]
      omega
    · simp only [List.length_append, List.length_singleton]
      omega

theorem chord_sum_nonneg (x_0 y_0 x_1 y_1 x_2 y_2 x_3 y_3 : ℚ) :
    0 ≤ chord_sum x_0 y_0 x_1 y_1 x_2 y_2 x_3 y_3 := by
  unfold chord_sum
  have h1 := abs_nonneg (x_1 - x_0)
  have h2 := abs_nonneg (y_1 - y_0)
  have h3 := abs_nonneg (x_2 - x_1)
  have h4 := abs_nonneg (y_2 - y_1)
  have h5 := abs_nonneg (x_3 - x_2)
  have h6 := abs_nonneg (y_3 - y_2)
  linarith

/-- The loop of the subdivider, entered with the position, the first and the
second difference of the cubic at parameter `j h`: it appends the values of
the cubic at `(j + 1) h, (j + 2) h, ...`, one for each remaining step. -/
theorem bezier_loop_points (x_0 x_1 x_2 x_3 y_0 y_1 y_2 y_3 h : ℚ) :
    ∀ (fuel : Nat) (s : Bezier_) (j : Nat),
      s.x = cubic x_0 x_1 x_2 x_3 (j * h) → s.y = cubic y_0 y_1 y_2 y_3 (j * h) →
      s.d_x = cubic x_0 x_1 x_2 x_3 ((j + 1) * h) - cubic x_0 x_1 x_2 x_3 (j * h) →
      s.d_y = cubic y_0 y_1 y_2 y_3 ((j + 1) * h) - cubic y_0 y_1 y_2 y_3 (j * h) →
      s.d_d_x = 2 * (3 * x_0 - 6 * x_1 + 3 * x_2) * h ^ 2 +
        6 * (x_3 - 3 * x_2 + 3 * x_1 - x_0) * h ^ 3 * j →
      s.d_d_y = 2 * (3 * y_0 - 6 * y_1 + 3 * y_2) * h ^ 2 +
        6 * (y_3 - 3 * y_2 + 3 * y_1 - y_0) * h ^ 3 * j →
      s.step_count = fuel →
      (bezier_loop ((x_3 - x_2 * 3 + x_1 * 3 - x_0) * (h * (h * h)) * 6)
        ((y_3 - y_2 * 3 + y_1 * 3 - y_0) * (h * (h * h)) * 6) fuel s).points =
        s.points ++ (List.range fuel).map (fun i : Nat =>
          (cubic x_0 x_1 x_2 x_3 (((j + 1 + i : Nat) : ℚ) * h),
            cubic y_0 y_1 y_2 y_3 (((j + 1 + i : Nat) : ℚ) * h))) := by
  intro fuel
  induction fuel with
  | zero =>
    intro s j _ _ _ _ _ _ _
    simp [bezier_loop]
  | succ n ih =>
    intro s j hx hy hdx hdy hddx hddy hs
    have hpx : s.x + s.d_x = cubic x_0 x_1 x_2 x_3 (((j + 1 : Nat) : ℚ) * h) := by
      rw [hx, hdx]; push_cast; ring
    have hpy : s.y + s.d_y = cubic y_0 y_1 y_2 y_3 (((j + 1 : Nat) : ℚ) * h) := by
      rw [hy, hdy]; push_cast; ring
    simp only [bezier_loop]
    by_cases hc : 0 < s.step_count - 1
    · rw [if_pos hc]
      rw [ih _ (j + 1) hpx hpy
        (by
          show s.d_x + (s.d_d_x + _) = _
          rw [hdx, hddx]; unfold cubic; push_cast; ring)
        (by
          show s.d_y + (s.d_d_y + _) = _
          rw [hdy, hddy]; unfold cubic; push_cast; ring)
        (by
          show s.d_d_x + _ = _
          rw [hddx]; push_cast; ring)
        (by
          show s.d_d_y + _ = _
          rw [hddy]; push_cast; ring)
        (by show s.step_count - 1 = n; omega)]
      rw [List.range_succ_eq_map, List.map_cons, List.map_map]
      show (s.points ++ [(s.x + s.d_x, s.y + s.d_y)]) ++ _ = _
      rw [hpx, hpy, List.append_assoc, List.singleton_append]
      congr 2
      apply List.map_congr_left
      intro i _
      have e : j + 1 + 1 + i = j + 1 + (i + 1) := by omega
      simp only [Function.comp, e, Nat.succ_eq_add_one]
    · rw [if_neg hc]
      have hn : n = 0 := by omega
      subst hn
      show s.points ++ [(s.x + s.d_x, s.y + s.d_y)] = _
      rw [hpx, hpy]
      rfl

/-- The points that `subdivide_bezier` passes to its callback: none when the
chord sum `S` is 0, otherwise the cubic at `1/n, 2/n, ..., n/n` for
`n = max(4, ceil(S / 4))`; the call is defined when `ceil(S / 4) < 2^32`. -/
theorem subdivide_bezier_eq (x_0 y_0 x_1 y_1 x_2 y_2 x_3 y_3 : ℚ) :
    (∀ pts, subdivide_bezier x_0 y_0 x_1 y_1 x_2 y_2 x_3 y_3 = some pts →
      (chord_sum x_0 y_0 x_1 y_1 x_2 y_2 x_3 y_3 = 0 → pts = []) ∧
      (chord_sum x_0 y_0 x_1 y_1 x_2 y_2 x_3 y_3 ≠ 0 →
        pts = (List.range (max 4 ⌈chord_sum x_0 y_0 x_1 y_1 x_2 y_2 x_3 y_3 / 4⌉).toNat).map
          (fun i : Nat =>
            (cubic x_0 x_1 x_2 x_3 (((i + 1 : Nat) : ℚ) /
                ((max 4 ⌈chord_sum x_0 y_0 x_1 y_1 x_2 y_2 x_3 y_3 / 4⌉).toNat : ℚ)),
              cubic y_0 y_1 y_2 y_3 (((i + 1 : Nat) : ℚ) /
                ((max 4 ⌈chord_sum x_0 y_0 x_1 y_1 x_2 y_2 x_3 y_3 / 4⌉).toNat : ℚ)))))) ∧
    (⌈chord_sum x_0 y_0 x_1 y_1 x_2 y_2 x_3 y_3 / 4⌉ < 4294967296 →
      ∃ pts, subdivide_bezier x_0 y_0 x_1 y_1 x_2 y_2 x_3 y_3 = some pts) := by
  have hS := chord_sum_nonneg x_0 y_0 x_1 y_1 x_2 y_2 x_3 y_3
  have hceil : (0 : Int) ≤ ⌈chord_sum x_0 y_0 x_1 y_1 x_2 y_2 x_3 y_3 / 4⌉ :=
    Int.ceil_nonneg (by positivity)
  have hq : (|x_1 - x_0| + |y_1 - y_0| + |x_2 - x_1| + |y_2 - y_1| + |x_3 - x_2| +
      |y_3 - y_2|) * (1 / 4) = chord_sum x_0 y_0 x_1 y_1 x_2 y_2 x_3 y_3 / 4 := by
    unfold chord_sum; ring
  unfold subdivide_bezier
  simp only [hq]
  generalize hSd : chord_sum x_0 y_0 x_1 y_1 x_2 y_2 x_3 y_3 = S at hS hceil
  constructor
  · intro pts hp
    by_cases hr : 0 ≤ ⌈S / 4⌉ ∧ ⌈S / 4⌉ < 4294967296
    · rw [if_pos hr] at hp
      by_cases h0 : S = 0
      · have hz : ⌈S / 4⌉.toNat = 0 := by rw [h0]; simp
        rw [if_neg (by omega)] at hp
        exact ⟨fun _ => (Option.some.inj hp).symm, fun h => absurd h0 h⟩
      · have hpos : 0 < ⌈S / 4⌉ := by
          rw [Int.ceil_pos]
          have : 0 < S := lt_of_le_of_ne hS (Ne.symm h0)
          positivity
        rw [if_pos (by omega)] at hp
        refine ⟨fun h => absurd h h0, fun _ => ?_⟩
        have hn : (if 4 > ⌈S / 4⌉.toNat then 4 else ⌈S / 4⌉.toNat) = (max 4 ⌈S / 4⌉).toNat := by
          split_ifs with h4
          · rw [max_eq_left (by omega)]; rfl
          · rw [max_eq_right (by omega)]
        rw [hn] at hp
        generalize (max 4 ⌈S / 4⌉).toNat = n at hp
        have hlp := bezier_loop_points x_0 x_1 x_2 x_3 y_0 y_1 y_2 y_3 (1 / (n : ℚ)) n
          { points := []
            x := x_0
            y := y_0
            d_x := (x_3 - x_2 * 3 + x_1 * 3 - x_0) * (1 / (n : ℚ) * (1 / (n : ℚ) * (1 / (n : ℚ)))) +
              (x_0 * 3 + x_2 * 3 - x_1 * 3 * 2) * (1 / (n : ℚ) * (1 / (n : ℚ))) +
              (x_1 * 3 - x_0 * 3) * (1 / (n : ℚ))
            d_y := (y_3 - y_2 * 3 + y_1 * 3 - y_0) * (1 / (n : ℚ) * (1 / (n : ℚ) * (1 / (n : ℚ)))) +
              (y_0 * 3 + y_2 * 3 - y_1 * 3 * 2) * (1 / (n : ℚ) * (1 / (n : ℚ))) +
              (y_1 * 3 - y_0 * 3) * (1 / (n : ℚ))
            d_d_x := (x_0 * 3 + x_2 * 3 - x_1 * 3 * 2) * (1 / (n : ℚ) * (1 / (n : ℚ))) * 2
            d_d_y := (y_0 * 3 + y_2 * 3 - y_1 * 3 * 2) * (1 / (n : ℚ) * (1 / (n : ℚ))) * 2
            step_count := n } 0
          (by simp [cubic]) (by simp [cubic])
          (by simp only [cubic]; push_cast; ring) (by simp only [cubic]; push_cast; ring)
          (by push_cast; ring) (by push_cast; ring) rfl
        rw [hlp] at hp
        rw [← Option.some.inj hp, List.nil_append]
        apply List.map_congr_left
        intro i _
        have e : ((0 + 1 + i : Nat) : ℚ) * (1 / (n : ℚ)) = ((i + 1 : Nat) : ℚ) / (n : ℚ) := by
          push_cast; ring
        rw [e]
    · rw [if_neg hr] at hp
      exact absurd hp (by simp)
  · intro hlt
    rw [if_pos ⟨hceil, hlt⟩]
    split_ifs <;> exact ⟨_, rfl⟩

end Util

end vgxx

namespace vgxx

/-! ### The renderer on paths without curves -/

theorem Cell_processor.run_append (a b : List Cell_call) :
    ∀ cp : Cell_processor, cp.run (a ++ b) = (cp.run a).bind (fun cp1 => cp1.run b) := by
  induction a with
  | nil => intro cp; rfl
  | cons c t ih =>
    intro cp
    show (cp.call c).bind (fun cp1 => cp1.run (t ++ b)) = _
    cases hc : cp.call c with
    | none => simp [Cell_processor.run, hc]
    | some cp0 =>
      simp only [Cell_processor.run, hc, Option.some_bind]
      exact ih cp0

theorem Path_cmd.fixed_move_to (x y : ℚ) : (Path_cmd.move_to x y).fixed =
    (match Util.to_fixed_24_dot_8 x, Util.to_fixed_24_dot_8 y with
    | some X, some Y => some (Fixed_cmd.move_to X Y)
    | _, _ => none) := rfl

theorem Path_cmd.fixed_line_to (x y : ℚ) : (Path_cmd.line_to x y).fixed =
    (match Util.to_fixed_24_dot_8 x, Util.to_fixed_24_dot_8 y with
    | some X, some Y => some (Fixed_cmd.line_to X Y)
    | _, _ => none) := rfl

namespace Renderer

/-- A `move_to`, `line_to` or `close_outline` call passes to the cell
processor the calls of the corresponding call of the fixed-point interface of
the rasterizer. -/
theorem exec_fixed_eq (r : Renderer) (c : Path_cmd) (f : Fixed_cmd) (h : c.fixed = some f) :
    (r.exec c).map (fun r1 => (r1.rasterizer_, r1.cell_proc_)) =
      (r.cell_proc_.run (r.rasterizer_.exec_fixed f).1).map
        (fun cp => ((r.rasterizer_.exec_fixed f).2, cp)) := by
  cases c with
  | move_to x y =>
    rw [Path_cmd.fixed_move_to] at h
    cases hx : Util.to_fixed_24_dot_8 x with
    | none => rw [hx] at h; simp at h
    | some X =>
      cases hy : Util.to_fixed_24_dot_8 y with
      | none => rw [hx, hy] at h; simp at h
      | some Y =>
        rw [hx, hy] at h
        have hf : Fixed_cmd.move_to X Y = f := Option.some.inj h
        subst hf
        show (r.move_to x y).map _ = (r.cell_proc_.run (r.rasterizer_.move_to_fixed_24_dot_8 X Y).1).map
          (fun cp => ((r.rasterizer_.move_to_fixed_24_dot_8 X Y).2, cp))
        unfold Renderer.move_to Rasterizer.move_to
        rw [hx, hy]
        dsimp only
        generalize r.cell_proc_.run (r.rasterizer_.move_to_fixed_24_dot_8 X Y).1 = o
        cases o <;> rfl
  | line_to x y =>
    rw [Path_cmd.fixed_line_to] at h
    cases hx : Util.to_fixed_24_dot_8 x with
    | none => rw [hx] at h; simp at h
    | some X =>
      cases hy : Util.to_fixed_24_dot_8 y with
      | none => rw [hx, hy] at h; simp at h
      | some Y =>
        rw [hx, hy] at h
        have hf : Fixed_cmd.line_to X Y = f := Option.some.inj h
        subst hf
        show (r.line_to x y).map _ = (r.cell_proc_.run (r.rasterizer_.line_to_fixed_24_dot_8 X Y).1).map
          (fun cp => ((r.rasterizer_.line_to_fixed_24_dot_8 X Y).2, cp))
        unfold Renderer.line_to Renderer.line_to_ Rasterizer.line_to
        rw [hx, hy]
        dsimp only
        generalize r.cell_proc_.run (r.rasterizer_.line_to_fixed_24_dot_8 X Y).1 = o
        cases o <;> rfl
  | bezier_to x_1 y_1 x_2 y_2 x_3 y_3 =>
    exact absurd h (by intro h0; cases h0)
  | close_outline =>
    have hf : Fixed_cmd.close = f := Option.some.inj h
    subst hf
    show r.close_outline.map _ = (r.cell_proc_.run r.rasterizer_.close.1).map
      (fun cp => (r.rasterizer_.close.2, cp))
    unfold Renderer.close_outline
    generalize r.cell_proc_.run r.rasterizer_.close.1 = o
    cases o <;> rfl

theorem exec_all_fixed_eq :
    ∀ (path : List Path_cmd) (F : List Fixed_cmd) (r : Renderer),
      Path_cmd.fixed_all path = some F →
      (r.exec_all path).map (fun r1 => (r1.rasterizer_, r1.cell_proc_)) =
        (r.cell_proc_.run (r.rasterizer_.exec_all_fixed F).1).map
          (fun cp => ((r.rasterizer_.exec_all_fixed F).2, cp)) := by
  intro path
  induction path with
  | nil =>
    intro F r h
    have : [] = F := Option.some.inj h
    subst this
    rfl
  | cons c t ih =>
    intro F r h
    simp only [Path_cmd.fixed_all] at h
    cases hc : c.fixed with
    | none => rw [hc] at h; simp at h
    | some f =>
      cases ht : Path_cmd.fixed_all t with
      | none => rw [hc, ht] at h; simp at h
      | some ft =>
        rw [hc, ht] at h
        have hF : f :: ft = F := Option.some.inj h
        subst hF
        have h1 := exec_fixed_eq r c f hc
        simp only [exec_all, Rasterizer.exec_all_fixed, Cell_processor.run_append]
        cases hr : r.exec c with
        | none =>
          rw [hr] at h1
          cases hrun : r.cell_proc_.run (r.rasterizer_.exec_fixed f).1 with
          | none => rfl
          | some cp0 => rw [hrun] at h1; simp at h1
        | some r1 =>
          rw [hr] at h1
          cases hrun : r.cell_proc_.run (r.rasterizer_.exec_fixed f).1 with
          | none => rw [hrun] at h1; simp at h1
          | some cp0 =>
            rw [hrun] at h1
            simp only [Option.map_some', Option.some.injEq, Prod.mk.injEq] at h1
            simp only [Option.some_bind]
            rw [← h1.1, ← h1.2]
            exact ih ft r1 ht

/-- The blender calls of `fill` after a path of `move_to`, `line_to` and
`close_outline` calls on a fresh renderer are those of the sweep of a fresh
cell processor that has received the calls of the corresponding calls of the
fixed-point interface of a fresh rasterizer, followed by `close`. -/
theorem draw_fixed (width height : Int) (path : List Path_cmd) (F : List Fixed_cmd)
    (rule : Fill_rule) (h : Path_cmd.fixed_all path = some F) :
    draw width height path rule =
      ((Cell_processor.init width height).run
        (Rasterizer.init.exec_all_fixed (F ++ [Fixed_cmd.close])).1).map
        (fun cp => (cp.swipe rule).1) := by
  have hall : Path_cmd.fixed_all (path ++ [Path_cmd.close_outline]) =
      some (F ++ [Fixed_cmd.close]) := by
    clear rule
    induction path generalizing F with
    | nil =>
      have : [] = F := Option.some.inj h
      subst this
      rfl
    | cons c t ih =>
      simp only [Path_cmd.fixed_all] at h
      cases hc : c.fixed with
      | none => rw [hc] at h; simp at h
      | some f =>
        cases ht : Path_cmd.fixed_all t with
        | none => rw [hc, ht] at h; simp at h
        | some ft =>
          rw [hc, ht] at h
          have hF : f :: ft = F := Option.some.inj h
          subst hF
          show Path_cmd.fixed_all (c :: (t ++ [Path_cmd.close_outline])) = _
          simp only [Path_cmd.fixed_all, hc, ih ft ht]
          rfl
  have hexec : ∀ (p : List Path_cmd) (r : Renderer),
      r.exec_all (p ++ [Path_cmd.close_outline]) =
        (r.exec_all p).bind (fun r1 => r1.close_outline) := by
    intro p
    induction p with
    | nil =>
      intro r
      simp only [List.nil_append, exec_all, exec, Option.some_bind]
      cases r.close_outline <;> rfl
    | cons c t ih =>
      intro r
      simp only [List.cons_append, exec_all]
      cases r.exec c with
      | none => rfl
      | some r1 => exact ih r1
  have key := exec_all_fixed_eq (path ++ [Path_cmd.close_outline]) (F ++ [Fixed_cmd.close])
    (init width height) hall
  rw [hexec] at key
  have e1 : (init width height).cell_proc_ = Cell_processor.init width height := rfl
  have e2 : (init width height).rasterizer_ = Rasterizer.init := rfl
  rw [e1, e2] at key
  generalize (Cell_processor.init width height).run
    (Rasterizer.init.exec_all_fixed (F ++ [Fixed_cmd.close])).1 = o at key
  generalize (Rasterizer.init.exec_all_fixed (F ++ [Fixed_cmd.close])).2 = ras at key
  unfold draw fill
  cases he : (init width height).exec_all path with
  | none =>
    rw [he] at key
    cases o with
    | none => rfl
    | some cp => simp at key
  | some r =>
    rw [he] at key
    simp only [Option.some_bind] at key
    cases hc : r.close_outline with
    | none =>
      rw [hc] at key
      cases o with
      | none => simp only [hc]; rfl
      | some cp => simp at key
    | some r1 =>
      rw [hc] at key
      cases o with
      | none => simp at key
      | some cp =>
        simp only [Option.map_some', Option.some.injEq, Prod.mk.injEq] at key
        simp only [Option.map_some', hc]
        rw [← key.2]

end Renderer

end vgxx

namespace vgxx

/-! ### Paths with whole-number coordinates -/

theorem Path_cmd.fixed_move_whole (x y : Int) (hx0 : -8388608 ≤ x) (hx1 : x ≤ 8388607)
    (hy0 : -8388608 ≤ y) (hy1 : y ≤ 8388607) :
    (Path_cmd.move_to (x : ℚ) (y : ℚ)).fixed = some (Fixed_cmd.move_to (256 * x) (256 * y)) := by
  rw [Path_cmd.fixed_move_to, Util.to_fixed_whole x hx0 hx1, Util.to_fixed_whole y hy0 hy1]

theorem Path_cmd.fixed_line_whole (x y : Int) (hx0 : -8388608 ≤ x) (hx1 : x ≤ 8388607)
    (hy0 : -8388608 ≤ y) (hy1 : y ≤ 8388607) :
    (Path_cmd.line_to (x : ℚ) (y : ℚ)).fixed = some (Fixed_cmd.line_to (256 * x) (256 * y)) := by
  rw [Path_cmd.fixed_line_to, Util.to_fixed_whole x hx0 hx1, Util.to_fixed_whole y hy0 hy1]

/-! ### The scenarios of the specification -/

theorem triangle_fixed :
    Path_cmd.fixed_all [Path_cmd.move_to 0 0, Path_cmd.line_to 2 2, Path_cmd.line_to 0 2] =
      some [Fixed_cmd.move_to 0 0, Fixed_cmd.line_to 512 512, Fixed_cmd.line_to 0 512] := by
  have h1 := Path_cmd.fixed_move_whole 0 0 (by decide) (by decide) (by decide) (by decide)
  have h2 := Path_cmd.fixed_line_whole 2 2 (by decide) (by decide) (by decide) (by decide)
  have h3 := Path_cmd.fixed_line_whole 0 2 (by decide) (by decide) (by decide) (by decide)
  norm_num at h1 h2 h3
  simp only [Path_cmd.fixed_all, h1, h2, h3]

/-- The blender calls of the triangle `(0,0), (2,2), (0,2)` on a 2 x 2
renderer, non-zero rule. -/
theorem triangle_calls :
    Renderer.draw 2 2 [Path_cmd.move_to 0 0, Path_cmd.line_to 2 2, Path_cmd.line_to 0 2]
      Fill_rule.non_zero =
    some [Blender_call.set_y 0, Blender_call.set_x 0, Blender_call.blend 127, Blender_call.inc_y,
      Blender_call.set_x 0, Blender_call.blend 255, Blender_call.inc_x, Blender_call.blend 127] := by
  rw [Renderer.draw_fixed 2 2 _ _ _ triangle_fixed]
  decide

theorem annulus_fixed :
    Path_cmd.fixed_all [Path_cmd.move_to 2 2, Path_cmd.line_to 14 2, Path_cmd.line_to 14 14,
      Path_cmd.line_to 2 14, Path_cmd.move_to 6 6, Path_cmd.line_to 10 6, Path_cmd.line_to 10 10,
      Path_cmd.line_to 6 10] =
      some [Fixed_cmd.move_to 512 512, Fixed_cmd.line_to 3584 512, Fixed_cmd.line_to 3584 3584,
        Fixed_cmd.line_to 512 3584, Fixed_cmd.move_to 1536 1536, Fixed_cmd.line_to 2560 1536,
        Fixed_cmd.line_to 2560 2560, Fixed_cmd.line_to 1536 2560] := by
  have h1 := Path_cmd.fixed_move_whole 2 2 (by decide) (by decide) (by decide) (by decide)
  have h2 := Path_cmd.fixed_line_whole 14 2 (by decide) (by decide) (by decide) (by decide)
  have h3 := Path_cmd.fixed_line_whole 14 14 (by decide) (by decide) (by decide) (by decide)
  have h4 := Path_cmd.fixed_line_whole 2 14 (by decide) (by decide) (by decide) (by decide)
  have h5 := Path_cmd.fixed_move_whole 6 6 (by decide) (by decide) (by decide) (by decide)
  have h6 := Path_cmd.fixed_line_whole 10 6 (by decide) (by decide) (by decide) (by decide)
  have h7 := Path_cmd.fixed_line_whole 10 10 (by decide) (by decide) (by decide) (by decide)
  have h8 := Path_cmd.fixed_line_whole 6 10 (by decide) (by decide) (by decide) (by decide)
  norm_num at h1 h2 h3 h4 h5 h6 h7 h8
  simp only [Path_cmd.fixed_all, h1, h2, h3, h4, h5, h6, h7, h8]

set_option maxRecDepth 1000000 in
/-- The `blend` calls of the annulus `[2,14)^2` minus `[6,10)^2` on a 16 x 16
renderer, even-odd rule: row by row, the pixels of the annulus, each with
coverage 255. -/
theorem annulus_log :
    (Renderer.draw 16 16 [Path_cmd.move_to 2 2, Path_cmd.line_to 14 2, Path_cmd.line_to 14 14,
      Path_cmd.line_to 2 14, Path_cmd.move_to 6 6, Path_cmd.line_to 10 6, Path_cmd.line_to 10 10,
      Path_cmd.line_to 6 10] Fill_rule.even_odd).map (blend_log none none) =
    some ((List.range 12).flatMap (fun (j : Nat) => (List.range 12).filterMap (fun (i : Nat) =>
      if 4 ≤ i ∧ i < 8 ∧ 4 ≤ j ∧ j < 8 then none
      else some (some ((i : Int) + 2), some ((j : Int) + 2), (255 : Int))))) := by
  rw [Renderer.draw_fixed 16 16 _ _ _ annulus_fixed]
  decide

theorem annulus_mem (e : Option Int × Option Int × Int) :
    e ∈ ((List.range 12).flatMap (fun (j : Nat) => (List.range 12).filterMap (fun (i : Nat) =>
      if 4 ≤ i ∧ i < 8 ∧ 4 ≤ j ∧ j < 8 then none
      else some (some ((i : Int) + 2), some ((j : Int) + 2), (255 : Int))))) ↔
    ∃ x y : Int, 2 ≤ x ∧ x < 14 ∧ 2 ≤ y ∧ y < 14 ∧ ¬ (6 ≤ x ∧ x < 10 ∧ 6 ≤ y ∧ y < 10) ∧
      e = (some x, some y, 255) := by
  simp only [List.mem_flatMap, List.mem_filterMap, List.mem_range]
  constructor
  · rintro ⟨j, hj, i, hi, h⟩
    split_ifs at h with hh
    · exact ⟨(i : Int) + 2, (j : Int) + 2, by omega, by omega, by omega, by omega, by omega,
        (Option.some.inj h).symm⟩
  · rintro ⟨x, y, hx0, hx1, hy0, hy1, hh, rfl⟩
    refine ⟨(y - 2).toNat, by omega, (x - 2).toNat, by omega, ?_⟩
    rw [if_neg (by omega)]
    have e1 : (((x - 2).toNat : Nat) : Int) + 2 = x := by omega
    have e2 : (((y - 2).toNat : Nat) : Int) + 2 = y := by omega
    rw [e1, e2]

set_option maxRecDepth 1000000 in
theorem annulus_nodup :
    (((List.range 12).flatMap (fun (j : Nat) => (List.range 12).filterMap (fun (i : Nat) =>
      if 4 ≤ i ∧ i < 8 ∧ 4 ≤ j ∧ j < 8 then none
      else some (some ((i : Int) + 2), some ((j : Int) + 2), (255 : Int))))).map
      Cell_processor.log_pixel).Nodup := by
  decide

end vgxx

namespace vgxx

/-! ### Paths on one horizontal line -/

namespace Renderer

end Renderer

namespace Renderer

end Renderer

end vgxx
namespace vgxx

namespace Util

theorem bit_length_zero (fuel : Nat) : bit_length fuel 0 = 0 := by
  cases fuel <;> simp [bit_length]

theorem bit_length_spec : ∀ (fuel n : Nat), n ≤ fuel → n ≠ 0 →
    ∃ b : Nat, bit_length fuel n = b + 1 ∧ 2 ^ b ≤ n ∧ n < 2 ^ (b + 1) := by
  intro fuel
  induction fuel with
  | zero => intro n h h0; omega
  | succ f ih =>
    intro n h h0
    rw [bit_length, if_neg h0]
    by_cases h2 : n / 2 = 0
    · have h1 : n = 1 := by omega
      subst h1
      exact ⟨0, by simp [bit_length_zero], by simp, by simp⟩
    · obtain ⟨b, e, lo, hi⟩ := ih (n / 2) (by omega) h2
      refine ⟨b + 1, by rw [e], ?_, ?_⟩
      · rw [pow_succ]; omega
      · rw [pow_succ] at hi ⊢; omega

theorem abs_eq_natAbs_div_den (x : ℚ) : |x| = (x.num.natAbs : ℚ) / (x.den : ℚ) := by
  have hd : (0 : ℚ) < x.den := by exact_mod_cast x.den_pos
  have h1 : (x.num.natAbs : ℚ) = |(x.num : ℚ)| := by
    rw [Nat.cast_natAbs, Int.cast_abs]
  rw [h1]
  conv_lhs => rw [← Rat.num_div_den x]
  rw [abs_div, abs_of_pos hd]

/-- `ilog2 x` is the binary exponent of `x`: `2^k ≤ |x| < 2^(k+1)`; the upper
bound also holds for `x = 0`. -/
theorem ilog2_spec (x : ℚ) :
    (x ≠ 0 → (2 : ℚ) ^ ilog2 x ≤ |x|) ∧ |x| < (2 : ℚ) ^ (ilog2 x + 1) := by
  by_cases hx : x = 0
  · subst hx
    exact ⟨fun h => absurd rfl h, by rw [abs_zero]; positivity⟩
  have hn : x.num.natAbs ≠ 0 := by
    rw [Ne, Int.natAbs_eq_zero, Rat.num_eq_zero]
    exact hx
  obtain ⟨a, ea, alo, ahi⟩ := bit_length_spec _ _ le_rfl hn
  obtain ⟨b, eb, blo, bhi⟩ := bit_length_spec _ _ le_rfl x.den_nz
  have habs := abs_eq_natAbs_div_den x
  have hd : (0 : ℚ) < x.den := by exact_mod_cast x.den_pos
  have alo' : (2 : ℚ) ^ a ≤ x.num.natAbs := by exact_mod_cast alo
  have ahi' : (x.num.natAbs : ℚ) < 2 ^ (a + 1) := by exact_mod_cast ahi
  have blo' : (2 : ℚ) ^ b ≤ x.den := by exact_mod_cast blo
  have bhi' : (x.den : ℚ) < 2 ^ (b + 1) := by exact_mod_cast bhi
  have hk : ((a + 1 : Nat) : Int) - ((b + 1 : Nat) : Int) = (a : Int) - b := by
    push_cast; ring
  have h2 : (2 : ℚ) ≠ 0 := by norm_num
  have up : |x| < (2 : ℚ) ^ ((a : Int) - b + 1) := by
    have e : (2 : ℚ) ^ ((a : Int) - b + 1) = 2 ^ (a + 1) / 2 ^ b := by
      rw [show (a : Int) - b + 1 = ((a + 1 : Nat) : Int) - (b : Nat) by push_cast; ring,
        zpow_sub₀ h2, zpow_natCast, zpow_natCast]
    rw [e, habs, div_lt_div_iff₀ hd (by positivity)]
    calc (x.num.natAbs : ℚ) * 2 ^ b < 2 ^ (a + 1) * 2 ^ b := by
          apply mul_lt_mul_of_pos_right ahi' (by positivity)
      _ ≤ 2 ^ (a + 1) * x.den := by
          apply mul_le_mul_of_nonneg_left blo' (by positivity)
  have lo : (2 : ℚ) ^ ((a : Int) - b - 1) ≤ |x| := by
    have e : (2 : ℚ) ^ ((a : Int) - b - 1) = 2 ^ a / 2 ^ (b + 1) := by
      rw [show (a : Int) - b - 1 = ((a : Nat) : Int) - ((b + 1 : Nat) : Int) by push_cast; ring,
        zpow_sub₀ h2, zpow_natCast, zpow_natCast]
    rw [e, habs, div_le_div_iff₀ (by positivity) hd]
    calc (2 : ℚ) ^ a * x.den ≤ 2 ^ a * 2 ^ (b + 1) := by
          apply mul_le_mul_of_nonneg_left bhi'.le (by positivity)
      _ ≤ x.num.natAbs * 2 ^ (b + 1) := by
          apply mul_le_mul_of_nonneg_right alo' (by positivity)
  unfold ilog2
  simp only [ea, eb, hk]
  split_ifs with h
  · exact ⟨fun _ => h, up⟩
  · refine ⟨fun _ => lo, ?_⟩
    rw [sub_add_cancel]
    exact not_le.mp h

/-- `round_even q` is an integer nearest to `q`, and an even one when `q` lies
halfway between two integers. -/
theorem round_even_spec (q : ℚ) :
    |q - (round_even q : ℚ)| ≤ 1 / 2 ∧
    (|q - (round_even q : ℚ)| = 1 / 2 → round_even q % 2 = 0) := by
  have h1 := Int.floor_le q
  have h2 := Int.lt_floor_add_one q
  unfold round_even
  simp only
  split_ifs with a b c
  · refine ⟨by rw [abs_le]; constructor <;> linarith, fun h => ?_⟩
    rw [abs_of_nonneg (by linarith)] at h
    linarith
  · push_cast
    refine ⟨by rw [abs_le]; constructor <;> linarith, fun h => ?_⟩
    rw [abs_of_nonpos (by linarith)] at h
    linarith
  · exact ⟨by rw [abs_le]; constructor <;> linarith, fun _ => c⟩
  · push_cast
    refine ⟨by rw [abs_le]; constructor <;> linarith, fun _ => ?_⟩
    omega

theorem round_even_nonneg (q : ℚ) (h : 0 ≤ q) : 0 ≤ round_even q := by
  have h1 : 0 ≤ ⌊q⌋ := Int.floor_nonneg.mpr h
  unfold round_even
  simp only
  split_ifs <;> omega

theorem round_even_abs_le (q : ℚ) (n : Int) (h : |q| ≤ n) : |round_even q| ≤ n := by
  rw [abs_le] at h ⊢
  have h1 : -n ≤ ⌊q⌋ := Int.le_floor.mpr (by push_cast; exact h.1)
  have h2 := Int.floor_le q
  have h3 : ⌊q⌋ ≤ n := by exact_mod_cast h2.trans h.2
  have h4 : (⌊q⌋ : ℚ) ≠ q → ⌊q⌋ + 1 ≤ n := by
    intro hne
    have : (⌊q⌋ : ℚ) < n := lt_of_lt_of_le (lt_of_le_of_ne h2 hne) h.2
    have : ⌊q⌋ < n := by exact_mod_cast this
    omega
  unfold round_even
  simp only
  split_ifs with a b c
  · exact ⟨h1, h3⟩
  · exact ⟨by omega, h4 (by intro e; rw [e] at b; norm_num at b)⟩
  · exact ⟨h1, h3⟩
  · refine ⟨by omega, h4 ?_⟩
    intro e
    rw [e] at a
    norm_num at a

/-- `round_float x` is a `float` nearest to `x`: a multiple `m * 2^e` of the
unit in the last place with `|m| ≤ 2^24`, at most half a unit away from `x`,
and with `m` even when `x` lies halfway between two multiples. -/
theorem round_float_spec (x : ℚ) :
    round_float x = (round_even (x / 2 ^ float_exp x) : ℚ) * 2 ^ float_exp x ∧
    |round_even (x / 2 ^ float_exp x)| ≤ 2 ^ 24 ∧
    |x - round_float x| ≤ 2 ^ float_exp x / 2 ∧
    (|x - round_float x| = 2 ^ float_exp x / 2 → round_even (x / 2 ^ float_exp x) % 2 = 0) := by
  have hp : (0 : ℚ) < 2 ^ float_exp x := by positivity
  have hd : |x - round_float x| =
      |x / 2 ^ float_exp x - (round_even (x / 2 ^ float_exp x) : ℚ)| * 2 ^ float_exp x := by
    have e : x - round_float x =
        (x / 2 ^ float_exp x - (round_even (x / 2 ^ float_exp x) : ℚ)) * 2 ^ float_exp x := by
      unfold round_float
      field_simp
      ring
    rw [e, abs_mul, abs_of_pos hp]
  obtain ⟨r1, r2⟩ := round_even_spec (x / 2 ^ float_exp x)
  refine ⟨rfl, ?_, ?_, ?_⟩
  · apply round_even_abs_le
    rw [abs_div, abs_of_pos hp, div_le_iff₀ hp]
    have hup := (ilog2_spec x).2
    have hle : (2 : ℚ) ^ (ilog2 x + 1) ≤ 2 ^ (float_exp x + 24) := by
      apply zpow_le_zpow_right₀ (by norm_num)
      unfold float_exp
      split_ifs <;> omega
    have e : (2 : ℚ) ^ (float_exp x + 24) = ((2 ^ 24 : Int) : ℚ) * 2 ^ float_exp x := by
      rw [zpow_add₀ (by norm_num)]
      push_cast
      rw [mul_comm]
      norm_num
    rw [← e]
    exact (hup.trans_le hle).le
  · rw [hd]
    calc _ ≤ 1 / 2 * (2 : ℚ) ^ float_exp x := mul_le_mul_of_nonneg_right r1 hp.le
      _ = _ := by ring
  · intro h
    apply r2
    rw [hd] at h
    have : |x / 2 ^ float_exp x - (round_even (x / 2 ^ float_exp x) : ℚ)| * 2 ^ float_exp x =
        1 / 2 * 2 ^ float_exp x := by rw [h]; ring
    exact mul_right_cancel₀ hp.ne' this

theorem round_float_nonneg (x : ℚ) (h : 0 ≤ x) : 0 ≤ round_float x := by
  unfold round_float
  have : 0 ≤ round_even (x / 2 ^ float_exp x) := round_even_nonneg _ (by positivity)
  have : (0 : ℚ) ≤ (round_even (x / 2 ^ float_exp x) : ℚ) := by exact_mod_cast this
  positivity

theorem chord_sum_rnd_nonneg (rnd : ℚ → ℚ) (hr : ∀ x, 0 ≤ x → 0 ≤ rnd x)
    (x_0 y_0 x_1 y_1 x_2 y_2 x_3 y_3 : ℚ) :
    0 ≤ chord_sum_rnd rnd x_0 y_0 x_1 y_1 x_2 y_2 x_3 y_3 := by
  unfold chord_sum_rnd
  simp only
  have a1 := abs_nonneg (rnd (x_1 - x_0))
  have a2 := abs_nonneg (rnd (y_1 - y_0))
  have a3 := abs_nonneg (rnd (x_2 - x_1))
  have a4 := abs_nonneg (rnd (y_2 - y_1))
  have a5 := abs_nonneg (rnd (x_3 - x_2))
  have a6 := abs_nonneg (rnd (y_3 - y_2))
  have s1 := hr _ (add_nonneg a1 a2)
  have s2 := hr _ (add_nonneg s1 a3)
  have s3 := hr _ (add_nonneg s2 a4)
  have s4 := hr _ (add_nonneg s3 a5)
  exact hr _ (add_nonneg s4 a6)

theorem step_count_rnd_nonneg (rnd : ℚ → ℚ) (hr : ∀ x, 0 ≤ x → 0 ≤ rnd x)
    (x_0 y_0 x_1 y_1 x_2 y_2 x_3 y_3 : ℚ) :
    0 ≤ step_count_rnd rnd x_0 y_0 x_1 y_1 x_2 y_2 x_3 y_3 := by
  unfold step_count_rnd
  apply Int.ceil_nonneg
  apply hr
  have := chord_sum_rnd_nonneg rnd hr x_0 y_0 x_1 y_1 x_2 y_2 x_3 y_3
  positivity

theorem bezier_loop_rnd_length (rnd : ℚ → ℚ) (d_d_d_x d_d_d_y : ℚ) :
    ∀ (fuel : Nat) (s : Bezier_), s.step_count = fuel →
      (bezier_loop_rnd rnd d_d_d_x d_d_d_y fuel s).points.length = s.points.length + fuel := by
  intro fuel
  induction fuel with
  | zero => intro s _; rfl
  | succ n ih =>
    intro s hs
    simp only [bezier_loop_rnd]
    split_ifs with h
    · rw [ih _ (by show s.step_count - 1 = n; omega)]
      simp only [List.length_append, List.length_singleton]
      omega
    · simp only [List.length_append, List.length_singleton]
      omega

/-- With the identity for the rounding, the loop is the loop of exact
arithmetic. -/
theorem bezier_loop_rnd_id (d_d_d_x d_d_d_y : ℚ) :
    ∀ (fuel : Nat) (s : Bezier_),
      bezier_loop_rnd id d_d_d_x d_d_d_y fuel s = bezier_loop d_d_d_x d_d_d_y fuel s := by
  intro fuel
  induction fuel with
  | zero => intro s; rfl
  | succ n ih =>
    intro s
    simp only [bezier_loop_rnd, bezier_loop, id]
    split_ifs with h
    · exact ih _
    · rfl

theorem chord_sum_rnd_id (x_0 y_0 x_1 y_1 x_2 y_2 x_3 y_3 : ℚ) :
    chord_sum_rnd id x_0 y_0 x_1 y_1 x_2 y_2 x_3 y_3 =
      chord_sum x_0 y_0 x_1 y_1 x_2 y_2 x_3 y_3 := rfl

theorem step_count_rnd_id (x_0 y_0 x_1 y_1 x_2 y_2 x_3 y_3 : ℚ) :
    step_count_rnd id x_0 y_0 x_1 y_1 x_2 y_2 x_3 y_3 =
      ⌈chord_sum x_0 y_0 x_1 y_1 x_2 y_2 x_3 y_3 / 4⌉ := by
  unfold step_count_rnd
  rw [chord_sum_rnd_id, id, mul_one_div]

/-- With the identity for the rounding, `subdivide_bezier_rnd` is
`subdivide_bezier`, the subdivision over exact arithmetic. -/
theorem subdivide_bezier_rnd_id (x_0 y_0 x_1 y_1 x_2 y_2 x_3 y_3 : ℚ) :
    subdivide_bezier_rnd id x_0 y_0 x_1 y_1 x_2 y_2 x_3 y_3 =
      subdivide_bezier x_0 y_0 x_1 y_1 x_2 y_2 x_3 y_3 := by
  unfold subdivide_bezier_rnd subdivide_bezier step_count_rnd chord_sum_rnd
  simp only [id, bezier_loop_rnd_id]

/-- The number of points `subdivide_bezier_rnd` passes to the callback, for
every rounding: with `n` the step count computed in the `Float` type, none
when `n = 0` and `max(4, n)` otherwise; it returns exactly when `n` is an
`Unt_32` value. -/
theorem subdivide_bezier_rnd_count (rnd : ℚ → ℚ) (x_0 y_0 x_1 y_1 x_2 y_2 x_3 y_3 : ℚ) :
    (∀ pts, subdivide_bezier_rnd rnd x_0 y_0 x_1 y_1 x_2 y_2 x_3 y_3 = some pts →
      (step_count_rnd rnd x_0 y_0 x_1 y_1 x_2 y_2 x_3 y_3 = 0 → pts = []) ∧
      (step_count_rnd rnd x_0 y_0 x_1 y_1 x_2 y_2 x_3 y_3 ≠ 0 →
        (pts.length : Int) = max 4 (step_count_rnd rnd x_0 y_0 x_1 y_1 x_2 y_2 x_3 y_3))) ∧
    (0 ≤ step_count_rnd rnd x_0 y_0 x_1 y_1 x_2 y_2 x_3 y_3 →
      step_count_rnd rnd x_0 y_0 x_1 y_1 x_2 y_2 x_3 y_3 < 4294967296 →
      ∃ pts, subdivide_bezier_rnd rnd x_0 y_0 x_1 y_1 x_2 y_2 x_3 y_3 = some pts) := by
  unfold subdivide_bezier_rnd
  simp only
  generalize step_count_rnd rnd x_0 y_0 x_1 y_1 x_2 y_2 x_3 y_3 = n
  constructor
  · intro pts hp
    by_cases hr : 0 ≤ n ∧ n < 4294967296
    · rw [if_pos hr] at hp
      by_cases h0 : n = 0
      · rw [if_neg (by omega)] at hp
        exact ⟨fun _ => (Option.some.inj hp).symm, fun h => absurd h0 h⟩
      · rw [if_pos (by omega)] at hp
        refine ⟨fun h => absurd h h0, fun _ => ?_⟩
        have key : ∀ (a b : ℚ) (m : Nat) (x y dx dy ddx ddy : ℚ),
            (bezier_loop_rnd rnd a b m ⟨[], x, y, dx, dy, ddx, ddy, m⟩).points.length = m := by
          intro a b m x y dx dy ddx ddy
          rw [bezier_loop_rnd_length rnd a b m _ rfl]
          simp
        rw [← Option.some.inj hp, key]
        split_ifs with h4
        · rw [max_eq_left (by omega)]; rfl
        · rw [max_eq_right (by omega)]; omega
    · rw [if_neg hr] at hp
      exact absurd hp (by simp)
  · intro h0 hlt
    rw [if_pos ⟨h0, hlt⟩]
    split_ifs <;> exact ⟨_, rfl⟩

/-- In `float` arithmetic the points of a curve whose control points lie on
one horizontal line can leave the line: for `y = 16384 + 2^-9`, a `float`, and
the control points `(0,y), (1,y), (2,y), (3,y)` the last point passed to the
callback is `(3, 16384)`, and its `y` converts to another 24.8 value than the
`y` of the control points. -/
theorem subdivide_bezier_float_off_line :
    round_float (16384 + 1 / 512) = 16384 + 1 / 512 ∧
    subdivide_bezier_rnd round_float 0 (16384 + 1 / 512) 1 (16384 + 1 / 512)
        2 (16384 + 1 / 512) 3 (16384 + 1 / 512) =
      some [(3 / 4, 16384 + 1 / 512), (3 / 2, 16384 + 1 / 512), (9 / 4, 16384 + 1 / 512),
        (3, 16384)] ∧
    to_fixed_24_dot_8 (16384 + 1 / 512) = some 4194305 ∧
    to_fixed_24_dot_8 16384 = some 4194304 := by
  decide!

end Util

end vgxx

namespace vgxx

namespace Cell_processor.Cell_stash_

/-! ### The cell stash -/

theorem acquire_some (st : Cell_stash_) (h : st.cells_in_use_ < 4294967295) :
    ∃ pos st1, st.acquire = some (st.cells_in_use_, pos, st1) ∧
      st1.cells_in_use_ = st.cells_in_use_ + 1 := by
  unfold acquire
  rw [if_pos (by omega)]
  by_cases hl : st.cells_.length > st.cells_in_use_
  · rw [if_pos hl]
    exact ⟨_, _, rfl, rfl⟩
  · rw [if_neg hl]
    exact ⟨_, _, rfl, rfl⟩

theorem acquire_many_range :
    ∀ (n : Nat) (st : Cell_stash_), st.cells_in_use_ + n ≤ 4294967295 →
      ∃ st1, st.acquire_many n = some (List.range' st.cells_in_use_ n, st1) ∧
        st1.cells_in_use_ = st.cells_in_use_ + n := by
  intro n
  induction n with
  | zero => intro st _; exact ⟨st, rfl, rfl⟩
  | succ n ih =>
    intro st h
    obtain ⟨pos, st1, h1, h2⟩ := acquire_some st (by omega)
    obtain ⟨st2, h3, h4⟩ := ih st1 (by omega)
    refine ⟨st2, ?_, by omega⟩
    simp only [acquire_many, h1, h3, h2, List.range'_succ]

end Cell_processor.Cell_stash_

end vgxx

namespace vgxx

open Cell_processor

/-! ### The blender calls of one row -/

theorem Cell_processor.run_height_zero :
    ∀ (calls : List Cell_call) (cp : Cell_processor), cp.height_ = 0 →
      ∃ cp1, cp.run calls = some cp1 ∧ cp1.rows_ = cp.rows_ ∧ cp1.y_range_ = cp.y_range_ ∧
        cp1.cell_stash_ = cp.cell_stash_ ∧ cp1.height_ = 0 := by
  intro calls
  induction calls with
  | nil => intro cp h; exact ⟨cp, rfl, rfl, rfl, rfl, h⟩
  | cons c t ih =>
    intro cp h
    have key : ∀ cp0, cp.call c = some cp0 → cp0.rows_ = cp.rows_ → cp0.y_range_ = cp.y_range_ →
        cp0.cell_stash_ = cp.cell_stash_ → cp0.height_ = 0 →
        ∃ cp1, cp.run (c :: t) = some cp1 ∧ cp1.rows_ = cp.rows_ ∧
          cp1.y_range_ = cp.y_range_ ∧ cp1.cell_stash_ = cp.cell_stash_ ∧ cp1.height_ = 0 := by
      intro cp0 h0 h1 h2 h3 h4
      obtain ⟨cp1, e1, e2, e3, e4, e5⟩ := ih cp0 h4
      refine ⟨cp1, ?_, by rw [e2, h1], by rw [e3, h2], by rw [e4, h3], e5⟩
      show (cp.call c).bind _ = _
      rw [h0]
      exact e1
    cases c with
    | inc_x => exact key cp.inc_x rfl rfl rfl rfl h
    | set_x x => exact key (cp.set_x x) rfl rfl rfl rfl h
    | set_y y => exact key (cp.set_y y) rfl rfl rfl rfl h
    | set_cell cover area =>
      refine key cp ?_ rfl rfl rfl h
      show cp.set_cell cover area = some cp
      unfold Cell_processor.set_cell
      rw [if_neg (by rw [h]; omega)]

theorem expect_cells_mem (cov : Int → Int) (x_max : Int) :
    ∀ (fuel : Nat) (x : Int), ∀ c ∈ expect_cells cov x_max fuel x,
      c = Blender_call.inc_x ∨ ∃ v, 0 < v ∧ c = Blender_call.blend v := by
  intro fuel
  induction fuel with
  | zero => intro x c hc; simp [expect_cells] at hc
  | succ n ih =>
    intro x c hc
    simp only [expect_cells, List.mem_append] at hc
    rcases hc with hc | hc
    · split_ifs at hc with h0
      · rw [List.mem_singleton] at hc
        exact Or.inr ⟨_, h0, hc⟩
      · simp at hc
    · split_ifs at hc with h1
      · rcases List.mem_cons.mp hc with hc | hc
        · exact Or.inl hc
        · exact ih _ c hc
      · simp at hc

theorem expect_cells_count (cov : Int → Int) (x_max : Int) :
    ∀ (fuel : Nat) (x : Int), x + fuel = x_max + 1 →
      (expect_cells cov x_max fuel x).count Blender_call.inc_x = fuel - 1 := by
  intro fuel
  induction fuel with
  | zero => intro x _; rfl
  | succ n ih =>
    intro x h
    push_cast at h
    simp only [expect_cells, List.count_append]
    have h0 : (if 0 < cov x then [Blender_call.blend (cov x)] else []).count
        Blender_call.inc_x = 0 := by
      split_ifs <;> simp
    rw [h0]
    by_cases hx : x_max > x
    · rw [if_pos hx, List.count_cons_self, ih (x + 1) (by omega)]
      have : 1 ≤ n := by omega
      omega
    · rw [if_neg hx]
      have : n = 0 := by omega
      subst this
      rfl

theorem expect_cells_last (cov : Int → Int) (x_max : Int) :
    ∀ (fuel : Nat) (x : Int) (c0 : Blender_call), x + fuel = x_max →
      (∀ v, c0 ≠ Blender_call.blend v) →
      ((∃ v, (c0 :: expect_cells cov x_max (fuel + 1) x).getLast? = some (Blender_call.blend v)) ↔
        0 < cov x_max) := by
  intro fuel
  induction fuel with
  | zero =>
    intro x c0 h hc0
    simp only [Nat.cast_zero, add_zero] at h
    subst h
    simp only [expect_cells, gt_iff_lt, lt_self_iff_false, if_false, List.append_nil]
    by_cases h0 : 0 < cov x
    · rw [if_pos h0]
      exact ⟨fun _ => h0, fun _ => ⟨cov x, rfl⟩⟩
    · rw [if_neg h0]
      constructor
      · rintro ⟨v, hv⟩
        exact absurd (Option.some.inj hv) (hc0 v)
      · intro h; exact absurd h h0
  | succ n ih =>
    intro x c0 h _
    push_cast at h
    have hx : x_max > x := by omega
    have e : c0 :: expect_cells cov x_max (n + 1 + 1) x =
        (c0 :: (if 0 < cov x then [Blender_call.blend (cov x)] else [])) ++
          (Blender_call.inc_x :: expect_cells cov x_max (n + 1) (x + 1)) := by
      show c0 :: ((if 0 < cov x then [Blender_call.blend (cov x)] else []) ++
        (if x_max > x then Blender_call.inc_x :: expect_cells cov x_max (n + 1) (x + 1)
          else [])) = _
      rw [if_pos hx]
      rfl
    rw [e, List.getLast?_append_of_ne_nil _ (List.cons_ne_nil _ _)]
    exact ih (x + 1) Blender_call.inc_x (by omega) (fun v => Blender_call.noConfusion)

theorem calls_of_row_flat (r : Int) (y : Option Int) (b : List Blender_call) :
    ∀ a : List Blender_call,
      (∀ c ∈ a, (∀ v, c ≠ Blender_call.set_y v) ∧ c ≠ Blender_call.inc_y) →
      calls_of_row r y (a ++ b) = (if y = some r then a else []) ++ calls_of_row r y b := by
  intro a
  induction a with
  | nil => intro _; split_ifs <;> rfl
  | cons c t ih =>
    intro h
    have ht := ih (fun c hc => h c (List.mem_cons_of_mem _ hc))
    have hc := h c (List.mem_cons_self _ _)
    cases c with
    | set_y v => exact absurd rfl (hc.1 v)
    | inc_y => exact absurd rfl hc.2
    | set_x x =>
      show (if y = some r then [Blender_call.set_x x] else []) ++ calls_of_row r y (t ++ b) = _
      rw [ht]
      split_ifs <;> rfl
    | inc_x =>
      show (if y = some r then [Blender_call.inc_x] else []) ++ calls_of_row r y (t ++ b) = _
      rw [ht]
      split_ifs <;> rfl
    | blend v =>
      show (if y = some r then [Blender_call.blend v] else []) ++ calls_of_row r y (t ++ b) = _
      rw [ht]
      split_ifs <;> rfl

/-- The calls that the expected sweep makes on row `r`. -/
theorem calls_of_row_expect_rows (rule : Fill_rule) (cp : Cell_processor) (r : Int) :
    ∀ (fuel : Nat) (y : Int), y + fuel = cp.y_range_.max + 1 →
      calls_of_row r (some y) (expect_rows rule cp fuel y) =
        if y ≤ r ∧ r ≤ cp.y_range_.max ∧ (cp.row r).x_range.nonempty then
          Blender_call.set_x (cp.row r).x_range.min ::
            expect_cells (cp.sweep_coverage rule r) (cp.row r).x_range.max
              (((cp.row r).x_range.max - (cp.row r).x_range.min).toNat + 1)
              (cp.row r).x_range.min
        else [] := by
  intro fuel
  induction fuel with
  | zero =>
    intro y h
    rw [if_neg (by omega)]
    rfl
  | succ n ih =>
    intro y h
    push_cast at h
    have hflat : ∀ c ∈ (if (cp.row y).x_range.nonempty then
          Blender_call.set_x (cp.row y).x_range.min ::
            expect_cells (cp.sweep_coverage rule y) (cp.row y).x_range.max
              (((cp.row y).x_range.max - (cp.row y).x_range.min).toNat + 1)
              (cp.row y).x_range.min
        else []), (∀ v, c ≠ Blender_call.set_y v) ∧ c ≠ Blender_call.inc_y := by
      intro c hc
      split_ifs at hc with hne
      · rcases List.mem_cons.mp hc with hc | hc
        · rw [hc]
          exact ⟨fun v => Blender_call.noConfusion, Blender_call.noConfusion⟩
        · rcases expect_cells_mem _ _ _ _ c hc with hc | ⟨v, _, hc⟩
          · rw [hc]
            exact ⟨fun v => Blender_call.noConfusion, Blender_call.noConfusion⟩
          · rw [hc]
            exact ⟨fun v => Blender_call.noConfusion, Blender_call.noConfusion⟩
      · simp at hc
    show calls_of_row r (some y) (_ ++ _) = _
    rw [calls_of_row_flat r (some y) _ _ hflat]
    by_cases hy : cp.y_range_.max > y
    · rw [if_pos hy]
      show _ ++ calls_of_row r (some (y + 1)) (expect_rows rule cp n (y + 1)) = _
      rw [ih (y + 1) (by omega)]
      by_cases hr : y = r
      · subst hr
        have e1 : ¬ (y + 1 ≤ y ∧ y ≤ cp.y_range_.max ∧ (cp.row y).x_range.nonempty) :=
          fun h => by omega
        rw [if_pos (rfl : some y = some y), if_neg e1, List.append_nil]
        by_cases hne : (cp.row y).x_range.nonempty
        · rw [if_pos hne, if_pos ⟨le_refl _, by omega, hne⟩]
        · rw [if_neg hne, if_neg (fun h => hne h.2.2)]
      · have e1 : ¬ (some y = some r) := fun h => hr (Option.some.inj h)
        rw [if_neg e1, List.nil_append]
        by_cases hc : y + 1 ≤ r ∧ r ≤ cp.y_range_.max ∧ (cp.row r).x_range.nonempty
        · rw [if_pos hc, if_pos ⟨by omega, hc.2⟩]
        · rw [if_neg hc, if_neg (fun h => hc ⟨by omega, h.2⟩)]
    · rw [if_neg hy]
      show _ ++ [] = _
      rw [List.append_nil]
      by_cases hr : y = r
      · subst hr
        rw [if_pos (rfl : some y = some y)]
        by_cases hne : (cp.row y).x_range.nonempty
        · rw [if_pos hne, if_pos ⟨le_refl _, by omega, hne⟩]
        · rw [if_neg hne, if_neg (fun h => hne h.2.2)]
      · have e1 : ¬ (some y = some r) := fun h => hr (Option.some.inj h)
        have e2 : ¬ (y ≤ r ∧ r ≤ cp.y_range_.max ∧ (cp.row r).x_range.nonempty) :=
          fun h => hr (by omega)
        rw [if_neg e1, if_neg e2]

/-- The calls that the sweep of a well-formed processor makes on a row with
a non-empty `x_range`. -/
theorem calls_of_row_swipe (rule : Fill_rule) (cp : Cell_processor) (h : Wf cp) (y : Int)
    (hy0 : 0 ≤ y) (hy1 : y < cp.height_) (hx : (cp.row y).x_range.nonempty) :
    calls_of_row y none (swipe rule cp).1 =
      Blender_call.set_x (cp.row y).x_range.min ::
        expect_cells (cp.sweep_coverage rule y) (cp.row y).x_range.max
          (((cp.row y).x_range.max - (cp.row y).x_range.min).toNat + 1)
          (cp.row y).x_range.min := by
  obtain ⟨owner, hinv⟩ := h
  have hrange : cp.y_range_.min ≤ y ∧ y ≤ cp.y_range_.max := by
    rcases hinv.row_ok y hy0 hy1 with hr | ⟨_, _, _, h4, h5⟩
    · rw [hr] at hx
      exact absurd hx (by decide)
    · exact ⟨h4, h5⟩
  rw [(swipe_ok rule cp owner hinv).1]
  unfold expect_swipe
  rw [if_pos (show cp.y_range_.nonempty from le_trans hrange.1 hrange.2)]
  show calls_of_row y (some cp.y_range_.min) _ = _
  rw [calls_of_row_expect_rows rule cp y _ _ (by
    have := le_trans hrange.1 hrange.2
    push_cast
    omega), if_pos ⟨hrange.1, hrange.2, hx⟩]

end vgxx

namespace vgxx

/-! ### The cells of a vertical segment -/

/-- In a list of emissions on pairwise distinct rows, a row has no emission
and no cover, or exactly one emission, which carries the cover of the row. -/
theorem row_filter_unique :
    ∀ E : List Emission, (E.map (fun e => e.y)).Nodup → ∀ r : Int,
      (E.filter (fun e => decide (e.y = r)) = [] ∧ row_cover r E = 0) ∨
      (∃ e, e ∈ E ∧ E.filter (fun e => decide (e.y = r)) = [e] ∧ e.y = r ∧
        row_cover r E = e.cover) := by
  intro E
  induction E with
  | nil => intro _ r; exact Or.inl ⟨rfl, rfl⟩
  | cons e t ih =>
    intro hn r
    rw [List.map_cons, List.nodup_cons] at hn
    obtain ⟨hnot, hnt⟩ := hn
    by_cases he : e.y = r
    · right
      have ht : t.filter (fun e => decide (e.y = r)) = [] ∧ row_cover r t = 0 := by
        rcases ih hnt r with h | ⟨e1, h1, _, h3, _⟩
        · exact h
        · exact absurd (List.mem_map.mpr ⟨e1, h1, by rw [h3, he]⟩) hnot
      refine ⟨e, List.mem_cons_self _ _, ?_, he, ?_⟩
      · rw [List.filter_cons_of_pos (by simpa using he), ht.1]
      · simp only [row_cover, if_pos he, ht.2, add_zero]
    · rcases ih hnt r with ⟨h1, h2⟩ | ⟨e1, h1, h2, h3, h4⟩
      · left
        refine ⟨?_, ?_⟩
        · rw [List.filter_cons_of_neg (by simpa using he), h1]
        · simp only [row_cover, if_neg he, h2, add_zero]
      · right
        refine ⟨e1, List.mem_cons_of_mem _ h1, ?_, h3, ?_⟩
        · rw [List.filter_cons_of_neg (by simpa using he), h2]
        · simp only [row_cover, if_neg he, h4, zero_add]

namespace Rasterizer

theorem vertical_rows_cells (px py int_x cover area int_y_1 : Int) :
    ∀ (fuel : Nat) (calls : List Cell_call) (int_y_0 : Int),
      int_y_0 + (fuel : Int) = int_y_1 →
      ∃ L, emissions px py (vertical_rows int_x cover area int_y_1 fuel calls int_y_0) =
          emissions px py calls ++ L ∧
        (∀ e ∈ L, e.x = int_x ∧ e.cover = cover ∧ e.area = area ∧
          int_y_0 ≤ e.y ∧ e.y < int_y_1) ∧
        (L.map (fun e => e.y)).Nodup := by
  intro fuel
  induction fuel with
  | zero =>
    intro calls int_y_0 _
    exact ⟨[], by simp [vertical_rows], by simp, by simp⟩
  | succ n ih =>
    intro calls int_y_0 h
    push_cast at h
    have hlt : int_y_0 < int_y_1 := by omega
    obtain ⟨L, hL, hP, hN⟩ := ih (calls ++ [Cell_call.set_x int_x, Cell_call.set_y int_y_0,
      Cell_call.set_cell cover area]) (int_y_0 + 1) (by omega)
    refine ⟨⟨int_x, int_y_0, cover, area⟩ :: L, ?_, ?_, ?_⟩
    · rw [vertical_rows]
      simp only [hlt, if_true, hL, emissions_append, emissions]
      simp
    · intro e he
      rcases List.mem_cons.mp he with he | he
      · rw [he]
        exact ⟨rfl, rfl, rfl, le_refl _, hlt⟩
      · obtain ⟨a1, a2, a3, a4, a5⟩ := hP e he
        exact ⟨a1, a2, a3, by omega, a5⟩
    · rw [List.map_cons, List.nodup_cons]
      refine ⟨?_, hN⟩
      intro hm
      obtain ⟨e, he, hey⟩ := List.mem_map.mp hm
      have := (hP e he).2.2.2.1
      simp only at hey
      omega

/-- The cells of a vertical segment: every cell is in the column of the
segment, with `area = 2 * cover * frac_x` and a non-zero cover, and no two
cells are on the same row. -/
theorem add_line_vertical_cells (px py x_0 y_0 y_1 : Int) (hy : y_0 ≠ y_1) :
    (∀ e ∈ emissions px py (add_line_vertical x_0 y_0 y_1),
      e.x = x_0 / 256 ∧ e.area = 2 * e.cover * (x_0 % 256) ∧ e.cover ≠ 0) ∧
    ((emissions px py (add_line_vertical x_0 y_0 y_1)).map (fun e => e.y)).Nodup := by
  unfold add_line_vertical
  by_cases hrow : y_0 / 256 = y_1 / 256
  · simp only [hrow, if_true, emissions]
    refine ⟨?_, by simp⟩
    intro e he
    rw [List.mem_singleton] at he
    rw [he]
    refine ⟨rfl, by ring, ?_⟩
    show y_1 % 256 - y_0 % 256 ≠ 0
    omega
  · simp only [hrow, if_false]
    by_cases h : y_0 < y_1
    · simp only [h, if_true]
      obtain ⟨L, hL, hP, hN⟩ := vertical_rows_cells px py (x_0 / 256) 0x100 (x_0 % 256 * 512)
        (y_1 / 256)
        (y_1 / 256 - (if y_0 % 256 ≠ 0 then y_0 / 256 + 1 else y_0 / 256)).toNat
        ((if y_0 % 256 ≠ 0 then [Cell_call.set_x (x_0 / 256), Cell_call.set_y (y_0 / 256),
            Cell_call.set_cell (0x100 - y_0 % 256) ((0x100 - y_0 % 256) * (x_0 % 256) * 2)]
          else []) ++
         (if y_1 % 256 ≠ 0 then [Cell_call.set_x (x_0 / 256), Cell_call.set_y (y_1 / 256),
            Cell_call.set_cell (y_1 % 256) (y_1 % 256 * (x_0 % 256) * 2)]
          else []))
        (if y_0 % 256 ≠ 0 then y_0 / 256 + 1 else y_0 / 256) (by split_ifs <;> omega)
      rw [hL]
      have hB : ∀ e ∈ L, e.x = x_0 / 256 ∧ e.area = 2 * e.cover * (x_0 % 256) ∧ e.cover ≠ 0 := by
        intro e he
        obtain ⟨a1, a2, a3, _, _⟩ := hP e he
        refine ⟨a1, by rw [a3, a2]; ring, by rw [a2]; decide⟩
      have hBy : ∀ e ∈ L, y_0 / 256 ≤ e.y ∧ e.y < y_1 / 256 ∧
          (y_0 % 256 ≠ 0 → y_0 / 256 < e.y) := by
        intro e he
        obtain ⟨_, _, _, a4, a5⟩ := hP e he
        split_ifs at a4 with hf
        · exact ⟨by omega, a5, fun _ => by omega⟩
        · exact ⟨a4, a5, fun hh => absurd hh hf⟩
      by_cases hf0 : y_0 % 256 = 0 <;> by_cases hf1 : y_1 % 256 = 0
      · simp only [hf0, hf1, ne_eq, not_true_eq_false, if_false, List.append_nil, emissions,
          List.nil_append]
        exact ⟨hB, hN⟩
      · simp only [hf0, hf1, ne_eq, not_true_eq_false, not_false_eq_true, if_false, if_true,
          List.nil_append, emissions, List.cons_append, List.mem_cons, List.map_cons,
          List.nodup_cons]
        refine ⟨?_, ?_, hN⟩
        · rintro e (he | he)
          · rw [he]
            exact ⟨rfl, by ring, hf1⟩
          · exact hB e he
        · intro hm
          obtain ⟨e, he, hey⟩ := List.mem_map.mp hm
          have := (hBy e he).2.1
          omega
      · simp only [hf0, hf1, ne_eq, not_true_eq_false, not_false_eq_true, if_false, if_true,
          List.append_nil, emissions, List.cons_append, List.nil_append, List.mem_cons,
          List.map_cons, List.nodup_cons]
        refine ⟨?_, ?_, hN⟩
        · rintro e (he | he)
          · rw [he]
            refine ⟨rfl, by ring, ?_⟩
            show 256 - y_0 % 256 ≠ 0
            omega
          · exact hB e he
        · intro hm
          obtain ⟨e, he, hey⟩ := List.mem_map.mp hm
          have := (hBy e he).2.2 hf0
          omega
      · simp only [hf0, hf1, ne_eq, not_false_eq_true, if_true, emissions, List.cons_append,
          List.nil_append, List.mem_cons, List.map_cons, List.nodup_cons, pos_x, pos_y,
          emissions_append]
        refine ⟨?_, ?_, ?_, hN⟩
        · rintro e (he | he | he)
          · rw [he]
            refine ⟨rfl, by ring, ?_⟩
            show 256 - y_0 % 256 ≠ 0
            omega
          · rw [he]
            exact ⟨rfl, by ring, hf1⟩
          · exact hB e he
        · rintro (hm | hm)
          · omega
          · obtain ⟨e, he, hey⟩ := List.mem_map.mp hm
            have := (hBy e he).2.2 hf0
            omega
        · intro hm
          obtain ⟨e, he, hey⟩ := List.mem_map.mp hm
          have := (hBy e he).2.1
          omega
    · simp only [h, if_false]
      have hgt : y_1 < y_0 := by omega
      obtain ⟨L, hL, hP, hN⟩ := vertical_rows_cells px py (x_0 / 256) (-0x100)
        (-(x_0 % 256 * 512)) (y_0 / 256)
        (y_0 / 256 - (if y_1 % 256 ≠ 0 then y_1 / 256 + 1 else y_1 / 256)).toNat
        ((if y_0 % 256 ≠ 0 then [Cell_call.set_x (x_0 / 256), Cell_call.set_y (y_0 / 256),
            Cell_call.set_cell (-(y_0 % 256)) (-(y_0 % 256) * (x_0 % 256) * 2)]
          else []) ++
         (if y_1 % 256 ≠ 0 then [Cell_call.set_x (x_0 / 256), Cell_call.set_y (y_1 / 256),
            Cell_call.set_cell (y_1 % 256 - 0x100) ((y_1 % 256 - 0x100) * (x_0 % 256) * 2)]
          else []))
        (if y_1 % 256 ≠ 0 then y_1 / 256 + 1 else y_1 / 256) (by split_ifs <;> omega)
      rw [hL]
      have hB : ∀ e ∈ L, e.x = x_0 / 256 ∧ e.area = 2 * e.cover * (x_0 % 256) ∧ e.cover ≠ 0 := by
        intro e he
        obtain ⟨a1, a2, a3, _, _⟩ := hP e he
        refine ⟨a1, by rw [a3, a2]; ring, by rw [a2]; decide⟩
      have hBy : ∀ e ∈ L, y_1 / 256 ≤ e.y ∧ e.y < y_0 / 256 ∧
          (y_1 % 256 ≠ 0 → y_1 / 256 < e.y) := by
        intro e he
        obtain ⟨_, _, _, a4, a5⟩ := hP e he
        split_ifs at a4 with hf
        · exact ⟨by omega, a5, fun _ => by omega⟩
        · exact ⟨a4, a5, fun hh => absurd hh hf⟩
      by_cases hf0 : y_0 % 256 = 0 <;> by_cases hf1 : y_1 % 256 = 0
      · simp only [hf0, hf1, ne_eq, not_true_eq_false, if_false, List.append_nil, emissions,
          List.nil_append]
        exact ⟨hB, hN⟩
      · simp only [hf0, hf1, ne_eq, not_true_eq_false, not_false_eq_true, if_false, if_true,
          List.nil_append, emissions, List.cons_append, List.mem_cons, List.map_cons,
          List.nodup_cons]
        refine ⟨?_, ?_, hN⟩
        · rintro e (he | he)
          · rw [he]
            refine ⟨rfl, by ring, ?_⟩
            show y_1 % 256 - 256 ≠ 0
            omega
          · exact hB e he
        · intro hm
          obtain ⟨e, he, hey⟩ := List.mem_map.mp hm
          have := (hBy e he).2.2 hf1
          omega
      · simp only [hf0, hf1, ne_eq, not_true_eq_false, not_false_eq_true, if_false, if_true,
          List.append_nil, emissions, List.cons_append, List.nil_append, List.mem_cons,
          List.map_cons, List.nodup_cons]
        refine ⟨?_, ?_, hN⟩
        · rintro e (he | he)
          · rw [he]
            refine ⟨rfl, by ring, ?_⟩
            show -(y_0 % 256) ≠ 0
            omega
          · exact hB e he
        · intro hm
          obtain ⟨e, he, hey⟩ := List.mem_map.mp hm
          have := (hBy e he).2.1
          omega
      · simp only [hf0, hf1, ne_eq, not_false_eq_true, if_true, emissions, List.cons_append,
          List.nil_append, List.mem_cons, List.map_cons, List.nodup_cons, pos_x, pos_y,
          emissions_append]
        refine ⟨?_, ?_, ?_, hN⟩
        · rintro e (he | he | he)
          · rw [he]
            refine ⟨rfl, by ring, ?_⟩
            show -(y_0 % 256) ≠ 0
            omega
          · rw [he]
            refine ⟨rfl, by ring, ?_⟩
            show y_1 % 256 - 256 ≠ 0
            omega
          · exact hB e he
        · rintro (hm | hm)
          · omega
          · obtain ⟨e, he, hey⟩ := List.mem_map.mp hm
            have := (hBy e he).2.1
            omega
        · intro hm
          obtain ⟨e, he, hey⟩ := List.mem_map.mp hm
          have := (hBy e he).2.2 hf1
          omega

/-- The cells of a vertical segment, row by row: one cell on every row that
the segment overlaps, in the column of the segment, with the signed extent of
the segment inside the row as cover and `area = 2 * cover * frac_x`; no cell
on any other row. -/
theorem add_line_vertical_row (px py x_0 y_0 y_1 : Int) (hy : y_0 ≠ y_1) (r : Int) :
    (emissions px py (add_line_vertical x_0 y_0 y_1)).filter (fun e => decide (e.y = r)) =
      if clamp_row r y_1 - clamp_row r y_0 ≠ 0 then
        [{ x := x_0 / 256, y := r, cover := clamp_row r y_1 - clamp_row r y_0,
           area := 2 * (clamp_row r y_1 - clamp_row r y_0) * (x_0 % 256) }]
      else [] := by
  obtain ⟨hP, hN⟩ := add_line_vertical_cells px py x_0 y_0 y_1 hy
  have hrows := (add_line_vertical_ok px py x_0 y_0 y_1 hy).rows r
  rcases row_filter_unique _ hN r with ⟨h1, h2⟩ | ⟨e, h1, h2, h3, h4⟩
  · rw [h1, if_neg (by rw [← hrows, h2]; simp)]
  · obtain ⟨a1, a2, a3⟩ := hP e h1
    rw [h4] at hrows
    rw [h2, if_pos (by rw [← hrows]; exact a3), ← hrows]
    congr 1
    cases e
    simp only at a1 a2 h3
    simp only [Emission.mk.injEq]
    exact ⟨a1, h3, trivial, a2⟩

end Rasterizer

end vgxx

namespace vgxx

/-! ### The areas of the cells of one scanline -/

namespace Rasterizer

end Rasterizer

end vgxx

namespace vgxx

/-! ### The reference blender -/

theorem Util.blend_range (src dst alpha : Int)
    (hs : 0 ≤ src ∧ src ≤ 255) (hd : 0 ≤ dst ∧ dst ≤ 255) (ha : 0 ≤ alpha ∧ alpha ≤ 255) :
    0 ≤ Util.blend src dst alpha ∧ Util.blend src dst alpha ≤ 255 := by
  have hval : dst * 256 - dst + alpha * (src - dst) = src * alpha + dst * (255 - alpha) := by
    ring
  have h1 : 0 ≤ src * alpha := mul_nonneg hs.1 ha.1
  have h2 : 0 ≤ dst * (255 - alpha) := mul_nonneg hd.1 (by omega)
  have h3 : src * alpha ≤ 255 * alpha := mul_le_mul_of_nonneg_right hs.2 ha.1
  have h4 : dst * (255 - alpha) ≤ 255 * (255 - alpha) :=
    mul_le_mul_of_nonneg_right hd.2 (by omega)
  unfold Util.blend
  simp only [hval]
  generalize src * alpha = p at h1 h3 ⊢
  generalize dst * (255 - alpha) = q at h2 h4 ⊢
  constructor <;> omega

theorem Util.blend_opaque (src dst : Int) (hs : 0 ≤ src ∧ src ≤ 255) :
    Util.blend src dst 255 = src := by
  unfold Util.blend
  have : dst * 256 - dst + 255 * (src - dst) = 255 * src := by ring
  simp only [this]
  omega

namespace Color_blender_bgra_8888

theorem and_ff (x : Nat) : x &&& 0xff = x % 256 := by
  have := Nat.and_pow_two_sub_one_eq_mod x 8
  simpa using this

theorem get_red_range (c : Nat) : 0 ≤ get_red_ c ∧ get_red_ c ≤ 255 := by
  unfold get_red_
  rw [and_ff]
  omega

theorem get_green_range (c : Nat) : 0 ≤ get_green_ c ∧ get_green_ c ≤ 255 := by
  unfold get_green_
  rw [and_ff]
  omega

theorem get_blue_range (c : Nat) : 0 ≤ get_blue_ c ∧ get_blue_ c ≤ 255 := by
  unfold get_blue_
  rw [and_ff]
  omega

/-- Three channels packed under an opaque alpha, without carries. -/
theorem lor_pack (r g b : Nat) (hr : r < 256) (hg : g < 256) (hb : b < 256) :
    0xff000000 ||| (r <<< 16) ||| (g <<< 8) ||| b = 4278190080 + r * 65536 + g * 256 + b := by
  rw [Nat.shiftLeft_eq, Nat.shiftLeft_eq]
  have h1 : 0xff000000 ||| r * 2 ^ 16 = 2 ^ 16 * (65280 + r) := by
    have := @Nat.mul_add_lt_is_or 24 (r * 2 ^ 16) (by omega) 255
    rw [show (0xff000000 : Nat) = 2 ^ 24 * 255 by norm_num, ← this]
    omega
  have h2 : 2 ^ 16 * (65280 + r) ||| g * 2 ^ 8 = 2 ^ 8 * (16711680 + r * 256 + g) := by
    have := @Nat.mul_add_lt_is_or 16 (g * 2 ^ 8) (by omega) (65280 + r)
    rw [← this]
    omega
  have h3 : 2 ^ 8 * (16711680 + r * 256 + g) ||| b = 4278190080 + r * 65536 + g * 256 + b := by
    have := @Nat.mul_add_lt_is_or 8 b (by omega) (16711680 + r * 256 + g)
    rw [← this]
    omega
  rw [h1, h2, h3]

/-- The blender after `set_color(c)` on a fresh blender. -/
theorem set_color_init (c : Nat) :
    init.set_color c =
      { color_ := c
        alpha_ := get_alpha_ c
        red_ := get_red_ c
        green_ := get_green_ c
        blue_ := get_blue_ c } := by
  unfold set_color
  by_cases hc : c = 0
  · subst hc
    rfl
  · rw [if_pos (show c ≠ init.color_ from hc)]

/-- The effective alpha `(a A + 1 + (a A >> 8)) >> 8` of a coverage `a` and a
source alpha `A` in `0 .. 255` is in `0 .. 255`, and 255 for `a = A = 255`. -/
theorem effective_alpha_range (a A : Nat) (ha : a ≤ 255) (hA : A ≤ 255) :
    (a * A + 1 + ((a * A) >>> 8)) >>> 8 ≤ 255 := by
  have h : a * A ≤ 255 * 255 := Nat.mul_le_mul ha hA
  rw [Nat.shiftRight_eq_div_pow, Nat.shiftRight_eq_div_pow]
  generalize a * A = p at h
  omega

/-- The general branch of `blend`: for a coverage and a source alpha in
`0 .. 255` no operation wraps. -/
theorem blend_general (b : Color_blender_bgra_8888) (a d : Nat) (ha : a ≤ 255)
    (hA : b.alpha_ ≤ 255) (hr : 0 ≤ b.red_ ∧ b.red_ ≤ 255) (hg : 0 ≤ b.green_ ∧ b.green_ ≤ 255)
    (hb : 0 ≤ b.blue_ ∧ b.blue_ ≤ 255) :
    (0xff000000 ||| (((u32 (Util.blend b.red_ (get_red_ d)
        (i32 ((((a * b.alpha_ % 4294967296 + 1 + ((a * b.alpha_ % 4294967296) >>> 8)) %
          4294967296) >>> 8 : Nat) : Int)))).toNat <<< 16) % 4294967296) |||
      (((u32 (Util.blend b.green_ (get_green_ d)
        (i32 ((((a * b.alpha_ % 4294967296 + 1 + ((a * b.alpha_ % 4294967296) >>> 8)) %
          4294967296) >>> 8 : Nat) : Int)))).toNat <<< 8) % 4294967296) |||
      (u32 (Util.blend b.blue_ (get_blue_ d)
        (i32 ((((a * b.alpha_ % 4294967296 + 1 + ((a * b.alpha_ % 4294967296) >>> 8)) %
          4294967296) >>> 8 : Nat) : Int)))).toNat) =
    0xff000000 |||
      ((Util.blend b.red_ (get_red_ d)
        (((a * b.alpha_ + 1 + ((a * b.alpha_) >>> 8)) >>> 8 : Nat) : Int)).toNat <<< 16) |||
      ((Util.blend b.green_ (get_green_ d)
        (((a * b.alpha_ + 1 + ((a * b.alpha_) >>> 8)) >>> 8 : Nat) : Int)).toNat <<< 8) |||
      (Util.blend b.blue_ (get_blue_ d)
        (((a * b.alpha_ + 1 + ((a * b.alpha_) >>> 8)) >>> 8 : Nat) : Int)).toNat := by
  have hp : a * b.alpha_ ≤ 255 * 255 := Nat.mul_le_mul ha hA
  have he := effective_alpha_range a b.alpha_ ha hA
  have hm1 : a * b.alpha_ % 4294967296 = a * b.alpha_ := Nat.mod_eq_of_lt (by omega)
  have hsh : (a * b.alpha_) >>> 8 ≤ 254 := by
    rw [Nat.shiftRight_eq_div_pow]
    omega
  have hm2 : (a * b.alpha_ + 1 + ((a * b.alpha_) >>> 8)) % 4294967296 =
      a * b.alpha_ + 1 + ((a * b.alpha_) >>> 8) := Nat.mod_eq_of_lt (by omega)
  rw [hm1, hm2]
  generalize (a * b.alpha_ + 1 + ((a * b.alpha_) >>> 8)) >>> 8 = e at he
  have hi : i32 (e : Int) = (e : Int) := by
    unfold i32
    omega
  rw [hi]
  have hE : (0 : Int) ≤ (e : Int) ∧ (e : Int) ≤ 255 :=
    ⟨Int.natCast_nonneg e, by exact_mod_cast he⟩
  clear hp hm1 hm2 hsh hi he
  have hR := Util.blend_range b.red_ (get_red_ d) e hr (get_red_range d) hE
  have hG := Util.blend_range b.green_ (get_green_ d) e hg (get_green_range d) hE
  have hB := Util.blend_range b.blue_ (get_blue_ d) e hb (get_blue_range d) hE
  generalize Util.blend b.red_ (get_red_ d) e = R at hR
  generalize Util.blend b.green_ (get_green_ d) e = G at hG
  generalize Util.blend b.blue_ (get_blue_ d) e = B at hB
  have uR : u32 R = R := by unfold u32; omega
  have uG : u32 G = G := by unfold u32; omega
  have uB : u32 B = B := by unfold u32; omega
  rw [uR, uG, uB]
  have sR : (R.toNat <<< 16) % 4294967296 = R.toNat <<< 16 := by
    rw [Nat.shiftLeft_eq]
    exact Nat.mod_eq_of_lt (by omega)
  have sG : (G.toNat <<< 8) % 4294967296 = G.toNat <<< 8 := by
    rw [Nat.shiftLeft_eq]
    exact Nat.mod_eq_of_lt (by omega)
  rw [sR, sG]

/-- An opaque colour is its three channels packed under the alpha `0xff`. -/
theorem opaque_color_pack (c : Nat) (hA : get_alpha_ c = 255) :
    0xff000000 ||| ((get_red_ c).toNat <<< 16) ||| ((get_green_ c).toNat <<< 8) |||
      (get_blue_ c).toNat = c := by
  unfold get_alpha_ at hA
  rw [Nat.shiftRight_eq_div_pow] at hA
  unfold get_red_ get_green_ get_blue_
  simp only [Int.toNat_ofNat, and_ff, Nat.shiftRight_eq_div_pow]
  rw [lor_pack _ _ _ (Nat.mod_lt _ (by decide)) (Nat.mod_lt _ (by decide))
    (Nat.mod_lt _ (by decide))]
  omega

end Color_blender_bgra_8888

end vgxx

namespace vgxx

namespace Cell_processor

/-! ### What a sequence of calls stores, pixel by pixel -/

theorem Pixel_range_.update_within (r : Pixel_range_) (v : Int) (h1 : r.min ≤ v)
    (h2 : v ≤ r.max) : r.update v = r := by
  unfold Pixel_range_.update
  rw [if_neg (by omega), if_neg (by omega)]

/-- The merge case: the list of row `y` before and after. -/
theorem merge_row_cells {cp cp1 : Cell_processor} {owner : Nat → Int} (hI : Inv cp owner)
    (y : Int) (hy0 : 0 ≤ y) (hy1 : y < cp.height_) (cover area : Int)
    (hne : (cp.row y).first_cell_idx ≠ invalid_cell_index_)
    (hrows : cp1.rows_ = cp.rows_)
    (huse : cp1.cell_stash_.cells_in_use_ = cp.cell_stash_.cells_in_use_)
    (hget : cp1.cell_stash_.get (cp.row y).first_cell_idx =
      { cp.cell_stash_.get (cp.row y).first_cell_idx with
        cover := (cp.cell_stash_.get (cp.row y).first_cell_idx).cover + cover
        area := (cp.cell_stash_.get (cp.row y).first_cell_idx).area + area })
    (hother : ∀ i, i ≠ (cp.row y).first_cell_idx →
      cp1.cell_stash_.get i = cp.cell_stash_.get i) :
    ∃ t, cp.row_cells y = cp.cell_stash_.get (cp.row y).first_cell_idx :: t ∧
      cp1.row_cells y =
        { cp.cell_stash_.get (cp.row y).first_cell_idx with
          cover := (cp.cell_stash_.get (cp.row y).first_cell_idx).cover + cover
          area := (cp.cell_stash_.get (cp.row y).first_cell_idx).area + area } :: t := by
  have hrow : ∀ r, cp1.row r = cp.row r := fun r => by simp only [row, hrows]
  obtain ⟨hh1, _⟩ := hI.head_ok y hy0 hy1 hne
  obtain ⟨m, hm⟩ : ∃ m, cp.cell_stash_.cells_in_use_ = m + 1 :=
    ⟨cp.cell_stash_.cells_in_use_ - 1, by omega⟩
  have htail : chain cp1.cell_stash_ m
      (cp.cell_stash_.get (cp.row y).first_cell_idx).next_cell_idx =
      chain cp.cell_stash_ m (cp.cell_stash_.get (cp.row y).first_cell_idx).next_cell_idx := by
    apply chain_congr cp.cell_stash_ cp1.cell_stash_
      (fun i => i < (cp.row y).first_cell_idx)
    · intro i hi
      refine ⟨hother i (by omega), fun hne1 => ?_⟩
      have := hI.next_ok i (by omega) hne1
      exact ⟨by omega, this.1⟩
    · intro hne1
      have := hI.next_ok _ hh1 hne1
      exact ⟨this.1, by omega, by omega⟩
  refine ⟨chain cp.cell_stash_ m
    (cp.cell_stash_.get (cp.row y).first_cell_idx).next_cell_idx, ?_, ?_⟩
  · unfold row_cells
    rw [hm]
    simp only [chain, Ne.symm hne, ne_eq, not_false_eq_true, if_true]
  · unfold row_cells
    rw [hrow, huse, hm]
    simp only [chain, Ne.symm hne, ne_eq, not_false_eq_true, if_true]
    rw [hget]
    simp only [htail]

/-- One `set_cell` call on a well-formed processor, as seen by the sweep:
`y_range_` and the `x_range` of the current row are updated with the row and
with the column clamped to the viewport, and `cover` and `area` are added to
the sums of the stashed cells of the current pixel when it is a pixel of the
viewport. -/
theorem set_cell_view {cp cp1 : Cell_processor} (hW : Wf cp) (cover area : Int)
    (h : cp.set_cell cover area = some cp1) :
    cp1.y_range_ =
      (if 0 ≤ cp.y_ ∧ cp.y_ < cp.height_ then cp.y_range_.update cp.y_ else cp.y_range_) ∧
    ∀ r, 0 ≤ r → r < cp.height_ →
      (cp1.row r).x_range =
        (if cp.y_ = r then (cp.row r).x_range.update (clamp_col cp.width_ cp.x_)
          else (cp.row r).x_range) ∧
      (∀ X, col_cover (cp1.row_cells r) X = col_cover (cp.row_cells r) X +
        (if cp.y_ = r ∧ cp.x_ = X ∧ 0 ≤ cp.x_ ∧ cp.x_ < cp.width_ then cover else 0)) ∧
      (∀ X, col_area (cp1.row_cells r) X = col_area (cp.row_cells r) X +
        (if cp.y_ = r ∧ cp.x_ = X ∧ 0 ≤ cp.x_ ∧ cp.x_ < cp.width_ then area else 0)) ∧
      (∀ lo hi, cover_between (cp1.row_cells r) lo hi = cover_between (cp.row_cells r) lo hi +
        (if cp.y_ = r ∧ lo ≤ cp.x_ ∧ cp.x_ ≤ hi ∧ 0 ≤ cp.x_ ∧ cp.x_ < cp.width_ then cover
          else 0)) := by
  obtain ⟨owner, hI⟩ := hW
  -- the statement from what changes in the rows and in the list of the current row
  have key : cp1.y_range_ =
        (if 0 ≤ cp.y_ ∧ cp.y_ < cp.height_ then cp.y_range_.update cp.y_ else cp.y_range_) →
      (∀ r, 0 ≤ r → r < cp.height_ → (cp1.row r).x_range =
        (if cp.y_ = r then (cp.row r).x_range.update (clamp_col cp.width_ cp.x_)
          else (cp.row r).x_range)) →
      (∀ r, 0 ≤ r → r < cp.height_ → ¬ (cp.y_ = r ∧ 0 ≤ cp.x_ ∧ cp.x_ < cp.width_) →
        cp1.row_cells r = cp.row_cells r) →
      (0 ≤ cp.y_ ∧ cp.y_ < cp.height_ ∧ 0 ≤ cp.x_ ∧ cp.x_ < cp.width_ →
        (∃ c, cp1.row_cells cp.y_ = c :: cp.row_cells cp.y_ ∧ c.x = cp.x_ ∧ c.cover = cover ∧
          c.area = area) ∨
        (∃ c t, cp.row_cells cp.y_ = c :: t ∧ c.x = cp.x_ ∧
          cp1.row_cells cp.y_ =
            { c with cover := c.cover + cover, area := c.area + area } :: t)) →
      cp1.y_range_ =
        (if 0 ≤ cp.y_ ∧ cp.y_ < cp.height_ then cp.y_range_.update cp.y_ else cp.y_range_) ∧
      ∀ r, 0 ≤ r → r < cp.height_ →
        (cp1.row r).x_range =
          (if cp.y_ = r then (cp.row r).x_range.update (clamp_col cp.width_ cp.x_)
            else (cp.row r).x_range) ∧
        (∀ X, col_cover (cp1.row_cells r) X = col_cover (cp.row_cells r) X +
          (if cp.y_ = r ∧ cp.x_ = X ∧ 0 ≤ cp.x_ ∧ cp.x_ < cp.width_ then cover else 0)) ∧
        (∀ X, col_area (cp1.row_cells r) X = col_area (cp.row_cells r) X +
          (if cp.y_ = r ∧ cp.x_ = X ∧ 0 ≤ cp.x_ ∧ cp.x_ < cp.width_ then area else 0)) ∧
        (∀ lo hi, cover_between (cp1.row_cells r) lo hi =
          cover_between (cp.row_cells r) lo hi +
          (if cp.y_ = r ∧ lo ≤ cp.x_ ∧ cp.x_ ≤ hi ∧ 0 ≤ cp.x_ ∧ cp.x_ < cp.width_ then cover
            else 0)) := by
    intro k1 k2 k3 k4
    refine ⟨k1, fun r hr0 hr1 => ⟨k2 r hr0 hr1, ?_⟩⟩
    by_cases hin : cp.y_ = r ∧ 0 ≤ cp.x_ ∧ cp.x_ < cp.width_
    · obtain ⟨hy, hx0, hx1⟩ := hin
      subst hy
      rcases k4 ⟨hr0, hr1, hx0, hx1⟩ with ⟨c, e1, e2, e3, e4⟩ | ⟨c, t, e1, e2, e3⟩
      · rw [e1]
        refine ⟨fun X => ?_, fun X => ?_, fun lo hi => ?_⟩
        · simp only [col_cover, e2, e3]
          by_cases hX : cp.x_ = X
          · rw [if_pos hX, if_pos ⟨trivial, hX, hx0, hx1⟩]; ring
          · rw [if_neg hX, if_neg (fun hc => hX hc.2.1)]; ring
        · simp only [col_area, e2, e4]
          by_cases hX : cp.x_ = X
          · rw [if_pos hX, if_pos ⟨trivial, hX, hx0, hx1⟩]; ring
          · rw [if_neg hX, if_neg (fun hc => hX hc.2.1)]; ring
        · simp only [cover_between, e2, e3]
          by_cases hX : lo ≤ cp.x_ ∧ cp.x_ ≤ hi
          · rw [if_pos hX, if_pos ⟨trivial, hX.1, hX.2, hx0, hx1⟩]; ring
          · rw [if_neg hX, if_neg (fun hc => hX ⟨hc.2.1, hc.2.2.1⟩)]; ring
      · rw [e1, e3]
        refine ⟨fun X => ?_, fun X => ?_, fun lo hi => ?_⟩
        · simp only [col_cover, e2]
          by_cases hX : cp.x_ = X
          · rw [if_pos hX, if_pos hX, if_pos ⟨trivial, hX, hx0, hx1⟩]; ring
          · rw [if_neg hX, if_neg hX, if_neg (fun hc => hX hc.2.1)]; ring
        · simp only [col_area, e2]
          by_cases hX : cp.x_ = X
          · rw [if_pos hX, if_pos hX, if_pos ⟨trivial, hX, hx0, hx1⟩]; ring
          · rw [if_neg hX, if_neg hX, if_neg (fun hc => hX hc.2.1)]; ring
        · simp only [cover_between, e2]
          by_cases hX : lo ≤ cp.x_ ∧ cp.x_ ≤ hi
          · rw [if_pos hX, if_pos hX, if_pos ⟨trivial, hX.1, hX.2, hx0, hx1⟩]; ring
          · rw [if_neg hX, if_neg hX, if_neg (fun hc => hX ⟨hc.2.1, hc.2.2.1⟩)]; ring
    · rw [k3 r hr0 hr1 hin]
      refine ⟨fun X => ?_, fun X => ?_, fun lo hi => ?_⟩
      · rw [if_neg (fun hc => hin ⟨hc.1, hc.2.2.1, hc.2.2.2⟩), add_zero]
      · rw [if_neg (fun hc => hin ⟨hc.1, hc.2.2.1, hc.2.2.2⟩), add_zero]
      · rw [if_neg (fun hc => hin ⟨hc.1, hc.2.2.2.1, hc.2.2.2.2⟩), add_zero]
  by_cases h1 : cp.height_ > cp.y_ ∧ 0 ≤ cp.y_
  · have hyin : 0 ≤ cp.y_ ∧ cp.y_ < cp.height_ := ⟨h1.2, h1.1⟩
    have hlen0 : cp.y_.toNat < cp.rows_.length := by rw [hI.rows_len]; omega
    have hrk := hI.row_ok cp.y_ h1.2 h1.1
    by_cases hx0 : 0 ≤ cp.x_
    · by_cases hx1 : cp.width_ > cp.x_
      · have hclamp : clamp_col cp.width_ cp.x_ = cp.x_ := by
          unfold clamp_col
          rw [if_neg (by omega), if_neg (by omega)]
        by_cases hm : invalid_cell_index_ ≠ (cp.row cp.y_).first_cell_idx ∧
            (cp.cell_stash_.get (cp.row cp.y_).first_cell_idx).x = cp.x_
        · rw [set_cell_merge cp cover area h1 hx0 hx1 hm] at h
          injection h with h
          have hh1 := hI.head_ok cp.y_ h1.2 h1.1 (Ne.symm hm.1)
          have hhl : (cp.row cp.y_).first_cell_idx < cp.cell_stash_.cells_.length := by
            have := hI.in_use_le; omega
          have hcell := hI.cell_ok _ hh1.1
          rw [hh1.2, hm.2] at hcell
          have hrow : ∀ r, cp1.row r = cp.row r := fun r => by rw [← h]; rfl
          have hget : cp1.cell_stash_.get (cp.row cp.y_).first_cell_idx =
              { cp.cell_stash_.get (cp.row cp.y_).first_cell_idx with
                cover := (cp.cell_stash_.get (cp.row cp.y_).first_cell_idx).cover + cover
                area := (cp.cell_stash_.get (cp.row cp.y_).first_cell_idx).area + area } := by
            rw [← h]; simp only [Cell_stash_.get]; exact getD_set_eq _ _ _ _ hhl
          have hother : ∀ i, i ≠ (cp.row cp.y_).first_cell_idx →
              cp1.cell_stash_.get i = cp.cell_stash_.get i := by
            intro i hi
            rw [← h]
            simp only [Cell_stash_.get]
            exact getD_set_ne _ _ _ _ _ (Ne.symm hi)
          obtain ⟨_, _, m3⟩ := @Inv.merge cp cp1 owner hI cp.y_ h1.2 h1.1 cover area
            (Ne.symm hm.1) (by rw [← h]) (by rw [← h]) (by rw [← h]) (by rw [← h])
            (by rw [← h]) (by rw [← h]) (by rw [← h]; simp) hget hother
          obtain ⟨t, t1, t2⟩ := @merge_row_cells cp cp1 owner hI cp.y_ h1.2 h1.1 cover area
            (Ne.symm hm.1) (by rw [← h]) (by rw [← h]) hget hother
          have hrow_ne : cp.row cp.y_ ≠ Row_.init := by
            intro hc
            rw [hc] at hm
            exact hm.1 rfl
          have hyr : cp.y_range_.min ≤ cp.y_ ∧ cp.y_ ≤ cp.y_range_.max := by
            rcases hrk with hk | hk
            · exact absurd hk hrow_ne
            · exact ⟨hk.2.2.2.1, hk.2.2.2.2⟩
          apply key
          · rw [if_pos hyin, Pixel_range_.update_within _ _ hyr.1 hyr.2, ← h]
          · intro r _ _
            rw [hrow]
            by_cases hry : cp.y_ = r
            · subst hry
              rw [if_pos rfl, hclamp, Pixel_range_.update_within _ _ hcell.2.2.1 hcell.2.2.2]
            · rw [if_neg hry]
          · intro r hr0 hr1 hn
            exact m3 r hr0 hr1 (fun hc => hn ⟨hc.symm, hx0, hx1⟩)
          · intro _
            exact Or.inr ⟨_, t, t1, hm.2, t2⟩
        · have hfree : cp.cell_stash_.cells_in_use_ < 4294967295 := by
            by_contra hc
            have hfull : ¬ 4294967295 > cp.cell_stash_.cells_in_use_ := by omega
            unfold set_cell Cell_stash_.acquire at h
            simp only [h1, hx0, hx1, if_true, and_self] at h
            rw [if_neg hm] at h
            simp only [hfull, if_false] at h
            exact Option.noConfusion h
          obtain ⟨cells1, e1, e2, e3, e4⟩ := set_cell_prepend cp cover area h1 hI.height_le
            hx0 hx1 hI.width_le hm hfree hI.in_use_le
          rw [e1] at h
          injection h with h
          obtain ⟨_, p2, p3⟩ := @Inv.prepend cp cp1 owner hI cp.y_ cp.x_ h1.2 h1.1 hx0 hx1
            cover area hfree (by rw [← h]) (by rw [← h]) (by rw [← h]) (by rw [← h])
            (by rw [← h]) (by rw [← h]) (by rw [← h]; exact e2)
            (by rw [← h]; exact e3) (by intro i hi; rw [← h]; exact e4 i hi)
          have hrows : cp1.rows_ = cp.rows_.set cp.y_.toNat
              { cp.row cp.y_ with first_cell_idx := cp.cell_stash_.cells_in_use_
                                  x_range := (cp.row cp.y_).x_range.update cp.x_ } := by
            rw [← h]
          apply key
          · rw [if_pos hyin, ← h]
          · intro r hr0 _
            by_cases hry : cp.y_ = r
            · subst hry
              rw [if_pos rfl, hclamp, row_of_set_eq _ _ _ _ hrows hlen0]
            · rw [if_neg hry, row_of_set_ne _ _ _ _ _ hrows h1.2 hr0 (fun hc => hry hc.symm)]
              rfl
          · intro r hr0 hr1 hn
            exact p3 r hr0 hr1 (fun hc => hn ⟨hc.symm, hx0, hx1⟩)
          · intro _
            exact Or.inl ⟨_, p2, rfl, rfl, rfl⟩
      · rw [set_cell_right cp cover area h1 hI.height_le hI.width_pos hI.width_le
          (by omega)] at h
        injection h with h
        have hclamp : clamp_col cp.width_ cp.x_ = cp.width_ - 1 := by
          unfold clamp_col
          rw [if_neg (by omega), if_pos (by omega)]
        have hrows : cp1.rows_ = cp.rows_.set cp.y_.toNat
            { cp.row cp.y_ with
              x_range := (cp.row cp.y_).x_range.update (cp.width_ - 1) } := by
          rw [← h]
        have hst : cp1.cell_stash_ = cp.cell_stash_ := by rw [← h]
        apply key
        · rw [if_pos hyin, ← h]
        · intro r hr0 _
          by_cases hry : cp.y_ = r
          · subst hry
            rw [if_pos rfl, hclamp, row_of_set_eq _ _ _ _ hrows hlen0]
          · rw [if_neg hry, row_of_set_ne _ _ _ _ _ hrows h1.2 hr0 (fun hc => hry hc.symm)]
            rfl
        · intro r hr0 _ _
          apply row_cells_of_eq _ _ _ hst
          by_cases hry : r = cp.y_
          · subst hry
            rw [row_of_set_eq _ _ _ _ hrows hlen0]
          · rw [row_of_set_ne _ _ _ _ _ hrows h1.2 hr0 hry]
            rfl
        · intro hc
          omega
    · rw [set_cell_left cp cover area h1 hI.height_le (by omega)] at h
      injection h with h
      have hclamp : clamp_col cp.width_ cp.x_ = 0 := by
        unfold clamp_col
        rw [if_pos (by omega)]
      have hrows : cp1.rows_ = cp.rows_.set cp.y_.toNat
          { cp.row cp.y_ with left_cover := (cp.row cp.y_).left_cover + cover
                              x_range := (cp.row cp.y_).x_range.update 0 } := by
        rw [← h]
      have hst : cp1.cell_stash_ = cp.cell_stash_ := by rw [← h]
      apply key
      · rw [if_pos hyin, ← h]
      · intro r hr0 _
        by_cases hry : cp.y_ = r
        · subst hry
          rw [if_pos rfl, hclamp, row_of_set_eq _ _ _ _ hrows hlen0]
        · rw [if_neg hry, row_of_set_ne _ _ _ _ _ hrows h1.2 hr0 (fun hc => hry hc.symm)]
          rfl
      · intro r hr0 _ _
        apply row_cells_of_eq _ _ _ hst
        by_cases hry : r = cp.y_
        · subst hry
          rw [row_of_set_eq _ _ _ _ hrows hlen0]
        · rw [row_of_set_ne _ _ _ _ _ hrows h1.2 hr0 hry]
          rfl
      · intro hc
        omega
  · rw [set_cell_outside cp cover area h1] at h
    injection h with h
    subst h
    apply key
    · rw [if_neg (fun hc => h1 ⟨hc.2, hc.1⟩)]
    · intro r hr0 hr1
      rw [if_neg (fun hc => h1 ⟨by omega, by omega⟩)]
    · intro r _ _ _
      rfl
    · intro hc
      exact absurd ⟨hc.2.1, hc.1⟩ h1

/-- What a sequence of calls stores, as seen by the sweep: on a well-formed
processor a run that returns has updated `y_range_` and the `x_range` of every
row with the rows and the clamped columns of the emissions, and has added to
the sums of the stashed cells of every pixel of the viewport the covers and
the areas emitted at that pixel. -/
theorem run_view (t : List Cell_call) :
    ∀ {cp cp1 : Cell_processor}, Wf cp → cp.run t = some cp1 →
      cp1.y_range_ = rows_y_range cp.height_ cp.y_range_ (emissions cp.x_ cp.y_ t) ∧
      ∀ r, 0 ≤ r → r < cp.height_ →
        (cp1.row r).x_range =
          row_x_range cp.width_ r (cp.row r).x_range (emissions cp.x_ cp.y_ t) ∧
        (∀ X, col_cover (cp1.row_cells r) X = col_cover (cp.row_cells r) X +
          cover_at cp.width_ X r (emissions cp.x_ cp.y_ t)) ∧
        (∀ X, col_area (cp1.row_cells r) X = col_area (cp.row_cells r) X +
          area_at cp.width_ X r (emissions cp.x_ cp.y_ t)) ∧
        (∀ lo hi, cover_between (cp1.row_cells r) lo hi =
          cover_between (cp.row_cells r) lo hi +
            span_cover cp.width_ lo hi r (emissions cp.x_ cp.y_ t)) := by
  induction t with
  | nil =>
    intro cp cp1 _ h
    simp only [run] at h
    injection h with h
    subst h
    exact ⟨rfl, fun r _ _ => ⟨rfl, fun X => by simp [emissions, cover_at],
      fun X => by simp [emissions, area_at], fun lo hi => by simp [emissions, span_cover]⟩⟩
  | cons c t ih =>
    intro cp cp1 hW h
    cases c with
    | inc_x =>
      simp only [run, call, Option.bind] at h
      obtain ⟨owner, hI⟩ := hW
      exact @ih cp.inc_x cp1 ⟨owner, hI.of_moved rfl rfl rfl rfl rfl rfl⟩ h
    | set_x x =>
      simp only [run, call, Option.bind] at h
      obtain ⟨owner, hI⟩ := hW
      exact @ih (cp.set_x x) cp1 ⟨owner, hI.of_moved rfl rfl rfl rfl rfl rfl⟩ h
    | set_y y =>
      simp only [run, call, Option.bind] at h
      obtain ⟨owner, hI⟩ := hW
      exact @ih (cp.set_y y) cp1 ⟨owner, hI.of_moved rfl rfl rfl rfl rfl rfl⟩ h
    | set_cell cover area =>
      simp only [run, call] at h
      cases hs : cp.set_cell cover area with
      | none => rw [hs] at h; simp at h
      | some cp2 =>
        rw [hs] at h
        simp only [Option.bind] at h
        obtain ⟨s1, s2, s3, s4, s5, _⟩ := set_cell_step hW cover area hs
        obtain ⟨v1, v2⟩ := set_cell_view hW cover area hs
        obtain ⟨i1, i2⟩ := ih s1 h
        rw [s2, s3, s5] at i1
        refine ⟨?_, fun r hr0 hr1 => ?_⟩
        · rw [i1, v1]
          rfl
        · obtain ⟨a1, a2, a3, a4⟩ := v2 r hr0 hr1
          obtain ⟨b1, b2, b3, b4⟩ := i2 r hr0 (by rw [s5]; exact hr1)
          rw [s2, s3, s4] at b1 b2 b3 b4
          refine ⟨?_, fun X => ?_, fun X => ?_, fun lo hi => ?_⟩
          · rw [b1, a1]
            rfl
          · rw [b2 X, a2 X]
            simp only [emissions, cover_at]
            ring
          · rw [b3 X, a3 X]
            simp only [emissions, area_at]
            ring
          · rw [b4 lo hi, a4 lo hi]
            simp only [emissions, span_cover]
            ring

end Cell_processor

end vgxx

namespace vgxx

/-! ### Sums over the emissions of one row -/

theorem cover_at_filter (width x r : Int) (E : List Emission) :
    cover_at width x r E = cover_at width x r (E.filter (fun e => decide (e.y = r))) := by
  induction E with
  | nil => rfl
  | cons e t ih =>
    by_cases he : e.y = r
    · rw [List.filter_cons_of_pos (by simpa using he)]
      simp only [cover_at, ih]
    · rw [List.filter_cons_of_neg (by simpa using he)]
      simp only [cover_at, ih, if_neg (fun hc : e.y = r ∧ _ => he hc.1), zero_add]

theorem area_at_filter (width x r : Int) (E : List Emission) :
    area_at width x r E = area_at width x r (E.filter (fun e => decide (e.y = r))) := by
  induction E with
  | nil => rfl
  | cons e t ih =>
    by_cases he : e.y = r
    · rw [List.filter_cons_of_pos (by simpa using he)]
      simp only [area_at, ih]
    · rw [List.filter_cons_of_neg (by simpa using he)]
      simp only [area_at, ih, if_neg (fun hc : e.y = r ∧ _ => he hc.1), zero_add]

theorem span_cover_filter (width lo hi r : Int) (E : List Emission) :
    span_cover width lo hi r E =
      span_cover width lo hi r (E.filter (fun e => decide (e.y = r))) := by
  induction E with
  | nil => rfl
  | cons e t ih =>
    by_cases he : e.y = r
    · rw [List.filter_cons_of_pos (by simpa using he)]
      simp only [span_cover, ih]
    · rw [List.filter_cons_of_neg (by simpa using he)]
      simp only [span_cover, ih, if_neg (fun hc : e.y = r ∧ _ => he hc.1), zero_add]

theorem left_sum_filter (r : Int) (E : List Emission) :
    left_sum r E = left_sum r (E.filter (fun e => decide (e.y = r))) := by
  induction E with
  | nil => rfl
  | cons e t ih =>
    by_cases he : e.y = r
    · rw [List.filter_cons_of_pos (by simpa using he)]
      simp only [left_sum, ih]
    · rw [List.filter_cons_of_neg (by simpa using he)]
      simp only [left_sum, ih, if_neg (fun hc : e.y = r ∧ _ => he hc.1), zero_add]

theorem row_x_range_filter (width r : Int) (E : List Emission) :
    ∀ acc, row_x_range width r acc E =
      row_x_range width r acc (E.filter (fun e => decide (e.y = r))) := by
  induction E with
  | nil => intro acc; rfl
  | cons e t ih =>
    intro acc
    by_cases he : e.y = r
    · rw [List.filter_cons_of_pos (by simpa using he)]
      simp only [row_x_range, ih]
    · rw [List.filter_cons_of_neg (by simpa using he)]
      simp only [row_x_range, if_neg he, ih]

namespace Rasterizer

/-- The cells of the loop of a vertical segment on one row: one cell on each
of the rows `int_y_0 .. int_y_1 - 1`. -/
theorem vertical_rows_filter (px py int_x cover area int_y_1 r : Int) :
    ∀ (fuel : Nat) (calls : List Cell_call) (int_y_0 : Int),
      int_y_0 + (fuel : Int) = int_y_1 →
      (emissions px py (vertical_rows int_x cover area int_y_1 fuel calls int_y_0)).filter
          (fun e => decide (e.y = r)) =
        (emissions px py calls).filter (fun e => decide (e.y = r)) ++
          (if int_y_0 ≤ r ∧ r < int_y_1 then [⟨int_x, r, cover, area⟩] else []) := by
  intro fuel
  induction fuel with
  | zero =>
    intro calls int_y_0 h
    rw [if_neg (by omega), List.append_nil]
    rfl
  | succ n ih =>
    intro calls int_y_0 h
    push_cast at h
    have hlt : int_y_0 < int_y_1 := by omega
    rw [vertical_rows]
    simp only [hlt, if_true]
    rw [ih _ (int_y_0 + 1) (by omega), emissions_append, List.filter_append]
    have e1 : emissions (pos_x px calls) (pos_y py calls)
        [Cell_call.set_x int_x, Cell_call.set_y int_y_0, Cell_call.set_cell cover area] =
        [⟨int_x, int_y_0, cover, area⟩] := rfl
    rw [e1, List.append_assoc]
    congr 1
    by_cases hr : int_y_0 = r
    · subst hr
      rw [List.filter_cons_of_pos (by simp), if_neg (by omega), if_pos ⟨le_refl _, hlt⟩]
      rfl
    · rw [List.filter_cons_of_neg (by simpa using hr)]
      by_cases hc : int_y_0 + 1 ≤ r ∧ r < int_y_1
      · rw [if_pos hc, if_pos ⟨by omega, hc.2⟩]
        rfl
      · rw [if_neg hc, if_neg (fun h1 => hc ⟨by omega, h1.2⟩)]
        rfl

/-- The cells of the right edge of a pixel-aligned rectangle, drawn downwards,
on one row. -/
theorem rect_down_filter (px py b c d r : Int) (hcd : c < d) :
    (emissions px py (add_line_ (256 * b) (256 * c) (256 * b) (256 * d))).filter
        (fun e => decide (e.y = r)) =
      if c ≤ r ∧ r < d then [⟨b, r, 256, 0⟩] else [] := by
  have e : add_line_ (256 * b) (256 * c) (256 * b) (256 * d) =
      vertical_rows b 256 0 d (d - c).toNat [] c := by
    unfold add_line_
    rw [if_neg (by omega), if_pos rfl]
    unfold add_line_vertical
    have h1 : 256 * b / 256 = b := by omega
    have h2 : 256 * b % 256 = 0 := by omega
    have h3 : 256 * c / 256 = c := by omega
    have h4 : 256 * c % 256 = 0 := by omega
    have h5 : 256 * d / 256 = d := by omega
    have h6 : 256 * d % 256 = 0 := by omega
    simp only [h1, h2, h3, h4, h5, h6]
    rw [if_neg (by omega), if_pos (by omega)]
    simp
  rw [e, vertical_rows_filter px py b 256 0 d r _ [] c (by omega)]
  rfl

/-- The cells of the left edge of a pixel-aligned rectangle, drawn upwards, on
one row. -/
theorem rect_up_filter (px py a c d r : Int) (hcd : c < d) :
    (emissions px py (add_line_ (256 * a) (256 * d) (256 * a) (256 * c))).filter
        (fun e => decide (e.y = r)) =
      if c ≤ r ∧ r < d then [⟨a, r, -256, 0⟩] else [] := by
  have e : add_line_ (256 * a) (256 * d) (256 * a) (256 * c) =
      vertical_rows a (-256) 0 d (d - c).toNat [] c := by
    unfold add_line_
    rw [if_neg (by omega), if_pos rfl]
    unfold add_line_vertical
    have h1 : 256 * a / 256 = a := by omega
    have h2 : 256 * a % 256 = 0 := by omega
    have h3 : 256 * c / 256 = c := by omega
    have h4 : 256 * c % 256 = 0 := by omega
    have h5 : 256 * d / 256 = d := by omega
    have h6 : 256 * d % 256 = 0 := by omega
    simp only [h1, h2, h3, h4, h5, h6]
    rw [if_neg (by omega), if_neg (by omega)]
    simp
  rw [e, vertical_rows_filter px py a (-256) 0 d r _ [] c (by omega)]
  rfl

/-- The calls of a pixel-aligned rectangle drawn by a fresh rasterizer:
those of its right edge, then those of its left edge. -/
theorem rect_calls (a b c d : Int) :
    (init.exec_all_fixed [Fixed_cmd.move_to (256 * a) (256 * c),
      Fixed_cmd.line_to (256 * b) (256 * c), Fixed_cmd.line_to (256 * b) (256 * d),
      Fixed_cmd.line_to (256 * a) (256 * d), Fixed_cmd.close]).1 =
    add_line_ (256 * b) (256 * c) (256 * b) (256 * d) ++
      add_line_ (256 * a) (256 * d) (256 * a) (256 * c) := by
  have h0 : add_line_ 0 0 0 0 = [] := add_line_same 0 0
  have h1 : add_line_ (256 * a) (256 * c) (256 * b) (256 * c) = [] := by
    unfold add_line_
    rw [if_pos rfl]
  have h2 : add_line_ (256 * b) (256 * d) (256 * a) (256 * d) = [] := by
    unfold add_line_
    rw [if_pos rfl]
  simp only [exec_all_fixed, exec_fixed, move_to_fixed_24_dot_8, line_to_fixed_24_dot_8, close,
    init, h0, h1, h2, List.nil_append, List.append_nil]

end Rasterizer

namespace Cell_processor

theorem rect_coverage_values (rule : Fill_rule) :
    Util.compute_cell_coverage rule (-256) 0 = 255 ∧ gap_coverage rule (-256) = 255 ∧
    Util.compute_cell_coverage rule 0 0 = 0 := by
  cases rule <;> exact ⟨by decide, by decide, by decide⟩

/-- The state of a fresh processor after the calls of a pixel-aligned
rectangle `[a, b) x [c, d)` inside the viewport: the rows `c .. d - 1` have the
`x_range` from `a` to `b`, or to `width - 1` when `b = width`, and the sweep
gives coverage 255 to the pixels `a .. b - 1` of these rows and coverage 0 to
pixel `b`; the other rows are fresh. -/
theorem rect_view (width height a b c d : Int) (hw : width ≤ 65535) (hh : height ≤ 65535)
    (ha : 0 ≤ a) (hab : a < b) (hb : b ≤ width) (hc : 0 ≤ c) (hcd : c < d) (hd : d ≤ height) :
    ∃ cp1, (init width height).run
        (Rasterizer.add_line_ (256 * b) (256 * c) (256 * b) (256 * d) ++
          Rasterizer.add_line_ (256 * a) (256 * d) (256 * a) (256 * c)) = some cp1 ∧
      Wf cp1 ∧ cp1.height_ = height ∧
      ∀ r, 0 ≤ r → r < height →
        (¬ (c ≤ r ∧ r < d) → (cp1.row r).x_range = Pixel_range_.init) ∧
        (c ≤ r ∧ r < d →
          (cp1.row r).x_range = { min := a, max := if width ≤ b then width - 1 else b } ∧
          ∀ (rule : Fill_rule) (X : Int), a ≤ X → X ≤ (if width ≤ b then width - 1 else b) →
            cp1.sweep_coverage rule r X = if X < b then 255 else 0) := by
  have hw0 : 0 < width := by omega
  have hh0 : 0 < height := by omega
  have hW := Wf_init width height hw0 hw hh0 hh
  -- the run returns
  have hcount : (init width height).cell_stash_.cells_in_use_ +
      set_cell_count (Rasterizer.add_line_ (256 * b) (256 * c) (256 * b) (256 * d) ++
        Rasterizer.add_line_ (256 * a) (256 * d) (256 * a) (256 * c)) ≤ 4294967295 := by
    have c1 := Rasterizer.add_line_count (256 * b) (256 * c) (256 * b) (256 * d)
      (by rw [abs_lt]; omega) (by rw [abs_lt]; omega)
    have c2 := Rasterizer.add_line_count (256 * a) (256 * d) (256 * a) (256 * c)
      (by rw [abs_lt]; omega) (by rw [abs_lt]; omega)
    have e1 : |256 * b / 256 - 256 * b / 256| = 0 := by simp
    have e2 : |256 * d / 256 - 256 * c / 256| = d - c := by
      rw [abs_of_nonneg (by omega)]; omega
    have e3 : |256 * a / 256 - 256 * a / 256| = 0 := by simp
    have e4 : |256 * c / 256 - 256 * d / 256| = d - c := by
      rw [abs_of_nonpos (by omega)]; omega
    rw [e1, e2] at c1
    rw [e3, e4] at c2
    rw [set_cell_count_append]
    show 0 + _ ≤ _
    omega
  obtain ⟨cp1, hrun⟩ := run_total _ _ hcount
  obtain ⟨hW1, _, _, _, hh1, hst⟩ := run_stored _ hW hrun
  obtain ⟨_, hv⟩ := run_view _ hW hrun
  have hh1 : cp1.height_ = height := hh1
  refine ⟨cp1, hrun, hW1, hh1, fun r hr0 hr1 => ?_⟩
  -- the emissions of row `r`
  have hE : (emissions 0 0 (Rasterizer.add_line_ (256 * b) (256 * c) (256 * b) (256 * d) ++
        Rasterizer.add_line_ (256 * a) (256 * d) (256 * a) (256 * c))).filter
        (fun e => decide (e.y = r)) =
      (if c ≤ r ∧ r < d then [⟨b, r, 256, 0⟩] else []) ++
        (if c ≤ r ∧ r < d then [⟨a, r, -256, 0⟩] else []) := by
    rw [emissions_append, List.filter_append, Rasterizer.rect_down_filter 0 0 b c d r hcd,
      Rasterizer.rect_up_filter _ _ a c d r hcd]
  obtain ⟨v1, v2, v3, v4⟩ := hv r hr0 hr1
  obtain ⟨s1, _⟩ := hst r hr0 hr1
  have v1' : (cp1.row r).x_range = row_x_range width r Pixel_range_.init
      ((emissions 0 0 (Rasterizer.add_line_ (256 * b) (256 * c) (256 * b) (256 * d) ++
        Rasterizer.add_line_ (256 * a) (256 * d) (256 * a) (256 * c))).filter
        (fun e => decide (e.y = r))) := by
    rw [← row_x_range_filter, v1, row_init]
    rfl
  have v2' : ∀ X, col_cover (cp1.row_cells r) X = cover_at width X r
      ((emissions 0 0 (Rasterizer.add_line_ (256 * b) (256 * c) (256 * b) (256 * d) ++
        Rasterizer.add_line_ (256 * a) (256 * d) (256 * a) (256 * c))).filter
        (fun e => decide (e.y = r))) := by
    intro X
    rw [← cover_at_filter, v2 X, row_cells_init]
    show 0 + _ = _
    rw [zero_add]
    rfl
  have v3' : ∀ X, col_area (cp1.row_cells r) X = area_at width X r
      ((emissions 0 0 (Rasterizer.add_line_ (256 * b) (256 * c) (256 * b) (256 * d) ++
        Rasterizer.add_line_ (256 * a) (256 * d) (256 * a) (256 * c))).filter
        (fun e => decide (e.y = r))) := by
    intro X
    rw [← area_at_filter, v3 X, row_cells_init]
    show 0 + _ = _
    rw [zero_add]
    rfl
  have v4' : ∀ lo hi, cover_between (cp1.row_cells r) lo hi = span_cover width lo hi r
      ((emissions 0 0 (Rasterizer.add_line_ (256 * b) (256 * c) (256 * b) (256 * d) ++
        Rasterizer.add_line_ (256 * a) (256 * d) (256 * a) (256 * c))).filter
        (fun e => decide (e.y = r))) := by
    intro lo hi
    rw [← span_cover_filter, v4 lo hi, row_cells_init]
    show 0 + _ = _
    rw [zero_add]
    rfl
  have s1' : (cp1.row r).left_cover = left_sum r
      ((emissions 0 0 (Rasterizer.add_line_ (256 * b) (256 * c) (256 * b) (256 * d) ++
        Rasterizer.add_line_ (256 * a) (256 * d) (256 * a) (256 * c))).filter
        (fun e => decide (e.y = r))) := by
    rw [← left_sum_filter, s1, row_init]
    show 0 + _ = _
    rw [zero_add]
    rfl
  rw [hE] at v1' v2' v3' v4' s1'
  constructor
  · intro hout
    rw [v1', if_neg hout, if_neg hout]
    rfl
  · intro hin
    simp only [if_pos hin, List.singleton_append] at v1' v2' v3' v4' s1'
    have hclb : clamp_col width b = if width ≤ b then width - 1 else b := by
      unfold clamp_col
      rw [if_neg (by omega)]
    have hcla : clamp_col width a = a := by
      unfold clamp_col
      rw [if_neg (by omega), if_neg (by omega)]
    have hxr : (cp1.row r).x_range =
        { min := a, max := if width ≤ b then width - 1 else b } := by
      rw [v1']
      simp only [row_x_range, if_true, hclb, hcla, Pixel_range_.update, Pixel_range_.init]
      congr 1
      · split_ifs <;> omega
      · split_ifs <;> omega
    refine ⟨hxr, fun rule X hX0 hX1 => ?_⟩
    obtain ⟨ev1, ev2, ev3⟩ := rect_coverage_values rule
    have hl : (cp1.row r).left_cover = 0 := by
      rw [s1']
      simp only [left_sum]
      rw [if_neg (by omega), if_neg (by omega)]
      rfl
    have hR : col_area (cp1.row_cells r) X = 0 := by
      rw [v3' X]
      simp only [area_at]
      split_ifs <;> rfl
    unfold sweep_coverage pixel_coverage running_cover
    rw [hR, hl, hxr, v2' X, v4' a X]
    simp only [cover_at, span_cover, true_and, le_refl, zero_add, add_zero]
    by_cases hXa : X = a
    · have hA : (if b = X ∧ 0 ≤ b ∧ b < width then (256 : Int) else 0) +
          (if a = X ∧ 0 ≤ a ∧ a < width then -256 else 0) = -256 := by
        split_ifs <;> omega
      have hWv : (if a ≤ b ∧ b ≤ X ∧ 0 ≤ b ∧ b < width then (256 : Int) else 0) +
          (if a ≤ X ∧ 0 ≤ a ∧ a < width then -256 else 0) = -256 := by
        split_ifs <;> omega
      rw [hA, hWv, if_pos (Or.inl (by decide)), ev1, if_pos (by omega)]
    · by_cases hXb : X < b
      · have hA : (if b = X ∧ 0 ≤ b ∧ b < width then (256 : Int) else 0) +
            (if a = X ∧ 0 ≤ a ∧ a < width then -256 else 0) = 0 := by
          split_ifs <;> omega
        have hWv : (if a ≤ b ∧ b ≤ X ∧ 0 ≤ b ∧ b < width then (256 : Int) else 0) +
            (if a ≤ X ∧ 0 ≤ a ∧ a < width then -256 else 0) = -256 := by
          split_ifs <;> omega
        rw [hA, hWv, if_neg (by decide), ev2, if_pos hXb]
      · have hbw : b < width ∧ X = b := by
          split_ifs at hX1 <;> omega
        have hA : (if b = X ∧ 0 ≤ b ∧ b < width then (256 : Int) else 0) +
            (if a = X ∧ 0 ≤ a ∧ a < width then -256 else 0) = 256 := by
          split_ifs <;> omega
        have hWv : (if a ≤ b ∧ b ≤ X ∧ 0 ≤ b ∧ b < width then (256 : Int) else 0) +
            (if a ≤ X ∧ 0 ≤ a ∧ a < width then -256 else 0) = 0 := by
          split_ifs <;> omega
        rw [hA, hWv, if_pos (Or.inl (by decide)), ev3, if_neg hXb]

end Cell_processor

end vgxx

namespace vgxx

namespace Cell_processor

/-! ### The row lists are well-founded -/

/-- A walk that starts at a cell in use owned by row `y` and has at least as
many steps as the index of that cell plus one stops at the sentinel; it visits
only cells in use owned by row `y`, each with a next link that is the sentinel
or a smaller index, in strictly decreasing order of index. -/
theorem walk_ok (cp : Cell_processor) (owner : Nat → Int) (hinv : Inv cp owner) (y : Int) :
    ∀ (fuel idx : Nat),
      (idx ≠ invalid_cell_index_ →
        idx < fuel ∧ idx < cp.cell_stash_.cells_in_use_ ∧ owner idx = y) →
      (walk cp.cell_stash_ fuel idx).2 = invalid_cell_index_ ∧
      (∀ i ∈ (walk cp.cell_stash_ fuel idx).1,
        i ≤ idx ∧ i < cp.cell_stash_.cells_in_use_ ∧ owner i = y ∧
          ((cp.cell_stash_.get i).next_cell_idx = invalid_cell_index_ ∨
            (cp.cell_stash_.get i).next_cell_idx < i)) ∧
      (walk cp.cell_stash_ fuel idx).1.Pairwise (fun a b => b < a) := by
  intro fuel
  induction fuel with
  | zero =>
    intro idx h
    have hidx : idx = invalid_cell_index_ := by
      by_contra hne
      have := (h hne).1
      omega
    refine ⟨hidx, ?_, List.Pairwise.nil⟩
    intro i hi
    simp [walk] at hi
  | succ n ih =>
    intro idx h
    by_cases hne : idx = invalid_cell_index_
    · have hw : walk cp.cell_stash_ (n + 1) idx = ([], idx) := by
        simp [walk, hne]
      rw [hw]
      refine ⟨hne, ?_, List.Pairwise.nil⟩
      intro i hi
      simp at hi
    · obtain ⟨h1, h2, h3⟩ := h hne
      have hw : walk cp.cell_stash_ (n + 1) idx =
          (idx :: (walk cp.cell_stash_ n (cp.cell_stash_.get idx).next_cell_idx).1,
            (walk cp.cell_stash_ n (cp.cell_stash_.get idx).next_cell_idx).2) := by
        rw [walk, if_pos (fun h0 => hne h0.symm)]
      have hnext : (cp.cell_stash_.get idx).next_cell_idx ≠ invalid_cell_index_ →
          (cp.cell_stash_.get idx).next_cell_idx < n ∧
            (cp.cell_stash_.get idx).next_cell_idx < cp.cell_stash_.cells_in_use_ ∧
            owner (cp.cell_stash_.get idx).next_cell_idx = y := by
        intro hn
        obtain ⟨k1, k2⟩ := hinv.next_ok idx h2 hn
        exact ⟨by omega, by omega, by rw [k2, h3]⟩
      obtain ⟨r1, r2, r3⟩ := ih (cp.cell_stash_.get idx).next_cell_idx hnext
      rw [hw]
      refine ⟨r1, ?_, ?_⟩
      · intro i hi
        rcases List.mem_cons.mp hi with hi | hi
        · subst hi
          refine ⟨le_refl _, h2, h3, ?_⟩
          by_cases hn : (cp.cell_stash_.get i).next_cell_idx = invalid_cell_index_
          · exact Or.inl hn
          · exact Or.inr (hinv.next_ok i h2 hn).1
        · obtain ⟨q1, q2, q3, q4⟩ := r2 i hi
          have hn : (cp.cell_stash_.get idx).next_cell_idx ≠ invalid_cell_index_ := by
            intro h0
            rw [h0] at hi
            cases n with
            | zero => simp [walk] at hi
            | succ m => simp [walk] at hi
          have := (hinv.next_ok idx h2 hn).1
          exact ⟨by omega, q2, q3, q4⟩
      · refine List.Pairwise.cons ?_ r3
        intro i hi
        have hn : (cp.cell_stash_.get idx).next_cell_idx ≠ invalid_cell_index_ := by
          intro h0
          rw [h0] at hi
          cases n with
          | zero => simp [walk] at hi
          | succ m => simp [walk] at hi
        have := (hinv.next_ok idx h2 hn).1
        have := (r2 i hi).1
        omega

/-- A walk that has reached the sentinel is not changed by a larger bound on
the number of steps. -/
theorem walk_stable (stash : Cell_stash_) :
    ∀ (fuel idx : Nat), (walk stash fuel idx).2 = invalid_cell_index_ →
      ∀ k, walk stash (fuel + k) idx = walk stash fuel idx := by
  intro fuel
  induction fuel with
  | zero =>
    intro idx h k
    have hidx : idx = invalid_cell_index_ := h
    cases k with
    | zero => rfl
    | succ m =>
      show walk stash (0 + (m + 1)) idx = _
      rw [show 0 + (m + 1) = m + 1 by omega]
      simp [walk, hidx]
  | succ n ih =>
    intro idx h k
    rw [show n + 1 + k = (n + k) + 1 by omega]
    by_cases hne : idx = invalid_cell_index_
    · simp [walk, hne]
    · have hne1 : invalid_cell_index_ ≠ idx := fun h0 => hne h0.symm
      rw [walk, if_pos hne1] at h
      rw [walk, if_pos hne1, walk, if_pos hne1, ih _ h k]

/-- The cells of a walk are the cells of the chain. -/
theorem chain_eq_walk (stash : Cell_stash_) :
    ∀ (fuel idx : Nat), chain stash fuel idx = (walk stash fuel idx).1.map stash.get := by
  intro fuel
  induction fuel with
  | zero => intro idx; rfl
  | succ n ih =>
    intro idx
    by_cases hne : idx = invalid_cell_index_
    · simp [walk, chain, hne]
    · have hne1 : invalid_cell_index_ ≠ idx := fun h0 => hne h0.symm
      rw [walk, chain, if_pos hne1, if_pos hne1, ih]
      rfl

end Cell_processor

end vgxx

namespace vgxx

namespace Cell_processor

/-! ### The dense working array during the sweep -/

/-- At the start of every iteration of the loop over the rows, the row of the
iteration is a row of the array, still as the cell processor stored it, and
the dense working array holds only empty cells. -/
theorem swipe_rows_states_ok (rule : Fill_rule) (cp : Cell_processor) (owner : Nat → Int)
    (hinv : Inv cp owner) (hmax : cp.y_range_.max < cp.height_) :
    ∀ (fuel : Nat) (s : Swipe_),
      0 ≤ s.y → s.y + fuel = cp.y_range_.max + 1 →
      (∀ j : Nat, s.y ≤ j → s.rows_.getD j default = cp.rows_.getD j default) →
      s.rows_.length = cp.rows_.length →
      (∀ j : Nat, s.cells_.getD j default = { cover := 0, area := 0 }) →
      ∀ s0 ∈ swipe_rows_states rule cp.cell_stash_ cp.y_range_.max fuel s,
        0 ≤ s0.y ∧ s0.y < cp.height_ ∧ s0.rows_.getD s0.y.toNat default = cp.row s0.y ∧
        ∀ j : Nat, s0.cells_.getD j default = { cover := 0, area := 0 } := by
  intro fuel
  induction fuel with
  | zero =>
    intro s _ _ _ _ _ s0 hs0
    simp [swipe_rows_states] at hs0
  | succ n ih =>
    intro s hy0 hf hrows hlen hclean s0 hs0
    have hrow : s.rows_.getD s.y.toNat default = cp.row s.y := by
      rw [hrows s.y.toNat (by omega)]; rfl
    obtain ⟨s1, hs1⟩ : ∃ s1 : Swipe_, s1 =
      if (s.rows_.getD s.y.toNat default).x_range.nonempty then
        swipe_row rule cp.cell_stash_ s else s := ⟨_, rfl⟩
    obtain ⟨c1, c2, c3, c4, c5⟩ := swipe_rows_step rule cp owner hinv s hy0
      (by push_cast at hf; omega) hrow hlen hclean s1 hs1
    simp only [swipe_rows_states] at hs0
    rw [← hs1] at hs0
    rcases List.mem_cons.mp hs0 with h0 | h0
    · rw [h0]
      exact ⟨hy0, by push_cast at hf; omega, hrow, hclean⟩
    · by_cases hlt : cp.y_range_.max > s1.y
      · rw [if_pos hlt] at h0
        rw [c1] at hlt
        exact ih { s1 with y := s1.y + 1, calls := s1.calls ++ [Blender_call.inc_y] }
          (by show 0 ≤ s1.y + 1
              omega)
          (by show s1.y + 1 + (n : Int) = _
              rw [c1]; push_cast at hf; omega)
          (by intro j hj
              show s1.rows_.getD j default = _
              have hj1 : s1.y + 1 ≤ j := hj
              rw [c4 j, if_neg (by omega)]
              exact hrows j (by omega))
          (by show s1.rows_.length = _
              rw [c5, hlen])
          c3 s0 h0
      · rw [if_neg hlt] at h0
        simp at h0

/-- The `resize` at the start of a row appends only empty cells. -/
theorem swipe_row_dense_clean (s : Swipe_)
    (hclean : ∀ j : Nat, s.cells_.getD j default = { cover := 0, area := 0 }) :
    ∀ c ∈ swipe_row_dense s, c = { cover := 0, area := 0 } := by
  have h0 := forall_mem_of_getD s.cells_ hclean
  intro c hc
  unfold swipe_row_dense at hc
  simp only at hc
  split_ifs at hc
  · rcases List.mem_append.mp hc with h | h
    · exact h0 c h
    · exact (List.mem_replicate.mp h).2
  · exact h0 c hc

end Cell_processor

end vgxx

namespace vgxx

/-! ### The stored state does not depend on the order of the emissions -/

theorem emissions_emit_calls (E : List Emission) :
    ∀ px py : Int, emissions px py (emit_calls E) = E := by
  induction E with
  | nil => intro px py; rfl
  | cons e t ih =>
    intro px py
    show (⟨e.x, e.y, e.cover, e.area⟩ : Emission) :: emissions e.x e.y (emit_calls t) = e :: t
    rw [ih]

theorem set_cell_count_emit_calls (E : List Emission) :
    set_cell_count (emit_calls E) = E.length := by
  induction E with
  | nil => rfl
  | cons e t ih =>
    show set_cell_count (emit_calls t) + 1 = t.length + 1
    rw [ih]

theorem left_sum_perm (r : Int) {E1 E2 : List Emission} (h : E1.Perm E2) :
    left_sum r E1 = left_sum r E2 := by
  induction h with
  | nil => rfl
  | cons e _ ih => simp only [left_sum, ih]
  | swap a b l => simp only [left_sum]; omega
  | trans _ _ ih1 ih2 => exact ih1.trans ih2

theorem cover_at_perm (width x r : Int) {E1 E2 : List Emission} (h : E1.Perm E2) :
    cover_at width x r E1 = cover_at width x r E2 := by
  induction h with
  | nil => rfl
  | cons e _ ih => simp only [cover_at, ih]
  | swap a b l => simp only [cover_at]; omega
  | trans _ _ ih1 ih2 => exact ih1.trans ih2

theorem area_at_perm (width x r : Int) {E1 E2 : List Emission} (h : E1.Perm E2) :
    area_at width x r E1 = area_at width x r E2 := by
  induction h with
  | nil => rfl
  | cons e _ ih => simp only [area_at, ih]
  | swap a b l => simp only [area_at]; omega
  | trans _ _ ih1 ih2 => exact ih1.trans ih2

theorem span_cover_perm (width lo hi r : Int) {E1 E2 : List Emission} (h : E1.Perm E2) :
    span_cover width lo hi r E1 = span_cover width lo hi r E2 := by
  induction h with
  | nil => rfl
  | cons e _ ih => simp only [span_cover, ih]
  | swap a b l => simp only [span_cover]; omega
  | trans _ _ ih1 ih2 => exact ih1.trans ih2

theorem Cell_processor.Pixel_range_.update_comm (r : Cell_processor.Pixel_range_)
    (a b : Int) : (r.update a).update b = (r.update b).update a := by
  unfold Cell_processor.Pixel_range_.update
  simp only [Cell_processor.Pixel_range_.mk.injEq]
  constructor <;> split_ifs <;> omega

theorem row_x_range_perm (width r : Int) {E1 E2 : List Emission} (h : E1.Perm E2) :
    ∀ acc, row_x_range width r acc E1 = row_x_range width r acc E2 := by
  induction h with
  | nil => intro acc; rfl
  | cons e _ ih => intro acc; simp only [row_x_range, ih]
  | swap a b l =>
    intro acc
    simp only [row_x_range]
    congr 1
    split_ifs
    · exact Cell_processor.Pixel_range_.update_comm _ _ _
    · rfl
    · rfl
    · rfl
  | trans _ _ ih1 ih2 => intro acc; exact (ih1 acc).trans (ih2 acc)

theorem rows_y_range_perm (height : Int) {E1 E2 : List Emission} (h : E1.Perm E2) :
    ∀ acc, rows_y_range height acc E1 = rows_y_range height acc E2 := by
  induction h with
  | nil => intro acc; rfl
  | cons e _ ih => intro acc; simp only [rows_y_range, ih]
  | swap a b l =>
    intro acc
    simp only [rows_y_range]
    congr 1
    split_ifs
    · exact Cell_processor.Pixel_range_.update_comm _ _ _
    · rfl
    · rfl
    · rfl
  | trans _ _ ih1 ih2 => intro acc; exact (ih1 acc).trans (ih2 acc)

namespace Cell_processor

/-- The blender calls of the rows `y .. y + fuel - 1` are the same for two
processors that agree on `y_range_.max` and, on these rows, on the `x_range`
and on the coverage of every pixel. -/
theorem expect_rows_congr (rule : Fill_rule) (cp1 cp2 : Cell_processor)
    (hmax : cp1.y_range_.max = cp2.y_range_.max) :
    ∀ (fuel : Nat) (y : Int),
      (∀ r, y ≤ r → r < y + fuel →
        (cp1.row r).x_range = (cp2.row r).x_range ∧
          cp1.sweep_coverage rule r = cp2.sweep_coverage rule r) →
      expect_rows rule cp1 fuel y = expect_rows rule cp2 fuel y := by
  intro fuel
  induction fuel with
  | zero => intro y _; rfl
  | succ n ih =>
    intro y h
    obtain ⟨h1, h2⟩ := h y (le_refl _) (by push_cast; omega)
    simp only [expect_rows]
    rw [h1, h2, hmax, ih (y + 1) (fun r hr0 hr1 => h r (by omega) (by push_cast; omega))]

/-- Two permutations of a list of emissions, applied to the same well-formed
processor, lead to states whose sweeps make the same blender calls. -/
theorem swipe_perm (cp : Cell_processor) (hW : Wf cp) {E1 E2 : List Emission}
    (hperm : E1.Perm E2) (cp1 cp2 : Cell_processor)
    (h1 : cp.run (emit_calls E1) = some cp1) (h2 : cp.run (emit_calls E2) = some cp2)
    (rule : Fill_rule) : (swipe rule cp1).1 = (swipe rule cp2).1 := by
  obtain ⟨hW1, _, _, _, hh1, hl1⟩ := run_stored (emit_calls E1) hW h1
  obtain ⟨hW2, _, _, _, _, hl2⟩ := run_stored (emit_calls E2) hW h2
  obtain ⟨hy1, hv1⟩ := run_view (emit_calls E1) hW h1
  obtain ⟨hy2, hv2⟩ := run_view (emit_calls E2) hW h2
  rw [emissions_emit_calls] at hy1 hy2
  obtain ⟨owner1, hinv1⟩ := hW1
  obtain ⟨owner2, hinv2⟩ := hW2
  rw [(swipe_ok rule cp1 owner1 hinv1).1, (swipe_ok rule cp2 owner2 hinv2).1]
  have hyr : cp1.y_range_ = cp2.y_range_ := by
    rw [hy1, hy2, rows_y_range_perm cp.height_ hperm]
  have hrow : ∀ r, 0 ≤ r → r < cp.height_ →
      (cp1.row r).x_range = (cp2.row r).x_range ∧
        cp1.sweep_coverage rule r = cp2.sweep_coverage rule r := by
    intro r hr0 hr1
    obtain ⟨a1, a2, a3, a4⟩ := hv1 r hr0 hr1
    obtain ⟨b1, b2, b3, b4⟩ := hv2 r hr0 hr1
    obtain ⟨c1, _⟩ := hl1 r hr0 hr1
    obtain ⟨d1, _⟩ := hl2 r hr0 hr1
    rw [emissions_emit_calls] at a1 a2 a3 a4 b1 b2 b3 b4 c1 d1
    have hx : (cp1.row r).x_range = (cp2.row r).x_range := by
      rw [a1, b1, row_x_range_perm cp.width_ r hperm]
    have hcc : ∀ X, col_cover (cp1.row_cells r) X = col_cover (cp2.row_cells r) X := by
      intro X
      rw [a2, b2, cover_at_perm cp.width_ X r hperm]
    have hca : ∀ X, col_area (cp1.row_cells r) X = col_area (cp2.row_cells r) X := by
      intro X
      rw [a3, b3, area_at_perm cp.width_ X r hperm]
    have hcb : ∀ lo hi, cover_between (cp1.row_cells r) lo hi =
        cover_between (cp2.row_cells r) lo hi := by
      intro lo hi
      rw [a4, b4, span_cover_perm cp.width_ lo hi r hperm]
    have hlc : (cp1.row r).left_cover = (cp2.row r).left_cover := by
      rw [c1, d1, left_sum_perm r hperm]
    refine ⟨hx, ?_⟩
    funext X
    unfold sweep_coverage pixel_coverage running_cover
    rw [hcc X, hca X, hlc, hx, hcb]
  unfold expect_swipe
  rw [hyr]
  by_cases hne : cp2.y_range_.nonempty
  · rw [if_pos hne, if_pos hne]
    have hyr2 : 0 ≤ cp2.y_range_.min ∧ cp2.y_range_.min ≤ cp2.y_range_.max ∧
        cp2.y_range_.max ≤ cp2.height_ - 1 := by
      rcases hinv2.y_range_ok with h0 | h0
      · rw [h0] at hne
        exact absurd hne (by decide)
      · exact h0
    have hh2 : cp2.height_ = cp.height_ := (run_stored (emit_calls E2) hW h2).2.2.2.2.1
    rw [expect_rows_congr rule cp1 cp2 (by rw [hyr]) _ _
      (fun r hr0 hr1 => hrow r (by omega) (by
        have : ((((cp2.y_range_.max - cp2.y_range_.min).toNat + 1 : Nat)) : Int) =
            cp2.y_range_.max - cp2.y_range_.min + 1 := by
          push_cast
          omega
        rw [this] at hr1
        omega))]
  · rw [if_neg hne, if_neg hne]

end Cell_processor

end vgxx

namespace vgxx

namespace Rasterizer

/-! ### The scanlines of a segment -/

theorem line_head_fold (xd yd xyd : Direction_) (x_0 y_0 d_x d_y : Int) :
    (line_head xd yd xyd x_0 y_0 d_x d_y).calls =
      (line_head_scanlines xd yd xyd x_0 y_0 d_x d_y).foldl
        (fun calls a => Scanline_.run yd calls a) [] := by
  unfold line_head_scanlines
  by_cases hf : y_0 % 256 = 0
  · simp only [hf, ne_eq, not_true_eq_false, if_false, List.foldl]
    unfold line_head
    simp only [hf, ne_eq, not_true_eq_false, if_false]
  · cases xyd
    · simp only [ne_eq, hf, not_false_eq_true, if_true, List.foldl, Scanline_.run]
      unfold line_head
      simp only [ne_eq, hf, not_false_eq_true, if_true]
    · simp only [ne_eq, hf, not_false_eq_true, if_true, reduceCtorEq, if_false, List.foldl,
        Scanline_.run]
      unfold line_head
      simp only [ne_eq, hf, not_false_eq_true, if_true, reduceCtorEq, if_false]

theorem line_step_fold (yd xyd : Direction_) (d_y inc_x mod annex : Int) (s : Line_) :
    (line_step yd xyd d_y inc_x mod annex s).calls =
      Scanline_.run yd s.calls (line_step_scanline yd xyd d_y inc_x mod annex s) := by
  unfold line_step_scanline Scanline_.run
  cases xyd
  · simp only [if_true]
    unfold line_step
    simp only [if_true, line_row_eq]
  · simp only [reduceCtorEq, if_false]
    unfold line_step
    simp only [reduceCtorEq, if_false, line_row_eq]

theorem line_rows_fold (yd xyd : Direction_) (int_y_1 d_y inc_x mod annex : Int) :
    ∀ (fuel : Nat) (s : Line_),
      (line_rows yd xyd int_y_1 d_y inc_x mod annex fuel s).calls =
        (line_rows_scanlines yd xyd int_y_1 d_y inc_x mod annex fuel s).foldl
          (fun calls a => Scanline_.run yd calls a) s.calls := by
  intro fuel
  induction fuel with
  | zero => intro s; rfl
  | succ n ih =>
    intro s
    rw [line_rows, line_rows_scanlines]
    simp only [List.foldl_cons, ← line_step_fold]
    by_cases hlt : (line_step yd xyd d_y inc_x mod annex s).int_y < int_y_1
    · simp only [hlt, if_true]
      exact ih _
    · simp only [hlt, if_false, List.foldl_nil]

theorem line_body_fold (xd yd xyd : Direction_) (int_y_1 d_x d_y : Int) (s : Line_) :
    (line_body xd yd xyd int_y_1 d_x d_y s).calls =
      (line_body_scanlines xd yd xyd int_y_1 d_x d_y s).foldl
        (fun calls a => Scanline_.run yd calls a) s.calls := by
  unfold line_body line_body_scanlines
  by_cases hlt : s.int_y < int_y_1
  · simp only [hlt, if_true]
    exact line_rows_fold yd xyd int_y_1 d_y _ _ _ _ s
  · simp only [hlt, if_false, List.foldl_nil]

/-- The calls of `add_line_<...>` are those of its scanlines, made in
order. -/
theorem add_line_dir_fold (xd yd xyd : Direction_) (x_0 y_0 x_1 y_1 : Int) :
    add_line_dir xd yd xyd x_0 y_0 x_1 y_1 =
      (add_line_dir_scanlines xd yd xyd x_0 y_0 x_1 y_1).foldl
        (fun calls a => Scanline_.run yd calls a) [] := by
  unfold add_line_dir add_line_dir_scanlines
  by_cases hrow : y_0 / 256 = y_1 / 256
  · simp only [hrow, if_true]
    cases xyd
    · simp only [if_true, List.foldl, Scanline_.run]
    · simp only [reduceCtorEq, if_false, List.foldl, Scanline_.run]
  · simp only [hrow, if_false, List.foldl_append, ← line_head_fold, ← line_body_fold]
    by_cases hf : y_1 % 256 = 0
    · simp only [hf, ne_eq, not_true_eq_false, if_false, List.foldl_nil]
    · cases xyd
      · simp only [ne_eq, hf, not_false_eq_true, if_true, List.foldl, Scanline_.run]
      · simp only [ne_eq, hf, not_false_eq_true, if_true, reduceCtorEq, if_false, List.foldl,
          Scanline_.run]

end Rasterizer

end vgxx

namespace vgxx

namespace Rasterizer

/-- The scanline of one iteration of the loop over full scanlines is walked
from left to right over its exact extent in `x`, inside the columns of the
segment. -/
theorem line_step_scan_ok (xd yd xyd : Direction_) (px py x_0 y_0 x_1 d_x d_y inc_x mod : Int)
    (s : Line_) (hdx : 0 < d_x) (hdy32 : d_y < 2147483648)
    (hx1 : x_1 = x_0 + sgn xyd * d_x)
    (hmod0 : 0 ≤ mod) (hmod1 : mod < d_y) (hinc : inc_x * d_y + sgn xd * mod = 256 * d_x)
    (hinc0 : 0 ≤ inc_x) (hinc1 : xd = Direction_.negative → 0 < mod → 0 < inc_x)
    (hs : Line_ok xd yd xyd px py x_0 y_0 d_x d_y (min x_0 x_1 / 256) (max x_0 x_1 / 256) s)
    (hy0 : y_0 ≤ 256 * s.int_y) (hy1 : 256 * (s.int_y + 1) ≤ y_0 + d_y) :
    (line_step_scanline yd xyd d_y inc_x mod (sgn xd) s).valid ∧
    min x_0 x_1 / 256 ≤ (line_step_scanline yd xyd d_y inc_x mod (sgn xd) s).int_x_0 ∧
    (line_step_scanline yd xyd d_y inc_x mod (sgn xd) s).int_x_1 ≤ max x_0 x_1 / 256 ∧
    (line_step_scanline yd xyd d_y inc_x mod (sgn xd) s).int_y = s.int_y := by
  obtain ⟨hix, hfx, hr0, hr1, hdda, _⟩ := hs
  obtain ⟨k1, k2, k3, k4⟩ := line_dda_step xd s.rem d_x d_y inc_x mod hdy32 hr0 hr1 hmod0 hmod1
    hinc hinc0 hinc1
  unfold line_step_scanline line_step
  generalize (if u32 (s.rem + mod) ≥ d_y then inc_x + sgn xd else inc_x) = delta_x at k1 k4 ⊢
  generalize (if u32 (s.rem + mod) ≥ d_y then u32 (u32 (s.rem + mod) - d_y)
    else u32 (s.rem + mod)) = rem1 at k2 k3 k4 ⊢
  have hb0 := adv_bounds xd (sgn xyd * (s.x - x_0)) s.rem d_x d_y (256 * s.int_y - y_0) hdda
    hr0 hr1 (by omega) (by omega) (le_of_lt hdx)
  cases xyd
  · simp only [sgn_positive, one_mul] at hdda hx1 hb0
    simp only [if_true]
    have hdda1 : sgn Direction_.positive * (s.x + delta_x - x_0) * d_y + sgn xd * rem1 =
        d_x * (256 * (s.int_y + 1) - y_0) := by
      simp only [sgn_positive, one_mul]
      linear_combination hdda + k4
    have hb1 := adv_bounds xd (sgn Direction_.positive * (s.x + delta_x - x_0)) rem1 d_x d_y
      (256 * (s.int_y + 1) - y_0) hdda1 k2 k3 (by omega) (by omega) (le_of_lt hdx)
    simp only [sgn_positive, one_mul] at hb1
    unfold Scanline_.valid
    dsimp only
    refine ⟨⟨by omega, by omega, by omega, by omega, by omega, by omega, by omega, by omega⟩,
      by omega, by omega, trivial⟩
  · simp only [sgn_negative] at hdda hx1 hb0
    simp only [reduceCtorEq, if_false]
    have hdda1 : sgn Direction_.negative * (s.x - delta_x - x_0) * d_y + sgn xd * rem1 =
        d_x * (256 * (s.int_y + 1) - y_0) := by
      simp only [sgn_negative]
      linear_combination hdda + k4
    have hb1 := adv_bounds xd (sgn Direction_.negative * (s.x - delta_x - x_0)) rem1 d_x d_y
      (256 * (s.int_y + 1) - y_0) hdda1 k2 k3 (by omega) (by omega) (le_of_lt hdx)
    simp only [sgn_negative] at hb1
    unfold Scanline_.valid
    dsimp only
    refine ⟨⟨by omega, by omega, by omega, by omega, by omega, by omega, by omega, by omega⟩,
      by omega, by omega, trivial⟩

theorem line_rows_scan_ok (xd yd xyd : Direction_) (px py x_0 y_0 x_1 d_x d_y inc_x mod : Int)
    (int_y_1 : Int) (hdx : 0 < d_x) (hdy : 0 < d_y) (hdy32 : d_y < 2147483648)
    (hx1 : x_1 = x_0 + sgn xyd * d_x)
    (hmod0 : 0 ≤ mod) (hmod1 : mod < d_y) (hinc : inc_x * d_y + sgn xd * mod = 256 * d_x)
    (hinc0 : 0 ≤ inc_x) (hinc1 : xd = Direction_.negative → 0 < mod → 0 < inc_x)
    (hy1 : 256 * int_y_1 ≤ y_0 + d_y) :
    ∀ (fuel : Nat) (s : Line_),
      Line_ok xd yd xyd px py x_0 y_0 d_x d_y (min x_0 x_1 / 256) (max x_0 x_1 / 256) s →
      y_0 ≤ 256 * s.int_y → s.int_y + ((fuel : Int) + 1) = int_y_1 →
      (∀ a ∈ line_rows_scanlines yd xyd int_y_1 d_y inc_x mod (sgn xd) (fuel + 1) s,
        a.valid ∧ min x_0 x_1 / 256 ≤ a.int_x_0 ∧ a.int_x_1 ≤ max x_0 x_1 / 256 ∧
          s.int_y ≤ a.int_y ∧ a.int_y < int_y_1) ∧
      (line_rows_scanlines yd xyd int_y_1 d_y inc_x mod (sgn xd) (fuel + 1) s).Pairwise
        (fun a b => a.int_y < b.int_y) := by
  intro fuel
  induction fuel with
  | zero =>
    intro s hs hy0 hn
    obtain ⟨_, h2⟩ := line_step_ok xd yd xyd px py x_0 y_0 x_1 d_x d_y inc_x mod s hdx hdy
      hdy32 hx1 hmod0 hmod1 hinc hinc0 hinc1 hs hy0 (by simp at hn; omega)
    obtain ⟨v1, v2, v3, v4⟩ := line_step_scan_ok xd yd xyd px py x_0 y_0 x_1 d_x d_y inc_x mod
      s hdx hdy32 hx1 hmod0 hmod1 hinc hinc0 hinc1 hs hy0 (by simp at hn; omega)
    have hnot : ¬ (line_step yd xyd d_y inc_x mod (sgn xd) s).int_y < int_y_1 := by
      rw [h2]; simp at hn; omega
    simp only [line_rows_scanlines, hnot, if_false]
    refine ⟨?_, List.pairwise_singleton _ _⟩
    intro a ha
    rw [List.mem_singleton] at ha
    rw [ha]
    exact ⟨v1, v2, v3, by omega, by simp at hn; omega⟩
  | succ n ih =>
    intro s hs hy0 hn
    obtain ⟨h1, h2⟩ := line_step_ok xd yd xyd px py x_0 y_0 x_1 d_x d_y inc_x mod s hdx hdy
      hdy32 hx1 hmod0 hmod1 hinc hinc0 hinc1 hs hy0 (by push_cast at hn; omega)
    obtain ⟨v1, v2, v3, v4⟩ := line_step_scan_ok xd yd xyd px py x_0 y_0 x_1 d_x d_y inc_x mod
      s hdx hdy32 hx1 hmod0 hmod1 hinc hinc0 hinc1 hs hy0 (by push_cast at hn; omega)
    have hlt : (line_step yd xyd d_y inc_x mod (sgn xd) s).int_y < int_y_1 := by
      rw [h2]; push_cast at hn; omega
    rw [line_rows_scanlines]
    simp only [hlt, if_true]
    obtain ⟨i1, i2⟩ := ih _ h1 (by rw [h2]; omega) (by rw [h2]; push_cast at hn ⊢; omega)
    constructor
    · intro a ha
      rcases List.mem_cons.mp ha with ha | ha
      · rw [ha]
        exact ⟨v1, v2, v3, by omega, by push_cast at hn; omega⟩
      · obtain ⟨q1, q2, q3, q4, q5⟩ := i1 a ha
        rw [h2] at q4
        exact ⟨q1, q2, q3, by omega, q5⟩
    · refine List.Pairwise.cons ?_ i2
      intro b hb
      have := (i1 b hb).2.2.2.1
      rw [h2] at this
      omega

theorem line_body_scan_ok (xd yd xyd : Direction_) (px py x_0 y_0 x_1 d_x d_y int_y_1 : Int)
    (s : Line_) (hdx : 0 < d_x) (hdx32 : d_x < 2147483648) (hdy : 0 < d_y)
    (hdy32 : d_y < 2147483648) (hx1 : x_1 = x_0 + sgn xyd * d_x)
    (hy1 : 256 * int_y_1 ≤ y_0 + d_y)
    (hs : Line_ok xd yd xyd px py x_0 y_0 d_x d_y (min x_0 x_1 / 256) (max x_0 x_1 / 256) s)
    (hy0 : y_0 ≤ 256 * s.int_y) :
    (∀ a ∈ line_body_scanlines xd yd xyd int_y_1 d_x d_y s,
      a.valid ∧ min x_0 x_1 / 256 ≤ a.int_x_0 ∧ a.int_x_1 ≤ max x_0 x_1 / 256 ∧
        s.int_y ≤ a.int_y ∧ a.int_y < int_y_1) ∧
    (line_body_scanlines xd yd xyd int_y_1 d_x d_y s).Pairwise
      (fun a b => a.int_y < b.int_y) := by
  unfold line_body_scanlines
  by_cases hlt : s.int_y < int_y_1
  · simp only [hlt, if_true, annex_eq_sgn]
    have hp : (if 0x1000000 > d_x then u32 (d_x * 256) else u64 (d_x * 256)) = 256 * d_x := by
      unfold u32 u64
      split_ifs <;> omega
    rw [hp]
    have hq : 256 * d_x / d_y < 2147483648 := by
      have : 256 * d_x / d_y ≤ d_x :=
        Int.ediv_le_of_le_mul hdy (by nlinarith)
      omega
    obtain ⟨k1, k2, k3, k4, k5⟩ := line_dda_div xd (256 * d_x) d_y (by omega) hdy hdy32 hq
    obtain ⟨n, hn⟩ : ∃ n : Nat, (int_y_1 - s.int_y).toNat = n + 1 :=
      ⟨(int_y_1 - s.int_y).toNat - 1, by omega⟩
    rw [hn]
    exact line_rows_scan_ok xd yd xyd px py x_0 y_0 x_1 d_x d_y _ _ int_y_1 hdx hdy hdy32 hx1
      k2 k3 k1 k4 k5 hy1 n s hs hy0 (by omega)
  · simp only [hlt, if_false]
    exact ⟨fun a ha => by simp at ha, List.Pairwise.nil⟩

theorem line_head_scan_ok (xd yd xyd : Direction_) (x_0 y_0 x_1 d_x d_y : Int)
    (hdx : 0 < d_x) (hdx32 : d_x < 2147483648) (hdy : 0 < d_y)
    (hdy32 : d_y < 2147483648) (hx1 : x_1 = x_0 + sgn xyd * d_x)
    (hrows : y_0 / 256 ≠ (y_0 + d_y) / 256) :
    (∀ a ∈ line_head_scanlines xd yd xyd x_0 y_0 d_x d_y,
      a.valid ∧ min x_0 x_1 / 256 ≤ a.int_x_0 ∧ a.int_x_1 ≤ max x_0 x_1 / 256 ∧
        a.int_y = y_0 / 256 ∧ (line_head xd yd xyd x_0 y_0 d_x d_y).int_y = y_0 / 256 + 1) ∧
    y_0 / 256 ≤ (line_head xd yd xyd x_0 y_0 d_x d_y).int_y := by
  unfold line_head_scanlines line_head
  by_cases hf : y_0 % 256 = 0
  · simp only [hf, ne_eq, not_true_eq_false, if_false]
    exact ⟨fun a ha => by simp at ha, le_refl _⟩
  · simp only [ne_eq, hf, not_false_eq_true, if_true]
    have hdl : 256 - y_0 % 256 ≤ d_y := by omega
    have hud : u32 (256 - y_0 % 256) = 256 - y_0 % 256 := by unfold u32; omega
    have hpp : 0 ≤ d_x * (256 - y_0 % 256) := mul_nonneg (le_of_lt hdx) (by omega)
    have hple : d_x * (256 - y_0 % 256) ≤ d_x * 256 :=
      mul_le_mul_of_nonneg_left (by omega) (le_of_lt hdx)
    have hp : (if 0x1000000 > d_x then u32 (d_x * u32 (256 - y_0 % 256))
        else u64 (d_x * u32 (256 - y_0 % 256))) = d_x * (256 - y_0 % 256) := by
      rw [hud]
      unfold u32 u64
      split_ifs <;> omega
    rw [hp]
    have hq : d_x * (256 - y_0 % 256) / d_y < 2147483648 := by
      have : d_x * (256 - y_0 % 256) / d_y ≤ d_x :=
        Int.ediv_le_of_le_mul hdy (mul_le_mul_of_nonneg_left hdl (le_of_lt hdx))
      omega
    obtain ⟨k1, k2, k3, k4, _⟩ := line_dda_div xd (d_x * (256 - y_0 % 256)) d_y hpp hdy hdy32 hq
    generalize (if xd = Direction_.negative ∧ u32 (d_x * (256 - y_0 % 256) % d_y) ≠ 0 then
      i32 (d_x * (256 - y_0 % 256) / d_y) + 1 else i32 (d_x * (256 - y_0 % 256) / d_y)) =
      delta_x at k1 k4 ⊢
    generalize (if xd = Direction_.negative ∧ u32 (d_x * (256 - y_0 % 256) % d_y) ≠ 0 then
      u32 (d_y - u32 (d_x * (256 - y_0 % 256) % d_y)) else u32 (d_x * (256 - y_0 % 256) % d_y)) =
      rem1 at k1 k2 k3 ⊢
    have hY : 256 * (y_0 / 256 + 1) - y_0 = 256 - y_0 % 256 := by omega
    refine ⟨?_, by omega⟩
    cases xyd
    · simp only [sgn_positive, one_mul] at hx1
      simp only [if_true]
      have hdda1 : sgn Direction_.positive * (x_0 + delta_x - x_0) * d_y + sgn xd * rem1 =
          d_x * (256 * (y_0 / 256 + 1) - y_0) := by
        rw [hY]; simp only [sgn_positive, one_mul]
        linear_combination k1
      have hb1 := adv_bounds xd (sgn Direction_.positive * (x_0 + delta_x - x_0)) rem1 d_x d_y
        (256 * (y_0 / 256 + 1) - y_0) hdda1 k2 k3 (by omega) (by omega) (le_of_lt hdx)
      simp only [sgn_positive, one_mul] at hb1
      intro a ha
      rw [List.mem_singleton] at ha
      rw [ha]
      unfold Scanline_.valid
      dsimp only
      refine ⟨⟨by omega, by omega, by omega, by omega, by omega, by omega, by omega, by omega⟩,
        by omega, by omega, rfl, trivial⟩
    · simp only [sgn_negative] at hx1
      simp only [reduceCtorEq, if_false]
      have hdda1 : sgn Direction_.negative * (x_0 - delta_x - x_0) * d_y + sgn xd * rem1 =
          d_x * (256 * (y_0 / 256 + 1) - y_0) := by
        rw [hY]; simp only [sgn_negative]
        linear_combination k1
      have hb1 := adv_bounds xd (sgn Direction_.negative * (x_0 - delta_x - x_0)) rem1 d_x d_y
        (256 * (y_0 / 256 + 1) - y_0) hdda1 k2 k3 (by omega) (by omega) (le_of_lt hdx)
      simp only [sgn_negative] at hb1
      intro a ha
      rw [List.mem_singleton] at ha
      rw [ha]
      unfold Scanline_.valid
      dsimp only
      refine ⟨⟨by omega, by omega, by omega, by omega, by omega, by omega, by omega, by omega⟩,
        by omega, by omega, rfl, trivial⟩

theorem line_head_scanlines_pairwise (xd yd xyd : Direction_) (x_0 y_0 d_x d_y : Int) :
    (line_head_scanlines xd yd xyd x_0 y_0 d_x d_y).Pairwise
      (fun a b => a.int_y < b.int_y) := by
  unfold line_head_scanlines
  dsimp only
  split_ifs
  · exact List.pairwise_singleton _ _
  · exact List.pairwise_singleton _ _
  · exact List.Pairwise.nil

/-- Every scanline of `add_line_<...>` is walked from left to right over its
exact extent in `x`, has a height in `1 .. 0x100`, and lies in the columns and
on the rows of the segment; the rows of the scanlines are strictly
increasing. -/
theorem add_line_dir_scan_ok (xd yd xyd : Direction_) (x_0 y_0 x_1 y_1 : Int)
    (hy : y_0 < y_1) (hy32 : y_1 - y_0 < 2147483648)
    (hx : 0 < sgn xyd * (x_1 - x_0)) (hx32 : sgn xyd * (x_1 - x_0) < 2147483648) :
    (∀ a ∈ add_line_dir_scanlines xd yd xyd x_0 y_0 x_1 y_1,
      a.valid ∧ min x_0 x_1 / 256 ≤ a.int_x_0 ∧ a.int_x_1 ≤ max x_0 x_1 / 256 ∧
        y_0 / 256 ≤ a.int_y ∧ a.int_y ≤ y_1 / 256) ∧
    (add_line_dir_scanlines xd yd xyd x_0 y_0 x_1 y_1).Pairwise
      (fun a b => a.int_y < b.int_y) := by
  unfold add_line_dir_scanlines
  by_cases hrow : y_0 / 256 = y_1 / 256
  · simp only [hrow, if_true]
    cases xyd
    · simp only [sgn_positive, one_mul] at hx
      simp only [if_true]
      refine ⟨?_, List.pairwise_singleton _ _⟩
      intro a ha
      rw [List.mem_singleton] at ha
      rw [ha]
      unfold Scanline_.valid
      dsimp only
      refine ⟨⟨by omega, by omega, by omega, by omega, by omega, by omega, by omega, by omega⟩,
        by omega, by omega, by omega, by omega⟩
    · simp only [sgn_negative] at hx
      simp only [reduceCtorEq, if_false]
      refine ⟨?_, List.pairwise_singleton _ _⟩
      intro a ha
      rw [List.mem_singleton] at ha
      rw [ha]
      unfold Scanline_.valid
      dsimp only
      refine ⟨⟨by omega, by omega, by omega, by omega, by omega, by omega, by omega, by omega⟩,
        by omega, by omega, by omega, by omega⟩
  · simp only [hrow, if_false]
    have hdy : u32 (y_1 - y_0) = y_1 - y_0 := by unfold u32; omega
    have hdx : (if xyd = Direction_.positive then u32 (x_1 - x_0) else u32 (x_0 - x_1)) =
        sgn xyd * (x_1 - x_0) := by
      cases xyd
      · simp only [sgn_positive, one_mul] at hx hx32
        simp only [if_true, sgn_positive, one_mul]; unfold u32; omega
      · simp only [sgn_negative] at hx hx32
        simp only [reduceCtorEq, if_false, sgn_negative]; unfold u32; omega
    rw [hdy, hdx]
    have hx1 : x_1 = x_0 + sgn xyd * (sgn xyd * (x_1 - x_0)) := by
      rw [← mul_assoc, sgn_mul_self]; ring
    have hrow1 : y_0 / 256 ≠ (y_0 + (y_1 - y_0)) / 256 := by
      rw [show y_0 + (y_1 - y_0) = y_1 by ring]; exact hrow
    obtain ⟨a1, a2, a3⟩ := line_head_ok xd yd xyd 0 0 x_0 y_0 x_1 (sgn xyd * (x_1 - x_0))
      (y_1 - y_0) hx hx32 (by omega) hy32 hx1 hrow1
    obtain ⟨g1, g2⟩ := line_head_scan_ok xd yd xyd x_0 y_0 x_1 (sgn xyd * (x_1 - x_0))
      (y_1 - y_0) hx hx32 (by omega) hy32 hx1 hrow1
    obtain ⟨b1, b2⟩ := line_body_ok xd yd xyd 0 0 x_0 y_0 x_1 (sgn xyd * (x_1 - x_0))
      (y_1 - y_0) (y_1 / 256) _ hx hx32 (by omega) hy32 hx1 (by omega) a1 a2 (by omega)
    obtain ⟨f1, f2⟩ := line_body_scan_ok xd yd xyd 0 0 x_0 y_0 x_1 (sgn xyd * (x_1 - x_0))
      (y_1 - y_0) (y_1 / 256) _ hx hx32 (by omega) hy32 hx1 (by omega) a1 a2
    have hHp := line_head_scanlines_pairwise xd yd xyd x_0 y_0 (sgn xyd * (x_1 - x_0))
      (y_1 - y_0)
    generalize line_head_scanlines xd yd xyd x_0 y_0 (sgn xyd * (x_1 - x_0)) (y_1 - y_0) =
      H at g1 hHp
    generalize line_body_scanlines xd yd xyd (y_1 / 256) (sgn xyd * (x_1 - x_0)) (y_1 - y_0)
      (line_head xd yd xyd x_0 y_0 (sgn xyd * (x_1 - x_0)) (y_1 - y_0)) = B at f1 f2
    generalize line_body xd yd xyd (y_1 / 256) (sgn xyd * (x_1 - x_0)) (y_1 - y_0)
      (line_head xd yd xyd x_0 y_0 (sgn xyd * (x_1 - x_0)) (y_1 - y_0)) = s at b1 b2
    generalize (line_head xd yd xyd x_0 y_0 (sgn xyd * (x_1 - x_0)) (y_1 - y_0)).int_y =
      y_h at g1 g2 f1 a2 a3
    obtain ⟨hix, hfx, hr0, hr1, hdda, _⟩ := b1
    rw [b2] at hdda
    have hT : ∀ a ∈ (if y_1 % 256 ≠ 0 then
          if xyd = Direction_.positive then
            [({ int_y := y_1 / 256, int_x_0 := s.int_x, int_x_1 := x_1 / 256,
                frac_x_0 := s.frac_x, frac_x_1 := x_1 % 256, d_x := x_1 - s.x,
                d_y := y_1 % 256 } : Scanline_)]
          else
            [({ int_y := y_1 / 256, int_x_0 := x_1 / 256, int_x_1 := s.int_x,
                frac_x_0 := x_1 % 256, frac_x_1 := s.frac_x, d_x := s.x - x_1,
                d_y := y_1 % 256 } : Scanline_)]
        else []),
        a.valid ∧ min x_0 x_1 / 256 ≤ a.int_x_0 ∧ a.int_x_1 ≤ max x_0 x_1 / 256 ∧
          a.int_y = y_1 / 256 := by
      intro a ha
      by_cases hf : y_1 % 256 = 0
      · simp only [hf, ne_eq, not_true_eq_false, if_false] at ha
        simp at ha
      · simp only [ne_eq, hf, not_false_eq_true, if_true] at ha
        have hb := adv_bounds xd (sgn xyd * (s.x - x_0)) s.rem (sgn xyd * (x_1 - x_0))
          (y_1 - y_0) (256 * (y_1 / 256) - y_0) hdda hr0 hr1 (by omega) (by omega) (le_of_lt hx)
        cases xyd
        · simp only [sgn_positive, one_mul] at hx hb
          simp only [if_true, List.mem_singleton] at ha
          rw [ha]
          unfold Scanline_.valid
          dsimp only
          refine ⟨⟨by omega, by omega, by omega, by omega, by omega, by omega, by omega,
            by omega⟩, by omega, by omega, rfl⟩
        · simp only [sgn_negative] at hx hb
          simp only [reduceCtorEq, if_false, List.mem_singleton] at ha
          rw [ha]
          unfold Scanline_.valid
          dsimp only
          refine ⟨⟨by omega, by omega, by omega, by omega, by omega, by omega, by omega,
            by omega⟩, by omega, by omega, rfl⟩
    have hTp : (if y_1 % 256 ≠ 0 then
          if xyd = Direction_.positive then
            [({ int_y := y_1 / 256, int_x_0 := s.int_x, int_x_1 := x_1 / 256,
                frac_x_0 := s.frac_x, frac_x_1 := x_1 % 256, d_x := x_1 - s.x,
                d_y := y_1 % 256 } : Scanline_)]
          else
            [({ int_y := y_1 / 256, int_x_0 := x_1 / 256, int_x_1 := s.int_x,
                frac_x_0 := x_1 % 256, frac_x_1 := s.frac_x, d_x := s.x - x_1,
                d_y := y_1 % 256 } : Scanline_)]
        else []).Pairwise (fun a b => a.int_y < b.int_y) := by
      split_ifs
      · exact List.pairwise_singleton _ _
      · exact List.pairwise_singleton _ _
      · exact List.Pairwise.nil
    generalize (if y_1 % 256 ≠ 0 then
          if xyd = Direction_.positive then
            [({ int_y := y_1 / 256, int_x_0 := s.int_x, int_x_1 := x_1 / 256,
                frac_x_0 := s.frac_x, frac_x_1 := x_1 % 256, d_x := x_1 - s.x,
                d_y := y_1 % 256 } : Scanline_)]
          else
            [({ int_y := y_1 / 256, int_x_0 := x_1 / 256, int_x_1 := s.int_x,
                frac_x_0 := x_1 % 256, frac_x_1 := s.frac_x, d_x := s.x - x_1,
                d_y := y_1 % 256 } : Scanline_)]
        else []) = T at hT hTp
    have hlt : y_0 / 256 < y_1 / 256 := by omega
    constructor
    · intro a ha
      rcases List.mem_append.mp ha with ha | ha
      · rcases List.mem_append.mp ha with ha | ha
        · obtain ⟨q1, q2, q3, q4, _⟩ := g1 a ha
          exact ⟨q1, q2, q3, by omega, by omega⟩
        · obtain ⟨q1, q2, q3, q4, q5⟩ := f1 a ha
          exact ⟨q1, q2, q3, by omega, by omega⟩
      · obtain ⟨q1, q2, q3, q4⟩ := hT a ha
        exact ⟨q1, q2, q3, by omega, by omega⟩
    · rw [List.pairwise_append, List.pairwise_append]
      refine ⟨⟨hHp, f2, ?_⟩, hTp, ?_⟩
      · intro a ha b hb
        obtain ⟨_, _, _, q4, q5⟩ := g1 a ha
        obtain ⟨_, _, _, p4, _⟩ := f1 b hb
        omega
      · intro a ha b hb
        have hbT := (hT b hb).2.2.2
        rcases List.mem_append.mp ha with ha | ha
        · have := (g1 a ha).2.2.2.1
          omega
        · have := (f1 a ha).2.2.2.2
          omega

end Rasterizer

end vgxx

namespace vgxx

namespace Rasterizer

/-! ### The columns of the cells of a scanline -/

theorem cols_snoc (L : List Emission) (lo : Int) (e : Emission)
    (h : L.map (fun e => e.x) = (List.range L.length).map (fun i : Nat => lo + (i : Int)))
    (he : e.x = lo + L.length) :
    (L ++ [e]).map (fun e => e.x) =
      (List.range (L ++ [e]).length).map (fun i : Nat => lo + (i : Int)) := by
  rw [List.length_append, List.length_singleton, List.range_succ, List.map_append,
    List.map_append, h]
  simp [he]

/-- Cells in the columns `lo, lo + 1, ...`, one each and in this order, are
at consecutive columns. -/
theorem cols_chain : ∀ (L : List Emission) (lo : Int),
    L.map (fun e => e.x) = (List.range L.length).map (fun i : Nat => lo + (i : Int)) →
    L.Chain' (fun a b => b.x = a.x + 1) ∧ ∀ e ∈ L, lo ≤ e.x ∧ e.x < lo + L.length := by
  intro L
  induction L with
  | nil => intro lo _; exact ⟨List.chain'_nil, fun e he => by simp at he⟩
  | cons a t ih =>
    intro lo h
    rw [List.length_cons, List.range_succ_eq_map, List.map_cons, List.map_cons,
      List.map_map] at h
    have ha : a.x = lo := by
      have := (List.cons.inj h).1
      simpa using this
    have ht : t.map (fun e => e.x) =
        (List.range t.length).map (fun i : Nat => (lo + 1) + (i : Int)) := by
      rw [(List.cons.inj h).2]
      apply List.map_congr_left
      intro i _
      simp only [Function.comp, Nat.succ_eq_add_one]
      push_cast
      ring
    obtain ⟨i1, i2⟩ := ih (lo + 1) ht
    constructor
    · cases t with
      | nil => exact List.chain'_singleton _
      | cons b u =>
        rw [List.chain'_cons]
        refine ⟨?_, i1⟩
        have hb := (i2 b (List.mem_cons_self _ _))
        have hbx : b.x = lo + 1 := by
          rw [List.length_cons, List.range_succ_eq_map, List.map_cons, List.map_cons] at ht
          have := (List.cons.inj ht).1
          simpa using this
        rw [hbx, ha]
    · intro e he
      rcases List.mem_cons.mp he with he | he
      · rw [he, ha, List.length_cons]
        push_cast
        omega
      · have := i2 e he
        rw [List.length_cons]
        push_cast
        omega

theorem Scan_cols.push {px py : Int} {E0 : List Emission} {int_y int_x_0 : Int} {s : Scan_}
    (h : Scan_cols px py E0 int_y int_x_0 s) (s1 : Scan_) (cover area : Int)
    (hcalls : s1.calls = s.calls ++
      [if s.cell_x_valid then Cell_call.inc_x else Cell_call.set_x s.int_x,
        Cell_call.set_cell cover area])
    (hx : s1.int_x = s.int_x + 1) (hv : s1.cell_x_valid = true) :
    Scan_cols px py E0 int_y int_x_0 s1 := by
  obtain ⟨h1, h2, h3, L, hL, hy, hc, hn⟩ := h
  have hpy : pos_y py s1.calls = int_y := by
    rw [hcalls, pos_y_append, h1]
    split_ifs <;> rfl
  have hpx : pos_x px s1.calls = s.int_x := by
    rw [hcalls, pos_x_append]
    by_cases hvalid : s.cell_x_valid = true
    · rw [if_pos hvalid]
      show pos_x px s.calls + 1 = s.int_x
      rw [h2 hvalid]
      omega
    · rw [if_neg hvalid]
      rfl
  have hem : emissions px py s1.calls = E0 ++ (L ++ [⟨s.int_x, int_y, cover, area⟩]) := by
    rw [hcalls, emissions_append, hL, h1, List.append_assoc]
    congr 1
    congr 1
    by_cases hvalid : s.cell_x_valid = true
    · rw [if_pos hvalid]
      show [(⟨pos_x px s.calls + 1, int_y, cover, area⟩ : Emission)] = _
      rw [h2 hvalid]
      congr 2
      omega
    · rw [if_neg hvalid]
      rfl
  refine ⟨hpy, fun _ => by rw [hpx, hx]; omega, fun hf => ?_, _, hem, ?_, ?_, ?_⟩
  · rw [hv] at hf
    exact absurd hf (by decide)
  · intro e he
    rcases List.mem_append.mp he with he | he
    · exact hy e he
    · rw [List.mem_singleton] at he
      rw [he]
  · exact cols_snoc L int_x_0 _ hc (by show s.int_x = _; omega)
  · rw [List.length_append, List.length_singleton, hx]
    push_cast
    omega

theorem scan_entry_cols (d : Direction_) (px py : Int) (calls : List Cell_call)
    (int_y int_x_0 frac_x_0 d_x p : Int) (hrow : pos_y py calls = int_y) :
    Scan_cols px py (emissions px py calls) int_y int_x_0
      (scan_entry d calls int_x_0 frac_x_0 d_x p) ∧
    (scan_entry d calls int_x_0 frac_x_0 d_x p).int_x =
      (if frac_x_0 ≠ 0 then int_x_0 + 1 else int_x_0) := by
  have h0 : Scan_cols px py (emissions px py calls) int_y int_x_0
      { calls := calls, int_x := int_x_0, y := 0, rem := 0, cell_x := 0,
        cell_x_valid := false } :=
    ⟨hrow, fun h => by simp at h, fun _ => rfl, [], by simp, by simp, by simp, by simp⟩
  unfold scan_entry
  by_cases hf : frac_x_0 = 0
  · simp only [hf, ne_eq, not_true_eq_false, if_false]
    exact ⟨h0, trivial⟩
  · simp only [ne_eq, hf, not_false_eq_true, if_true]
    exact ⟨h0.push _ _ _ rfl rfl rfl, trivial⟩

theorem scan_step_cols (d : Direction_) (px py : Int) (E0 : List Emission)
    (int_y int_x_0 d_x inc_y mod annex : Int) (s : Scan_)
    (h : Scan_cols px py E0 int_y int_x_0 s) :
    Scan_cols px py E0 int_y int_x_0 (scan_step d d_x inc_y mod annex s) ∧
    (scan_step d d_x inc_y mod annex s).int_x = s.int_x + 1 ∧
    (scan_step d d_x inc_y mod annex s).cell_x_valid = true :=
  ⟨h.push _ _ _ rfl rfl rfl, rfl, rfl⟩

theorem scan_cells_cols (d : Direction_) (px py : Int) (E0 : List Emission)
    (int_y int_x_0 int_x_1 d_x inc_y mod annex : Int) :
    ∀ (fuel : Nat) (s : Scan_), s.int_x + (fuel : Int) = int_x_1 → 1 ≤ fuel →
      Scan_cols px py E0 int_y int_x_0 s →
      Scan_cols px py E0 int_y int_x_0 (scan_cells d int_x_1 d_x inc_y mod annex fuel s) ∧
      (scan_cells d int_x_1 d_x inc_y mod annex fuel s).int_x = int_x_1 ∧
      (scan_cells d int_x_1 d_x inc_y mod annex fuel s).cell_x_valid = true := by
  intro fuel
  induction fuel with
  | zero => intro s _ h; omega
  | succ n ih =>
    intro s h _ hs
    push_cast at h
    obtain ⟨h1, h2, h3⟩ := scan_step_cols d px py E0 int_y int_x_0 d_x inc_y mod annex s hs
    rw [scan_cells]
    by_cases hlt : (scan_step d d_x inc_y mod annex s).int_x < int_x_1
    · simp only [hlt, if_true]
      exact ih _ (by omega) (by omega) h1
    · simp only [hlt, if_false]
      exact ⟨h1, by omega, h3⟩

theorem scan_interior_cols (d : Direction_) (px py : Int) (E0 : List Emission)
    (int_y int_x_0 int_x_1 d_x p : Int) (s : Scan_) (hle : s.int_x ≤ int_x_1)
    (hlt : int_x_0 < int_x_1) (h : Scan_cols px py E0 int_y int_x_0 s) :
    Scan_cols px py E0 int_y int_x_0 (scan_interior d int_x_1 d_x p s) ∧
    (scan_interior d int_x_1 d_x p s).int_x = int_x_1 ∧
    (scan_interior d int_x_1 d_x p s).cell_x_valid = true := by
  unfold scan_interior
  by_cases hi : s.int_x < int_x_1
  · simp only [hi, if_true]
    exact scan_cells_cols d px py E0 int_y int_x_0 int_x_1 d_x _ _ _
      (int_x_1 - s.int_x).toNat s (by omega) (by omega) h
  · simp only [hi, if_false]
    refine ⟨h, by omega, ?_⟩
    by_contra hv
    have hv0 : s.cell_x_valid = false := by
      cases hb : s.cell_x_valid
      · rfl
      · exact absurd hb hv
    have := h.2.2.1 hv0
    omega

/-- The cells of one `add_scanline_` call with `int_x_0 ≤ int_x_1`: they lie on
row `int_y`, in the columns `int_x_0, int_x_0 + 1, ...`, one each and in this
order, up to column `int_x_1` at most; there is at least one. -/
theorem add_scanline_cols (d : Direction_) (px py : Int) (calls : List Cell_call)
    (int_y int_x_0 int_x_1 frac_x_0 frac_x_1 d_x d_y : Int) (hle : int_x_0 ≤ int_x_1) :
    ∃ L, emissions px py
        (add_scanline_ d calls int_y int_x_0 int_x_1 frac_x_0 frac_x_1 d_x d_y) =
        emissions px py calls ++ L ∧
      (∀ e ∈ L, e.y = int_y) ∧
      L.map (fun e => e.x) = (List.range L.length).map (fun i : Nat => int_x_0 + (i : Int)) ∧
      1 ≤ L.length ∧ (L.length : Int) ≤ int_x_1 - int_x_0 + 1 := by
  have hrow : pos_y py (calls ++ [Cell_call.set_y int_y]) = int_y := by
    simp [pos_y_append, pos_y]
  have hem : emissions px py (calls ++ [Cell_call.set_y int_y]) = emissions px py calls := by
    simp [emissions_append, emissions]
  unfold add_scanline_
  by_cases heq : int_x_0 = int_x_1
  · simp only [heq, if_true]
    refine ⟨[⟨int_x_1, int_y, if d = Direction_.positive then d_y else -d_y,
      (if d = Direction_.positive then d_y else -d_y) * (frac_x_0 + frac_x_1)⟩], ?_, ?_,
      by simp [List.range_succ], by simp, by simp⟩
    · rw [emissions_append, hem, hrow]
      rfl
    · intro e he
      rw [List.mem_singleton] at he
      rw [he]
  · simp only [heq, if_false]
    have hlt : int_x_0 < int_x_1 := by omega
    obtain ⟨e1, e2⟩ := scan_entry_cols d px py (calls ++ [Cell_call.set_y int_y]) int_y
      int_x_0 frac_x_0 d_x ((0x100 - frac_x_0) * d_y) hrow
    rw [hem] at e1
    obtain ⟨i1, i2, i3⟩ := scan_interior_cols d px py (emissions px py calls) int_y int_x_0
      int_x_1 d_x (d_y * 256) _ (by rw [e2]; split_ifs <;> omega) hlt e1
    generalize scan_interior d int_x_1 d_x (d_y * 256)
        (scan_entry d (calls ++ [Cell_call.set_y int_y]) int_x_0 frac_x_0 d_x
          ((0x100 - frac_x_0) * d_y)) = s at i1 i2 i3
    have hfin : ∀ s1 : Scan_, Scan_cols px py (emissions px py calls) int_y int_x_0 s1 →
        int_x_1 ≤ s1.int_x → s1.int_x ≤ int_x_1 + 1 →
        ∃ L, emissions px py s1.calls = emissions px py calls ++ L ∧
          (∀ e ∈ L, e.y = int_y) ∧
          L.map (fun e => e.x) =
            (List.range L.length).map (fun i : Nat => int_x_0 + (i : Int)) ∧
          1 ≤ L.length ∧ (L.length : Int) ≤ int_x_1 - int_x_0 + 1 := by
      intro s1 hs1 k1 k2
      obtain ⟨_, _, _, L, q1, q2, q3, q4⟩ := hs1
      exact ⟨L, q1, q2, q3, by omega, by omega⟩
    unfold scan_exit
    by_cases hf : frac_x_1 = 0
    · simp only [hf, ne_eq, not_true_eq_false, if_false]
      exact hfin s i1 (by omega) (by omega)
    · simp only [ne_eq, hf, not_false_eq_true, if_true]
      by_cases hd : d_y - s.y = 0
      · simp only [hd, not_true_eq_false, if_false]
        exact hfin s i1 (by omega) (by omega)
      · simp only [hd, not_false_eq_true, if_true]
        have hs1 := i1.push
          ⟨s.calls ++ [Cell_call.inc_x,
              Cell_call.set_cell (if d = Direction_.positive then d_y - s.y else -(d_y - s.y))
                ((if d = Direction_.positive then d_y - s.y else -(d_y - s.y)) * frac_x_1)],
            s.int_x + 1, s.y, s.rem, s.cell_x, true⟩
          (if d = Direction_.positive then d_y - s.y else -(d_y - s.y))
          ((if d = Direction_.positive then d_y - s.y else -(d_y - s.y)) * frac_x_1)
          (by rw [i3]; rfl) rfl rfl
        exact hfin _ hs1 (by show int_x_1 ≤ s.int_x + 1; omega)
          (by show s.int_x + 1 ≤ int_x_1 + 1; omega)

end Rasterizer

end vgxx

namespace vgxx

namespace Rasterizer

/-! ### The positions of the cells of a segment -/

/-- Scanlines on strictly increasing rows, each walked from left to right,
made after calls whose cells lie on earlier rows: on every row the cells are
at consecutive columns, in ascending order. -/
theorem scanlines_rows (yd : Direction_) (px py : Int) :
    ∀ (S : List Scanline_) (calls : List Cell_call),
      (∀ a ∈ S, a.int_x_0 ≤ a.int_x_1) → S.Pairwise (fun a b => a.int_y < b.int_y) →
      (∀ e ∈ emissions px py calls, ∀ a ∈ S, e.y < a.int_y) →
      (∀ r, ((emissions px py calls).filter (fun e => decide (e.y = r))).Chain'
        (fun a b => b.x = a.x + 1)) →
      ∀ r, ((emissions px py (S.foldl (fun calls a => Scanline_.run yd calls a)
        calls)).filter (fun e => decide (e.y = r))).Chain' (fun a b => b.x = a.x + 1) := by
  intro S
  induction S with
  | nil => intro calls _ _ _ h; exact h
  | cons a t ih =>
    intro calls hle hp hE hrows
    rw [List.foldl_cons]
    obtain ⟨L, hL, hLy, hLc, _, _⟩ := add_scanline_cols yd px py calls a.int_y a.int_x_0
      a.int_x_1 a.frac_x_0 a.frac_x_1 a.d_x a.d_y (hle a (List.mem_cons_self _ _))
    have hrun : emissions px py (Scanline_.run yd calls a) = emissions px py calls ++ L := hL
    rw [List.pairwise_cons] at hp
    apply ih (Scanline_.run yd calls a) (fun b hb => hle b (List.mem_cons_of_mem _ hb)) hp.2
    · intro e he b hb
      rw [hrun] at he
      rcases List.mem_append.mp he with he | he
      · exact hE e he b (List.mem_cons_of_mem _ hb)
      · rw [hLy e he]
        exact hp.1 b hb
    · intro r
      rw [hrun, List.filter_append]
      by_cases hr : r = a.int_y
      · have h1 : (emissions px py calls).filter (fun e => decide (e.y = r)) = [] := by
          rw [List.filter_eq_nil_iff]
          intro e he
          have := hE e he a (List.mem_cons_self _ _)
          simp only [decide_eq_true_eq]
          omega
        have h2 : L.filter (fun e => decide (e.y = r)) = L := by
          rw [List.filter_eq_self]
          intro e he
          simp only [decide_eq_true_eq]
          rw [hLy e he, hr]
        rw [h1, h2, List.nil_append]
        exact (cols_chain L a.int_x_0 hLc).1
      · have h2 : L.filter (fun e => decide (e.y = r)) = [] := by
          rw [List.filter_eq_nil_iff]
          intro e he
          simp only [decide_eq_true_eq]
          rw [hLy e he]
          exact fun h => hr h.symm
        rw [h2, List.append_nil]
        exact hrows r

theorem add_line_dir_rows (xd yd xyd : Direction_) (px py x_0 y_0 x_1 y_1 : Int)
    (hy : y_0 < y_1) (hy32 : y_1 - y_0 < 2147483648)
    (hx : 0 < sgn xyd * (x_1 - x_0)) (hx32 : sgn xyd * (x_1 - x_0) < 2147483648) (r : Int) :
    ((emissions px py (add_line_dir xd yd xyd x_0 y_0 x_1 y_1)).filter
      (fun e => decide (e.y = r))).Chain' (fun a b => b.x = a.x + 1) := by
  obtain ⟨h1, h2⟩ := add_line_dir_scan_ok xd yd xyd x_0 y_0 x_1 y_1 hy hy32 hx hx32
  rw [add_line_dir_fold]
  exact scanlines_rows yd px py _ [] (fun a ha => (h1 a ha).1.2.2.2.2.1) h2
    (fun e he => by simp [emissions] at he) (fun r => by simp [emissions]) r

/-- On every row the cells of a segment are at consecutive columns, in
ascending order. -/
theorem add_line_rows (px py x_0 y_0 x_1 y_1 : Int)
    (hx : |x_1 - x_0| < 2147483648) (hy : |y_1 - y_0| < 2147483648) (r : Int) :
    ((emissions px py (add_line_ x_0 y_0 x_1 y_1)).filter
      (fun e => decide (e.y = r))).Chain' (fun a b => b.x = a.x + 1) := by
  rw [abs_lt] at hx hy
  unfold add_line_
  by_cases hy0 : y_0 = y_1
  · simp only [hy0, if_true, emissions]
    exact List.chain'_nil
  · simp only [hy0, if_false]
    by_cases hx0 : x_0 = x_1
    · simp only [hx0, if_true]
      rw [add_line_vertical_row px py x_1 y_0 y_1 hy0 r]
      split_ifs
      · exact List.chain'_singleton _
      · exact List.chain'_nil
    · simp only [hx0, if_false]
      by_cases hxd : x_1 > x_0
      · simp only [hxd, if_true]
        by_cases hyd : y_1 > y_0
        · simp only [hyd, if_true]
          exact add_line_dir_rows _ _ _ px py x_0 y_0 x_1 y_1 hyd (by omega)
            (by simp only [sgn_positive]; omega) (by simp only [sgn_positive]; omega) r
        · simp only [hyd, if_false]
          exact add_line_dir_rows _ _ _ px py x_1 y_1 x_0 y_0 (by omega) (by omega)
            (by simp only [sgn_negative]; omega) (by simp only [sgn_negative]; omega) r
      · simp only [hxd, if_false]
        by_cases hyd : y_1 > y_0
        · simp only [hyd, if_true]
          exact add_line_dir_rows _ _ _ px py x_0 y_0 x_1 y_1 hyd (by omega)
            (by simp only [sgn_negative]; omega) (by simp only [sgn_negative]; omega) r
        · simp only [hyd, if_false]
          exact add_line_dir_rows _ _ _ px py x_1 y_1 x_0 y_0 (by omega) (by omega)
            (by simp only [sgn_positive]; omega) (by simp only [sgn_positive]; omega) r

end Rasterizer

end vgxx

namespace vgxx

namespace Rasterizer

/-! ### The divisors of the segment decomposition -/

/-- A scanline walked from left to right over its exact extent divides only
when it spans more than one cell, and then by an extent that is positive. -/
theorem Scanline_.divisors_pos (a : Scanline_) (h : a.valid) :
    ∀ d ∈ a.divisors, a.int_x_0 < a.int_x_1 ∧ d = a.d_x ∧ 0 < d := by
  obtain ⟨h1, h2, h3, h4, h5, h6, _, _⟩ := h
  intro d hd
  unfold Scanline_.divisors at hd
  by_cases heq : a.int_x_0 = a.int_x_1
  · rw [if_pos heq] at hd
    simp at hd
  · rw [if_neg heq] at hd
    have hdx : d = a.d_x := by
      rcases List.mem_append.mp hd with hd | hd
      · split_ifs at hd
        · simp at hd
          exact hd
        · simp at hd
      · split_ifs at hd <;> first | (simp at hd; exact hd) | (simp at hd)
    exact ⟨by omega, hdx, by omega⟩

theorem add_line_dir_divisors_pos (xd yd xyd : Direction_) (x_0 y_0 x_1 y_1 : Int)
    (hy : y_0 < y_1) (hy32 : y_1 - y_0 < 2147483648)
    (hx : 0 < sgn xyd * (x_1 - x_0)) (hx32 : sgn xyd * (x_1 - x_0) < 2147483648) :
    ∀ d ∈ add_line_dir_divisors xd yd xyd x_0 y_0 x_1 y_1, 0 < d := by
  obtain ⟨h1, _⟩ := add_line_dir_scan_ok xd yd xyd x_0 y_0 x_1 y_1 hy hy32 hx hx32
  have hdy : u32 (y_1 - y_0) = y_1 - y_0 := by unfold u32; omega
  intro d hd
  unfold add_line_dir_divisors at hd
  rcases List.mem_append.mp hd with hd | hd
  · have hd1 : d = u32 (y_1 - y_0) := by
      dsimp only at hd
      split_ifs at hd <;> simp at hd <;> exact hd
    rw [hd1, hdy]
    omega
  · obtain ⟨a, ha, hda⟩ := List.mem_flatMap.mp hd
    exact (Scanline_.divisors_pos a (h1 a ha).1 d hda).2.2

/-- Every division and remainder of `add_line_` has a positive divisor. -/
theorem add_line_divisors_pos (x_0 y_0 x_1 y_1 : Int)
    (hx : |x_1 - x_0| < 2147483648) (hy : |y_1 - y_0| < 2147483648) :
    ∀ d ∈ add_line_divisors x_0 y_0 x_1 y_1, 0 < d := by
  rw [abs_lt] at hx hy
  unfold add_line_divisors
  by_cases hy0 : y_0 = y_1
  · simp only [hy0, if_true]
    intro d hd
    simp at hd
  · simp only [hy0, if_false]
    by_cases hx0 : x_0 = x_1
    · simp only [hx0, if_true]
      intro d hd
      simp at hd
    · simp only [hx0, if_false]
      by_cases hxd : x_1 > x_0
      · simp only [hxd, if_true]
        by_cases hyd : y_1 > y_0
        · simp only [hyd, if_true]
          exact add_line_dir_divisors_pos _ _ _ x_0 y_0 x_1 y_1 hyd (by omega)
            (by simp only [sgn_positive]; omega) (by simp only [sgn_positive]; omega)
        · simp only [hyd, if_false]
          exact add_line_dir_divisors_pos _ _ _ x_1 y_1 x_0 y_0 (by omega) (by omega)
            (by simp only [sgn_negative]; omega) (by simp only [sgn_negative]; omega)
      · simp only [hxd, if_false]
        by_cases hyd : y_1 > y_0
        · simp only [hyd, if_true]
          exact add_line_dir_divisors_pos _ _ _ x_0 y_0 x_1 y_1 hyd (by omega)
            (by simp only [sgn_negative]; omega) (by simp only [sgn_negative]; omega)
        · simp only [hyd, if_false]
          exact add_line_dir_divisors_pos _ _ _ x_1 y_1 x_0 y_0 (by omega) (by omega)
            (by simp only [sgn_positive]; omega) (by simp only [sgn_positive]; omega)

end Rasterizer

end vgxx

namespace vgxx

/-! ### The image after a sweep -/

/-- The blender calls of a sequence whose `set_y` arguments are row numbers of
the image and whose `blend` calls are all made at a known column and row: the
calls return and leave the image painted with the blend log of the
sequence. -/
theorem Image_blender.run_paint :
    ∀ (calls : List Blender_call) (s : Image_blender) (ox oy : Option Int),
      (∀ y, oy = some y → s.base.row_ = some ((s.base.bytes_per_row_ : Int) * y)) →
      (∀ x y, ox = some x → oy = some y →
        s.base.pixel_ = some (pixel_offset s.base.bytes_per_row_ x y)) →
      (∀ y, Blender_call.set_y y ∈ calls → 0 ≤ y ∧ y < 18446744073709551616 ∧
        (s.base.bytes_per_row_ : Int) * y < 18446744073709551616) →
      (∀ e ∈ blend_log ox oy calls, ∃ x y v, e = (some x, some y, v)) →
      ∃ s1, s.run calls = some s1 ∧
        s1.img = paint s.colors s.base.bytes_per_row_ s.img (blend_log ox oy calls) ∧
        s1.colors = s.colors ∧ s1.base.bytes_per_row_ = s.base.bytes_per_row_ := by
  intro calls
  induction calls with
  | nil => intro s ox oy _ _ _ _; exact ⟨s, rfl, rfl, rfl, rfl⟩
  | cons c t ih =>
    intro s ox oy hrow hpix hsety hlog
    have hsety1 : ∀ y, Blender_call.set_y y ∈ t → 0 ≤ y ∧ y < 18446744073709551616 ∧
        (s.base.bytes_per_row_ : Int) * y < 18446744073709551616 :=
      fun y hy => hsety y (List.mem_cons_of_mem _ hy)
    cases c with
    | set_y y =>
      obtain ⟨k1, k2, k3⟩ := hsety y (List.mem_cons_self _ _)
      have hn : (0 : Int) ≤ (s.base.bytes_per_row_ : Int) := Int.natCast_nonneg _
      have hu : u64 ((s.base.bytes_per_row_ : Int) * u64 y) =
          (s.base.bytes_per_row_ : Int) * y := by
        have h1 : u64 y = y := by unfold u64; omega
        rw [h1]
        have h2 : 0 ≤ (s.base.bytes_per_row_ : Int) * y := mul_nonneg hn k1
        unfold u64
        omega
      obtain ⟨s1, r1, r2, r3, r4⟩ := ih { s with base := s.base.set_y y } none (some y)
        (by intro y1 hy1
            have : y = y1 := Option.some.inj hy1
            subst this
            show some (u64 ((s.base.bytes_per_row_ : Int) * u64 y)) = _
            rw [hu]
            rfl)
        (by intro x y1 hx; cases hx)
        hsety1 hlog
      exact ⟨s1, r1, r2, r3, r4⟩
    | set_x x =>
      obtain ⟨s1, r1, r2, r3, r4⟩ := ih { s with base := s.base.set_x x } (some x) oy
        (fun y hy => hrow y hy)
        (by intro x1 y hx hy
            have : x = x1 := Option.some.inj hx
            subst this
            show (s.base.row_).map (fun p => p + 4 * x) = _
            rw [hrow y hy]
            rfl)
        hsety1 hlog
      exact ⟨s1, r1, r2, r3, r4⟩
    | inc_x =>
      obtain ⟨s1, r1, r2, r3, r4⟩ := ih { s with base := s.base.inc_x } (ox.map (· + 1)) oy
        (fun y hy => hrow y hy)
        (by intro x1 y hx hy
            cases ox with
            | none => cases hx
            | some x0 =>
              have : x0 + 1 = x1 := Option.some.inj hx
              subst this
              show (s.base.pixel_).map (fun p => p + 4) = _
              rw [hpix x0 y rfl hy]
              show some (pixel_offset s.base.bytes_per_row_ x0 y + 4) =
                some (pixel_offset s.base.bytes_per_row_ (x0 + 1) y)
              unfold pixel_offset
              congr 1
              ring)
        hsety1 hlog
      exact ⟨s1, r1, r2, r3, r4⟩
    | inc_y =>
      obtain ⟨s1, r1, r2, r3, r4⟩ := ih { s with base := s.base.inc_y } none (oy.map (· + 1))
        (by intro y1 hy1
            cases oy with
            | none => cases hy1
            | some y0 =>
              have : y0 + 1 = y1 := Option.some.inj hy1
              subst this
              show (s.base.row_).map (fun p => p + (s.base.bytes_per_row_ : Int)) = _
              rw [hrow y0 rfl]
              show some ((s.base.bytes_per_row_ : Int) * y0 + (s.base.bytes_per_row_ : Int)) =
                some ((s.base.bytes_per_row_ : Int) * (y0 + 1))
              congr 1
              ring)
        (by intro x y1 hx; cases hx)
        hsety1 hlog
      exact ⟨s1, r1, r2, r3, r4⟩
    | blend coverage =>
      obtain ⟨x, y, v, he⟩ := hlog (ox, oy, coverage) (List.mem_cons_self _ _)
      have hox : ox = some x := (Prod.mk.inj he).1
      have hoy : oy = some y := (Prod.mk.inj (Prod.mk.inj he).2).1
      subst hox
      subst hoy
      have hp := hpix x y rfl rfl
      have hcall : s.call (Blender_call.blend coverage) = some { s with
          img := fun q => if q = pixel_offset s.base.bytes_per_row_ x y then
            s.colors.blend (u32 coverage).toNat (s.img (pixel_offset s.base.bytes_per_row_ x y))
            else s.img q } := by
        show (match s.base.pixel_ with
          | none => none
          | some p => some { s with
              img := fun q => if q = p then s.colors.blend (u32 coverage).toNat (s.img p)
                else s.img q }) = _
        rw [hp]
      obtain ⟨s1, r1, r2, r3, r4⟩ := ih { s with
          img := fun q => if q = pixel_offset s.base.bytes_per_row_ x y then
            s.colors.blend (u32 coverage).toNat (s.img (pixel_offset s.base.bytes_per_row_ x y))
            else s.img q } (some x) (some y)
        (fun y1 hy1 => hrow y1 hy1) (fun x1 y1 hx1 hy1 => hpix x1 y1 hx1 hy1) hsety1
        (fun e he1 => hlog e (List.mem_cons_of_mem _ he1))
      refine ⟨s1, ?_, r2, r3, r4⟩
      show (s.call (Blender_call.blend coverage)).bind (fun s0 => s0.run t) = some s1
      rw [hcall]
      exact r1

/-- Full coverage with an opaque colour stores the colour. -/
theorem Color_blender_bgra_8888.blend_full (b : Color_blender_bgra_8888) (d : Nat)
    (hA : b.alpha_ = 255) : b.blend (u32 255).toNat d = b.color_ := by
  have h255 : (u32 255).toNat = 255 := by decide
  unfold Color_blender_bgra_8888.blend
  rw [h255, hA, if_neg (by decide)]

/-- A blend log of `blend(255)` calls with an opaque colour paints the pixels
of the log with the colour and leaves every other offset as it was. -/
theorem paint_full (colors : Color_blender_bgra_8888) (bytes_per_row : Nat)
    (hA : colors.alpha_ = 255) :
    ∀ (L : List (Option Int × Option Int × Int)) (img : Int → Nat) (q : Int),
      (∀ e ∈ L, ∃ x y, e = (some x, some y, 255)) →
      ((∃ x y, (some x, some y, (255 : Int)) ∈ L ∧ q = pixel_offset bytes_per_row x y) →
        paint colors bytes_per_row img L q = colors.color_) ∧
      ((¬ ∃ x y, (some x, some y, (255 : Int)) ∈ L ∧ q = pixel_offset bytes_per_row x y) →
        paint colors bytes_per_row img L q = img q) := by
  intro L
  induction L with
  | nil =>
    intro img q _
    exact ⟨fun ⟨x, y, h, _⟩ => by simp at h, fun _ => rfl⟩
  | cons e t ih =>
    intro img q hL
    obtain ⟨x0, y0, he⟩ := hL e (List.mem_cons_self _ _)
    subst he
    have hstep : paint colors bytes_per_row img ((some x0, some y0, 255) :: t) q =
        paint colors bytes_per_row
          (fun q1 => if q1 = pixel_offset bytes_per_row x0 y0 then colors.color_ else img q1)
          t q := by
      show paint colors bytes_per_row
        (fun q1 => if q1 = pixel_offset bytes_per_row x0 y0 then
          colors.blend (u32 255).toNat (img (pixel_offset bytes_per_row x0 y0))
          else img q1) t q = _
      rw [Color_blender_bgra_8888.blend_full colors _ hA]
    obtain ⟨i1, i2⟩ := ih
      (fun q1 => if q1 = pixel_offset bytes_per_row x0 y0 then colors.color_ else img q1) q
      (fun e1 he1 => hL e1 (List.mem_cons_of_mem _ he1))
    rw [hstep]
    by_cases ht : ∃ x y, (some x, some y, (255 : Int)) ∈ t ∧ q = pixel_offset bytes_per_row x y
    · refine ⟨fun _ => i1 ht, fun hn => ?_⟩
      obtain ⟨x, y, h1, h2⟩ := ht
      exact absurd ⟨x, y, List.mem_cons_of_mem _ h1, h2⟩ hn
    · rw [i2 ht]
      constructor
      · rintro ⟨x, y, h1, h2⟩
        rcases List.mem_cons.mp h1 with h1 | h1
        · have hx : x = x0 := by
            have := (Prod.mk.inj h1).1
            exact Option.some.inj this
          have hy : y = y0 := by
            have := (Prod.mk.inj (Prod.mk.inj h1).2).1
            exact Option.some.inj this
          rw [h2, hx, hy, if_pos rfl]
        · exact absurd ⟨x, y, h1, h2⟩ ht
      · intro hn
        have hq : q ≠ pixel_offset bytes_per_row x0 y0 := by
          intro h0
          exact hn ⟨x0, y0, List.mem_cons_self _ _, h0⟩
        rw [if_neg hq]

/-- Distinct pixels of an image whose rows do not overlap have distinct
offsets. -/
theorem pixel_offset_inj (bytes_per_row : Nat) (width x y x1 y1 : Int)
    (hw : 4 * width ≤ bytes_per_row) (hx0 : 0 ≤ x) (hx : x < width)
    (hx10 : 0 ≤ x1) (hx1 : x1 < width)
    (h : pixel_offset bytes_per_row x y = pixel_offset bytes_per_row x1 y1) :
    x = x1 ∧ y = y1 := by
  unfold pixel_offset at h
  have hy : y = y1 := by
    rcases lt_trichotomy y y1 with hlt | heq | hgt
    · exfalso
      have : (bytes_per_row : Int) * (y1 - y) ≥ (bytes_per_row : Int) * 1 :=
        mul_le_mul_of_nonneg_left (by omega) (Int.natCast_nonneg _)
      nlinarith
    · exact heq
    · exfalso
      have : (bytes_per_row : Int) * (y - y1) ≥ (bytes_per_row : Int) * 1 :=
        mul_le_mul_of_nonneg_left (by omega) (Int.natCast_nonneg _)
      nlinarith
  subst hy
  exact ⟨by omega, rfl⟩

namespace Cell_processor

theorem set_y_not_mem_expect_cells (cov : Int → Int) (x_max y : Int) :
    ∀ (fuel : Nat) (x : Int), Blender_call.set_y y ∉ expect_cells cov x_max fuel x := by
  intro fuel
  induction fuel with
  | zero => intro x h; simp [expect_cells] at h
  | succ n ih =>
    intro x h
    simp only [expect_cells] at h
    rcases List.mem_append.mp h with h | h
    · split_ifs at h <;> simp at h
    · split_ifs at h
      · rcases List.mem_cons.mp h with h | h
        · cases h
        · exact ih _ h
      · simp at h

theorem set_y_not_mem_expect_rows (rule : Fill_rule) (cp : Cell_processor) (y : Int) :
    ∀ (fuel : Nat) (y0 : Int), Blender_call.set_y y ∉ expect_rows rule cp fuel y0 := by
  intro fuel
  induction fuel with
  | zero => intro y0 h; simp [expect_rows] at h
  | succ n ih =>
    intro y0 h
    simp only [expect_rows] at h
    rcases List.mem_append.mp h with h | h
    · split_ifs at h
      · rcases List.mem_cons.mp h with h | h
        · cases h
        · exact set_y_not_mem_expect_cells _ _ _ _ _ h
      · simp at h
    · split_ifs at h
      · rcases List.mem_cons.mp h with h | h
        · cases h
        · exact ih _ h
      · simp at h

/-- The only `set_y` call of a sweep is the first call, with `y_range_.min`. -/
theorem set_y_mem_expect_swipe (rule : Fill_rule) (cp : Cell_processor) (y : Int)
    (h : Blender_call.set_y y ∈ expect_swipe rule cp) :
    cp.y_range_.nonempty ∧ y = cp.y_range_.min := by
  unfold expect_swipe at h
  by_cases hne : cp.y_range_.nonempty
  · rw [if_pos hne] at h
    rcases List.mem_cons.mp h with h | h
    · exact ⟨hne, Blender_call.set_y.inj h⟩
    · exact absurd h (set_y_not_mem_expect_rows rule cp y _ _)
  · rw [if_neg hne] at h
    simp at h

end Cell_processor

end vgxx

namespace vgxx

/-! ### The claims -/

end vgxx

namespace vgxx

open Cell_processor in
/-- C8. Silent drop in `y`: when the current `y` is outside `[0, height)`,
`set_cell(cover, area)` returns with the whole `Cell_processor` state
unchanged (every row, `y_range_`, the cell stash and everything else),
whatever the current `x`, `cover` and `area`. -/
theorem C8_silent_drop_in_y (cp : Cell_processor) (cover area : Int)
    (hy : cp.y_ < 0 ∨ cp.height_ ≤ cp.y_) :
    cp.set_cell cover area = some cp := by
  unfold Cell_processor.set_cell
  have : ¬ (cp.height_ > cp.y_ ∧ 0 ≤ cp.y_) := by omega
  simp only [this, if_false]

/-- Witness of C8: a 4 x 4 processor positioned on row 7. -/
theorem C8_silent_drop_in_y_witness :
    ((Cell_processor.init 4 4).set_y 7).set_cell 5 9 = some ((Cell_processor.init 4 4).set_y 7) :=
  C8_silent_drop_in_y ((Cell_processor.init 4 4).set_y 7) 5 9 (by decide)

open Cell_processor in
/-- C9. Left clip: when `0 <= y < height` and the current `x < 0` (row array
allocated, `height` an `Unt_16`), `set_cell(cover, area)` returns, adds `cover`
to `rows[y].left_cover`, applies `x_range.update(0)` to that row and
`y_range.update(y)`, leaves the cell stash untouched (no cell is stashed),
leaves every other row and every other member unchanged, and does not depend
on `area`. -/
theorem C9_left_clip (cp : Cell_processor) (cover area : Int)
    (hy0 : 0 ≤ cp.y_) (hy1 : cp.y_ < cp.height_) (hx : cp.x_ < 0)
    (hh : cp.height_ ≤ 65535) (hrows : cp.rows_.length = cp.height_.toNat) :
    ∃ cp1, cp.set_cell cover area = some cp1 ∧
      cp1.row cp.y_ =
        { cp.row cp.y_ with
          left_cover := (cp.row cp.y_).left_cover + cover
          x_range := (cp.row cp.y_).x_range.update 0 } ∧
      (∀ y, 0 ≤ y → y ≠ cp.y_ → cp1.row y = cp.row y) ∧
      cp1.y_range_ = cp.y_range_.update cp.y_ ∧
      cp1.cell_stash_ = cp.cell_stash_ ∧ cp1.cells_ = cp.cells_ ∧
      cp1.width_ = cp.width_ ∧ cp1.height_ = cp.height_ ∧ cp1.x_ = cp.x_ ∧ cp1.y_ = cp.y_ ∧
      ∀ area1, cp.set_cell cover area1 = some cp1 := by
  have h1 : cp.height_ > cp.y_ ∧ 0 ≤ cp.y_ := ⟨hy1, hy0⟩
  have h2 : ¬ 0 ≤ cp.x_ := by omega
  have hu : u16 cp.y_ = cp.y_ := u16_of_range _ hy0 (by omega)
  have hset : ∀ a, cp.set_cell cover a = some { cp with
      rows_ := cp.rows_.set cp.y_.toNat
        { cp.row cp.y_ with left_cover := (cp.row cp.y_).left_cover + cover
                            x_range := (cp.row cp.y_).x_range.update 0 }
      y_range_ := cp.y_range_.update cp.y_ } := by
    intro a
    unfold Cell_processor.set_cell
    simp only [h1, h2, if_true, if_false, hu, and_self]
  refine ⟨_, hset area, ?_, ?_, rfl, rfl, rfl, rfl, rfl, rfl, rfl, hset⟩
  · exact row_of_set_eq _ _ _ _ rfl (by omega)
  · intro y hy hne
    exact row_of_set_ne _ _ _ _ _ rfl hy0 hy hne

/-- Witness of C9: a 4 x 4 processor positioned at `(-3, 2)`. -/
theorem C9_left_clip_witness :
    ∃ cp1, (((Cell_processor.init 4 4).set_x (-3)).set_y 2).set_cell 5 9 = some cp1 ∧
      cp1.row 2 = { first_cell_idx := 4294967295, left_cover := 5,
                    x_range := { min := 0, max := 0 } } := by
  obtain ⟨cp1, h1, h2, _⟩ := C9_left_clip (((Cell_processor.init 4 4).set_x (-3)).set_y 2) 5 9
    (by decide) (by decide) (by decide) (by decide) (by decide)
  exact ⟨cp1, h1, h2.trans (by decide)⟩

end vgxx

namespace vgxx

open Cell_processor in
/-- C10. Merge or prepend: when `0 <= y < height` and `0 <= x < width` (row
array allocated, `Unt_16` dimensions, the head cell of the row and the cells in
use inside the stash vector), `set_cell(cover, area)`

* adds `(cover, area)` into the row's head cell in place, changing no other
  cell, no row, not `y_range_` and not the number of cells in use, when the row
  has a head cell whose `x` equals the current `x`;
* otherwise acquires one new cell (the number of cells in use grows by one)
  that holds `(cover, area, x)` and whose next link is the old head, makes it
  the row's head, and updates the row's `x_range` with `x` and `y_range_` with
  `y`, changing no other cell and no other row;

the only case in which it does not return is the second one with a full stash,
where `acquire` throws. -/
theorem C10_merge_or_prepend (cp : Cell_processor) (cover area : Int)
    (hy0 : 0 ≤ cp.y_) (hy1 : cp.y_ < cp.height_) (hx0 : 0 ≤ cp.x_) (hx1 : cp.x_ < cp.width_)
    (hw : cp.width_ ≤ 65535) (hh : cp.height_ ≤ 65535)
    (hrows : cp.rows_.length = cp.height_.toNat)
    (huse : cp.cell_stash_.cells_in_use_ ≤ cp.cell_stash_.cells_.length)
    (hhead : (cp.row cp.y_).first_cell_idx ≠ invalid_cell_index_ →
      (cp.row cp.y_).first_cell_idx < cp.cell_stash_.cells_.length) :
    ((cp.row cp.y_).first_cell_idx ≠ invalid_cell_index_ ∧
        (cp.cell_stash_.get (cp.row cp.y_).first_cell_idx).x = cp.x_ →
      ∃ cp1, cp.set_cell cover area = some cp1 ∧
        cp1.cell_stash_.get (cp.row cp.y_).first_cell_idx =
          { cover := (cp.cell_stash_.get (cp.row cp.y_).first_cell_idx).cover + cover
            area := (cp.cell_stash_.get (cp.row cp.y_).first_cell_idx).area + area
            next_cell_idx := (cp.cell_stash_.get (cp.row cp.y_).first_cell_idx).next_cell_idx
            x := cp.x_ } ∧
        (∀ i, i ≠ (cp.row cp.y_).first_cell_idx →
          cp1.cell_stash_.get i = cp.cell_stash_.get i) ∧
        cp1.cell_stash_.cells_in_use_ = cp.cell_stash_.cells_in_use_ ∧
        cp1.rows_ = cp.rows_ ∧ cp1.y_range_ = cp.y_range_) ∧
    (¬ ((cp.row cp.y_).first_cell_idx ≠ invalid_cell_index_ ∧
        (cp.cell_stash_.get (cp.row cp.y_).first_cell_idx).x = cp.x_) →
      cp.cell_stash_.cells_in_use_ < 4294967295 →
      ∃ cp1, cp.set_cell cover area = some cp1 ∧
        cp1.cell_stash_.cells_in_use_ = cp.cell_stash_.cells_in_use_ + 1 ∧
        cp1.cell_stash_.get cp.cell_stash_.cells_in_use_ =
          { cover := cover, area := area
            next_cell_idx := (cp.row cp.y_).first_cell_idx, x := cp.x_ } ∧
        (∀ i, i ≠ cp.cell_stash_.cells_in_use_ →
          cp1.cell_stash_.get i = cp.cell_stash_.get i) ∧
        cp1.row cp.y_ =
          { first_cell_idx := cp.cell_stash_.cells_in_use_
            left_cover := (cp.row cp.y_).left_cover
            x_range := (cp.row cp.y_).x_range.update cp.x_ } ∧
        (∀ y, 0 ≤ y → y ≠ cp.y_ → cp1.row y = cp.row y) ∧
        cp1.y_range_ = cp.y_range_.update cp.y_) ∧
    (¬ ((cp.row cp.y_).first_cell_idx ≠ invalid_cell_index_ ∧
        (cp.cell_stash_.get (cp.row cp.y_).first_cell_idx).x = cp.x_) →
      4294967295 ≤ cp.cell_stash_.cells_in_use_ → cp.set_cell cover area = none) := by
  have h1 : cp.height_ > cp.y_ ∧ 0 ≤ cp.y_ := ⟨hy1, hy0⟩
  have h3 : cp.width_ > cp.x_ := hx1
  have huy : u16 cp.y_ = cp.y_ := u16_of_range _ hy0 (by omega)
  have hux : u16 cp.x_ = cp.x_ := u16_of_range _ hx0 (by omega)
  refine ⟨fun hm => ?_, fun hm hfree => ?_, fun hm hfull => ?_⟩
  · have hm1 : invalid_cell_index_ ≠ (cp.row cp.y_).first_cell_idx ∧
        (cp.cell_stash_.get (cp.row cp.y_).first_cell_idx).x = cp.x_ := ⟨Ne.symm hm.1, hm.2⟩
    have hset : cp.set_cell cover area = some { cp with
        cell_stash_ := { cp.cell_stash_ with
          cells_ := cp.cell_stash_.cells_.set (cp.row cp.y_).first_cell_idx
            { cp.cell_stash_.get (cp.row cp.y_).first_cell_idx with
              cover := (cp.cell_stash_.get (cp.row cp.y_).first_cell_idx).cover + cover
              area := (cp.cell_stash_.get (cp.row cp.y_).first_cell_idx).area + area } } } := by
      unfold Cell_processor.set_cell
      simp only [h1, hx0, h3, if_true, and_self]
      rw [if_pos hm1]
    refine ⟨_, hset, ?_, ?_, rfl, rfl, rfl⟩
    · simp only [Cell_stash_.get]
      rw [getD_set_eq _ _ _ _ (hhead hm.1)]
      simp only [Cell_stash_.get] at hm
      rw [hm.2]
    · intro i hi
      simp only [Cell_stash_.get]
      exact getD_set_ne _ _ _ _ _ (Ne.symm hi)
  · have hm1 : ¬ (invalid_cell_index_ ≠ (cp.row cp.y_).first_cell_idx ∧
        (cp.cell_stash_.get (cp.row cp.y_).first_cell_idx).x = cp.x_) :=
      fun h => hm ⟨Ne.symm h.1, h.2⟩
    have hfree1 : 4294967295 > cp.cell_stash_.cells_in_use_ := hfree
    by_cases hlen : cp.cell_stash_.cells_.length > cp.cell_stash_.cells_in_use_
    · have hset : cp.set_cell cover area = some { cp with
          cell_stash_ :=
            { cells_ := cp.cell_stash_.cells_.set cp.cell_stash_.cells_in_use_
                { cover := cover, area := area
                  next_cell_idx := (cp.row cp.y_).first_cell_idx, x := cp.x_ }
              cells_in_use_ := cp.cell_stash_.cells_in_use_ + 1 }
          rows_ := cp.rows_.set cp.y_.toNat
            { cp.row cp.y_ with first_cell_idx := cp.cell_stash_.cells_in_use_
                                x_range := (cp.row cp.y_).x_range.update cp.x_ }
          y_range_ := cp.y_range_.update cp.y_ } := by
        unfold Cell_processor.set_cell Cell_stash_.acquire
        simp only [h1, hx0, h3, if_true, and_self]
        rw [if_neg hm1]
        simp only [hfree1, hlen, if_true, huy, hux]
      refine ⟨_, hset, rfl, ?_, ?_, ?_, ?_, rfl⟩
      · simp only [Cell_stash_.get]
        exact getD_set_eq _ _ _ _ hlen
      · intro i hi
        simp only [Cell_stash_.get]
        exact getD_set_ne _ _ _ _ _ (Ne.symm hi)
      · exact row_of_set_eq _ _ _ _ rfl (by omega)
      · intro y hy hne
        exact row_of_set_ne _ _ _ _ _ rfl hy0 hy hne
    · have heq : cp.cell_stash_.cells_.length = cp.cell_stash_.cells_in_use_ := by omega
      have hset : cp.set_cell cover area = some { cp with
          cell_stash_ :=
            { cells_ := (cp.cell_stash_.cells_ ++ [default]).set cp.cell_stash_.cells_.length
                { cover := cover, area := area
                  next_cell_idx := (cp.row cp.y_).first_cell_idx, x := cp.x_ }
              cells_in_use_ := cp.cell_stash_.cells_in_use_ + 1 }
          rows_ := cp.rows_.set cp.y_.toNat
            { cp.row cp.y_ with first_cell_idx := cp.cell_stash_.cells_in_use_
                                x_range := (cp.row cp.y_).x_range.update cp.x_ }
          y_range_ := cp.y_range_.update cp.y_ } := by
        unfold Cell_processor.set_cell Cell_stash_.acquire
        simp only [h1, hx0, h3, if_true, and_self]
        rw [if_neg hm1]
        simp only [hfree1, hlen, if_true, if_false, huy, hux]
      refine ⟨_, hset, rfl, ?_, ?_, ?_, ?_, rfl⟩
      · simp only [Cell_stash_.get]
        rw [← heq]
        exact getD_set_eq _ _ _ _ (by simp)
      · intro i hi
        simp only [Cell_stash_.get]
        rw [getD_set_ne _ _ _ _ _ (by omega)]
        by_cases hlt : i < cp.cell_stash_.cells_.length
        · exact getD_append_left _ _ _ _ hlt
        · rw [List.getD_eq_default _ _ (by simp; omega), List.getD_eq_default _ _ (by omega)]
      · exact row_of_set_eq _ _ _ _ rfl (by omega)
      · intro y hy hne
        exact row_of_set_ne _ _ _ _ _ rfl hy0 hy hne
  · have hm1 : ¬ (invalid_cell_index_ ≠ (cp.row cp.y_).first_cell_idx ∧
        (cp.cell_stash_.get (cp.row cp.y_).first_cell_idx).x = cp.x_) :=
      fun h => hm ⟨Ne.symm h.1, h.2⟩
    have hfull1 : ¬ 4294967295 > cp.cell_stash_.cells_in_use_ := by omega
    unfold Cell_processor.set_cell Cell_stash_.acquire
    simp only [h1, hx0, h3, if_true, and_self]
    rw [if_neg hm1]
    simp only [hfull1, if_false]

end vgxx

namespace vgxx

/-- Witness of C10: on a fresh 4 x 4 processor positioned at `(1, 2)` the row
has no head cell, so one cell is acquired. -/
theorem C10_merge_or_prepend_witness :
    ∃ cp1, (((Cell_processor.init 4 4).set_x 1).set_y 2).set_cell 5 9 = some cp1 ∧
      cp1.cell_stash_.cells_in_use_ = 1 := by
  obtain ⟨cp1, h1, h2, _⟩ := (C10_merge_or_prepend (((Cell_processor.init 4 4).set_x 1).set_y 2)
    5 9 (by decide) (by decide) (by decide) (by decide) (by decide) (by decide) (by decide)
    (by decide) (by decide)).2.1 (by decide) (by decide)
  exact ⟨cp1, h1, h2⟩

/-- C4. Coverage range: for both fill rules and every `cover`, `area` with
`|512 * cover - area| < 2^31`, the integer that `Util::compute_cell_coverage`
computes before the final conversion to `Unt_8` lies in `0 .. 255`, so the
conversion loses nothing; the result is 0 when `512 * cover = area` and 255
when `|512 * cover - area| = 0x20000`. -/
theorem C4_coverage_range (fill_rule : Fill_rule) (cover area : Int)
    (h : |512 * cover - area| < 2147483648) :
    0 ≤ Util.cell_coverage_wide fill_rule cover area ∧
    Util.cell_coverage_wide fill_rule cover area ≤ 255 ∧
    Util.compute_cell_coverage fill_rule cover area =
      Util.cell_coverage_wide fill_rule cover area ∧
    (512 * cover = area → Util.compute_cell_coverage fill_rule cover area = 0) ∧
    (|512 * cover - area| = 0x20000 → Util.compute_cell_coverage fill_rule cover area = 255) := by
  rw [abs_lt] at h
  have hc0 : i32 (i32 (cover * 512) - area) = 512 * cover - area := by
    unfold i32; omega
  have habs : (if 0 > 512 * cover - area then i32 (-(512 * cover - area))
      else 512 * cover - area) = |512 * cover - area| := by
    split_ifs with hneg
    · rw [abs_of_neg hneg]; unfold i32; omega
    · rw [abs_of_nonneg (by omega)]
  have hnn : 0 ≤ |512 * cover - area| := abs_nonneg _
  have hlt : |512 * cover - area| < 2147483648 := by rw [abs_lt]; exact h
  unfold Util.compute_cell_coverage Util.cell_coverage_wide
  simp only [hc0, habs]
  have h0 : 512 * cover = area → |512 * cover - area| = 0 := by
    intro h1; rw [h1]; simp
  generalize |512 * cover - area| = c at hnn hlt h0
  have hfold : ∀ f : Int, 0 ≤ f → f ≤ 131072 →
      0 ≤ i32 (i32 (f / 512 * 256) - f / 512) / 256 ∧
      i32 (i32 (f / 512 * 256) - f / 512) / 256 ≤ 255 ∧
      u8 (i32 (i32 (f / 512 * 256) - f / 512) / 256) =
        i32 (i32 (f / 512 * 256) - f / 512) / 256 ∧
      (f = 0 → i32 (i32 (f / 512 * 256) - f / 512) / 256 = 0) ∧
      (f = 131072 → i32 (i32 (f / 512 * 256) - f / 512) / 256 = 255) := by
    intro f hf0 hf1
    have hd0 : 0 ≤ f / 512 := by omega
    have hd1 : f / 512 ≤ 256 := by omega
    have h1 : i32 (f / 512 * 256) = f / 512 * 256 := by unfold i32; omega
    have h2 : i32 (f / 512 * 256 - f / 512) = f / 512 * 255 := by unfold i32; omega
    rw [h1, h2]
    unfold u8
    refine ⟨by omega, by omega, by omega, fun h => by omega, fun h => by omega⟩
  cases fill_rule
  · simp only
    have hf := hfold (if 0x20000 < c then 0x20000 else c) (by split_ifs <;> omega)
      (by split_ifs <;> omega)
    refine ⟨hf.1, hf.2.1, hf.2.2.1, fun hh => hf.2.2.1.trans (hf.2.2.2.1 ?_),
      fun hh => hf.2.2.1.trans (hf.2.2.2.2 ?_)⟩
    · have := h0 hh
      split_ifs <;> omega
    · split_ifs <;> omega
  · simp only
    have hi : i32 (0x20000 - c % 131072) = 0x20000 - c % 131072 := by unfold i32; omega
    rw [hi]
    have hf := hfold (if c / 131072 % 2 = 0 then c % 131072 else 0x20000 - c % 131072)
      (by split_ifs <;> omega) (by split_ifs <;> omega)
    refine ⟨hf.1, hf.2.1, hf.2.2.1, fun hh => hf.2.2.1.trans (hf.2.2.2.1 ?_),
      fun hh => hf.2.2.1.trans (hf.2.2.2.2 ?_)⟩
    · have := h0 hh
      split_ifs <;> omega
    · split_ifs <;> omega

end vgxx

namespace vgxx

/-- Witness of C4: a full pixel under the even-odd rule. -/
theorem C4_coverage_range_witness :
    Util.compute_cell_coverage Fill_rule.even_odd 256 0 = 255 :=
  (C4_coverage_range Fill_rule.even_odd 256 0 (by norm_num)).2.2.2.2 (by norm_num)

end vgxx

namespace vgxx

open Cell_processor in
/-- C3. Closed-path cover: for every closed polygon (`move_to_fixed_24_dot_8`,
any number of `line_to_fixed_24_dot_8`, then `close`, drawn by a fresh
rasterizer) rasterized into a fresh `Cell_processor`
(`0 < width, height <= 65535`), whose vertices all satisfy
`0 <= X < 256 * width` and `0 <= Y < 256 * height`: whenever the rasterization
completes, every row ends with `left_cover = 0` and with the covers of its
stashed cells summing to 0; and it does complete when the number of segments
times `width + 2 * height + 4` stays within the `2^32 - 1` indices of the
cell stash. -/
theorem C3_closed_path_cover (width height : Int)
    (hw0 : 0 < width) (hw : width ≤ 65535) (hh0 : 0 < height) (hh : height ≤ 65535)
    (v0 : Int × Int) (vs : List (Int × Int))
    (hv0 : 0 ≤ v0.1 ∧ v0.1 < 256 * width ∧ 0 ≤ v0.2 ∧ v0.2 < 256 * height)
    (hvs : ∀ v ∈ vs, 0 ≤ v.1 ∧ v.1 < 256 * width ∧ 0 ≤ v.2 ∧ v.2 < 256 * height) :
    (∀ cp1, (Cell_processor.init width height).run
        (Rasterizer.closed_path Rasterizer.init v0 vs) = some cp1 →
      ∀ y, 0 ≤ y → y < height →
        (cp1.row y).left_cover = 0 ∧ cells_cover (cp1.row_cells y) = 0) ∧
    (((vs.length : Int) + 1) * (width + 2 * height + 4) ≤ 4294967295 →
      ∃ cp1, (Cell_processor.init width height).run
        (Rasterizer.closed_path Rasterizer.init v0 vs) = some cp1) := by
  constructor
  · intro cp1 hrun y hy0 hy1
    obtain ⟨_, _, _, _, _, r6⟩ := run_stored _ (Wf_init width height hw0 hw hh0 hh) hrun
    obtain ⟨a1, a2⟩ := r6 y hy0 hy1
    obtain ⟨p1, p2⟩ := Rasterizer.closed_path_ok width height hw0 hw hh0 hh v0 vs
      (Cell_processor.init width height).x_ (Cell_processor.init width height).y_ hv0 hvs
    rw [row_init] at a1
    rw [row_cells_init] at a2
    constructor
    · rw [a1, left_sum_eq_zero _ _ (fun e he => (p1 e he).1)]
      rfl
    · rw [a2, show (Cell_processor.init width height).width_ = width from rfl,
        inside_sum_eq_row_cover _ _ _ (fun e he => ⟨(p1 e he).1, (p1 e he).2.1⟩), p2]
      rfl
  · intro hn
    have hc := Rasterizer.closed_path_count width height hw hh v0 vs hv0 hvs
    exact run_total _ _ (by
      show 0 + set_cell_count (Rasterizer.closed_path Rasterizer.init v0 vs) ≤ 4294967295
      omega)

/-- Witness of C3: the triangle `(0,0), (500,500), (0,500)` on a 2 x 2
processor, row 1. -/
theorem C3_closed_path_cover_witness :
    ∃ cp1, (Cell_processor.init 2 2).run
        (Rasterizer.closed_path Rasterizer.init (0, 0) [(500, 500), (0, 500)]) = some cp1 ∧
      (cp1.row 1).left_cover = 0 ∧ Cell_processor.cells_cover (cp1.row_cells 1) = 0 := by
  obtain ⟨cp1, h⟩ := (C3_closed_path_cover 2 2 (by decide) (by decide) (by decide) (by decide)
    (0, 0) [(500, 500), (0, 500)] (by decide) (by decide)).2 (by decide)
  exact ⟨cp1, h, (C3_closed_path_cover 2 2 (by decide) (by decide) (by decide) (by decide)
    (0, 0) [(500, 500), (0, 500)] (by decide) (by decide)).1 cp1 h 1 (by decide) (by decide)⟩

end vgxx

namespace vgxx

open Cell_processor in
/-- C7. Idempotent sweep reset: for every reachable state of a
`Cell_processor`, one `swipe` returns every row, `y_range_` and the in-use
counter of the stash to their freshly constructed values, and after any calls
other than `set_cell` a second `swipe` makes no blender call at all. -/
theorem C7_idempotent_sweep_reset (cp : Cell_processor) (h : Reachable cp)
    (rule1 rule2 : Fill_rule) (calls : List Cell_call)
    (hcalls : ∀ c ∈ calls, ∀ cover area, c ≠ Cell_call.set_cell cover area) :
    (swipe rule1 cp).2.rows_ = (Cell_processor.init cp.width_ cp.height_).rows_ ∧
    (swipe rule1 cp).2.y_range_ = (Cell_processor.init cp.width_ cp.height_).y_range_ ∧
    (swipe rule1 cp).2.cell_stash_.cells_in_use_ =
      (Cell_processor.init cp.width_ cp.height_).cell_stash_.cells_in_use_ ∧
    ∃ cp2, (swipe rule1 cp).2.run calls = some cp2 ∧ (swipe rule2 cp2).1 = [] := by
  obtain ⟨owner, hinv⟩ := h.wf
  obtain ⟨_, b2, _, b4, b5, _⟩ := swipe_ok rule1 cp owner hinv
  obtain ⟨cp2, c1, _, _, _, _, _, c7⟩ := run_moves calls (swipe rule1 cp).2 hcalls
  refine ⟨?_, b4, by rw [b5]; rfl, cp2, c1, swipe_empty rule2 cp2 (c7.trans b4)⟩
  rw [b2]
  simp only [Cell_processor.init, hinv.width_pos, hinv.height_pos, and_self, if_true]

open Cell_processor in
/-- Witness of C7: a 2 x 2 processor with one cell at pixel `(0, 0)`, swept
with the non-zero rule and, after `set_x(1)`, with the even-odd rule. -/
theorem C7_idempotent_sweep_reset_witness :
    Reachable (((Cell_processor.init 2 2).set_cell 256 0).getD (Cell_processor.init 2 2)) ∧
    ∃ cp2, (swipe Fill_rule.non_zero
        (((Cell_processor.init 2 2).set_cell 256 0).getD (Cell_processor.init 2 2))).2.run
        [Cell_call.set_x 1] = some cp2 ∧ (swipe Fill_rule.even_odd cp2).1 = [] :=
  have hr : Reachable (((Cell_processor.init 2 2).set_cell 256 0).getD
      (Cell_processor.init 2 2)) :=
    Reachable.call (Cell_processor.init 2 2) _ (Cell_call.set_cell 256 0)
      (Reachable.init 2 2 (by decide) (by decide) (by decide) (by decide)) (by decide)
  ⟨hr, (C7_idempotent_sweep_reset _ hr Fill_rule.non_zero Fill_rule.even_odd
    [Cell_call.set_x 1] (by
      intro c hc cover area
      rw [List.mem_singleton] at hc
      rw [hc]
      exact Cell_call.noConfusion)).2.2.2⟩

open Cell_processor in
/-- C6. Blender protocol: for every reachable state of a `Cell_processor`
(`0 < width, height <= 65535`, any sequence of calls), every `blend(coverage)`
call made by `swipe` has `coverage > 0` and happens after a `set_y` and, since
the last `set_y` or `inc_y`, a `set_x`, at a blender position (tracked through
`set_y`, `set_x`, `inc_x` = one column right, `inc_y` = one row down) with
`0 <= x < width` and `0 <= y < height`. -/
theorem C6_blender_protocol (cp : Cell_processor) (h : Reachable cp) (rule : Fill_rule) :
    ∀ e ∈ blend_log none none (swipe rule cp).1,
      ∃ x y, e = (some x, some y, e.2.2) ∧ 0 < e.2.2 ∧
        0 ≤ x ∧ x < cp.width_ ∧ 0 ≤ y ∧ y < cp.height_ := by
  intro e he
  obtain ⟨owner, hinv⟩ := h.wf
  obtain ⟨y, x, a1, a2, a3, a4, a5, a6⟩ := ((swipe_log rule cp ⟨owner, hinv⟩).1 e).mp he
  rcases hinv.row_ok y a1 a2 with hr | hr
  · rw [hr] at a3 a4
    have : (65535 : Int) ≤ 0 := le_trans a3 a4
    omega
  · refine ⟨x, y, by rw [a6], by rw [a6]; exact a5, by omega, by omega, a1, a2⟩

open Cell_processor in
/-- Witness of C6: a 2 x 2 processor with one cell of full cover at pixel
`(0, 0)`; the sweep blends there with coverage 255. -/
theorem C6_blender_protocol_witness :
    Reachable (((Cell_processor.init 2 2).set_cell 256 0).getD (Cell_processor.init 2 2)) ∧
    ∃ x y, ((some 0, some 0, 255) : Option Int × Option Int × Int) = (some x, some y, 255) ∧
      (0 : Int) < 255 ∧ 0 ≤ x ∧ x < 2 ∧ 0 ≤ y ∧ y < 2 :=
  have hr : Reachable (((Cell_processor.init 2 2).set_cell 256 0).getD
      (Cell_processor.init 2 2)) :=
    Reachable.call (Cell_processor.init 2 2) _ (Cell_call.set_cell 256 0)
      (Reachable.init 2 2 (by decide) (by decide) (by decide) (by decide)) (by decide)
  ⟨hr, C6_blender_protocol _ hr Fill_rule.non_zero (some 0, some 0, 255) (by decide)⟩

end vgxx

namespace vgxx

open Cell_processor in
/-- Counterexample to C5 as stated: a 2 x 1 processor holding a cell of cover
`2^23` at pixel `(0, 0)` and an empty cell at pixel `(1, 0)`.  At pixel
`(1, 0)` the running cover is `W = 2^23` and the area is `R = 0`;
`compute_cell_coverage<non_zero>(W, R)` is 0, as `W << 9` is 0 in 32 bits, but
the sweep takes the coverage of a pixel without cell from `W` alone and calls
`blend(255)` there. -/
theorem C5_sweep_coverage_counterexample :
    ((Cell_processor.init 2 1).run
        [Cell_call.set_cell 8388608 0, Cell_call.inc_x, Cell_call.set_cell 0 0]).map
      (fun cp => (blend_log none none (swipe Fill_rule.non_zero cp).1,
        cp.running_cover 0 1, col_area (cp.row_cells 0) 1,
        cp.pixel_coverage Fill_rule.non_zero 0 1)) =
      some ([(some 1, some 0, 255)], 8388608, 0, 0) := by
  decide

open Cell_processor in
/-- C5, amended. Sweep coverage: for every reachable state of a
`Cell_processor`, every row `y` of the viewport and every `x` in the `x_range`
of the row, let `A(x)` and `R(x)` be the sums of cover and area over the
stashed cells of row `y` with that `x`, and `W(x) = row.left_cover` plus the
sum of `A(x1)` for `x_min <= x1 <= x`.  When `|W(x)| < 2^22` at every such
pixel with `A(x) = 0` and `R(x) = 0`, `swipe<rule>` calls `blend` at pixel
`(x, y)` if and only if `v = compute_cell_coverage<rule>(W(x), R(x))` is
`> 0`, passes exactly `v`, blends no pixel twice and makes no other `blend`
call. -/
theorem C5_sweep_coverage (cp : Cell_processor) (h : Reachable cp) (rule : Fill_rule)
    (hW : ∀ y x, 0 ≤ y → y < cp.height_ →
      (cp.row y).x_range.min ≤ x → x ≤ (cp.row y).x_range.max →
      col_cover (cp.row_cells y) x = 0 → col_area (cp.row_cells y) x = 0 →
      |cp.running_cover y x| < 4194304) :
    (∀ e, e ∈ blend_log none none (swipe rule cp).1 ↔
      ∃ y x, 0 ≤ y ∧ y < cp.height_ ∧
        (cp.row y).x_range.min ≤ x ∧ x ≤ (cp.row y).x_range.max ∧
        0 < cp.pixel_coverage rule y x ∧
        e = (some x, some y, cp.pixel_coverage rule y x)) ∧
    ((blend_log none none (swipe rule cp).1).map log_pixel).Nodup := by
  obtain ⟨h1, h2⟩ := swipe_log rule cp h.wf
  refine ⟨fun e => ?_, h2⟩
  rw [h1 e]
  constructor
  · rintro ⟨y, x, a1, a2, a3, a4, a5, a6⟩
    rw [sweep_eq_pixel rule cp y x (hW y x a1 a2 a3 a4)] at a5 a6
    exact ⟨y, x, a1, a2, a3, a4, a5, a6⟩
  · rintro ⟨y, x, a1, a2, a3, a4, a5, a6⟩
    rw [← sweep_eq_pixel rule cp y x (hW y x a1 a2 a3 a4)] at a5 a6
    exact ⟨y, x, a1, a2, a3, a4, a5, a6⟩

open Cell_processor in
/-- Witness of C5 (amended): a 3 x 1 processor with a cell of cover 256 at
pixel `(0, 0)` and a cell of cover -256 at pixel `(2, 0)`; pixel `(1, 0)` has
no cell and a running cover of 256, and the sweep blends there with
coverage 255. -/
theorem C5_sweep_coverage_witness :
    Reachable (((Cell_processor.init 3 1).run
      [Cell_call.set_cell 256 0, Cell_call.set_x 2, Cell_call.set_cell (-256) 0]).getD
        (Cell_processor.init 3 1)) ∧
    (((Cell_processor.init 3 1).run
      [Cell_call.set_cell 256 0, Cell_call.set_x 2, Cell_call.set_cell (-256) 0]).getD
        (Cell_processor.init 3 1)).running_cover 0 1 = 256 ∧
    ((some 1, some 0, 255) : Option Int × Option Int × Int) ∈
      blend_log none none (swipe Fill_rule.non_zero
        (((Cell_processor.init 3 1).run
          [Cell_call.set_cell 256 0, Cell_call.set_x 2, Cell_call.set_cell (-256) 0]).getD
            (Cell_processor.init 3 1))).1 :=
  have hr : Reachable (((Cell_processor.init 3 1).run
      [Cell_call.set_cell 256 0, Cell_call.set_x 2, Cell_call.set_cell (-256) 0]).getD
        (Cell_processor.init 3 1)) :=
    Reachable.run [Cell_call.set_cell 256 0, Cell_call.set_x 2, Cell_call.set_cell (-256) 0]
      (Reachable.init 3 1 (by decide) (by decide) (by decide) (by decide)) (by decide)
  ⟨hr, by decide, ((C5_sweep_coverage _ hr Fill_rule.non_zero (by
    intro y x hy0 hy1 hx0 hx1 hA _
    have hy : y = 0 := by
      have : y < 1 := hy1
      omega
    subst hy
    have hmin : ((((Cell_processor.init 3 1).run
        [Cell_call.set_cell 256 0, Cell_call.set_x 2, Cell_call.set_cell (-256) 0]).getD
          (Cell_processor.init 3 1)).row 0).x_range.min = 0 := by decide
    have hmax : ((((Cell_processor.init 3 1).run
        [Cell_call.set_cell 256 0, Cell_call.set_x 2, Cell_call.set_cell (-256) 0]).getD
          (Cell_processor.init 3 1)).row 0).x_range.max = 2 := by decide
    rw [hmin] at hx0
    rw [hmax] at hx1
    obtain hx | hx | hx : x = 0 ∨ x = 1 ∨ x = 2 := by omega
    · subst hx
      exact absurd hA (by decide)
    · subst hx
      have hrc : (((Cell_processor.init 3 1).run
          [Cell_call.set_cell 256 0, Cell_call.set_x 2, Cell_call.set_cell (-256) 0]).getD
            (Cell_processor.init 3 1)).running_cover 0 1 = 256 := by decide
      rw [hrc]
      norm_num
    · subst hx
      exact absurd hA (by decide))).1 (some 1, some 0, 255)).mpr
    ⟨0, 1, by decide, by decide, by decide, by decide, by decide, by decide⟩⟩

end vgxx

namespace vgxx

open Cell_processor in
/-- C11. Right clip: when `0 <= y < height` and the current `x >= width` with
`width > 0` (row array allocated, `Unt_16` dimensions), `set_cell(cover, area)`
returns and discards `cover` and `area`: the only effects are
`rows[y].x_range.update(width - 1)` and `y_range.update(y)`; the head and the
`left_cover` of the row, the cell list of the row, the cell stash, every other
row and every other member are unchanged, and the result does not depend on
`cover` or `area`. -/
theorem C11_right_clip (cp : Cell_processor) (cover area : Int)
    (hy0 : 0 ≤ cp.y_) (hy1 : cp.y_ < cp.height_) (hx : cp.width_ ≤ cp.x_)
    (hw0 : 0 < cp.width_) (hw : cp.width_ ≤ 65535) (hh : cp.height_ ≤ 65535)
    (hrows : cp.rows_.length = cp.height_.toNat) :
    ∃ cp1, cp.set_cell cover area = some cp1 ∧
      cp1.row cp.y_ =
        { cp.row cp.y_ with x_range := (cp.row cp.y_).x_range.update (cp.width_ - 1) } ∧
      (∀ y, 0 ≤ y → y ≠ cp.y_ → cp1.row y = cp.row y) ∧
      cp1.y_range_ = cp.y_range_.update cp.y_ ∧
      cp1.cell_stash_ = cp.cell_stash_ ∧ cp1.row_cells cp.y_ = cp.row_cells cp.y_ ∧
      cp1.cells_ = cp.cells_ ∧
      cp1.width_ = cp.width_ ∧ cp1.height_ = cp.height_ ∧ cp1.x_ = cp.x_ ∧ cp1.y_ = cp.y_ ∧
      ∀ cover1 area1, cp.set_cell cover1 area1 = some cp1 := by
  have hset := fun c a => set_cell_right cp c a ⟨hy1, hy0⟩ hh hw0 hw hx
  have hrow : Cell_processor.row { cp with
      rows_ := cp.rows_.set cp.y_.toNat
        { cp.row cp.y_ with x_range := (cp.row cp.y_).x_range.update (cp.width_ - 1) }
      y_range_ := cp.y_range_.update cp.y_ } cp.y_ =
      { cp.row cp.y_ with x_range := (cp.row cp.y_).x_range.update (cp.width_ - 1) } :=
    row_of_set_eq _ _ _ _ rfl (by omega)
  refine ⟨_, hset cover area, hrow, ?_, rfl, rfl, ?_, rfl, rfl, rfl, rfl, rfl, hset⟩
  · intro y hy hne
    exact row_of_set_ne _ _ _ _ _ rfl hy0 hy hne
  · exact row_cells_of_eq cp _ cp.y_ (by rfl) (by rw [hrow])

/-- Witness of C11: a 4 x 4 processor positioned at `(9, 2)`. -/
theorem C11_right_clip_witness :
    ∃ cp1, (((Cell_processor.init 4 4).set_x 9).set_y 2).set_cell 5 9 = some cp1 ∧
      cp1.row 2 = { first_cell_idx := 4294967295, left_cover := 0,
                    x_range := { min := 3, max := 3 } } := by
  obtain ⟨cp1, h1, h2, _⟩ := C11_right_clip (((Cell_processor.init 4 4).set_x 9).set_y 2) 5 9
    (by decide) (by decide) (by decide) (by decide) (by decide) (by decide) (by decide)
  exact ⟨cp1, h1, h2.trans (by decide)⟩

/-- C12. Integer blend: for all `src`, `dst`, `alpha` in `0 .. 255`,
`Util::blend(src, dst, alpha)` equals
`floor((src * alpha + dst * (255 - alpha)) / 255)`, with every intermediate
value inside `0 .. 65280`; in particular `blend(src, dst, 0) = dst` and
`blend(src, dst, 255) = src`, and the result lies between `min(src, dst)` and
`max(src, dst)`. -/
theorem C12_integer_blend (src dst alpha : Int)
    (hs : 0 ≤ src ∧ src ≤ 255) (hd : 0 ≤ dst ∧ dst ≤ 255) (ha : 0 ≤ alpha ∧ alpha ≤ 255) :
    Util.blend src dst alpha = (src * alpha + dst * (255 - alpha)) / 255 ∧
    0 ≤ dst * 256 - dst + alpha * (src - dst) ∧
    dst * 256 - dst + alpha * (src - dst) ≤ 65025 ∧
    Util.blend src dst 0 = dst ∧ Util.blend src dst 255 = src ∧
    min src dst ≤ Util.blend src dst alpha ∧ Util.blend src dst alpha ≤ max src dst := by
  have hval : dst * 256 - dst + alpha * (src - dst) = src * alpha + dst * (255 - alpha) := by
    ring
  have h1 : 0 ≤ src * alpha := mul_nonneg hs.1 ha.1
  have h2 : 0 ≤ dst * (255 - alpha) := mul_nonneg hd.1 (by omega)
  have h3 : src * alpha ≤ 255 * alpha := mul_le_mul_of_nonneg_right hs.2 ha.1
  have h4 : dst * (255 - alpha) ≤ 255 * (255 - alpha) :=
    mul_le_mul_of_nonneg_right hd.2 (by omega)
  have hdiv : ∀ v : Int, 0 ≤ v → v ≤ 65025 → (v + 1 + v / 256) / 256 = v / 255 := by
    intro v h0 h1
    omega
  have hb : Util.blend src dst alpha = (src * alpha + dst * (255 - alpha)) / 255 := by
    unfold Util.blend
    simp only [hval]
    exact hdiv _ (by omega) (by omega)
  have hlo : min src dst * 255 ≤ src * alpha + dst * (255 - alpha) := by
    rcases le_total src dst with h | h
    · rw [min_eq_left h]
      have : src * (255 - alpha) ≤ dst * (255 - alpha) :=
        mul_le_mul_of_nonneg_right h (by omega)
      nlinarith
    · rw [min_eq_right h]
      have : dst * alpha ≤ src * alpha := mul_le_mul_of_nonneg_right h ha.1
      nlinarith
  have hhi : src * alpha + dst * (255 - alpha) ≤ max src dst * 255 := by
    rcases le_total src dst with h | h
    · rw [max_eq_right h]
      have : src * alpha ≤ dst * alpha := mul_le_mul_of_nonneg_right h ha.1
      nlinarith
    · rw [max_eq_left h]
      have : dst * (255 - alpha) ≤ src * (255 - alpha) :=
        mul_le_mul_of_nonneg_right h (by omega)
      nlinarith
  refine ⟨hb, by rw [hval]; omega, by rw [hval]; omega, ?_, ?_, ?_, ?_⟩
  · unfold Util.blend
    simp only [zero_mul, add_zero]
    omega
  · unfold Util.blend
    have : dst * 256 - dst + 255 * (src - dst) = 255 * src := by ring
    simp only [this]
    omega
  · rw [hb]
    generalize src * alpha + dst * (255 - alpha) = v at hlo
    generalize min src dst = m at hlo
    omega
  · rw [hb]
    generalize src * alpha + dst * (255 - alpha) = v at hhi
    generalize max src dst = m at hhi
    omega

/-- Witness of C12: blending 200 over 100 with alpha 128 gives 150. -/
theorem C12_integer_blend_witness : Util.blend 200 100 128 = 150 :=
  (C12_integer_blend 200 100 128 (by decide) (by decide) (by decide)).1.trans (by decide)

end vgxx

namespace vgxx

/-- C13. Fixed-point conversion, over exact rational arithmetic: whenever
`to_fixed_24_dot_8(x)` returns `r` (the conversion to `Int_32` is defined),
`r` is an `Int_32` within `1/2` of `256 x`, and at distance exactly `1/2` it is
the candidate further from zero, that is, `r` is `256 x` rounded to the
nearest integer with halves rounded away from zero; the call returns when that
rounded value fits 32 bits; it maps `0`, `1`, `-1`, `1/2` to `0`, `256`,
`-256`, `128`, and `to_fixed_24_dot_8(n / 256) = n` for every integer `n` with
`-2^31 <= n < 2^31`. -/
theorem C13_fixed_point_conversion (x : ℚ) :
    (∀ r, Util.to_fixed_24_dot_8 x = some r →
      |(r : ℚ) - 256 * x| ≤ 1 / 2 ∧ (|(r : ℚ) - 256 * x| = 1 / 2 → |256 * x| < |(r : ℚ)|) ∧
      -2147483648 ≤ r ∧ r ≤ 2147483647) ∧
    (-2147483648 - 1 / 2 < 256 * x → 256 * x < 2147483647 + 1 / 2 →
      ∃ r, Util.to_fixed_24_dot_8 x = some r) ∧
    Util.to_fixed_24_dot_8 0 = some 0 ∧ Util.to_fixed_24_dot_8 1 = some 256 ∧
    Util.to_fixed_24_dot_8 (-1) = some (-256) ∧ Util.to_fixed_24_dot_8 (1 / 2) = some 128 ∧
    ∀ n : Int, -2147483648 ≤ n → n < 2147483648 →
      Util.to_fixed_24_dot_8 ((n : ℚ) / 256) = some n := by
  refine ⟨(Util.to_fixed_round x).1, (Util.to_fixed_round x).2, ?_, ?_, ?_, ?_, ?_⟩
  · simpa using Util.to_fixed_whole 0 (by decide) (by decide)
  · simpa using Util.to_fixed_whole 1 (by decide) (by decide)
  · simpa using Util.to_fixed_whole (-1) (by decide) (by decide)
  · have := Util.to_fixed_of_int 128 (by decide) (by decide)
    norm_num at this
    exact this
  · intro n h0 h1
    exact Util.to_fixed_of_int n h0 (by omega)

/-- Witness of C13: `3/512`, where `256 x = 3/2` is a tie, converts to an
integer within `1/2` of `3/2` that is further from zero than `3/2`. -/
theorem C13_fixed_point_conversion_witness :
    ∃ r, Util.to_fixed_24_dot_8 (3 / 512) = some r ∧
      |(r : ℚ) - 256 * (3 / 512)| ≤ 1 / 2 ∧
      (|(r : ℚ) - 256 * (3 / 512)| = 1 / 2 → |256 * (3 / 512 : ℚ)| < |(r : ℚ)|) := by
  obtain ⟨r, hr⟩ := (C13_fixed_point_conversion (3 / 512)).2.1 (by norm_num) (by norm_num)
  obtain ⟨h1, h2, _⟩ := (C13_fixed_point_conversion (3 / 512)).1 r hr
  exact ⟨r, hr, h1, h2⟩

/-- C14, amended. Bezier step count.  The step count is computed in the
`Float` type: with `S_f` the sum of the absolute coordinate differences of
consecutive control points, every difference and every addition rounded by
`rnd` and the sum taken from left to right, and `n = ceil(rnd(S_f * 0.25))`
(`step_count_rnd`), for every rounding `rnd` and every cubic
`(P0, P1, P2, P3)`: whenever `subdivide_bezier` returns (the conversion of `n`
to `Unt_32` is defined) it invokes its callback exactly 0 times when `n = 0`
and exactly `max(4, n)` times, hence at least 4 times, otherwise; it returns
when `0 ≤ n < 2^32`, and with the rounding of `float` (`round_float`) when
`n < 2^32`.  Over exact arithmetic (`rnd` the identity, `subdivide_bezier`)
`n = ceil(S / 4)` for the exact sum `S`, and the callback is invoked exactly 0
times when `S = 0` and exactly `max(4, ceil(S / 4))` times otherwise. -/
theorem C14_bezier_step_count (rnd : ℚ → ℚ) (x_0 y_0 x_1 y_1 x_2 y_2 x_3 y_3 : ℚ) :
    ((∀ pts, Util.subdivide_bezier_rnd rnd x_0 y_0 x_1 y_1 x_2 y_2 x_3 y_3 = some pts →
        (Util.step_count_rnd rnd x_0 y_0 x_1 y_1 x_2 y_2 x_3 y_3 = 0 → pts.length = 0) ∧
        (Util.step_count_rnd rnd x_0 y_0 x_1 y_1 x_2 y_2 x_3 y_3 ≠ 0 →
          (pts.length : Int) = max 4 (Util.step_count_rnd rnd x_0 y_0 x_1 y_1 x_2 y_2 x_3 y_3) ∧
          4 ≤ pts.length)) ∧
      (0 ≤ Util.step_count_rnd rnd x_0 y_0 x_1 y_1 x_2 y_2 x_3 y_3 →
        Util.step_count_rnd rnd x_0 y_0 x_1 y_1 x_2 y_2 x_3 y_3 < 4294967296 →
        ∃ pts, Util.subdivide_bezier_rnd rnd x_0 y_0 x_1 y_1 x_2 y_2 x_3 y_3 = some pts)) ∧
    (Util.step_count_rnd Util.round_float x_0 y_0 x_1 y_1 x_2 y_2 x_3 y_3 < 4294967296 →
      ∃ pts, Util.subdivide_bezier_rnd Util.round_float x_0 y_0 x_1 y_1 x_2 y_2 x_3 y_3 =
        some pts) ∧
    (Util.subdivide_bezier_rnd id x_0 y_0 x_1 y_1 x_2 y_2 x_3 y_3 =
        Util.subdivide_bezier x_0 y_0 x_1 y_1 x_2 y_2 x_3 y_3 ∧
      Util.step_count_rnd id x_0 y_0 x_1 y_1 x_2 y_2 x_3 y_3 =
        ⌈Util.chord_sum x_0 y_0 x_1 y_1 x_2 y_2 x_3 y_3 / 4⌉ ∧
      (∀ pts, Util.subdivide_bezier x_0 y_0 x_1 y_1 x_2 y_2 x_3 y_3 = some pts →
        (Util.chord_sum x_0 y_0 x_1 y_1 x_2 y_2 x_3 y_3 = 0 → pts.length = 0) ∧
        (Util.chord_sum x_0 y_0 x_1 y_1 x_2 y_2 x_3 y_3 ≠ 0 →
          (pts.length : Int) = max 4 ⌈Util.chord_sum x_0 y_0 x_1 y_1 x_2 y_2 x_3 y_3 / 4⌉ ∧
          4 ≤ pts.length)) ∧
      (⌈Util.chord_sum x_0 y_0 x_1 y_1 x_2 y_2 x_3 y_3 / 4⌉ < 4294967296 →
        ∃ pts, Util.subdivide_bezier x_0 y_0 x_1 y_1 x_2 y_2 x_3 y_3 = some pts)) := by
  obtain ⟨c1, c2⟩ := Util.subdivide_bezier_rnd_count rnd x_0 y_0 x_1 y_1 x_2 y_2 x_3 y_3
  obtain ⟨_, f2⟩ :=
    Util.subdivide_bezier_rnd_count Util.round_float x_0 y_0 x_1 y_1 x_2 y_2 x_3 y_3
  obtain ⟨h1, h2⟩ := Util.subdivide_bezier_eq x_0 y_0 x_1 y_1 x_2 y_2 x_3 y_3
  refine ⟨⟨fun pts hp => ⟨fun h0 => ?_, fun h0 => ?_⟩, c2⟩,
    f2 (Util.step_count_rnd_nonneg _ Util.round_float_nonneg _ _ _ _ _ _ _ _),
    Util.subdivide_bezier_rnd_id _ _ _ _ _ _ _ _, Util.step_count_rnd_id _ _ _ _ _ _ _ _,
    fun pts hp => ⟨fun h0 => ?_, fun h0 => ?_⟩, h2⟩
  · rw [(c1 pts hp).1 h0]
    rfl
  · have e := (c1 pts hp).2 h0
    have : (4 : Int) ≤ max 4 (Util.step_count_rnd rnd x_0 y_0 x_1 y_1 x_2 y_2 x_3 y_3) :=
      le_max_left _ _
    exact ⟨e, by omega⟩
  · rw [(h1 pts hp).1 h0]
    rfl
  · rw [(h1 pts hp).2 h0, List.length_map, List.length_range]
    have : (4 : Int) ≤ max 4 ⌈Util.chord_sum x_0 y_0 x_1 y_1 x_2 y_2 x_3 y_3 / 4⌉ :=
      le_max_left _ _
    constructor <;> omega

/-- Witness of C14: in `float` arithmetic the cubic `(0,0), (4,0), (8,0),
(44,0)` has the step count 11 and gets 11 points. -/
theorem C14_bezier_step_count_witness :
    Util.step_count_rnd Util.round_float 0 0 4 0 8 0 44 0 = 11 ∧
    ∃ pts, Util.subdivide_bezier_rnd Util.round_float 0 0 4 0 8 0 44 0 = some pts ∧
      pts.length = 11 := by
  have hn : Util.step_count_rnd Util.round_float 0 0 4 0 8 0 44 0 = 11 := by decide!
  obtain ⟨pts, hp⟩ := (C14_bezier_step_count Util.round_float 0 0 4 0 8 0 44 0).2.1
    (by rw [hn]; decide)
  have h := ((C14_bezier_step_count Util.round_float 0 0 4 0 8 0 44 0).1.1 pts hp).2
    (by rw [hn]; decide)
  rw [hn] at h
  exact ⟨hn, pts, hp, by omega⟩

/-- Counterexample to C14 as stated, in `float` arithmetic.  For
`P0 = (0,0)`, `P1 = P2 = P3 = (16, 2^-30)`, all `float` values, the exact sum
is `S = 16 + 2^-30`, so `S ≠ 0` and `max(4, ceil(S / 4)) = 5`, but
`16 + 2^-30` rounds to 16, the step count is 4 and the callback is invoked 4
times.  For `P0 = (0,0)`, `P1 = P2 = P3 = (0, 2^-149)`, `S = 2^-149 ≠ 0` and
`max(4, ceil(S / 4)) = 4`, but `S * 0.25` rounds to 0 and the callback is not
invoked. -/
theorem C14_bezier_step_count_counterexample :
    (Util.round_float 16 = 16 ∧ Util.round_float (1 / 2 ^ 30) = 1 / 2 ^ 30 ∧
      Util.chord_sum 0 0 16 (1 / 2 ^ 30) 16 (1 / 2 ^ 30) 16 (1 / 2 ^ 30) = 16 + 1 / 2 ^ 30 ∧
      max 4 ⌈Util.chord_sum 0 0 16 (1 / 2 ^ 30) 16 (1 / 2 ^ 30) 16 (1 / 2 ^ 30) / 4⌉ = 5 ∧
      Util.round_float (16 + 1 / 2 ^ 30) = 16 ∧
      Util.step_count_rnd Util.round_float 0 0 16 (1 / 2 ^ 30) 16 (1 / 2 ^ 30) 16 (1 / 2 ^ 30) =
        4 ∧
      (Util.subdivide_bezier_rnd Util.round_float
        0 0 16 (1 / 2 ^ 30) 16 (1 / 2 ^ 30) 16 (1 / 2 ^ 30)).map List.length = some 4) ∧
    (Util.round_float (1 / 2 ^ 149) = 1 / 2 ^ 149 ∧
      Util.chord_sum 0 0 0 (1 / 2 ^ 149) 0 (1 / 2 ^ 149) 0 (1 / 2 ^ 149) = 1 / 2 ^ 149 ∧
      max 4 ⌈Util.chord_sum 0 0 0 (1 / 2 ^ 149) 0 (1 / 2 ^ 149) 0 (1 / 2 ^ 149) / 4⌉ = 4 ∧
      Util.round_float (1 / 2 ^ 149 * (1 / 4)) = 0 ∧
      Util.step_count_rnd Util.round_float
        0 0 0 (1 / 2 ^ 149) 0 (1 / 2 ^ 149) 0 (1 / 2 ^ 149) = 0 ∧
      Util.subdivide_bezier_rnd Util.round_float
        0 0 0 (1 / 2 ^ 149) 0 (1 / 2 ^ 149) 0 (1 / 2 ^ 149) = some []) := by
  decide!

end vgxx

namespace vgxx

open Cell_processor in
/-- C17. Scenario S2, covered pixels: on a fresh 2 x 2 renderer,
`move_to(0,0); line_to(2,2); line_to(0,2); fill(non_zero)` returns and calls
`blend` exactly once at pixel `(x=0, y=1)`, with coverage 255, and exactly once
at pixel `(x=1, y=1)`, with coverage 127. -/
theorem C17_triangle_covered_pixels :
    ∃ calls, Renderer.draw 2 2 [Path_cmd.move_to 0 0, Path_cmd.line_to 2 2,
        Path_cmd.line_to 0 2] Fill_rule.non_zero = some calls ∧
      (blend_log none none calls).filter (fun e => decide (log_pixel e = (some 0, some 1))) =
        [(some 0, some 1, 255)] ∧
      (blend_log none none calls).filter (fun e => decide (log_pixel e = (some 1, some 1))) =
        [(some 1, some 1, 127)] :=
  ⟨_, triangle_calls, by decide, by decide⟩

open Cell_processor in
/-- Counterexample to C18 as stated: in scenario S2 pixel `(x=0, y=0)`, half
of which lies under the diagonal, gets a `blend` call, with coverage 127. -/
theorem C18_triangle_uncovered_counterexample :
    ∃ calls, Renderer.draw 2 2 [Path_cmd.move_to 0 0, Path_cmd.line_to 2 2,
        Path_cmd.line_to 0 2] Fill_rule.non_zero = some calls ∧
      (some 0, some 0, 127) ∈ blend_log none none calls :=
  ⟨_, triangle_calls, by decide⟩

open Cell_processor in
/-- C18, amended. Scenario S2, pixels of row 0: on a fresh 2 x 2 renderer,
`move_to(0,0); line_to(2,2); line_to(0,2); fill(non_zero)` makes no `blend`
call at pixel `(x=1, y=0)` and exactly one at pixel `(x=0, y=0)`, with
coverage 127; the `blend` calls of the whole fill are those at `(0,0)`,
`(0,1)` and `(1,1)`. -/
theorem C18_triangle_uncovered_pixels :
    ∃ calls, Renderer.draw 2 2 [Path_cmd.move_to 0 0, Path_cmd.line_to 2 2,
        Path_cmd.line_to 0 2] Fill_rule.non_zero = some calls ∧
      (blend_log none none calls).filter (fun e => decide (log_pixel e = (some 1, some 0))) =
        [] ∧
      (blend_log none none calls).filter (fun e => decide (log_pixel e = (some 0, some 0))) =
        [(some 0, some 0, 127)] ∧
      blend_log none none calls =
        [(some 0, some 0, 127), (some 0, some 1, 255), (some 1, some 1, 127)] :=
  ⟨_, triangle_calls, by decide, by decide, by decide⟩

open Cell_processor in
/-- C19. Scenario S3 (even-odd annulus): on a fresh 16 x 16 renderer,
`move_to(2,2); line_to(14,2); line_to(14,14); line_to(2,14); move_to(6,6);
line_to(10,6); line_to(10,10); line_to(6,10); fill(even_odd)` returns, and its
`blend` calls are exactly: one call, with coverage 255, at every pixel of
`[2,14) x [2,14)` outside `[6,10) x [6,10)`; no pixel is blended twice. -/
theorem C19_even_odd_annulus :
    ∃ calls, Renderer.draw 16 16 [Path_cmd.move_to 2 2, Path_cmd.line_to 14 2,
        Path_cmd.line_to 14 14, Path_cmd.line_to 2 14, Path_cmd.move_to 6 6,
        Path_cmd.line_to 10 6, Path_cmd.line_to 10 10, Path_cmd.line_to 6 10]
        Fill_rule.even_odd = some calls ∧
      (∀ e, e ∈ blend_log none none calls ↔
        ∃ x y : Int, 2 ≤ x ∧ x < 14 ∧ 2 ≤ y ∧ y < 14 ∧
          ¬ (6 ≤ x ∧ x < 10 ∧ 6 ≤ y ∧ y < 10) ∧ e = (some x, some y, 255)) ∧
      ((blend_log none none calls).map log_pixel).Nodup := by
  have h := annulus_log
  cases hd : Renderer.draw 16 16 [Path_cmd.move_to 2 2, Path_cmd.line_to 14 2,
        Path_cmd.line_to 14 14, Path_cmd.line_to 2 14, Path_cmd.move_to 6 6,
        Path_cmd.line_to 10 6, Path_cmd.line_to 10 10, Path_cmd.line_to 6 10]
        Fill_rule.even_odd with
  | none => rw [hd] at h; exact Option.noConfusion h
  | some calls =>
    rw [hd] at h
    have h1 : blend_log none none calls = _ := Option.some.inj h
    refine ⟨calls, rfl, fun e => ?_, ?_⟩
    · rw [h1]
      exact annulus_mem e
    · rw [h1]
      exact annulus_nodup

open Cell_processor in
/-- C16. Pixel-aligned rectangle fill (general form of scenario S1): for
integers `0 <= a < b <= width` and `0 <= c < d <= height`, on a freshly
constructed `width x height` renderer (`Unt_16` dimensions),
`move_to(a,c); line_to(b,c); line_to(b,d); line_to(a,d); fill(rule)` returns
and calls `blend(255)` exactly once at every pixel `(x, y)` with `a <= x < b`
and `c <= y < d` and makes no `blend` call at any other pixel, for either fill
rule; and the reference blender with an opaque source colour (alpha 255), on
an image whose rows hold at least `width` pixels and which fits the address
space, executes these calls and sets exactly those pixels of the image to the
colour: every other pixel, and every other offset, keeps its value. -/
theorem C16_rectangle_fill (width height a b c d : Int) (rule : Fill_rule)
    (hw : width ≤ 65535) (hh : height ≤ 65535)
    (ha : 0 ≤ a) (hab : a < b) (hb : b ≤ width) (hc : 0 ≤ c) (hcd : c < d) (hd : d ≤ height) :
    ∃ calls, Renderer.draw width height [Path_cmd.move_to a c, Path_cmd.line_to b c,
        Path_cmd.line_to b d, Path_cmd.line_to a d] rule = some calls ∧
      (∀ e, e ∈ blend_log none none calls ↔
        ∃ x y : Int, a ≤ x ∧ x < b ∧ c ≤ y ∧ y < d ∧ e = (some x, some y, 255)) ∧
      ((blend_log none none calls).map log_pixel).Nodup ∧
      ∀ (color bytes_per_row : Nat) (img : Int → Nat),
        Color_blender_bgra_8888.get_alpha_ color = 255 → 4 * width ≤ bytes_per_row →
        (bytes_per_row : Int) * height ≤ 18446744073709551616 →
        ∃ s1, ((Image_blender.init bytes_per_row img).set_color color).run calls = some s1 ∧
          (∀ x y, 0 ≤ x → x < width → 0 ≤ y → y < height →
            s1.img (pixel_offset bytes_per_row x y) =
              if a ≤ x ∧ x < b ∧ c ≤ y ∧ y < d then color
              else img (pixel_offset bytes_per_row x y)) ∧
          ∀ q, (∀ x y, a ≤ x → x < b → c ≤ y → y < d → q ≠ pixel_offset bytes_per_row x y) →
            s1.img q = img q := by
  have hfix : Path_cmd.fixed_all [Path_cmd.move_to a c, Path_cmd.line_to b c,
      Path_cmd.line_to b d, Path_cmd.line_to a d] =
      some [Fixed_cmd.move_to (256 * a) (256 * c), Fixed_cmd.line_to (256 * b) (256 * c),
        Fixed_cmd.line_to (256 * b) (256 * d), Fixed_cmd.line_to (256 * a) (256 * d)] := by
    simp only [Path_cmd.fixed_all,
      Path_cmd.fixed_move_whole a c (by omega) (by omega) (by omega) (by omega),
      Path_cmd.fixed_line_whole b c (by omega) (by omega) (by omega) (by omega),
      Path_cmd.fixed_line_whole b d (by omega) (by omega) (by omega) (by omega),
      Path_cmd.fixed_line_whole a d (by omega) (by omega) (by omega) (by omega)]
  obtain ⟨cp1, hrun, hW, hh1, hrows⟩ :=
    rect_view width height a b c d hw hh ha hab hb hc hcd hd
  have hdraw : Renderer.draw width height [Path_cmd.move_to a c, Path_cmd.line_to b c,
      Path_cmd.line_to b d, Path_cmd.line_to a d] rule = some (swipe rule cp1).1 := by
    rw [Renderer.draw_fixed width height _ _ rule hfix]
    show Option.map _ ((Cell_processor.init width height).run
      (Rasterizer.init.exec_all_fixed [Fixed_cmd.move_to (256 * a) (256 * c),
        Fixed_cmd.line_to (256 * b) (256 * c), Fixed_cmd.line_to (256 * b) (256 * d),
        Fixed_cmd.line_to (256 * a) (256 * d), Fixed_cmd.close]).1) = _
    rw [Rasterizer.rect_calls, hrun]
    rfl
  obtain ⟨hlog, hnd⟩ := swipe_log rule cp1 hW
  have hchar : ∀ e, e ∈ blend_log none none (swipe rule cp1).1 ↔
      ∃ x y : Int, a ≤ x ∧ x < b ∧ c ≤ y ∧ y < d ∧ e = (some x, some y, 255) := by
    intro e
    rw [hlog e]
    constructor
    · rintro ⟨y, x, hy0, hy1, hx0, hx1, hpos, he⟩
      rw [hh1] at hy1
      obtain ⟨hout, hin⟩ := hrows y hy0 hy1
      by_cases hy : c ≤ y ∧ y < d
      · obtain ⟨hxr, hcov⟩ := hin hy
        rw [hxr] at hx0 hx1
        have hv := hcov rule x hx0 hx1
        rw [hv] at hpos he
        by_cases hxb : x < b
        · rw [if_pos hxb] at he
          exact ⟨x, y, hx0, hxb, hy.1, hy.2, he⟩
        · rw [if_neg hxb] at hpos
          exact absurd hpos (by decide)
      · rw [hout hy] at hx0 hx1
        have h0 : (65535 : Int) ≤ x := hx0
        have h1 : x ≤ (0 : Int) := hx1
        omega
    · rintro ⟨x, y, hx0, hx1, hy0, hy1, he⟩
      obtain ⟨_, hin⟩ := hrows y (by omega) (by omega)
      obtain ⟨hxr, hcov⟩ := hin ⟨hy0, hy1⟩
      have hxm : x ≤ (if width ≤ b then width - 1 else b) := by
        split_ifs <;> omega
      have hv := hcov rule x hx0 hxm
      rw [if_pos hx1] at hv
      refine ⟨y, x, by omega, by rw [hh1]; omega, by rw [hxr]; exact hx0,
        by rw [hxr]; exact hxm, by rw [hv]; decide, by rw [hv]; exact he⟩
  refine ⟨_, hdraw, hchar, hnd, ?_⟩
  intro color bytes_per_row img hA hrow himg
  obtain ⟨owner, hinv⟩ := hW
  have hset : ∀ y, Blender_call.set_y y ∈ (swipe rule cp1).1 →
      0 ≤ y ∧ y < 18446744073709551616 ∧
        (bytes_per_row : Int) * y < 18446744073709551616 := by
    intro y hy
    rw [(swipe_ok rule cp1 owner hinv).1] at hy
    obtain ⟨hne, hy1⟩ := set_y_mem_expect_swipe rule cp1 y hy
    have hyr : 0 ≤ cp1.y_range_.min ∧ cp1.y_range_.min ≤ cp1.y_range_.max ∧
        cp1.y_range_.max ≤ cp1.height_ - 1 := by
      rcases hinv.y_range_ok with h0 | h0
      · rw [h0] at hne
        exact absurd hne (by decide)
      · exact h0
    rw [hh1] at hyr
    rw [← hy1] at hyr
    have hbpr : (0 : Int) ≤ (bytes_per_row : Int) := Int.natCast_nonneg _
    refine ⟨hyr.1, by omega, ?_⟩
    have h1 : (bytes_per_row : Int) * y ≤ (bytes_per_row : Int) * (height - 1) :=
      mul_le_mul_of_nonneg_left (by omega) hbpr
    have h2 : (bytes_per_row : Int) * (height - 1) =
        (bytes_per_row : Int) * height - (bytes_per_row : Int) := by ring
    omega
  obtain ⟨s1, r1, r2, _, _⟩ := Image_blender.run_paint (swipe rule cp1).1
    ((Image_blender.init bytes_per_row img).set_color color) none none
    (fun y h0 => by cases h0) (fun x y h0 => by cases h0) hset
    (fun e he => by
      obtain ⟨x, y, _, _, _, _, h0⟩ := (hchar e).mp he
      exact ⟨x, y, 255, h0⟩)
  have hcol : ((Image_blender.init bytes_per_row img).set_color color).colors =
      ⟨color, Color_blender_bgra_8888.get_alpha_ color, Color_blender_bgra_8888.get_red_ color,
        Color_blender_bgra_8888.get_green_ color, Color_blender_bgra_8888.get_blue_ color⟩ :=
    Color_blender_bgra_8888.set_color_init color
  have hfull := paint_full ((Image_blender.init bytes_per_row img).set_color color).colors
    bytes_per_row (by rw [hcol]; exact hA) (blend_log none none (swipe rule cp1).1) img
  have hall : ∀ e ∈ blend_log none none (swipe rule cp1).1, ∃ x y, e = (some x, some y, 255) := by
    intro e he
    obtain ⟨x, y, _, _, _, _, h0⟩ := (hchar e).mp he
    exact ⟨x, y, h0⟩
  have himg1 : ∀ q, s1.img q = paint ((Image_blender.init bytes_per_row img).set_color
      color).colors bytes_per_row img (blend_log none none (swipe rule cp1).1) q := by
    intro q
    rw [r2]
    rfl
  have hcolor : ((Image_blender.init bytes_per_row img).set_color color).colors.color_ =
      color := by
    rw [hcol]
  have hin : ∀ x y, (some x, some y, (255 : Int)) ∈ blend_log none none (swipe rule cp1).1 →
      a ≤ x ∧ x < b ∧ c ≤ y ∧ y < d := by
    intro x y hxy
    obtain ⟨x1, y1, k1, k2, k3, k4, h0⟩ := (hchar _).mp hxy
    have e1 : x = x1 := Option.some.inj (Prod.mk.inj h0).1
    have e2 : y = y1 := Option.some.inj (Prod.mk.inj (Prod.mk.inj h0).2).1
    rw [e1, e2]
    exact ⟨k1, k2, k3, k4⟩
  refine ⟨s1, r1, ?_, ?_⟩
  · intro x y hx0 hx1 hy0 hy1
    rw [himg1]
    by_cases hr : a ≤ x ∧ x < b ∧ c ≤ y ∧ y < d
    · rw [if_pos hr, (hfull _ hall).1 ⟨x, y, (hchar _).mpr
        ⟨x, y, hr.1, hr.2.1, hr.2.2.1, hr.2.2.2, rfl⟩, rfl⟩, hcolor]
    · rw [if_neg hr]
      apply (hfull _ hall).2
      rintro ⟨x1, y1, hmem, hoff⟩
      obtain ⟨k1, k2, k3, k4⟩ := hin x1 y1 hmem
      obtain ⟨e1, e2⟩ := pixel_offset_inj bytes_per_row width x y x1 y1 hrow hx0 hx1
        (by omega) (by omega) hoff
      rw [e1, e2] at hr
      exact hr ⟨k1, k2, k3, k4⟩
  · intro q hq
    rw [himg1]
    apply (hfull _ hall).2
    rintro ⟨x1, y1, hmem, hoff⟩
    obtain ⟨k1, k2, k3, k4⟩ := hin x1 y1 hmem
    exact hq x1 y1 k1 k2 k3 k4 hoff

open Cell_processor in
/-- Witness of C16: scenario S1, the unit square at the origin of a 10 x 10
renderer; the only `blend` call is `blend(255)` at pixel `(0, 0)`, and on a
black image of 40 bytes per row the white blender leaves pixel `(0, 0)` white
and every other pixel black. -/
theorem C16_rectangle_fill_witness :
    ∃ calls, Renderer.draw 10 10 [Path_cmd.move_to 0 0, Path_cmd.line_to 1 0,
        Path_cmd.line_to 1 1, Path_cmd.line_to 0 1] Fill_rule.non_zero = some calls ∧
      (∀ e, e ∈ blend_log none none calls ↔ e = (some 0, some 0, 255)) ∧
      ∃ s1, ((Image_blender.init 40 (fun _ => 0)).set_color 0xFFFFFFFF).run calls = some s1 ∧
        ∀ x y, 0 ≤ x → x < 10 → 0 ≤ y → y < 10 →
          s1.img (pixel_offset 40 x y) = if x = 0 ∧ y = 0 then 0xFFFFFFFF else 0 := by
  obtain ⟨calls, h1, h2, _, h4⟩ := C16_rectangle_fill 10 10 0 1 0 1 Fill_rule.non_zero
    (by decide) (by decide) (by decide) (by decide) (by decide) (by decide) (by decide)
    (by decide)
  simp only [Int.cast_zero, Int.cast_one] at h1
  obtain ⟨s1, k1, k2, _⟩ := h4 0xFFFFFFFF 40 (fun _ => 0) (by decide) (by decide) (by decide)
  refine ⟨calls, h1, fun e => ?_, s1, k1, fun x y hx0 hx1 hy0 hy1 => ?_⟩
  · rw [h2 e]
    constructor
    · rintro ⟨x, y, hx0, hx1, hy0, hy1, he⟩
      have hx : x = 0 := by omega
      have hy : y = 0 := by omega
      rw [he, hx, hy]
    · intro he
      exact ⟨0, 0, by decide, by decide, by decide, by decide, he⟩
  · rw [k2 x y hx0 hx1 hy0 hy1]
    by_cases hxy : x = 0 ∧ y = 0
    · rw [if_pos hxy, if_pos ⟨by omega, by omega, by omega, by omega⟩]
    · rw [if_neg hxy, if_neg (by omega)]

end vgxx

namespace vgxx

/-- C21. `move_to` closes the previous contour:
`Rasterizer::move_to_fixed_24_dot_8(x, y)` makes exactly the calls of
`add_line_` from the pen to the subpath origin and then sets the pen and the
subpath origin to `(x, y)`; `close` makes exactly the calls of `add_line_` from
the pen to the subpath origin, keeps the subpath origin and leaves the pen on
it; so a `close` or a `move_to` issued immediately after a `close` makes no
call on the cell processor. -/
theorem C21_move_to_closes_contour (r : Rasterizer) (x y : Int) :
    (r.move_to_fixed_24_dot_8 x y).1 = Rasterizer.add_line_ r.x_ r.y_ r.x_0_ r.y_0_ ∧
    (r.move_to_fixed_24_dot_8 x y).2 = { x_0_ := x, y_0_ := y, x_ := x, y_ := y } ∧
    r.close.1 = Rasterizer.add_line_ r.x_ r.y_ r.x_0_ r.y_0_ ∧
    r.close.2 = { x_0_ := r.x_0_, y_0_ := r.y_0_, x_ := r.x_0_, y_ := r.y_0_ } ∧
    r.close.2.close.1 = [] ∧
    (r.close.2.move_to_fixed_24_dot_8 x y).1 = [] := by
  refine ⟨rfl, rfl, rfl, rfl, ?_, ?_⟩
  · show Rasterizer.add_line_ r.x_0_ r.y_0_ r.x_0_ r.y_0_ = []
    unfold Rasterizer.add_line_
    rw [if_pos rfl]
  · show Rasterizer.add_line_ r.x_0_ r.y_0_ r.x_0_ r.y_0_ = []
    unfold Rasterizer.add_line_
    rw [if_pos rfl]

open Cell_processor in
/-- C23. Cell stash overflow: for an `Unt_32` in-use counter, `acquire` throws
if and only if the counter equals `2^32 - 1`; otherwise it stores in `idx` the
counter before the call and increments the counter by one, so the indices
handed out by successive calls since the last `reset` are `0, 1, 2, ...`,
pairwise distinct; `reset` sets the counter to 0. -/
theorem C23_stash_overflow (st : Cell_stash_) (h : st.cells_in_use_ ≤ 4294967295) :
    (st.acquire = none ↔ st.cells_in_use_ = 4294967295) ∧
    (st.cells_in_use_ ≠ 4294967295 →
      ∃ pos st1, st.acquire = some (st.cells_in_use_, pos, st1) ∧
        st1.cells_in_use_ = st.cells_in_use_ + 1) ∧
    (∀ n : Nat, n ≤ 4294967295 →
      ∃ st1, st.reset.acquire_many n = some (List.range n, st1) ∧ st1.cells_in_use_ = n ∧
        (List.range n).Nodup) ∧
    st.reset.cells_in_use_ = 0 := by
  refine ⟨⟨fun hn => ?_, fun he => ?_⟩, fun hne => Cell_stash_.acquire_some st (by omega),
    fun n hn => ?_, rfl⟩
  · by_contra hne
    obtain ⟨pos, st1, h1, _⟩ := Cell_stash_.acquire_some st (by omega)
    rw [h1] at hn
    exact Option.noConfusion hn
  · unfold Cell_stash_.acquire
    rw [if_neg (by omega)]
  · obtain ⟨st1, h1, h2⟩ := Cell_stash_.acquire_many_range n st.reset
      (by show 0 + n ≤ 4294967295; omega)
    refine ⟨st1, ?_, ?_, List.nodup_range n⟩
    · rw [h1, List.range_eq_range']
      rfl
    · rw [h2]
      show 0 + n = n
      omega

open Cell_processor in
/-- Witness of C23: a stash with three cells in use hands out index 3, and
after a `reset` the indices 0, 1, 2, 3. -/
theorem C23_stash_overflow_witness :
    (∃ pos st1, Cell_stash_.acquire { cells_ := [default, default, default], cells_in_use_ := 3 } =
        some (3, pos, st1) ∧ st1.cells_in_use_ = 4) ∧
    ∃ st1, (Cell_stash_.mk [default, default, default] 3).reset.acquire_many 4 =
      some ([0, 1, 2, 3], st1) := by
  have h := C23_stash_overflow { cells_ := [default, default, default], cells_in_use_ := 3 }
    (by decide)
  refine ⟨h.2.1 (by decide), ?_⟩
  obtain ⟨st1, h1, _⟩ := h.2.2.1 4 (by decide)
  exact ⟨st1, h1⟩

open Cell_processor in
/-- C29. Gap coverage equals cell coverage with zero area: for both fill rules
and every running cover with `|cover| < 2^22`, the gap value computed in
`swipe` (`|cover|` clamped to `0x100` for non-zero, or folded from bit 8 and
the low 8 bits for even-odd, then multiplied by `255 / 256`) equals
`Util::compute_cell_coverage<rule>(cover, 0)`. -/
theorem C29_gap_equals_cell (rule : Fill_rule) (cover : Int) (h : |cover| < 4194304) :
    gap_coverage rule cover = Util.compute_cell_coverage rule cover 0 ∧
    gap_coverage Fill_rule.non_zero cover = (min |cover| 256 * 255) / 256 ∧
    gap_coverage Fill_rule.even_odd cover =
      ((if |cover| / 256 % 2 = 0 then |cover| % 256 else 256 - |cover| % 256) * 255) / 256 := by
  have habs : (if 0 > cover then -cover else cover) = |cover| := by
    split_ifs with hc
    · rw [abs_of_neg (by omega)]
    · rw [abs_of_nonneg (by omega)]
  have hnn : 0 ≤ |cover| := abs_nonneg _
  refine ⟨gap_eq_cell rule cover h, ?_, ?_⟩
  · simp only [gap_coverage, habs]
    generalize |cover| = a at hnn
    unfold u8
    split_ifs with h1
    · rw [min_eq_right (by omega)]; decide
    · rw [min_eq_left (by omega), show a * 256 - a = a * 255 by ring]
      omega
  · simp only [gap_coverage, habs]
    generalize |cover| = a at hnn
    unfold u8
    split_ifs with h1
    · rw [show a % 256 * 256 - a % 256 = a % 256 * 255 by ring]
      omega
    · rw [show (256 - a % 256) * 256 - (256 - a % 256) = (256 - a % 256) * 255 by ring]
      omega

open Cell_processor in
/-- Witness of C29: the running covers `300` and `-300`. -/
theorem C29_gap_equals_cell_witness :
    gap_coverage Fill_rule.non_zero 300 = Util.compute_cell_coverage Fill_rule.non_zero 300 0 ∧
    gap_coverage Fill_rule.even_odd (-300) =
      Util.compute_cell_coverage Fill_rule.even_odd (-300) 0 :=
  ⟨(C29_gap_equals_cell Fill_rule.non_zero 300 (by decide)).1,
    (C29_gap_equals_cell Fill_rule.even_odd (-300) (by decide)).1⟩

open Cell_processor in
/-- C30. Range invariant: in every `Cell_processor` state reachable from
construction with `0 < width, height` by `set_x`, `set_y`, `inc_x`, `set_cell`
and `swipe`, every row `y` of the row array that has a head cell, a non-zero
`left_cover` or a non-empty `x_range` satisfies
`y_range.min <= y <= y_range.max < height`, and every cell in the list of row
`y` has `row.x_range.min <= cell.x <= row.x_range.max <= width - 1`, so the
dense index `cell.x - x_min` used by `swipe` is inside the working array of
`x_max - x_min + 1` cells. -/
theorem C30_range_invariant (cp : Cell_processor) (h : Reachable cp) (y : Int)
    (hy0 : 0 ≤ y) (hy1 : y < cp.height_) :
    (((cp.row y).first_cell_idx ≠ invalid_cell_index_ ∨ (cp.row y).left_cover ≠ 0 ∨
        (cp.row y).x_range.nonempty) →
      cp.y_range_.min ≤ y ∧ y ≤ cp.y_range_.max ∧ cp.y_range_.max < cp.height_) ∧
    (∀ c ∈ cp.row_cells y,
      (cp.row y).x_range.min ≤ c.x ∧ c.x ≤ (cp.row y).x_range.max ∧
        (cp.row y).x_range.max ≤ cp.width_ - 1 ∧
        0 ≤ c.x - (cp.row y).x_range.min ∧
        c.x - (cp.row y).x_range.min < (cp.row y).x_range.max - (cp.row y).x_range.min + 1) := by
  obtain ⟨owner, hinv⟩ := h.wf
  have hw := hinv.width_pos
  have hh := hinv.height_pos
  constructor
  · intro hrow
    rcases hinv.row_ok y hy0 hy1 with hr | ⟨_, _, _, h4, h5⟩
    · rw [hr] at hrow
      rcases hrow with h1 | h1 | h1
      · exact absurd rfl h1
      · exact absurd rfl h1
      · exact absurd h1 (by decide)
    · refine ⟨h4, h5, ?_⟩
      rcases hinv.y_range_ok with hy | ⟨_, _, h8⟩
      · rw [hy]; exact hh
      · omega
  · intro c hc
    obtain ⟨h1, h2⟩ := row_cells_range cp owner hinv y hy0 hy1 c hc
    have h3 : (cp.row y).x_range.max ≤ cp.width_ - 1 := by
      rcases hinv.row_ok y hy0 hy1 with hr | ⟨_, _, h3, _, _⟩
      · rw [hr]
        show (0 : Int) ≤ cp.width_ - 1
        omega
      · exact h3
    exact ⟨h1, h2, h3, by omega, by omega⟩

open Cell_processor in
/-- Witness of C30: a 4 x 2 processor after cells at the pixels `(3, 1)` and
`(1, 1)`: row 1 lies in `y_range` and both cells lie in its `x_range`. -/
theorem C30_range_invariant_witness :
    ∃ cp, (Cell_processor.init 4 2).run [Cell_call.set_x 3, Cell_call.set_y 1,
        Cell_call.set_cell 256 0, Cell_call.set_x 1, Cell_call.set_cell (-256) 0] = some cp ∧
      (cp.y_range_.min ≤ 1 ∧ 1 ≤ cp.y_range_.max ∧ cp.y_range_.max < cp.height_) ∧
      cp.row_cells 1 ≠ [] ∧
      ∀ c ∈ cp.row_cells 1, (cp.row 1).x_range.min ≤ c.x ∧ c.x ≤ (cp.row 1).x_range.max := by
  obtain ⟨cp, hcp⟩ := Option.isSome_iff_exists.mp
    (show ((Cell_processor.init 4 2).run [Cell_call.set_x 3, Cell_call.set_y 1,
        Cell_call.set_cell 256 0, Cell_call.set_x 1, Cell_call.set_cell (-256) 0]).isSome = true
      by decide)
  have hr : Reachable cp :=
    Reachable.run _ (Reachable.init 4 2 (by decide) (by decide) (by decide) (by decide)) hcp
  have hcp1 : cp = ((Cell_processor.init 4 2).run [Cell_call.set_x 3, Cell_call.set_y 1,
        Cell_call.set_cell 256 0, Cell_call.set_x 1, Cell_call.set_cell (-256) 0]).getD
        (Cell_processor.init 4 2) := by
    rw [hcp]; rfl
  have hh : (1 : Int) < cp.height_ := by rw [hcp1]; decide
  have h := C30_range_invariant cp hr 1 (by decide) hh
  refine ⟨cp, hcp, h.1 (Or.inl (by rw [hcp1]; decide)), by rw [hcp1]; decide, ?_⟩
  intro c hc
  exact ⟨(h.2 c hc).1, (h.2 c hc).2.1⟩

open Cell_processor in
/-- Divergence of C22 on the code: a processor constructed with `width = 0`
and `height = 1` allocates no row, yet `set_cell` at `(0, 0)` passes the row
test and updates `y_range_`, so the sweep is entered: it calls
`blender.set_y(0)` and visits row 0 of the row array that was never
allocated. -/
theorem C22_degenerate_processor_counterexample :
    (Cell_processor.init 0 1).rows_ = [] ∧
    ∃ cp, (Cell_processor.init 0 1).run [Cell_call.set_cell 1 0] = some cp ∧
      cp.y_range_.nonempty ∧
      (swipe Fill_rule.non_zero cp).1 = [Blender_call.set_y 0] :=
  ⟨rfl, _, rfl, by decide, by decide⟩

open Cell_processor in
/-- C22, the part that holds: for a `Cell_processor` constructed with
`height = 0` (and any width, no row array is allocated), every sequence of
`set_x`, `set_y`, `inc_x` and `set_cell` calls returns and leaves the row array
empty and `y_range_` empty, and the sweep that follows makes no blender call
and leaves the row array empty. -/
theorem C22_degenerate_processor (width : Int) (calls : List Cell_call) (rule : Fill_rule) :
    ∃ cp, (Cell_processor.init width 0).run calls = some cp ∧ cp.rows_ = [] ∧
      cp.y_range_ = Pixel_range_.init ∧ (swipe rule cp).1 = [] ∧
      (swipe rule cp).2.rows_ = [] := by
  obtain ⟨cp, h1, h2, h3, _, _⟩ := Cell_processor.run_height_zero calls
    (Cell_processor.init width 0) rfl
  have hrows : cp.rows_ = [] := by
    rw [h2]
    show (if 0 < width ∧ (0 : Int) < 0 then _ else _) = _
    rw [if_neg (by omega)]
  have hy : cp.y_range_ = Pixel_range_.init := by rw [h3]; rfl
  have hne : ¬ cp.y_range_.nonempty := by rw [hy]; decide
  refine ⟨cp, h1, hrows, hy, swipe_empty rule cp hy, ?_⟩
  simp only [swipe, if_neg hne]
  exact hrows

open Cell_processor in
/-- Counterexample to C25 as stated: on a 2 x 1 processor with a cell of
cover 256 at pixel 0 and a cell of cover -256 at pixel 1, row 0 has the
`x_range` `0 .. 1` and its calls are `set_x(0), blend(255), inc_x`: the last
call of the row is an `inc_x`, not a `blend`. -/
theorem C25_row_call_order_counterexample :
    ∃ cp, (Cell_processor.init 2 1).run [Cell_call.set_cell 256 0, Cell_call.set_x 1,
        Cell_call.set_cell (-256) 0] = some cp ∧
      (cp.row 0).x_range = { min := 0, max := 1 } ∧
      calls_of_row 0 none (swipe Fill_rule.non_zero cp).1 =
        [Blender_call.set_x 0, Blender_call.blend 255, Blender_call.inc_x] :=
  ⟨_, rfl, by decide, by decide⟩

open Cell_processor in
/-- C25, amended. Row call order: for every reachable state and every row `y`
of the row array with a non-empty `x_range`, the blender calls that `swipe`
makes on that row are `set_x(x_min)` followed by a sequence of `blend` and
`inc_x` calls (the calls for the pixels `x_min .. x_max` in order: a `blend`
where the coverage of the pixel is positive, an `inc_x` between two pixels),
every `blend` with a positive coverage, with exactly `x_max - x_min` `inc_x`
calls; the last call of the row is a `blend` if and only if the coverage of
pixel `x_max` is positive (otherwise it is an `inc_x`, or the `set_x` when
`x_min = x_max`). -/
theorem C25_row_call_order (cp : Cell_processor) (h : Reachable cp) (rule : Fill_rule)
    (y : Int) (hy0 : 0 ≤ y) (hy1 : y < cp.height_) (hx : (cp.row y).x_range.nonempty) :
    ∃ L, calls_of_row y none (swipe rule cp).1 =
        Blender_call.set_x (cp.row y).x_range.min :: L ∧
      L = expect_cells (cp.sweep_coverage rule y) (cp.row y).x_range.max
        (((cp.row y).x_range.max - (cp.row y).x_range.min).toNat + 1)
        (cp.row y).x_range.min ∧
      (∀ c ∈ L, c = Blender_call.inc_x ∨ ∃ v, 0 < v ∧ c = Blender_call.blend v) ∧
      (L.count Blender_call.inc_x : Int) = (cp.row y).x_range.max - (cp.row y).x_range.min ∧
      ((∃ v, (Blender_call.set_x (cp.row y).x_range.min :: L).getLast? =
          some (Blender_call.blend v)) ↔
        0 < cp.sweep_coverage rule y (cp.row y).x_range.max) := by
  have hle : (cp.row y).x_range.min ≤ (cp.row y).x_range.max := hx
  refine ⟨_, calls_of_row_swipe rule cp h.wf y hy0 hy1 hx, rfl,
    expect_cells_mem _ _ _ _, ?_, ?_⟩
  · rw [expect_cells_count _ _ _ _ (by push_cast; omega)]
    omega
  · exact expect_cells_last _ _ _ _ _ (by omega) (fun v => Blender_call.noConfusion)

open Cell_processor in
/-- Witness of C25: the 2 x 1 processor with cells of cover 256 and -256 at
the pixels 0 and 1; the calls of row 0 hold one `inc_x` and do not end with a
`blend`, the coverage of pixel 1 being 0. -/
theorem C25_row_call_order_witness :
    ∃ cp L, (Cell_processor.init 2 1).run [Cell_call.set_cell 256 0, Cell_call.set_x 1,
        Cell_call.set_cell (-256) 0] = some cp ∧
      calls_of_row 0 none (swipe Fill_rule.non_zero cp).1 = Blender_call.set_x 0 :: L ∧
      (L.count Blender_call.inc_x : Int) = 1 := by
  obtain ⟨cp, hcp⟩ := Option.isSome_iff_exists.mp
    (show ((Cell_processor.init 2 1).run [Cell_call.set_cell 256 0, Cell_call.set_x 1,
        Cell_call.set_cell (-256) 0]).isSome = true by decide)
  have hr : Reachable cp :=
    Reachable.run _ (Reachable.init 2 1 (by decide) (by decide) (by decide) (by decide)) hcp
  have hcp1 : cp = ((Cell_processor.init 2 1).run [Cell_call.set_cell 256 0, Cell_call.set_x 1,
        Cell_call.set_cell (-256) 0]).getD (Cell_processor.init 2 1) := by
    rw [hcp]; rfl
  have hmin : (cp.row 0).x_range.min = 0 := by rw [hcp1]; decide
  have hmax : (cp.row 0).x_range.max = 1 := by rw [hcp1]; decide
  obtain ⟨L, h1, _, _, h4, _⟩ := C25_row_call_order cp hr Fill_rule.non_zero 0 (by decide)
    (by rw [hcp1]; decide) (by show (cp.row 0).x_range.min ≤ (cp.row 0).x_range.max; omega)
  rw [hmin] at h1
  rw [hmin, hmax] at h4
  exact ⟨cp, L, hcp, h1, h4⟩

/-- C28. Vertical segments: for `X0 == X1` and `Y0 != Y1`, `add_line_` makes
exactly one `set_cell` call on each integer row `y` that the segment overlaps
with positive length and none on any other row; the call is made at column
`X0 >> 8` with `cover = clamp(Y1, 256 y, 256 y + 256) - clamp(Y0, 256 y, 256 y + 256)`
and `area = 2 * cover * (X0 & 0xff)`, so a fully crossed row gets
`cover = 0x100` and `area = (X0 & 0xff) << 9` when the segment goes down, and
their negations when it goes up. -/
theorem C28_vertical_segments (px py x y_0 y_1 : Int) (hy : y_0 ≠ y_1) (y : Int) :
    ((emissions px py (Rasterizer.add_line_ x y_0 x y_1)).filter (fun e => decide (e.y = y)) =
      if clamp_row y y_1 - clamp_row y y_0 ≠ 0 then
        [{ x := x / 256, y := y, cover := clamp_row y y_1 - clamp_row y y_0,
           area := 2 * (clamp_row y y_1 - clamp_row y y_0) * (x % 256) }]
      else []) ∧
    (y_0 ≤ 256 * y ∧ 256 * y + 256 ≤ y_1 →
      clamp_row y y_1 - clamp_row y y_0 = 256 ∧
      2 * (clamp_row y y_1 - clamp_row y y_0) * (x % 256) = x % 256 * 512) ∧
    (y_1 ≤ 256 * y ∧ 256 * y + 256 ≤ y_0 →
      clamp_row y y_1 - clamp_row y y_0 = -256 ∧
      2 * (clamp_row y y_1 - clamp_row y y_0) * (x % 256) = -(x % 256 * 512)) := by
  refine ⟨?_, ?_, ?_⟩
  · have e : Rasterizer.add_line_ x y_0 x y_1 = Rasterizer.add_line_vertical x y_0 y_1 := by
      unfold Rasterizer.add_line_
      rw [if_neg hy, if_pos rfl]
    rw [e]
    exact Rasterizer.add_line_vertical_row px py x y_0 y_1 hy y
  · intro h
    have hc : clamp_row y y_1 - clamp_row y y_0 = 256 := by
      unfold clamp_row
      omega
    rw [hc]
    exact ⟨rfl, by ring⟩
  · intro h
    have hc : clamp_row y y_1 - clamp_row y y_0 = -256 := by
      unfold clamp_row
      omega
    rw [hc]
    exact ⟨rfl, by ring⟩

/-- Witness of C28: the vertical segment `(300, 100) -> (300, 700)` makes one
call on row 1, at column 1 with cover 256 and area `44 * 512`, one call on
row 2 with cover 188, and none on row 3. -/
theorem C28_vertical_segments_witness :
    (emissions 0 0 (Rasterizer.add_line_ 300 100 300 700)).filter (fun e => decide (e.y = 1)) =
      [{ x := 1, y := 1, cover := 256, area := 22528 }] ∧
    (emissions 0 0 (Rasterizer.add_line_ 300 100 300 700)).filter (fun e => decide (e.y = 2)) =
      [{ x := 1, y := 2, cover := 188, area := 16544 }] ∧
    (emissions 0 0 (Rasterizer.add_line_ 300 100 300 700)).filter (fun e => decide (e.y = 3)) =
      [] := by
  refine ⟨?_, ?_, ?_⟩
  · rw [(C28_vertical_segments 0 0 300 100 700 (by decide) 1).1]
    decide
  · rw [(C28_vertical_segments 0 0 300 100 700 (by decide) 2).1]
    decide
  · rw [(C28_vertical_segments 0 0 300 100 700 (by decide) 3).1]
    decide

open Color_blender_bgra_8888 in
/-- C24. Reference BGRA8888 blend: for a blender whose colour `c` (a 32-bit
value with alpha `A = c >> 24` and channels `r, g, b`) was set by `set_color`
and a pixel that holds `d`, `blend(a)` with `a` in `0 .. 255` leaves in the
pixel: the colour `c` when `a = 255` and `A = 255`; otherwise `d` unchanged
when `a * A = 0`, and else `0xff000000 | R << 16 | G << 8 | B` with
`R, G, B = Util::blend(source channel, destination channel, e)` and
`e = (a * A + 1 + ((a * A) >> 8)) >> 8`.  Where the direct store applies
(`a = A = 255`) the general formula gives the same value `c`. -/
theorem C24_bgra_blend (c d a : Nat) (hc : c < 4294967296) (ha : a ≤ 255) :
    (a = 255 ∧ get_alpha_ c = 255 → (init.set_color c).blend a d = c) ∧
    (¬ (a = 255 ∧ get_alpha_ c = 255) → a * get_alpha_ c = 0 →
      (init.set_color c).blend a d = d) ∧
    (¬ (a = 255 ∧ get_alpha_ c = 255) → a * get_alpha_ c ≠ 0 →
      (init.set_color c).blend a d =
        0xff000000 |||
          ((Util.blend (get_red_ c) (get_red_ d)
            (((a * get_alpha_ c + 1 + ((a * get_alpha_ c) >>> 8)) >>> 8 : Nat) : Int)).toNat
              <<< 16) |||
          ((Util.blend (get_green_ c) (get_green_ d)
            (((a * get_alpha_ c + 1 + ((a * get_alpha_ c) >>> 8)) >>> 8 : Nat) : Int)).toNat
              <<< 8) |||
          (Util.blend (get_blue_ c) (get_blue_ d)
            (((a * get_alpha_ c + 1 + ((a * get_alpha_ c) >>> 8)) >>> 8 : Nat) : Int)).toNat) ∧
    (a = 255 ∧ get_alpha_ c = 255 →
      0xff000000 |||
          ((Util.blend (get_red_ c) (get_red_ d)
            (((a * get_alpha_ c + 1 + ((a * get_alpha_ c) >>> 8)) >>> 8 : Nat) : Int)).toNat
              <<< 16) |||
          ((Util.blend (get_green_ c) (get_green_ d)
            (((a * get_alpha_ c + 1 + ((a * get_alpha_ c) >>> 8)) >>> 8 : Nat) : Int)).toNat
              <<< 8) |||
          (Util.blend (get_blue_ c) (get_blue_ d)
            (((a * get_alpha_ c + 1 + ((a * get_alpha_ c) >>> 8)) >>> 8 : Nat) : Int)).toNat =
        c) := by
  have hA : get_alpha_ c ≤ 255 := by
    unfold get_alpha_
    rw [Nat.shiftRight_eq_div_pow]
    omega
  rw [set_color_init]
  refine ⟨?_, ?_, ?_, ?_⟩
  · rintro ⟨h1, h2⟩
    unfold blend
    dsimp only
    rw [if_neg (by rw [h1, h2]; decide)]
  · intro hn h0
    unfold blend
    dsimp only
    rw [if_pos (by omega), h0]
    rfl
  · intro hn h0
    unfold blend
    dsimp only
    have hp : a * get_alpha_ c ≤ 255 * 255 := Nat.mul_le_mul ha hA
    rw [if_pos (by omega), if_pos (by
      rw [Nat.mod_eq_of_lt (by omega)]
      exact Nat.pos_of_ne_zero h0)]
    exact blend_general ⟨c, get_alpha_ c, get_red_ c, get_green_ c, get_blue_ c⟩ a d ha hA
      (get_red_range c) (get_green_range c) (get_blue_range c)
  · rintro ⟨h1, h2⟩
    rw [h1, h2]
    have he : (((255 * 255 + 1 + ((255 * 255) >>> 8)) >>> 8 : Nat) : Int) = 255 := by decide
    rw [he, Util.blend_opaque _ _ (get_red_range c), Util.blend_opaque _ _ (get_green_range c),
      Util.blend_opaque _ _ (get_blue_range c)]
    exact opaque_color_pack c h2

open Color_blender_bgra_8888 in
/-- Witness of C24: half-transparent red `0x80ff0000` blended with full
coverage over opaque blue `0xff0000ff` gives `0xff80007f`; opaque red stored
with full coverage gives opaque red. -/
theorem C24_bgra_blend_witness :
    (init.set_color 0x80ff0000).blend 255 0xff0000ff = 0xff80007f ∧
    (init.set_color 0xffff0000).blend 255 0xff0000ff = 0xffff0000 := by
  refine ⟨?_, (C24_bgra_blend 0xffff0000 0xff0000ff 255 (by decide) (by decide)).1
    ⟨rfl, by decide⟩⟩
  rw [(C24_bgra_blend 0x80ff0000 0xff0000ff 255 (by decide) (by decide)).2.2.1
    (by decide) (by decide)]
  decide

end vgxx

namespace vgxx

/-! ## Claims C31 .. C35 -/

open Cell_processor in
/-- C33 (sparse lists are well-founded): in every reachable `Cell_processor`
state and for every row `y` of the row array, the list walk from the head of
the row, bounded by the number of cells in use, stops at the sentinel
`2^32 - 1` (so the walk of `swipe` terminates, and a larger bound visits the
same cells); every cell visited has an index below the in-use counter and a
next link that is the sentinel or strictly smaller than its own index; the
indices visited are strictly decreasing, hence pairwise distinct (the list is
acyclic); no cell visited belongs to the list of another row; and the cells
visited are the cells that `swipe` adds into the dense array for the row. -/
theorem C33_sparse_lists_well_founded (cp : Cell_processor) (h : Reachable cp) (y : Int)
    (hy0 : 0 ≤ y) (hy1 : y < cp.height_) :
    (walk cp.cell_stash_ cp.cell_stash_.cells_in_use_ (cp.row y).first_cell_idx).2 =
      invalid_cell_index_ ∧
    (∀ fuel, cp.cell_stash_.cells_in_use_ ≤ fuel →
      walk cp.cell_stash_ fuel (cp.row y).first_cell_idx =
        walk cp.cell_stash_ cp.cell_stash_.cells_in_use_ (cp.row y).first_cell_idx) ∧
    (∀ i ∈ cp.row_indices y, i < cp.cell_stash_.cells_in_use_ ∧
      ((cp.cell_stash_.get i).next_cell_idx = invalid_cell_index_ ∨
        (cp.cell_stash_.get i).next_cell_idx < i)) ∧
    (cp.row_indices y).Pairwise (fun a b => b < a) ∧
    (cp.row_indices y).Nodup ∧
    (∀ y1, 0 ≤ y1 → y1 < cp.height_ → y1 ≠ y →
      ∀ i ∈ cp.row_indices y, i ∉ cp.row_indices y1) ∧
    cp.row_cells y = (cp.row_indices y).map cp.cell_stash_.get := by
  obtain ⟨owner, hinv⟩ := h.wf
  have hhead : ∀ r, 0 ≤ r → r < cp.height_ → (cp.row r).first_cell_idx ≠ invalid_cell_index_ →
      (cp.row r).first_cell_idx < cp.cell_stash_.cells_in_use_ ∧
        (cp.row r).first_cell_idx < cp.cell_stash_.cells_in_use_ ∧
        owner (cp.row r).first_cell_idx = r := by
    intro r hr0 hr1 hne
    obtain ⟨k1, k2⟩ := hinv.head_ok r hr0 hr1 hne
    exact ⟨k1, k1, k2⟩
  obtain ⟨w1, w2, w3⟩ := walk_ok cp owner hinv y cp.cell_stash_.cells_in_use_
    (cp.row y).first_cell_idx (hhead y hy0 hy1)
  refine ⟨w1, ?_, ?_, w3, w3.imp (fun hlt => by omega), ?_, ?_⟩
  · intro fuel hfuel
    have := walk_stable cp.cell_stash_ cp.cell_stash_.cells_in_use_ (cp.row y).first_cell_idx
      w1 (fuel - cp.cell_stash_.cells_in_use_)
    rw [show cp.cell_stash_.cells_in_use_ + (fuel - cp.cell_stash_.cells_in_use_) = fuel by
      omega] at this
    exact this
  · intro i hi
    obtain ⟨_, q2, _, q4⟩ := w2 i hi
    exact ⟨q2, q4⟩
  · intro y1 hy10 hy11 hne i hi hi1
    obtain ⟨_, v2, _⟩ := walk_ok cp owner hinv y1 cp.cell_stash_.cells_in_use_
      (cp.row y1).first_cell_idx (hhead y1 hy10 hy11)
    have e1 := (w2 i hi).2.2.1
    have e2 := (v2 i hi1).2.2.1
    exact hne (by rw [← e2, e1])
  · exact chain_eq_walk cp.cell_stash_ cp.cell_stash_.cells_in_use_ (cp.row y).first_cell_idx

open Cell_processor in
/-- Witness of C33: a 4 x 2 processor after cells at the pixels `(3, 1)` and
`(1, 1)`: the list of row 1 is cell 1 followed by cell 0, and the walk stops
at the sentinel. -/
theorem C33_sparse_lists_well_founded_witness :
    ∃ cp, (Cell_processor.init 4 2).run [Cell_call.set_x 3, Cell_call.set_y 1,
        Cell_call.set_cell 256 0, Cell_call.set_x 1, Cell_call.set_cell (-256) 0] = some cp ∧
      cp.row_indices 1 = [1, 0] ∧
      (walk cp.cell_stash_ cp.cell_stash_.cells_in_use_ (cp.row 1).first_cell_idx).2 =
        invalid_cell_index_ ∧
      (cp.row_indices 1).Nodup := by
  obtain ⟨cp, hcp⟩ := Option.isSome_iff_exists.mp
    (show ((Cell_processor.init 4 2).run [Cell_call.set_x 3, Cell_call.set_y 1,
        Cell_call.set_cell 256 0, Cell_call.set_x 1, Cell_call.set_cell (-256) 0]).isSome = true
      by decide)
  have hr : Reachable cp :=
    Reachable.run _ (Reachable.init 4 2 (by decide) (by decide) (by decide) (by decide)) hcp
  have hcp1 : cp = ((Cell_processor.init 4 2).run [Cell_call.set_x 3, Cell_call.set_y 1,
        Cell_call.set_cell 256 0, Cell_call.set_x 1, Cell_call.set_cell (-256) 0]).getD
        (Cell_processor.init 4 2) := by
    rw [hcp]; rfl
  have hh : (1 : Int) < cp.height_ := by rw [hcp1]; decide
  have h := C33_sparse_lists_well_founded cp hr 1 (by decide) hh
  exact ⟨cp, hcp, by rw [hcp1]; decide, h.1, h.2.2.2.2.1⟩

open Cell_processor in
/-- C35 (dense scratch stays clean): in every reachable `Cell_processor`
state every entry of the dense working array `cells_` is `(cover 0, area 0)`;
during a sweep of such a state, at the start of every iteration of the loop
over the rows the array holds only empty cells, it still does after the
`resize` with which the accumulation of the row starts, and again after the
row has been swept (every entry that the row made non-empty has been reset);
and the array holds only empty cells when the sweep returns. -/
theorem C35_dense_scratch_clean (cp : Cell_processor) (h : Reachable cp) (rule : Fill_rule) :
    (∀ c ∈ cp.cells_, c = { cover := 0, area := 0 }) ∧
    (∀ s ∈ swipe_states rule cp,
      (∀ c ∈ s.cells_, c = { cover := 0, area := 0 }) ∧
      (∀ c ∈ swipe_row_dense s, c = { cover := 0, area := 0 }) ∧
      ((s.rows_.getD s.y.toNat default).x_range.nonempty →
        ∀ c ∈ (swipe_row rule cp.cell_stash_ s).cells_, c = { cover := 0, area := 0 })) ∧
    (∀ c ∈ (swipe rule cp).2.cells_, c = { cover := 0, area := 0 }) := by
  obtain ⟨owner, hinv⟩ := h.wf
  refine ⟨hinv.dense_clean, ?_,
    forall_mem_of_getD _ (swipe_ok rule cp owner hinv).2.2.1⟩
  intro s hs
  unfold swipe_states at hs
  by_cases hne : cp.y_range_.nonempty
  · rw [if_pos hne] at hs
    have hyr : 0 ≤ cp.y_range_.min ∧ cp.y_range_.min ≤ cp.y_range_.max ∧
        cp.y_range_.max ≤ cp.height_ - 1 := by
      rcases hinv.y_range_ok with h0 | h0
      · rw [h0] at hne
        exact absurd hne (by decide)
      · exact h0
    obtain ⟨a1, a2, a3, a4⟩ := swipe_rows_states_ok rule cp owner hinv (by omega)
      ((cp.y_range_.max - cp.y_range_.min).toNat + 1)
      { calls := [Blender_call.set_y cp.y_range_.min]
        cells_ := cp.cells_
        rows_ := cp.rows_
        y := cp.y_range_.min }
      hyr.1
      (by show cp.y_range_.min + ((_ + 1 : Nat) : Int) = _
          push_cast
          omega)
      (fun j _ => rfl) rfl (getD_of_forall_mem _ hinv.dense_clean) s hs
    refine ⟨forall_mem_of_getD _ a4, swipe_row_dense_clean s a4, fun hrow => ?_⟩
    rw [a3] at hrow
    exact forall_mem_of_getD _ (swipe_row_ok rule cp owner hinv s a1 a2 a3 hrow a4).2.1
  · rw [if_neg hne] at hs
    simp at hs

open Cell_processor in
/-- Witness of C35: a 4 x 2 processor after cells at the pixels `(3, 1)` and
`(1, 1)`: the sweep has one iteration, for row 1, which starts with an empty
dense array, resizes it to three empty cells and leaves three empty cells. -/
theorem C35_dense_scratch_clean_witness :
    ∃ cp, (Cell_processor.init 4 2).run [Cell_call.set_x 3, Cell_call.set_y 1,
        Cell_call.set_cell 256 0, Cell_call.set_x 1, Cell_call.set_cell (-256) 0] = some cp ∧
      (swipe_states Fill_rule.non_zero cp).map (fun s => (s.y, s.cells_)) = [(1, [])] ∧
      (swipe_states Fill_rule.non_zero cp).map (fun s => (swipe_row_dense s).length) = [3] ∧
      (swipe Fill_rule.non_zero cp).2.cells_.length = 3 ∧
      (∀ s ∈ swipe_states Fill_rule.non_zero cp,
        ∀ c ∈ swipe_row_dense s, c = { cover := 0, area := 0 }) ∧
      ∀ c ∈ (swipe Fill_rule.non_zero cp).2.cells_, c = { cover := 0, area := 0 } := by
  obtain ⟨cp, hcp⟩ := Option.isSome_iff_exists.mp
    (show ((Cell_processor.init 4 2).run [Cell_call.set_x 3, Cell_call.set_y 1,
        Cell_call.set_cell 256 0, Cell_call.set_x 1, Cell_call.set_cell (-256) 0]).isSome = true
      by decide)
  have hr : Reachable cp :=
    Reachable.run _ (Reachable.init 4 2 (by decide) (by decide) (by decide) (by decide)) hcp
  have hcp1 : cp = ((Cell_processor.init 4 2).run [Cell_call.set_x 3, Cell_call.set_y 1,
        Cell_call.set_cell 256 0, Cell_call.set_x 1, Cell_call.set_cell (-256) 0]).getD
        (Cell_processor.init 4 2) := by
    rw [hcp]; rfl
  have h := C35_dense_scratch_clean cp hr Fill_rule.non_zero
  exact ⟨cp, hcp, by rw [hcp1]; decide, by rw [hcp1]; decide, by rw [hcp1]; decide,
    fun s hs => (h.2.1 s hs).2.1, h.2.2⟩

open Cell_processor in
/-- C32 (emission-order independence): for two lists of `(x, y, cover, area)`
emissions that are permutations of each other, each applied by
`set_x; set_y; set_cell` calls to a freshly constructed `Cell_processor` of
the same `Unt_16` dimensions `width, height > 0`: whenever both call
sequences return, `swipe<rule>` makes the identical sequence of blender calls
on the two processors; and both call sequences return when the lists have at
most `2^32 - 1` emissions (the cell stash cannot overflow). -/
theorem C32_emission_order_independence (width height : Int) (E1 E2 : List Emission)
    (rule : Fill_rule) (hw0 : 0 < width) (hw : width ≤ 65535) (hh0 : 0 < height)
    (hh : height ≤ 65535) (hperm : E1.Perm E2) :
    (∀ cp1 cp2, (Cell_processor.init width height).run (emit_calls E1) = some cp1 →
      (Cell_processor.init width height).run (emit_calls E2) = some cp2 →
      (swipe rule cp1).1 = (swipe rule cp2).1) ∧
    (E1.length ≤ 4294967295 →
      ∃ cp1 cp2, (Cell_processor.init width height).run (emit_calls E1) = some cp1 ∧
        (Cell_processor.init width height).run (emit_calls E2) = some cp2 ∧
        (swipe rule cp1).1 = (swipe rule cp2).1) := by
  have hW := Wf_init width height hw0 hw hh0 hh
  have key : ∀ cp1 cp2, (Cell_processor.init width height).run (emit_calls E1) = some cp1 →
      (Cell_processor.init width height).run (emit_calls E2) = some cp2 →
      (swipe rule cp1).1 = (swipe rule cp2).1 :=
    fun cp1 cp2 h1 h2 => swipe_perm _ hW hperm cp1 cp2 h1 h2 rule
  refine ⟨key, fun hlen => ?_⟩
  obtain ⟨cp1, h1⟩ := run_total (emit_calls E1) (Cell_processor.init width height) (by
    rw [set_cell_count_emit_calls]
    show 0 + E1.length ≤ 4294967295
    omega)
  obtain ⟨cp2, h2⟩ := run_total (emit_calls E2) (Cell_processor.init width height) (by
    rw [set_cell_count_emit_calls, ← hperm.length_eq]
    show 0 + E1.length ≤ 4294967295
    omega)
  exact ⟨cp1, cp2, h1, h2, key cp1 cp2 h1 h2⟩

open Cell_processor in
/-- Witness of C32: on a 2 x 1 processor, two cells of cover 128 at pixel
`(0, 0)` and one of cover -256 at pixel `(1, 0)`, with the latter emitted
between the two or after them: the first order stashes three cells, the second
merges the two cells of pixel `(0, 0)` and stashes two, and both sweeps make
the calls `set_y(0); set_x(0); blend(255); inc_x()`. -/
theorem C32_emission_order_independence_witness :
    ∃ cp1 cp2,
      (Cell_processor.init 2 1).run (emit_calls [⟨0, 0, 128, 0⟩, ⟨1, 0, -256, 0⟩,
        ⟨0, 0, 128, 0⟩]) = some cp1 ∧
      (Cell_processor.init 2 1).run (emit_calls [⟨0, 0, 128, 0⟩, ⟨0, 0, 128, 0⟩,
        ⟨1, 0, -256, 0⟩]) = some cp2 ∧
      cp1.cell_stash_.cells_in_use_ = 3 ∧ cp2.cell_stash_.cells_in_use_ = 2 ∧
      (swipe Fill_rule.non_zero cp1).1 = (swipe Fill_rule.non_zero cp2).1 ∧
      (swipe Fill_rule.non_zero cp2).1 = [Blender_call.set_y 0, Blender_call.set_x 0,
        Blender_call.blend 255, Blender_call.inc_x] := by
  obtain ⟨cp1, cp2, h1, h2, h3⟩ :=
    (C32_emission_order_independence 2 1
      [⟨0, 0, 128, 0⟩, ⟨1, 0, -256, 0⟩, ⟨0, 0, 128, 0⟩]
      [⟨0, 0, 128, 0⟩, ⟨0, 0, 128, 0⟩, ⟨1, 0, -256, 0⟩] Fill_rule.non_zero
      (by decide) (by decide) (by decide) (by decide)
      (List.Perm.cons _ (List.Perm.swap _ _ _))).2 (by decide)
  have e1 : cp1 = ((Cell_processor.init 2 1).run (emit_calls [⟨0, 0, 128, 0⟩,
      ⟨1, 0, -256, 0⟩, ⟨0, 0, 128, 0⟩])).getD (Cell_processor.init 2 1) := by
    rw [h1]; rfl
  have e2 : cp2 = ((Cell_processor.init 2 1).run (emit_calls [⟨0, 0, 128, 0⟩,
      ⟨0, 0, 128, 0⟩, ⟨1, 0, -256, 0⟩])).getD (Cell_processor.init 2 1) := by
    rw [h2]; rfl
  exact ⟨cp1, cp2, h1, h2, by rw [e1]; decide, by rw [e2]; decide, h3,
    by rw [e2]; decide⟩

/-- C31 (emission positions): for every segment (coordinate differences
that are `Int_32` values) and a cell processor that starts anywhere, on every
row the `set_cell` calls of `add_line_` are made, in order, at consecutive
ascending columns (each at the column of the call before plus one, the column
being the one that the `set_x` and `inc_x` calls have reached); every call is at
a column in `[min(X0, X1) >> 8, max(X0, X1) >> 8]` and on a row in
`[min(Y0, Y1) >> 8, max(Y0, Y1) >> 8]`; and every `add_scanline_` call with
`int_x_0 ≤ int_x_1` makes its calls on row `int_y` at the columns
`int_x_0, int_x_0 + 1, ...` in this order, at least one and at most up to
column `int_x_1`. -/
theorem C31_emission_positions (px py x_0 y_0 x_1 y_1 : Int)
    (hx : |x_1 - x_0| < 2147483648) (hy : |y_1 - y_0| < 2147483648) :
    (∀ r, ((emissions px py (Rasterizer.add_line_ x_0 y_0 x_1 y_1)).filter
      (fun e => decide (e.y = r))).Chain' (fun a b => b.x = a.x + 1)) ∧
    (∀ e ∈ emissions px py (Rasterizer.add_line_ x_0 y_0 x_1 y_1),
      min x_0 x_1 / 256 ≤ e.x ∧ e.x ≤ max x_0 x_1 / 256 ∧
        min y_0 y_1 / 256 ≤ e.y ∧ e.y ≤ max y_0 y_1 / 256) ∧
    (∀ (y_direction : Rasterizer.Direction_) (calls : List Cell_call)
      (int_y int_x_0 int_x_1 frac_x_0 frac_x_1 d_x d_y : Int), int_x_0 ≤ int_x_1 →
      ∃ L, emissions px py (Rasterizer.add_scanline_ y_direction calls int_y int_x_0 int_x_1
          frac_x_0 frac_x_1 d_x d_y) = emissions px py calls ++ L ∧
        (∀ e ∈ L, e.y = int_y) ∧
        L.map (fun e => e.x) =
          (List.range L.length).map (fun i : Nat => int_x_0 + (i : Int)) ∧
        1 ≤ L.length ∧ (L.length : Int) ≤ int_x_1 - int_x_0 + 1) := by
  refine ⟨Rasterizer.add_line_rows px py x_0 y_0 x_1 y_1 hx hy, ?_, ?_⟩
  · intro e he
    obtain ⟨b1, b2, b3, b4⟩ := (Rasterizer.add_line_ok px py x_0 y_0 x_1 y_1 hx hy).box e he
    exact ⟨b1, b2, by omega, by omega⟩
  · intro d calls int_y int_x_0 int_x_1 frac_x_0 frac_x_1 d_x d_y hle
    exact Rasterizer.add_scanline_cols d px py calls int_y int_x_0 int_x_1 frac_x_0 frac_x_1
      d_x d_y hle

/-- Witness of C31: the segment `(0, 0) -> (1024, 300)` makes its cells at
the columns 0, 1, 2, 3 of row 0 and then at column 3 of row 1. -/
theorem C31_emission_positions_witness :
    (emissions 0 0 (Rasterizer.add_line_ 0 0 1024 300)).map (fun e => (e.x, e.y)) =
      [(0, 0), (1, 0), (2, 0), (3, 0), (3, 1)] ∧
    ((emissions 0 0 (Rasterizer.add_line_ 0 0 1024 300)).filter
      (fun e => decide (e.y = 0))).Chain' (fun a b => b.x = a.x + 1) ∧
    ∀ e ∈ emissions 0 0 (Rasterizer.add_line_ 0 0 1024 300),
      min 0 1024 / 256 ≤ e.x ∧ e.x ≤ max 0 1024 / 256 ∧
        min 0 300 / 256 ≤ e.y ∧ e.y ≤ max 0 300 / 256 :=
  ⟨by decide, (C31_emission_positions 0 0 0 0 1024 300 (by decide) (by decide)).1 0,
    (C31_emission_positions 0 0 0 0 1024 300 (by decide) (by decide)).2.1⟩

/-- C34 (no division by zero in the segment decomposition): for every
segment (coordinate differences that are `Int_32` values), every division and
remainder that `add_line_` and the scanlines it walks execute has a strictly
positive divisor; and for every `add_line_<...>` call of a segment walked with
`y` increasing, the divisor `d_y` is positive and a scanline divides (by its
extent `d_x`, or `delta_x` in the inlined copy) only when it spans more than
one cell, in which case that extent is positive. -/
theorem C34_no_division_by_zero (x_0 y_0 x_1 y_1 : Int)
    (hx : |x_1 - x_0| < 2147483648) (hy : |y_1 - y_0| < 2147483648) :
    (∀ d ∈ Rasterizer.add_line_divisors x_0 y_0 x_1 y_1, 0 < d) ∧
    (∀ (xd yd xyd : Rasterizer.Direction_) (X0 Y0 X1 Y1 : Int), Y0 < Y1 →
      Y1 - Y0 < 2147483648 → 0 < Rasterizer.sgn xyd * (X1 - X0) →
      Rasterizer.sgn xyd * (X1 - X0) < 2147483648 →
      0 < u32 (Y1 - Y0) ∧
      ∀ a ∈ Rasterizer.add_line_dir_scanlines xd yd xyd X0 Y0 X1 Y1,
        ∀ d ∈ a.divisors, a.int_x_0 < a.int_x_1 ∧ d = a.d_x ∧ 0 < d) := by
  refine ⟨Rasterizer.add_line_divisors_pos x_0 y_0 x_1 y_1 hx hy, ?_⟩
  intro xd yd xyd X0 Y0 X1 Y1 h1 h2 h3 h4
  refine ⟨by unfold u32; omega, fun a ha => ?_⟩
  exact Rasterizer.Scanline_.divisors_pos a
    ((Rasterizer.add_line_dir_scan_ok xd yd xyd X0 Y0 X1 Y1 h1 h2 h3 h4).1 a ha).1

/-- Witness of C34: the segment `(0, 0) -> (1024, 300)` divides by
`d_y = 300` for the set-up of its loop over the full scanlines, by the extent
873 of its first scanline, which spans the cells 0 .. 3, and by the extent 151
of its second scanline, which spans the cells 3 and 4; the segment
`(700, 600) -> (64, 128)` divides by `d_y = 472` and by the extent 345 of two
of its scanlines. -/
theorem C34_no_division_by_zero_witness :
    Rasterizer.add_line_divisors 0 0 1024 300 = [300, 300, 873, 873, 151, 151] ∧
    Rasterizer.add_line_divisors 700 600 64 128 = [472, 472, 472, 472, 345, 345, 345, 345] ∧
    ∀ d ∈ Rasterizer.add_line_divisors 0 0 1024 300, 0 < d :=
  ⟨by decide, by decide, (C34_no_division_by_zero 0 0 1024 300 (by decide) (by decide)).1⟩

end vgxx
